import Mathlib

/-!
# ansi.c : conversion of C function definitions between K&R and ANSI form

A shallow embedding of `src/ansi.c` and theorems about it.

Conventions of the embedding.

* A C string is the list of the characters that stand before its terminating
  NUL.  Reading the string at its length gives `NUL`; a loop test `*p` is a test
  that the position is inside the list.
* A pointer into a string is an index.  Where the C code lets a pointer step in
  front of the string it was derived from (`start--`, `stop--`, `*(ptr-1)`), the
  index is an `Int` and the read goes through `peek`.
* `FindVarName`, `WriteANSI` and `WriteKR` receive a pointer into the middle of
  a larger string (`bufptr` in their callers).  They are modelled on the whole
  string `mem` together with the offset `definitions` of that pointer, so that
  reads in front of `definitions` see what really is stored there.
* `KillComments` reads `buffer[in-2]` and `buffer[in-1]` also for `in < 2`.  The
  two bytes stored in front of the buffer are parameters `m2`, `m1` of the model.
  Its callers hand it the start of an object (a static array, a `malloc` block);
  there the model passes `NUL` for both.
* `fprintf(fp, ...)` appends to the list of characters written to `fp`.  The
  diagnostics printed on `stdout` are not part of the model, except for the
  lines reported by the fatal exit of `process_file`.
* The local arrays `temp` and `func` (`MAXBUFF` bytes each) and `varname` (80
  bytes) of `Ansify`, `DeAnsify` and `WriteKR` are modelled by their capacity:
  where a string does not fit its array, its terminating NUL included, the
  result is `none` (undefined behaviour).  The same holds for the store
  `temp[strlen(temp)-1] = '\0'` in the diagnostic branch of `Ansify`, which
  shortens `temp` once per name that was not found and falls in front of `temp`
  once `temp` is empty.
* `WriteANSI` copies into `buffer[MAXBUFF]` under the bound `i<MAXBUFF`, which
  the model renders by `take MAXBUFF`.  After a copy of `MAXBUFF` characters the
  code stores the terminating NUL at `buffer[MAXBUFF]`, one byte behind the
  array.  `ansiFits` says that no copy is that long; `Ansify` is undefined
  (`none`) where it fails, and the general theorems on `WriteANSI` bound the
  length of the type words and of the array suffix.
* The counters of `isInteresting` are `static int` in the source and `Int` here.
  The two agree as long as every counter stays inside the range of `int`
  (`INT_MIN` to `INT_MAX`, for an `int` of 32 bits); beyond it the addition in
  C overflows, which is undefined.  `isInterestingInt` and `feedInt` do the same
  scan in `int` arithmetic and are `none` where a counter overflows.  Where
  they are defined they agree with `isInteresting`, and they are defined for
  every input of at most `INT_MAX` characters that is read from the initial
  state.
* `process_file` takes the strings that the successive calls
  `fgets(buffer, MAXBUFF, fp_in)` return.  `fgets` ends a string behind a
  newline or after `MAXBUFF - 1` characters; `textLines` computes the strings
  for a text.
* One store that falls outside its array is not tracked: the line that
  `fgets(funcdef[++ndef], ...)` stores in `funcdef[MAXLINES]`, one row behind
  the array, directly before the test `ndef >= MAXLINES` sends `process_file`
  to its fatal exit.
-/

namespace Ansi

/-! ## Constants and character reads -/

/-- The terminating character of a C string. -/
def NUL : Char := Char.ofNat 0

/-- Max chars in a line. -/
def MAXBUFF : Nat := 200

/-- Max lines in a function definition. -/
def MAXLINES : Nat := 50

/-- Mode `K&R-->ANSI`. -/
def MakeANSI : Nat := 1

/-- Mode `ANSI-->K&R`. -/
def MakeKR : Nat := 2

/-- Mode `Make prototypes`. -/
def MakeProtos : Nat := 3

/-- The test `c == ' ' || c == '\t'` that the source repeats in many loops. -/
def isWs (c : Char) : Bool := c == ' ' || c == '\t'

/-- Read `s[i]` for a pointer that may have stepped in front of `s`: the
character at index `i`, `NUL` at the end of the string and outside it. -/
def peek (s : List Char) (i : Int) : Char :=
  if i < 0 then NUL else s.getD i.toNat NUL

/-- Result of `strchr(s, c)` as an index: `none` is the NULL pointer. -/
def strchr (s : List Char) (c : Char) : Option Nat :=
  if s.indexOf c < s.length then some (s.indexOf c) else none

/-- The loop `while(*p && c(*p)) p++` started at index `p`: the index it stops at. -/
def stepFwd (c : Char → Bool) (s : List Char) (p : Int) : Int :=
  if p < 0 then p else p + (((s.drop p.toNat).takeWhile c).length : Nat)

/-- The loop `while(p > lo && c(*p)) p--`, run for at most `fuel` rounds. -/
def stepBackFuel (c : Char → Bool) (s : List Char) (lo : Int) : Nat → Int → Int
  | 0, p => p
  | fuel + 1, p => if p > lo ∧ c (peek s p) = true then stepBackFuel c s lo fuel (p - 1) else p

/-- The loop `while(p > lo && c(*p)) p--`: it makes at most `p - lo` rounds. -/
def stepBack (c : Char → Bool) (s : List Char) (lo : Int) (p : Int) : Int :=
  stepBackFuel c s lo (p - lo).toNat p

/-- The characters `s[a] .. s[b]` (both ends included) of a copy loop
`for( ; a<=b; a++)`; empty when `b < a`. -/
def slice (s : List Char) (a b : Int) : List Char :=
  (List.range (b + 1 - a).toNat).map (fun k => peek s (a + (k : Nat)))

/-! ## GetVarName -/

/-- Strip trailing spaces and tabs, as the second loop of `GetVarName` does. -/
def stripTrailing (s : List Char) : List Char :=
  (s.reverse.dropWhile isWs).reverse

/-- `GetVarName(buffer, strparam)`: the number of characters in front of the
first `,` or `)` of `buffer` (its return value `i`), and those characters with
trailing blanks removed (`strparam`). -/
def GetVarName (buffer : List Char) : Nat × List Char :=
  let copied := buffer.takeWhile (fun c => !(c == ',' || c == ')'))
  (copied.length, stripTrailing copied)

/-! ## terminate -/

/-- `terminate(string)`: cut the string at its first newline. -/
def terminate (string : List Char) : List Char :=
  string.takeWhile (fun c => !(c == '\n'))

/-! ## KillComments -/

/-- The variables of `KillComments` while its loop runs: the buffer (rewritten in
place), the write cursor `out` and the counter `comment`. -/
structure KCState where
  buffer : List Char
  out : Nat
  comment : Int
deriving DecidableEq

/-- Read `buffer[j]` in `KillComments`, where `j` may be `-2` or `-1`: those two
bytes lie in front of the buffer and are `m2` and `m1`. -/
def peekPre (m2 m1 : Char) (buffer : List Char) (j : Int) : Char :=
  if j = -2 then m2 else if j = -1 then m1 else peek buffer j

/-- One round of the `for(in=0;in<len;in++)` loop of `KillComments`. -/
def KillCommentsStep (m2 m1 : Char) (s : KCState) (i : Nat) : KCState :=
  let c1 : Int :=
    if peek s.buffer i = '/' ∧ peek s.buffer (i + 1) = '*' then s.comment + 1 else s.comment
  let c2 : Int :=
    if peekPre m2 m1 s.buffer ((i : Int) - 2) = '*' ∧ peekPre m2 m1 s.buffer ((i : Int) - 1) = '/'
    then c1 - 1 else c1
  if c2 = 0 then ⟨s.buffer.set s.out (peek s.buffer i), s.out + 1, c2⟩
  else ⟨s.buffer, s.out, c2⟩

/-- The state of `KillComments` when its loop has finished. -/
def KillCommentsRun (m2 m1 : Char) (buffer : List Char) : KCState :=
  (List.range buffer.length).foldl (KillCommentsStep m2 m1) ⟨buffer, 0, 0⟩

/-- `KillComments(buffer)`: the string left in `buffer` after `buffer[out] = '\0'`.
`m2` and `m1` are the bytes stored at `buffer[-2]` and `buffer[-1]`. -/
def KillComments (m2 m1 : Char) (buffer : List Char) : List Char :=
  let s := KillCommentsRun m2 m1 buffer
  s.buffer.take s.out

/-! ## FindString and FindVarName -/

/-- The loop of `FindString` with `ptr` at the head of the remaining buffer.
The inner `while` skips a character that differs from `*string`; otherwise the
`for` loop compares `string` with the text at `ptr`, which fails at the
terminating NUL of a buffer that is too short. -/
def FindStringFrom (string : List Char) : List Char → Nat → Option Nat
  | [], _ => none
  | c :: rest, ptr =>
    if c ≠ string.headD NUL then FindStringFrom string rest (ptr + 1)
    else if string.isPrefixOf (c :: rest) then some ptr
    else FindStringFrom string rest (ptr + 1)

/-- `FindString(buffer, string)`: index of the match, `none` for NULL. -/
def FindString (buffer string : List Char) : Option Nat :=
  FindStringFrom string buffer 0

/-- The test of `FindVarName` on the character in front of a candidate. -/
def precOK (c : Char) : Bool := c == ' ' || c == '*' || c == ','

/-- The test of `FindVarName` on the character after a candidate. -/
def follOK (c : Char) : Bool :=
  c == ';' || c == '[' || c == ' ' || c == ')' || c == ','

/-- The loop of `FindVarName` with `ptr` at the head of the remaining buffer and
`prev` the character `*(ptr-1)`.  The `do ... while` skips a character that
differs from `*string` or whose predecessor is not accepted; then `string` is
compared with the text at `ptr` and the character after it is checked. -/
def FindVarNameFrom (string : List Char) : Char → List Char → Nat → Option Nat
  | _, [], _ => none
  | prev, c :: rest, ptr =>
    if c ≠ string.headD NUL then FindVarNameFrom string c rest (ptr + 1)
    else if precOK prev = false then FindVarNameFrom string c rest (ptr + 1)
    else if string.isPrefixOf (c :: rest) ∧ follOK ((c :: rest).getD string.length NUL) = true
    then some ptr
    else FindVarNameFrom string c rest (ptr + 1)

/-- `FindVarName(mem + buffer, string)`: index in `mem` of the match, `none`
for NULL.  The first candidate may be `buffer` itself, whose predecessor is the
character of `mem` in front of `buffer`. -/
def FindVarName (mem : List Char) (buffer : Nat) (string : List Char) : Option Nat :=
  FindVarNameFrom string (peek mem ((buffer : Int) - 1)) (mem.drop buffer) buffer

/-! ## isInteresting -/

/-- The largest value of an `int` of 32 bits. -/
def INT_MAX : Int := 2147483647

/-- The smallest value of an `int` of 32 bits. -/
def INT_MIN : Int := -2147483648

/-- The static counters of `isInteresting`, which persist from call to call.
They are `int` in the source; the model agrees with it as long as they stay
between `INT_MIN` and `INT_MAX`. -/
structure ClassifierState where
  comment_count : Int
  bra_count : Int
  inSIC : Int
  inDIC : Int
deriving DecidableEq

/-- The counters as initialised: all zero. -/
def ClassifierState.init : ClassifierState := ⟨0, 0, 0, 0⟩

/-- Double inverted commas. -/
def DIC : Char := Char.ofNat 34

/-- Single inverted commas. -/
def SIC : Char := Char.ofNat 39

/-- The macro `toggle(x) (x) = abs((x)-1)`. -/
def toggle (x : Int) : Int := ((x - 1).natAbs : Nat)

/-- The counter updates of one round of the scanning loop of `isInteresting`,
for the character `c = buffer[i]` and `next = buffer[i+1]`. -/
def scanChar (st : ClassifierState) (c next : Char) : ClassifierState :=
  let inDIC := if c = DIC ∧ st.comment_count = 0 ∧ st.inSIC = 0 then toggle st.inDIC else st.inDIC
  let inSIC := if c = SIC ∧ st.comment_count = 0 ∧ inDIC = 0 then toggle st.inSIC else st.inSIC
  if inDIC = 0 ∧ inSIC = 0 then
    let cc1 := if c = '/' ∧ next = '*' then st.comment_count + 1 else st.comment_count
    let cc2 := if c = '*' ∧ next = '/' then cc1 - 1 else cc1
    if cc2 = 0 then
      let b1 := if c = '{' then st.bra_count + 1 else st.bra_count
      let b2 := if c = '}' then b1 - 1 else b1
      ⟨cc2, b2, inSIC, inDIC⟩
    else ⟨cc2, st.bra_count, inSIC, inDIC⟩
  else ⟨st.comment_count, st.bra_count, inSIC, inDIC⟩

/-- The scanning loop `for(i=0; i<strlen(buffer); i++)` of `isInteresting` on the
rest of the line.  Result: the counters, the flag `isBlank`, and whether the
loop was left by the `return(0)` of a `//`. -/
def scanLine : ClassifierState → Bool → List Char → ClassifierState × Bool × Bool
  | st, blank, [] => (st, blank, false)
  | st, blank, c :: rest =>
    if c = '/' ∧ rest.headD NUL = '/' then (st, blank, true)
    else scanLine (scanChar st c (rest.headD NUL)) (blank && isWs c) rest

/-- `isInteresting(buffer)` with the static counters passed in and out: the
return value and the counters after the call. -/
def isInteresting (st : ClassifierState) (buffer : List Char) : Nat × ClassifierState :=
  if buffer.headD NUL = '#' then (0, st)
  else
    let retval0 : Nat :=
      if st.bra_count = 0 ∧ st.inDIC = 0 ∧ st.inSIC = 0 ∧ st.comment_count = 0 then 1 else 0
    let tail := buffer.dropWhile isWs
    let retval1 : Nat := if tail.headD NUL = '/' ∧ tail.getD 1 NUL = '*' then 0 else retval0
    let r := scanLine st true buffer
    if r.2.2 then (0, r.1)
    else if r.2.1 then (0, r.1)
    else (retval1, r.1)

/-! ## isInteresting in the arithmetic of int -/

/-- A result of `int` arithmetic: the value when it lies between `INT_MIN` and
`INT_MAX`, `none` when the operation overflows, which is undefined in C. -/
def asInt (x : Int) : Option Int :=
  if INT_MIN ≤ x ∧ x ≤ INT_MAX then some x else none

/-- The macro `toggle(x) (x) = abs((x)-1)` in `int` arithmetic: both `x - 1` and
its absolute value have to be values of `int`. -/
def toggleInt (x : Int) : Option Int :=
  match asInt (x - 1) with
  | none => none
  | some _ => asInt (toggle x)

/-- One round of the scanning loop of `isInteresting` as `scanChar` gives it,
with every `++`, `--` and `toggle` of the round done in `int` arithmetic:
`none` when one of them overflows. -/
def scanCharInt (st : ClassifierState) (c next : Char) : Option ClassifierState := do
  let inDIC ←
    (if c = DIC ∧ st.comment_count = 0 ∧ st.inSIC = 0 then toggleInt st.inDIC else some st.inDIC)
  let inSIC ←
    (if c = SIC ∧ st.comment_count = 0 ∧ inDIC = 0 then toggleInt st.inSIC else some st.inSIC)
  if inDIC = 0 ∧ inSIC = 0 then
    let cc1 ←
      (if c = '/' ∧ next = '*' then asInt (st.comment_count + 1) else some st.comment_count)
    let cc2 ← (if c = '*' ∧ next = '/' then asInt (cc1 - 1) else some cc1)
    if cc2 = 0 then
      let b1 ← (if c = '{' then asInt (st.bra_count + 1) else some st.bra_count)
      let b2 ← (if c = '}' then asInt (b1 - 1) else some b1)
      some ⟨cc2, b2, inSIC, inDIC⟩
    else some ⟨cc2, st.bra_count, inSIC, inDIC⟩
  else some ⟨st.comment_count, st.bra_count, inSIC, inDIC⟩

/-- The scanning loop of `isInteresting` as `scanLine` gives it, in `int`
arithmetic. -/
def scanLineInt : ClassifierState → Bool → List Char → Option (ClassifierState × Bool × Bool)
  | st, blank, [] => some (st, blank, false)
  | st, blank, c :: rest =>
    if c = '/' ∧ rest.headD NUL = '/' then some (st, blank, true)
    else
      match scanCharInt st c (rest.headD NUL) with
      | none => none
      | some st1 => scanLineInt st1 (blank && isWs c) rest

/-- `isInteresting(buffer)` in `int` arithmetic: the return value and the
counters after the call, `none` when a counter overflows during the scan. -/
def isInterestingInt (st : ClassifierState) (buffer : List Char) :
    Option (Nat × ClassifierState) :=
  if buffer.headD NUL = '#' then some (0, st)
  else
    let retval0 : Nat :=
      if st.bra_count = 0 ∧ st.inDIC = 0 ∧ st.inSIC = 0 ∧ st.comment_count = 0 then 1 else 0
    let tail := buffer.dropWhile isWs
    let retval1 : Nat := if tail.headD NUL = '/' ∧ tail.getD 1 NUL = '*' then 0 else retval0
    match scanLineInt st true buffer with
    | none => none
    | some r =>
      if r.2.2 then some (0, r.1)
      else if r.2.1 then some (0, r.1)
      else some (retval1, r.1)

/-! ## WriteANSI -/

/-- The loop `while(p < hi && c(*p)) p++`, run for at most `fuel` rounds. -/
def stepFwdToFuel (c : Char → Bool) (s : List Char) (hi : Int) : Nat → Int → Int
  | 0, p => p
  | fuel + 1, p => if p < hi ∧ c (peek s p) = true then stepFwdToFuel c s hi fuel (p + 1) else p

/-- The loop `while(p < hi && c(*p)) p++`: it makes at most `hi - p` rounds. -/
def stepFwdTo (c : Char → Bool) (s : List Char) (hi : Int) (p : Int) : Int :=
  stepFwdToFuel c s hi (hi - p).toNat p

/-- The loop `for(ptr=start; ptr<=stop; ptr++) if(*ptr == ',') {stop = ptr; break;}`
of `WriteANSI`: the new value of `stop`. -/
def firstComma (s : List Char) (start stop : Int) : Int :=
  let seg := slice s start stop
  if seg.indexOf ',' < seg.length then start + (seg.indexOf ',' : Nat) else stop

/-- The loop `while(*(start--) == '*') fprintf(fp,"*")`: the number of stars it
prints, reading downwards from `p`; `fuel` bounds the rounds. -/
def countStarsFuel (s : List Char) : Nat → Int → Nat
  | 0, _ => 0
  | fuel + 1, p => if peek s p = '*' then 1 + countStarsFuel s fuel (p - 1) else 0

/-- The stars printed by `while(*(start--) == '*')` from `p` downwards: the read
in front of the string ends the loop, so `p + 1` rounds suffice. -/
def countStars (s : List Char) (p : Int) : Nat := countStarsFuel s (p + 1).toNat p

/-- The type part that `WriteANSI` prints for the name found at index `found`:
the text of the first `fprintf(fp,"%s ",buffer)` without its final blank. -/
def ansiType (mem : List Char) (definitions : Nat) (found : Nat) : List Char :=
  let start1 := stepBack (fun c => c != ';') mem definitions found
  let start2 := if peek mem start1 = ';' then start1 + 1 else start1
  let start3 := stepFwd isWs mem start2
  let stop1 := firstComma mem start3 found
  let stop2 := stepFwd (fun c => c != ',' && c != ';') mem stop1
  let stop3 := stop2 - 1
  let stop4 := stepBack isWs mem start3 stop3
  let stop5 := stepBack (fun c => !isWs c) mem start3 stop4
  let stop6 := stepBack isWs mem start3 stop5
  (slice mem start3 stop6).take MAXBUFF

/-- The number of `*` that `WriteANSI` prints in front of the name found at
index `found`. -/
def ansiStars (mem : List Char) (definitions : Nat) (found : Nat) : Nat :=
  let start1 := stepBack isWs mem definitions ((found : Int) - 1)
  countStars mem start1

/-- The array part that `WriteANSI` prints after the name found at index `found`. -/
def ansiArray (mem : List Char) (found : Nat) : List Char :=
  let stop1 := stepFwd (fun c => c != ',' && c != ';') mem found
  let stop2 := stop1 - 1
  let stop3 := stepBack isWs mem found stop2
  let start1 := stepFwdTo (fun c => c != '[') mem stop3 found
  if start1 < stop3 then (slice mem start1 stop3).take MAXBUFF else []

/-- `WriteANSI(fp, varname, mem + definitions)`: the return value and the text
written to `fp`. -/
def WriteANSI (mem : List Char) (definitions : Nat) (varname : List Char) : Nat × List Char :=
  match FindVarName mem definitions varname with
  | none => (1, [])
  | some found =>
    (0, ansiType mem definitions found ++ [' ']
        ++ List.replicate (ansiStars mem definitions found) '*' ++ varname
        ++ ansiArray mem found)

/-- The two copies of `WriteANSI` for `varname` stay inside `buffer[MAXBUFF]`:
each copies fewer than `MAXBUFF` characters, so that the terminating NUL is
stored inside the array.  (A copy that is cut by `i<MAXBUFF` is followed by the
store `buffer[MAXBUFF] = '\0'`.) -/
def ansiFits (mem : List Char) (definitions : Nat) (varname : List Char) : Bool :=
  match FindVarName mem definitions varname with
  | none => true
  | some found =>
    decide ((ansiType mem definitions found).length < MAXBUFF) &&
      decide ((ansiArray mem found).length < MAXBUFF)

/-! ## WriteKR -/

/-- The declaration that `WriteKR` copies into `temp` for the name found at
index `found`: the text between `start` and `stop`. -/
def krDecl (mem : List Char) (definitions : Nat) (found : Nat) : List Char :=
  let start1 := stepBack (fun c => c != '(' && c != ',' && c != '/') mem
    ((definitions : Int) - 1) found
  let start2 := start1 + 1
  let start3 := stepFwdTo isWs mem found start2
  let stop1 := stepFwd (fun c => c != ')' && c != ',') mem found
  let stop2 := stop1 - 1
  slice mem start3 stop2

/-- `WriteKR(fp, varname, mem + definitions)`: the text written to `fp`.  The
result of `FindVarName` is used unchecked; `none` stands for the undefined
behaviour on a NULL result, and for a declaration that does not fit
`temp[MAXBUFF]` together with its `;` and the terminating NUL. -/
def WriteKR (mem : List Char) (definitions : Nat) (varname : List Char) : Option (List Char) :=
  match FindVarName mem definitions varname with
  | none => none
  | some found =>
    if (krDecl mem definitions found).length + 2 ≤ MAXBUFF then
      some (krDecl mem definitions found ++ [';'] ++ ['\n'])
    else none

/-! ## Definition units -/

/-- Line `i` of the array `funcdef`. -/
def row (funcdef : List (List Char)) (i : Nat) : List Char := funcdef.getD i []

/-- The lines `funcdef[0] .. funcdef[ndef]` that `Ansify`, `DeAnsify` and the
prototype copy of `process_file` walk through. -/
def unitLines (funcdef : List (List Char)) (ndef : Nat) : List (List Char) :=
  (List.range (ndef + 1)).map (row funcdef)

/-- Text written by `fprintf(fp, "%s\n", line)` for each of the lines in turn. -/
def putLines : List (List Char) → List Char
  | [] => []
  | l :: rest => l ++ ['\n'] ++ putLines rest

/-- The lines joined by `strcat` into the single buffer. -/
def joinLines : List (List Char) → List Char
  | [] => []
  | l :: rest => l ++ joinLines rest

/-! ## isFunc -/

/-- One round of the `for(;;)` loop of `isFunc` on one line.  `none`: the line
has no `;`, so `strchr` gives NULL and `termchar` is undefined.  `some none`:
`termchar` stepped in front of the line.  `some (some r)`: the loop is left with
`termchar` on a character, and `r` is the value then returned. -/
def isFuncLine (line : List Char) : Option (Option Nat) :=
  match strchr line ';' with
  | none => none
  | some k =>
    let termchar := stepBack isWs line (-1) ((k : Int) - 1)
    if termchar < 0 then some none
    else some (some (if peek line termchar = ')' then 0 else 1))

/-- The `for(;;)` loop of `isFunc` entered with `line`.  Going to the previous
line re-enters the loop, which computes `termchar` from `strchr` again.  When
`line` drops below 0 the loop is left with `termchar` in front of `funcdef[0]`,
and `*termchar` is a read outside the array: undefined (`none`). -/
def isFuncLoop (funcdef : List (List Char)) : Nat → Option Nat
  | 0 =>
    match isFuncLine (row funcdef 0) with
    | none => none
    | some none => none
    | some (some r) => some r
  | line + 1 =>
    match isFuncLine (row funcdef (line + 1)) with
    | none => none
    | some none => isFuncLoop funcdef line
    | some (some r) => some r

/-- `isFunc(funcdef, ndef)`: `some 1` a function, `some 0` not a function,
`none` when the C code has undefined behaviour. -/
def isFunc (funcdef : List (List Char)) (ndef : Nat) : Option Nat :=
  if '{' ∈ row funcdef ndef then some 1 else isFuncLoop funcdef ndef

/-! ## Ansify -/

/-- The already-ANSI branch of `Ansify` in prototype mode: characters are copied
up to the first `{`, which is replaced by `;`, ends its line and ends the copy. -/
def protoLines : List (List Char) → List Char
  | [] => []
  | l :: rest =>
    if '{' ∈ l then l.takeWhile (fun c => c != '{') ++ [';'] ++ ['\n']
    else l ++ ['\n'] ++ protoLines rest

/-- The loop `while(*funptr && *funptr != ')')` of `Ansify` over the parameter
list `funptr`; `width` blanks indent every parameter but the first, `templen`
is `strlen(temp)`.  Each round consumes at least one character, which `fuel`
counts.  When `WriteANSI` returns 1 the branch `temp[strlen(temp)-1] = '\0'`
shortens `temp`; it writes nothing to `fp`.  `none`: `GetVarName` ran to the
end of the list without a delimiter, so `funptr` is moved behind the
terminating NUL; or the name does not fit `varname[80]`; or a copy of
`WriteANSI` fills its buffer; or `temp` is shortened when it is empty. -/
def ansifyParams (mem : List Char) (definitions width : Nat) :
    Nat → List Char → Bool → Nat → Option (List Char)
  | 0, _, _, _ => some []
  | fuel + 1, funptr, first, templen =>
    if funptr = [] ∨ funptr.headD NUL = ')' then some []
    else
      let sep : List Char := if first then [] else [',', '\n'] ++ List.replicate width ' '
      let funptr1 := funptr.dropWhile isWs
      let g := GetVarName funptr1
      if g.1 < funptr1.length ∧ g.1 < 80 then
        let w := WriteANSI mem definitions g.2
        if w.1 ≠ 0 then
          if templen = 0 then none
          else
            (ansifyParams mem definitions width fuel (funptr1.drop (g.1 + 1)) false
              (templen - 1)).map (fun t => sep ++ w.2 ++ t)
        else if ansiFits mem definitions g.2 then
          (ansifyParams mem definitions width fuel (funptr1.drop (g.1 + 1)) false templen).map
            (fun t => sep ++ w.2 ++ t)
        else none
      else none

/-- `Ansify(fp, funcdef, ndef, mode)`: the text written to `fp`; `none` when the
C code has undefined behaviour: no `)` or no `(` where a loop looks for one, a
text up to the first `)` that does not fit `func[MAXBUFF]` with its `)` and the
terminating NUL, or one of the cases of `ansifyParams`. -/
def Ansify (funcdef : List (List Char)) (ndef : Nat) (mode : Nat) : Option (List Char) :=
  let lines := unitLines funcdef ndef
  if lines.all (fun l => !(l.contains ';')) then
    if mode = MakeANSI then some (putLines lines) else some (protoLines lines)
  else
    let buffer := KillComments NUL NUL (joinLines lines)
    match strchr buffer ')' with
    | none => none
    | some i =>
      if MAXBUFF < i + 2 then none
      else
        let func := buffer.take i ++ [')']
        match strchr func '(' with
        | none => none
        | some j =>
          let temp := func.take j ++ ['(']
          let width := temp.length
          let funptr := func.drop (j + 1)
          match ansifyParams buffer (i + 1) width funptr.length funptr true width with
          | none => none
          | some params =>
            if mode = MakeANSI then some (temp ++ params ++ [')', '\n', '{', '\n'])
            else some (temp ++ params ++ [')', ';', '\n'])

/-! ## DeAnsify -/

/-- The parameter count `nparam` of `DeAnsify` for the text after the `(`. -/
def countParams (bufptr : List Char) : Nat :=
  let plist := bufptr.takeWhile (fun c => c != ')')
  let commas := plist.count ','
  if commas ≠ 0 then commas + 1
  else if (FindString bufptr ['v', 'o', 'i', 'd']).isSome ∨
      (FindString bufptr ['V', 'O', 'I', 'D']).isSome then 0
  else if plist.any (fun c => !isWs c) then 1 else 0

/-- The loop `for(i=0; i<nparam; i++)` of `DeAnsify` that assembles the names
into `func`; the first argument counts the rounds left, `funptr` is an index of
`mem`, `funclen` is `strlen(func)`.  `none`: both `strchr` calls gave NULL; or
the text copied into `temp[MAXBUFF]` does not fit it, before or after `, ` or
`)` is appended; or `strcat(func, temp)` does not fit `func[MAXBUFF]`. -/
def deansifyNames (mem : List Char) (bufptr : Nat) :
    Nat → Nat → Bool → Nat → Option (List Char)
  | 0, _, _, _ => some []
  | n + 1, funptr, last, funclen =>
    let next : Option (Nat × Bool) :=
      match strchr (mem.drop funptr) ',' with
      | some k => some (funptr + k, last)
      | none =>
        match strchr (mem.drop bufptr) ')' with
        | some k => some (bufptr + k, true)
        | none => none
    match next with
    | none => none
    | some (fp, last1) =>
      let stop := stepBack isWs mem bufptr ((fp : Int) - 1)
      let start := stepBack (fun c => !isWs c && c != '*') mem ((bufptr : Int) - 1) stop + 1
      let copied := slice mem start stop
      let temp := copied.takeWhile (fun c => c != '[')
      let temp1 := temp ++ (if last1 then [')'] else [',', ' '])
      if copied.length < MAXBUFF ∧ temp1.length < MAXBUFF ∧ funclen + temp1.length < MAXBUFF then
        (deansifyNames mem bufptr n (fp + 1) last1 (funclen + temp1.length)).map
          (fun t => temp1 ++ t)
      else none

/-- The loop `while(*funptr && *funptr != ')')` of `DeAnsify` that writes one
declaration line per name of `func`.  `none`: `WriteKR` was undefined, or
`GetVarName` ran to the end of `func` without a delimiter, or the name does not
fit `varname[80]`. -/
def deansifyDecls (mem : List Char) (definitions : Nat) : Nat → List Char → Option (List Char)
  | 0, _ => some []
  | fuel + 1, funptr =>
    if funptr = [] ∨ funptr.headD NUL = ')' then some []
    else
      let funptr1 := funptr.dropWhile isWs
      let g := GetVarName funptr1
      if g.1 < 80 then
        match WriteKR mem definitions g.2 with
        | none => none
        | some line =>
          if g.1 < funptr1.length then
            (deansifyDecls mem definitions fuel (funptr1.drop (g.1 + 1))).map (fun t => line ++ t)
          else none
      else none

/-- `DeAnsify(fp, funcdef, ndef)`: the text written to `fp`; `none` when the C
code has undefined behaviour: no `(` in the unit, a text up to the first `(`
that does not fit `temp[MAXBUFF]` with its `(` and the terminating NUL, or one
of the cases of `deansifyNames` and `deansifyDecls`. -/
def DeAnsify (funcdef : List (List Char)) (ndef : Nat) : Option (List Char) :=
  let lines := unitLines funcdef ndef
  if lines.any (fun l => l.contains ';') then some (putLines lines)
  else
    let buffer := joinLines lines
    match strchr buffer '(' with
    | none => none
    | some i =>
      if MAXBUFF < i + 2 then none
      else
        let temp := buffer.take i ++ ['(']
        let bufptr := i + 1
        let nparam := countParams (buffer.drop bufptr)
        if nparam = 0 then some (temp ++ [')', '\n', '{', '\n'])
        else
          match deansifyNames buffer bufptr nparam bufptr false 0 with
          | none => none
          | some func =>
            match deansifyDecls buffer bufptr func.length func with
            | none => none
            | some decls => some (temp ++ func ++ ['\n'] ++ decls ++ ['{', '\n'])

/-! ## process_file -/

/-- How a run of `process_file` ends. -/
inductive Outcome
  | finished (out : List Char)
  | fatal (out : List Char) (report : List (List Char))
  | undefined
  | outOfFuel
deriving DecidableEq

/-- Result of one of the two assembling loops of `process_file`: the counters of
`isInteresting`, the array `funcdef`, `ndef` and the input left; or the
`exit(1)` taken when `ndef >= MAXLINES`, with the array as it is reported. -/
inductive Assembled
  | unit (st : ClassifierState) (funcdef : List (List Char)) (ndef : Nat)
      (rest : List (List Char))
  | tooMany (funcdef : List (List Char))
deriving DecidableEq

/-- The first assembling loop: lines are read until `funcdef[ndef]` holds a `;`
or a `{`.  At the end of the input the loop is left by `break` after `++ndef`. -/
def assemble1 : ClassifierState → List (List Char) → Nat → List (List Char) → Assembled
  | st, fd, ndef, [] =>
    if (row fd ndef).contains ';' ∨ (row fd ndef).contains '{' then .unit st fd ndef []
    else .unit st fd (ndef + 1) []
  | st, fd, ndef, raw :: rest =>
    if (row fd ndef).contains ';' ∨ (row fd ndef).contains '{' then .unit st fd ndef (raw :: rest)
    else
      let fd1 := fd.set (ndef + 1) (terminate raw)
      if ndef + 1 ≥ MAXLINES then .tooMany fd1
      else assemble1 (isInteresting st (terminate raw)).2 fd1 (ndef + 1) rest

/-- The second assembling loop: lines are read until `funcdef[ndef]` holds a `{`. -/
def assemble2 : ClassifierState → List (List Char) → Nat → List (List Char) → Assembled
  | st, fd, ndef, [] =>
    if (row fd ndef).contains '{' then .unit st fd ndef []
    else .unit st fd (ndef + 1) []
  | st, fd, ndef, raw :: rest =>
    if (row fd ndef).contains '{' then .unit st fd ndef (raw :: rest)
    else
      let fd1 := fd.set (ndef + 1) (terminate raw)
      if ndef + 1 ≥ MAXLINES then .tooMany fd1
      else assemble2 (isInteresting st (terminate raw)).2 fd1 (ndef + 1) rest

/-- The `switch(mode)` of `process_file`. -/
def transcode (mode : Nat) (funcdef : List (List Char)) (ndef : Nat) : Option (List Char) :=
  if mode = MakeKR then DeAnsify funcdef ndef
  else if mode = MakeANSI ∨ mode = MakeProtos then Ansify funcdef ndef mode
  else some []

/-- The lines `funcdef[0] .. funcdef[MAXLINES-1]` printed before `exit(1)`. -/
def report (funcdef : List (List Char)) : List (List Char) :=
  (List.range MAXLINES).map (row funcdef)

/-- What `process_file` writes for a line it only copies. -/
def copyLine (mode : Nat) (buffer : List Char) : List Char :=
  if mode ≠ MakeProtos then buffer ++ ['\n'] else []

/-- What one round of the main loop of `process_file` leaves behind: the data
the next round starts from, or the end of the run. -/
inductive Round
  | next (st : ClassifierState) (fd : List (List Char)) (rest : List (List Char))
      (out : List Char)
  | stop (o : Outcome)
deriving DecidableEq

/-- The end of a round for a function: the `switch(mode)` on the unit that the
assembling loops delivered.  A unit whose last index is `MAXLINES` (reached by
the `break` at the end of the input) lies outside the array: undefined. -/
def handUnit (mode : Nat) (out : List Char) : Assembled → Round
  | .tooMany fd2 => .stop (.fatal out (report fd2))
  | .unit st2 fd2 ndef2 rest2 =>
    if ndef2 ≥ MAXLINES then .stop .undefined
    else
      match transcode mode fd2 ndef2 with
      | none => .stop .undefined
      | some text => .next st2 fd2 rest2 (out ++ text)

/-- The part of a round that follows the first assembling loop, for the unit
`funcdef[0] .. funcdef[ndef1]`: `isFunc`; for a function the second assembling
loop, when its last line holds `;` but no opening brace, and the transcoder; a
prototype is copied out. -/
def afterUnit (mode : Nat) (out : List Char) (st1 : ClassifierState)
    (fd1 : List (List Char)) (ndef1 : Nat) (rest1 : List (List Char)) : Round :=
  if ndef1 ≥ MAXLINES then .stop .undefined
  else
    match isFunc fd1 ndef1 with
    | none => .stop .undefined
    | some 0 =>
      .next st1 fd1 rest1
        (if mode ≠ MakeProtos then out ++ putLines (unitLines fd1 ndef1) else out)
    | some _ =>
      handUnit mode out
        (if (row fd1 ndef1).contains ';' ∧ ¬ (row fd1 ndef1).contains '{'
         then assemble2 st1 fd1 ndef1 rest1 else .unit st1 fd1 ndef1 rest1)

/-- The body of the loop `while(fgets(buffer,MAXBUFF,fp_in))` of `process_file`
for the string `raw` that `fgets` returned; `rest` are the strings the following
`fgets` calls return, `out` is the text written so far, `fd` the static array
`funcdef`. -/
def round (mode : Nat) (st : ClassifierState) (fd : List (List Char)) (raw : List Char)
    (rest : List (List Char)) (out : List Char) : Round :=
  let buffer := terminate raw
  let r := isInteresting st buffer
  if r.1 ≠ 0 then
    if (KillComments NUL NUL buffer).contains '(' then
      match assemble1 r.2 (fd.set 0 buffer) 0 rest with
      | .tooMany fd1 => .stop (.fatal out (report fd1))
      | .unit st1 fd1 ndef1 rest1 => afterUnit mode out st1 fd1 ndef1 rest1
    else .next r.2 fd rest (out ++ copyLine mode buffer)
  else .next r.2 fd rest (out ++ copyLine mode buffer)

/-- The main loop `while(fgets(buffer,MAXBUFF,fp_in))` of `process_file`.
`lines` are the strings that the successive `fgets` calls return.  Each round
reads at least one line, which `fuel` counts. -/
def process_loop (mode : Nat) :
    Nat → ClassifierState → List (List Char) → List (List Char) → List Char → Outcome
  | _, _, _, [], out => .finished out
  | 0, _, _, _ :: _, _ => .outOfFuel
  | fuel + 1, st, fd, raw :: rest, out =>
    match round mode st fd raw rest out with
    | .stop o => o
    | .next st1 fd1 rest1 out1 => process_loop mode fuel st1 fd1 rest1 out1

/-- `process_file(fp_in, fp_out, mode)` on the lines of the input file, started
with the static data as initialised (counters zero, `funcdef` all empty). -/
def process_file (mode : Nat) (lines : List (List Char)) : Outcome :=
  process_loop mode lines.length ClassifierState.init (List.replicate MAXLINES []) lines []

/-! # Definitions used to state and prove the theorems -/

/-! ## The whole-word locator -/

/-- The acceptance test of `FindVarName` at index `p` of `mem`: `string` stands
at `p`, the character in front of `p` passes `precOK` and the character behind
the occurrence passes `follOK`. -/
def wordAt (mem string : List Char) (p : Nat) : Prop :=
  string.isPrefixOf (mem.drop p) = true ∧ precOK (peek mem ((p : Int) - 1)) = true ∧
    follOK (mem.getD (p + string.length) NUL) = true

instance (mem string : List Char) (p : Nat) : Decidable (wordAt mem string p) := by
  unfold wordAt; infer_instance

/-- The acceptance test relative to the rest `l` of the buffer, whose
predecessor character is `prev`. -/
def accAt (string : List Char) (prev : Char) (l : List Char) (k : Nat) : Prop :=
  string.isPrefixOf (l.drop k) = true ∧
    precOK (if k = 0 then prev else l.getD (k - 1) NUL) = true ∧
    follOK (l.getD (k + string.length) NUL) = true

instance (string : List Char) (prev : Char) (l : List Char) (k : Nat) :
    Decidable (accAt string prev l k) := by
  unfold accAt; infer_instance

/-! ## The comment stripper as a stream -/

/-- `KillComments` read as one pass over the characters still to come.  `r2` and
`r1` are what the reads of `buffer[in-2]` and `buffer[in-1]` give, `lag` is
`in - out`.  The buffer is rewritten in place, so when `lag = 1` a copied
character lands on the position that the next round reads as `buffer[in-2]`. -/
def killStream : Char → Char → Nat → Int → List Char → List Char
  | _, _, _, _, [] => []
  | r2, r1, lag, comment, c :: rest =>
    let c1 : Int := if c = '/' ∧ rest.headD NUL = '*' then comment + 1 else comment
    let c2 : Int := if r2 = '*' ∧ r1 = '/' then c1 - 1 else c1
    if c2 = 0 then c :: killStream (if lag = 1 then c else r1) c lag c2 rest
    else killStream r1 c (lag + 1) c2 rest

/-! ## Comment stripping on text with well-formed comments -/

/-- A text segment or comment body of the claim: it holds neither `/` nor `*`. -/
def clean (t : List Char) : Prop := ∀ c ∈ t, c ≠ '/' ∧ c ≠ '*'

/-- The buffer `t0 /* c0 */ t1 /* c1 */ ... tl` built from the pairs `(ti, ci)`
and the final text `tl`. -/
def withComments : List (List Char × List Char) → List Char → List Char
  | [], tl => tl
  | (t, c) :: rest, tl => t ++ '/' :: '*' :: (c ++ '*' :: '/' :: withComments rest tl)

/-- The text segments `t0 ++ t1 ++ ... ++ tl` alone. -/
def textOnly : List (List Char × List Char) → List Char → List Char
  | [], tl => tl
  | (t, _) :: rest, tl => t ++ textOnly rest tl

/-- What is needed of the rest `tl` of a buffer: it is stripped to `res` both
when it is entered outside a comment (after a character that is neither `/` nor
`*`) and when it is entered right behind a closing `*/`. -/
def TailOK (tl res : List Char) : Prop :=
  (∀ r2 r1 lag, r1 ≠ '/' → r1 ≠ '*' → killStream r2 r1 lag 0 tl = res) ∧
  (∀ lag, killStream '*' '/' lag 1 tl = res) ∧ tl.headD NUL ≠ '*'

instance (t : List Char) : Decidable (clean t) := by
  unfold clean; infer_instance

/-- The acceptance test of the whole-word locator as the specification words
it, for index `i` of `buffer`: the needle stands at `i`, `i == 0` or
`buffer[i-1]` is a blank, `*` or `,`, and the character behind the occurrence is
one of `;`, `[`, blank, `)`, `,`. -/
def specWordAt (buffer needle : List Char) (i : Nat) : Prop :=
  needle.isPrefixOf (buffer.drop i) = true ∧
    (i = 0 ∨ precOK (buffer.getD (i - 1) NUL) = true) ∧
    follOK (buffer.getD (i + needle.length) NUL) = true

instance (buffer needle : List Char) (i : Nat) : Decidable (specWordAt buffer needle i) := by
  unfold specWordAt; infer_instance

/-! ## Worked inputs -/

/-- The six input lines of the prototype example. -/
def fooKR : List (List Char) :=
  ["int foo(a, b)".toList, "int a;".toList, "char *b;".toList, "\x7b".toList,
   "  return 0;".toList, "\x7d".toList]

/-- The two input lines of the ANSI to K&R example. -/
def addANSI : List (List Char) :=
  ["int add(int a, int b)".toList, "\x7b".toList]

/-! ## Files that a MakeANSI run leaves alone -/

/-- `fgets(buffer, n + 1, fp)` on the text that is still to be read: the string
it stores, of at most `n` characters and ended behind a newline, and the text
that is left. -/
def fgets : Nat → List Char → List Char × List Char
  | _, [] => ([], [])
  | 0, c :: rest => ([], c :: rest)
  | n + 1, c :: rest =>
    if c = '\n' then (['\n'], rest)
    else (c :: (fgets n rest).1, (fgets n rest).2)

/-- The strings that the calls `fgets(buffer, MAXBUFF, fp_in)` return one after
the other until the text is used up; each call takes at least one character,
which `fuel` counts. -/
def fgetsAll : Nat → List Char → List (List Char)
  | 0, _ => []
  | fuel + 1, text =>
    if text = [] then []
    else (fgets (MAXBUFF - 1) text).1 :: fgetsAll fuel (fgets (MAXBUFF - 1) text).2

/-- The lines of a text as `process_file` reads them: the strings that `fgets`
returns, each cut at its newline by `terminate`.  A line of more than
`MAXBUFF - 2` characters comes in pieces. -/
def textLines (text : List Char) : List (List Char) :=
  (fgetsAll text.length text).map terminate

/-- A run of the main loop of `process_file` in which no unit is converted:
every candidate (an interesting line with a `(` outside comments) starts a unit
all of whose lines are read before the input ends, and that unit is a prototype
(`isFunc` returns 0) or holds no `;` in any of its lines. -/
def keepsAll : Nat → ClassifierState → List (List Char) → List (List Char) → Bool
  | _, _, _, [] => true
  | 0, _, _, _ :: _ => false
  | fuel + 1, st, fd, raw :: rest =>
    if (isInteresting st (terminate raw)).1 ≠ 0 ∧
        (KillComments NUL NUL (terminate raw)).contains '(' = true then
      match assemble1 (isInteresting st (terminate raw)).2 (fd.set 0 (terminate raw)) 0 rest with
      | .tooMany _ => false
      | .unit st1 fd1 ndef1 rest1 =>
        decide (ndef1 + 1 + rest1.length = (raw :: rest).length) &&
        (match isFunc fd1 ndef1 with
          | none => false
          | some 0 => true
          | some _ => (unitLines fd1 ndef1).all (fun l => !(l.contains ';'))) &&
        keepsAll fuel st1 fd1 rest1
    else keepsAll fuel (isInteresting st (terminate raw)).2 fd rest

/-! ## Occurrences inside a longer identifier -/

/-- A character of a C identifier: a letter, a digit or `_`. -/
def isIdentChar (c : Char) : Bool := c.isAlphanum || c == '_'

/-- The letters of `name` stand at index `q` of `mem` inside a longer
identifier: the character directly in front of them or directly behind them is
a character of an identifier. -/
def insideIdent (mem name : List Char) (q : Nat) : Prop :=
  name.isPrefixOf (mem.drop q) = true ∧
    (isIdentChar (peek mem ((q : Int) - 1)) = true ∨
      isIdentChar (mem.getD (q + name.length) NUL) = true)

instance (mem name : List Char) (q : Nat) : Decidable (insideIdent mem name q) := by
  unfold insideIdent; infer_instance

/-! ## K&R declarations -/

/-- One declarator of a K&R declaration `T n1, n2, ..., nk;`: the number of
blanks in front of it, the number of `*` written directly in front of the name,
and the name. -/
structure Declarator where
  blanks : Nat
  stars : Nat
  name : List Char

/-- The text of a declarator: its blanks, its stars, its name. -/
def Declarator.text (d : Declarator) : List Char :=
  List.replicate d.blanks ' ' ++ (List.replicate d.stars '*' ++ d.name)

/-- A well-formed declarator: the name, or its run of `*`, is
directly preceded by a blank, and the name is a non-empty word without blank,
tab, `,`, `;` and `[`. -/
def Declarator.ok (d : Declarator) : Prop :=
  1 ≤ d.blanks ∧ d.name ≠ [] ∧
    ∀ c ∈ d.name, isWs c = false ∧ c ≠ ',' ∧ c ≠ ';' ∧ c ≠ '['

/-- The declarators in front of a given one, each followed by its `,`. -/
def declPrefix : List Declarator → List Char
  | [] => []
  | b :: bs => b.text ++ ',' :: declPrefix bs

/-- The declarators behind a given one, each preceded by its `,`, and the
closing `;`. -/
def declRest : List Declarator → List Char
  | [] => [';']
  | a :: as => ',' :: (a.text ++ declRest as)

/-- Star-free type words: a non-empty text that neither starts nor ends with a
blank or tab, holds no `*`, `,` or `;`, and fits the buffer of `WriteANSI`. -/
def typeWords (T : List Char) : Prop :=
  (∃ h : T ≠ [], isWs (T.head h) = false ∧ isWs (T.getLast h) = false) ∧
    (∀ c ∈ T, c ≠ '*' ∧ c ≠ ',' ∧ c ≠ ';') ∧ T.length < MAXBUFF

instance (d : Declarator) : Decidable d.ok := by
  unfold Declarator.ok; infer_instance

instance (T : List Char) : Decidable (typeWords T) := by
  unfold typeWords; infer_instance

/-- The name is declared in `mem`, behind `definitions`, with the type words
`T` and `stars` stars: `mem` holds a declaration `T n1, ..., nk;` that stands at
`definitions` or behind a `;` (after optional blanks `lead`), one of whose
declarators is the name with its stars, all declarators in front of it being
well formed, and the name stands as a whole word nowhere between `definitions`
and its declarator. -/
def declaredAs (mem : List Char) (definitions : Nat) (name T : List Char) (stars : Nat) : Prop :=
  ∃ (head lead post : List Char) (before after : List Declarator) (d : Declarator),
    mem = head ++ (lead ++ (T ++ (declPrefix before ++ (d.text ++ (declRest after ++ post))))) ∧
    d.name = name ∧ d.stars = stars ∧ definitions ≤ head.length ∧
    (head.length = definitions ∨ head.getLast? = some ';') ∧ (∀ c ∈ lead, isWs c = true) ∧
    typeWords T ∧ (∀ b ∈ before, b.ok) ∧ d.ok ∧
    ∀ q, definitions ≤ q →
      q < head.length + lead.length + T.length + (declPrefix before).length + d.blanks + d.stars →
      ¬ wordAt mem name q

/-- One parameter of a K&R definition: its entry in the parameter list as it is
written there, its name, and the type words and the number of stars of its
declaration. -/
structure Param where
  entry : List Char
  name : List Char
  type : List Char
  stars : Nat

/-- The entry is the name with blanks or tabs in front of it and behind it; the
name is a non-empty word without blank, tab, comma and parenthesis; and the
name with the blanks behind it fits `varname[80]`. -/
def Param.entryOK (x : Param) : Prop :=
  ∃ lead trail : List Char, x.entry = lead ++ (x.name ++ trail) ∧
    (∀ c ∈ lead, isWs c = true) ∧ (∀ c ∈ trail, isWs c = true) ∧ x.name ≠ [] ∧
    (∀ c ∈ x.name, isWs c = false ∧ c ≠ ',' ∧ c ≠ ')') ∧ x.name.length + trail.length < 80

/-- The parameter as an ANSI parameter list holds it: the type words, one
blank, the stars and the name. -/
def Param.text (x : Param) : List Char :=
  x.type ++ ' ' :: (List.replicate x.stars '*' ++ x.name)

/-! ## Lines as the classifier sees them -/

/-- The first two characters after the leading blanks and tabs of the line are
the opening of a comment. -/
def leadingComment (buffer : List Char) : Prop :=
  (buffer.dropWhile isWs).take 2 = ['/', '*']

instance (buffer : List Char) : Decidable (leadingComment buffer) := by
  unfold leadingComment; infer_instance

/-- Some position of the line holds `/` directly followed by `/`. -/
def slashSlash (l : List Char) : Prop :=
  ∃ i, i < l.length ∧ l.getD i NUL = '/' ∧ l.getD (i + 1) NUL = '/'

instance (l : List Char) : Decidable (slashSlash l) := by
  unfold slashSlash; infer_instance

/-- The counters after the lines have been passed to `isInteresting` one by one. -/
def feed (st : ClassifierState) (lines : List (List Char)) : ClassifierState :=
  lines.foldl (fun s l => (isInteresting s l).2) st

/-- The counters after the lines have been passed to `isInteresting` one by
one, in `int` arithmetic: `none` when a counter overflows. -/
def feedInt : ClassifierState → List (List Char) → Option ClassifierState
  | st, [] => some st
  | st, l :: ls =>
    match isInterestingInt st l with
    | none => none
    | some r => feedInt r.2 ls

/-! ## Parameter lists -/

/-- The text `p1,p2,...,pk)` of a parameter list with the entries `p1 .. pk`,
as it stands behind the opening parenthesis. -/
def paramList : List (List Char) → List Char
  | [] => [')']
  | [p] => p ++ [')']
  | p :: q :: ps => p ++ ',' :: paramList (q :: ps)

/-- The name that `Ansify` takes from the entry `p` of a parameter list: the
entry without its leading and trailing blanks and tabs. -/
def paramName (p : List Char) : List Char := stripTrailing (p.dropWhile isWs)

/-- The parameters as `Ansify` writes them: for each entry of the list the text
`W name` that `WriteANSI` writes for its name, each but the first preceded by a
comma, a newline and `width` blanks. -/
def paramsOut (W : List Char → List Char) (width : Nat) : List (List Char) → Bool → List Char
  | [], _ => []
  | p :: ps, first =>
    (if first then [] else [',', '\n'] ++ List.replicate width ' ') ++ W (paramName p)
      ++ paramsOut W width ps false

/-- The number of entries of a parameter list whose name `WriteANSI` does not
find: for each of them `Ansify` shortens `temp` by one character. -/
def notFound (mem : List Char) (definitions : Nat) (ps : List (List Char)) : Nat :=
  ps.countP (fun p => decide ((WriteANSI mem definitions (paramName p)).1 ≠ 0))

/-- The text that closes the parameter list in the output of `Ansify`. -/
def closer (mode : Nat) : List Char :=
  if mode = MakeANSI then [')', '\n', '{', '\n'] else [')', ';', '\n']

/-! ## Comments as a C compiler reads them -/

/-- Where a left-to-right reader of C text stands with respect to comments:
in text; on the first character behind a closing `*/`; on the `*` of an opening
`/*`; on the first character of a comment body; further inside the body; on the
`/` of a closing `*/`. -/
inductive Lex
  | text
  | afterClose
  | openStar
  | bodyStart
  | body
  | closeSlash
deriving DecidableEq

/-- The text that is left when every comment is taken out: a comment opens
with `/*` and ends with the first `*/` behind these two characters. -/
def stripC : Lex → List Char → List Char
  | _, [] => []
  | .text, c :: rest =>
    if c = '/' ∧ rest.headD NUL = '*' then stripC .openStar rest else c :: stripC .text rest
  | .afterClose, c :: rest =>
    if c = '/' ∧ rest.headD NUL = '*' then stripC .openStar rest else c :: stripC .text rest
  | .openStar, _ :: rest => stripC .bodyStart rest
  | .bodyStart, c :: rest =>
    if c = '*' ∧ rest.headD NUL = '/' then stripC .closeSlash rest else stripC .body rest
  | .body, c :: rest =>
    if c = '*' ∧ rest.headD NUL = '/' then stripC .closeSlash rest else stripC .body rest
  | .closeSlash, _ :: rest => stripC .afterClose rest

/-- Comments that `KillComments` reads as a C compiler does: no `*/` stands in
the text outside comments, no text behind a comment starts with `*`, no comment
body starts with `/`, and no `/*` stands inside a comment body (nor is formed
by its last character and the closing `*/`). -/
def wfC : Lex → List Char → Bool
  | _, [] => true
  | .text, c :: rest =>
    if c = '/' ∧ rest.headD NUL = '*' then wfC .openStar rest
    else !(c == '*' && rest.headD NUL == '/') && wfC .text rest
  | .afterClose, c :: rest =>
    if c = '/' ∧ rest.headD NUL = '*' then wfC .openStar rest
    else c != '*' && wfC .text rest
  | .openStar, _ :: rest => wfC .bodyStart rest
  | .bodyStart, c :: rest =>
    c != '/' &&
      (if c = '*' ∧ rest.headD NUL = '/' then wfC .closeSlash rest else wfC .body rest)
  | .body, c :: rest =>
    if c = '*' ∧ rest.headD NUL = '/' then wfC .closeSlash rest
    else !(c == '/' && rest.headD NUL == '*') && wfC .body rest
  | .closeSlash, _ :: rest => wfC .afterClose rest

/-! ## The plain substring locator -/

/-- The needle stands in the buffer at index `i` as a contiguous substring. -/
def occursAt (buffer needle : List Char) (i : Nat) : Prop :=
  needle.isPrefixOf (buffer.drop i) = true

instance (buffer needle : List Char) (i : Nat) : Decidable (occursAt buffer needle i) := by
  unfold occursAt; infer_instance

/-- The positions that the loop `for(i=0; i<strlen(string); i++)` of `FindString`
reads through `ptr[i]`, with `ptr` at the head of the second list and at
position `pos` of the buffer: the loop reads on while the characters agree with
`string`; at the end of the buffer it reads the terminating NUL, which differs
from the character of `string`. -/
def compareReads : List Char → List Char → Nat → List Nat
  | [], _, _ => []
  | _ :: _, [], pos => [pos]
  | s :: ss, c :: l, pos => if c = s then pos :: compareReads ss l (pos + 1) else [pos]

/-- The loop of `FindString` once more, now with the positions of the buffer
at which it reads a character: the result, and the positions read. -/
def FindStringTrace (string : List Char) : List Char → Nat → Option Nat × List Nat
  | [], ptr => (none, [ptr])
  | c :: rest, ptr =>
    if c ≠ string.headD NUL then
      ((FindStringTrace string rest (ptr + 1)).1, ptr :: (FindStringTrace string rest (ptr + 1)).2)
    else if string.isPrefixOf (c :: rest) then
      (some ptr, ptr :: compareReads string (c :: rest) ptr)
    else
      ((FindStringTrace string rest (ptr + 1)).1,
        ptr :: (compareReads string (c :: rest) ptr ++ (FindStringTrace string rest (ptr + 1)).2))

/-! ## The scan of a whole line -/

/-- Modelled from the spec: the counters after the per-character update rules
of the classifier (quote toggling, comment open and close, brace counting) have
been applied to every character of the line, none skipped. -/
def fullScan : ClassifierState → List Char → ClassifierState
  | st, [] => st
  | st, c :: rest => fullScan (scanChar st c (rest.headD NUL)) rest

/-! ## The reads of the comment stripper -/

/-- The positions of `buffer` that one round of the loop of `KillComments` reads,
in the order of the reads: `buffer[in]`, then `buffer[in+1]` when the first
operand of `&&` holds, `buffer[in-2]`, then `buffer[in-1]` when the first operand
of the second `&&` holds, and `buffer[in]` once more when it is copied. -/
def KillCommentsReads (m2 m1 : Char) (s : KCState) (i : Nat) : List Int :=
  [(i : Int)] ++ (if peek s.buffer i = '/' then [(i : Int) + 1] else []) ++
    [(i : Int) - 2] ++
    (if peekPre m2 m1 s.buffer ((i : Int) - 2) = '*' then [(i : Int) - 1] else []) ++
    (if (KillCommentsStep m2 m1 s i).comment = 0 then [(i : Int)] else [])

/-- One round of the loop of `KillComments` together with the positions read so
far. -/
def KillCommentsStepTrace (m2 m1 : Char) (st : KCState × List Int) (i : Nat) :
    KCState × List Int :=
  (KillCommentsStep m2 m1 st.1 i, st.2 ++ KillCommentsReads m2 m1 st.1 i)

/-- The loop of `KillComments` together with every position of `buffer` it reads. -/
def KillCommentsTrace (m2 m1 : Char) (buffer : List Char) : KCState × List Int :=
  (List.range buffer.length).foldl (KillCommentsStepTrace m2 m1) (⟨buffer, 0, 0⟩, [])

/-! ## The pieces of a line -/

/-- A piece of a line as a C compiler reads it: program text outside quotes and
comments, a double-quoted string, a single-quoted constant or a block comment,
each given by the characters between its delimiters. -/
inductive Piece
  | code (t : List Char)
  | str (s : List Char)
  | chr (s : List Char)
  | comment (body : List Char)

/-- The characters of a piece, its delimiters included. -/
def Piece.text : Piece → List Char
  | .code t => t
  | .str s => DIC :: (s ++ [DIC])
  | .chr s => SIC :: (s ++ [SIC])
  | .comment body => '/' :: '*' :: (body ++ ['*', '/'])

/-- The line that the pieces make up, one behind the other. -/
def pieceLine : List Piece → List Char
  | [] => []
  | p :: ps => p.text ++ pieceLine ps

/-- No `/` of `t` is followed by `/` or by `*` and no `*` of `t` is followed by
`/`, where the last character of `t` is followed by `after`. -/
def pairOK : List Char → Char → Bool
  | [], _ => true
  | c :: t, after =>
    decide ((c = '/' → t.headD after ≠ '/' ∧ t.headD after ≠ '*') ∧
        (c = '*' → t.headD after ≠ '/')) &&
      pairOK t after

/-- The pieces are what a C compiler reads in the line, and none of them is of
a kind the scan of `isInteresting` is known to misread: program text holds no
quote character, no `//`, `/*` or `*/`, also not together with the character
behind it; a string holds no double quote (so no escaped one) and no `//`; a
constant holds no single quote and no `//`; the body of a comment does not start
with `/`, holds no `//`, `/*` or `*/`, does not end in `/`, and the character
behind the comment is neither `/` nor `*`. -/
def piecesOK : List Piece → Bool
  | [] => true
  | .code t :: ps =>
    decide (DIC ∉ t ∧ SIC ∉ t) && pairOK t ((pieceLine ps).headD NUL) && piecesOK ps
  | .str s :: ps => decide (DIC ∉ s ∧ ¬ slashSlash s) && piecesOK ps
  | .chr s :: ps => decide (SIC ∉ s ∧ ¬ slashSlash s) && piecesOK ps
  | .comment body :: ps =>
    decide (body.headD NUL ≠ '/' ∧ (pieceLine ps).headD NUL ≠ '/' ∧
        (pieceLine ps).headD NUL ≠ '*') &&
      pairOK body '*' && piecesOK ps

/-- How often the character `x` stands in the program text of the pieces, that
is outside strings, constants and comments. -/
def codeCount (x : Char) : List Piece → Nat
  | [] => 0
  | .code t :: ps => t.count x + codeCount x ps
  | _ :: ps => codeCount x ps

/-! ## Counters within the range of int -/

/-- The counters of the classifier lie within `n` of zero and the two quote
flags are 0 or 1. -/
def inRange (n : Nat) (st : ClassifierState) : Prop :=
  -(n : Int) ≤ st.comment_count ∧ st.comment_count ≤ n ∧ -(n : Int) ≤ st.bra_count ∧
    st.bra_count ≤ n ∧ (st.inSIC = 0 ∨ st.inSIC = 1) ∧ (st.inDIC = 0 ∨ st.inDIC = 1)
/-! # Theorems -/

/-! ## Facts about character reads -/

theorem peek_natCast (s : List Char) (n : Nat) : peek s (n : Int) = s.getD n NUL := by
  simp [peek]

theorem peek_neg (s : List Char) (i : Int) (h : i < 0) : peek s i = NUL := by
  simp [peek, h]

theorem getD_drop (s : List Char) (n i : Nat) : (s.drop n).getD i NUL = s.getD (n + i) NUL := by
  simp [List.getD_eq_getElem?_getD, List.getElem?_drop]

theorem accAt_succ (string : List Char) (prev c : Char) (rest : List Char) (k : Nat) :
    accAt string prev (c :: rest) (k + 1) ↔ accAt string c rest k := by
  unfold accAt
  cases k with
  | zero => simp [Nat.add_comm 1]
  | succ k =>
    simp only [List.drop_succ_cons, Nat.add_one_ne_zero, if_false, Nat.add_sub_cancel]
    have : k + 1 + 1 + string.length = (k + 1 + string.length) + 1 := by omega
    rw [this]
    simp

theorem FindVarNameFrom_cons (string : List Char) (hs : string ≠ []) (prev c : Char)
    (rest : List Char) (ptr : Nat) :
    FindVarNameFrom string prev (c :: rest) ptr =
      if accAt string prev (c :: rest) 0 then some ptr
      else FindVarNameFrom string c rest (ptr + 1) := by
  obtain ⟨a, t, rfl⟩ := List.exists_cons_of_ne_nil hs
  rw [FindVarNameFrom]
  unfold accAt
  by_cases h1 : c = a
  · subst h1
    by_cases h2 : precOK prev = true
    · simp [h2]
    · simp [h2]
  · have : ¬ a = c := fun h => h1 h.symm
    simp [h1, this, List.isPrefixOf]

theorem FindVarNameFrom_some (string : List Char) (hs : string ≠ []) :
    ∀ (l : List Char) (prev : Char) (ptr q : Nat),
      FindVarNameFrom string prev l ptr = some q ↔
        ∃ k, q = ptr + k ∧ accAt string prev l k ∧ ∀ j, j < k → ¬ accAt string prev l j := by
  intro l
  induction l with
  | nil =>
    intro prev ptr q
    obtain ⟨a, t, rfl⟩ := List.exists_cons_of_ne_nil hs
    simp [FindVarNameFrom, accAt, List.isPrefixOf]
  | cons c rest ih =>
    intro prev ptr q
    rw [FindVarNameFrom_cons string hs]
    by_cases h0 : accAt string prev (c :: rest) 0
    · rw [if_pos h0]
      constructor
      · intro h
        refine ⟨0, ?_, h0, ?_⟩
        · simpa using (Option.some.inj h).symm
        · intro j hj; omega
      · rintro ⟨k, hk, hacc, hmin⟩
        cases k with
        | zero => simp [hk]
        | succ k => exact absurd h0 (hmin 0 (by omega))
    · rw [if_neg h0, ih]
      constructor
      · rintro ⟨k, hk, hacc, hmin⟩
        refine ⟨k + 1, by omega, (accAt_succ _ _ _ _ _).2 hacc, ?_⟩
        intro j hj
        cases j with
        | zero => exact h0
        | succ j => exact fun h => hmin j (by omega) ((accAt_succ _ _ _ _ _).1 h)
      · rintro ⟨k, hk, hacc, hmin⟩
        cases k with
        | zero => exact absurd hacc h0
        | succ k =>
          refine ⟨k, by omega, (accAt_succ _ _ _ _ _).1 hacc, ?_⟩
          intro j hj h
          exact hmin (j + 1) (by omega) ((accAt_succ _ _ _ _ _).2 h)

theorem FindVarNameFrom_none (string : List Char) (hs : string ≠ []) :
    ∀ (l : List Char) (prev : Char) (ptr : Nat),
      FindVarNameFrom string prev l ptr = none ↔ ∀ k, ¬ accAt string prev l k := by
  intro l
  induction l with
  | nil =>
    intro prev ptr
    obtain ⟨a, t, rfl⟩ := List.exists_cons_of_ne_nil hs
    simp [FindVarNameFrom, accAt, List.isPrefixOf]
  | cons c rest ih =>
    intro prev ptr
    rw [FindVarNameFrom_cons string hs]
    by_cases h0 : accAt string prev (c :: rest) 0
    · rw [if_pos h0]
      constructor
      · intro h; cases h
      · intro h; exact absurd h0 (h 0)
    · rw [if_neg h0, ih]
      constructor
      · intro h k
        cases k with
        | zero => exact h0
        | succ k => exact fun hk => h k ((accAt_succ _ _ _ _ _).1 hk)
      · intro h k hk
        exact h (k + 1) ((accAt_succ _ _ _ _ _).2 hk)

theorem accAt_drop (mem string : List Char) (buffer k : Nat) :
    accAt string (peek mem ((buffer : Int) - 1)) (mem.drop buffer) k ↔
      wordAt mem string (buffer + k) := by
  unfold accAt wordAt
  have hf : (mem.drop buffer).getD (k + string.length) NUL
      = mem.getD (buffer + k + string.length) NUL := by
    rw [getD_drop, Nat.add_assoc]
  have hp : (if k = 0 then peek mem ((buffer : Int) - 1) else (mem.drop buffer).getD (k - 1) NUL)
      = peek mem (((buffer + k : Nat) : Int) - 1) := by
    cases k with
    | zero => simp
    | succ k =>
      have : (((buffer + (k + 1) : Nat) : Int) - 1) = ((buffer + k : Nat) : Int) := by
        push_cast; ring
      rw [this, peek_natCast, getD_drop]
      simp
  rw [hp, hf, List.drop_drop]

theorem FindVarName_eq_some (mem string : List Char) (buffer : Nat) (hs : string ≠ []) (p : Nat) :
    FindVarName mem buffer string = some p ↔
      buffer ≤ p ∧ wordAt mem string p ∧ ∀ q, buffer ≤ q → q < p → ¬ wordAt mem string q := by
  unfold FindVarName
  rw [FindVarNameFrom_some string hs]
  constructor
  · rintro ⟨k, rfl, hacc, hmin⟩
    refine ⟨by omega, (accAt_drop _ _ _ _).1 hacc, ?_⟩
    intro q hq1 hq2 hw
    obtain ⟨j, rfl⟩ := Nat.exists_eq_add_of_le hq1
    exact hmin j (by omega) ((accAt_drop _ _ _ _).2 hw)
  · rintro ⟨hle, hw, hmin⟩
    obtain ⟨k, rfl⟩ := Nat.exists_eq_add_of_le hle
    refine ⟨k, rfl, (accAt_drop _ _ _ _).2 hw, ?_⟩
    intro j hj hacc
    exact hmin (buffer + j) (by omega) (by omega) ((accAt_drop _ _ _ _).1 hacc)

theorem FindVarName_eq_none (mem string : List Char) (buffer : Nat) (hs : string ≠ []) :
    FindVarName mem buffer string = none ↔ ∀ q, buffer ≤ q → ¬ wordAt mem string q := by
  unfold FindVarName
  rw [FindVarNameFrom_none string hs]
  constructor
  · intro h q hq
    obtain ⟨j, rfl⟩ := Nat.exists_eq_add_of_le hq
    exact fun hw => h j ((accAt_drop _ _ _ _).2 hw)
  · intro h k hacc
    exact h (buffer + k) (by omega) ((accAt_drop _ _ _ _).1 hacc)

theorem getD_append_drop (K orig : List Char) (n : Nat) (h : K.length ≤ n) :
    (K ++ orig.drop K.length).getD n NUL = orig.getD n NUL := by
  simp only [List.getD_eq_getElem?_getD]
  rw [List.getElem?_append_right h, List.getElem?_drop]
  congr 2
  omega

theorem peekPre_natCast (m2 m1 : Char) (s : List Char) (n : Nat) :
    peekPre m2 m1 s (n : Int) = s.getD n NUL := by
  unfold peekPre
  have h1 : ¬ ((n : Int) = -2) := by omega
  have h2 : ¬ ((n : Int) = -1) := by omega
  rw [if_neg h1, if_neg h2, peek_natCast]

theorem set_append_drop (K orig : List Char) (c : Char) (h : K.length < orig.length) :
    (K ++ orig.drop K.length).set K.length c = (K ++ [c]) ++ orig.drop (K ++ [c]).length := by
  have hd : orig.drop K.length = orig[K.length] :: orig.drop (K.length + 1) :=
    List.drop_eq_getElem_cons h
  rw [List.set_append_right _ _ (Nat.le_refl _), Nat.sub_self, hd, List.set_cons_zero]
  simp

theorem peekPre_set (m2 m1 : Char) (s : List Char) (out : Nat) (c : Char) (j : Int)
    (hout : out < s.length) :
    peekPre m2 m1 (s.set out c) j = if j = (out : Int) then c else peekPre m2 m1 s j := by
  unfold peekPre
  by_cases h2 : j = -2
  · have : ¬ (j = (out : Int)) := by omega
    simp [h2]
  by_cases h1 : j = -1
  · have : ¬ (j = (out : Int)) := by omega
    simp [h1]
  rw [if_neg h2, if_neg h1, if_neg h2, if_neg h1]
  unfold peek
  by_cases hj : j < 0
  · have : ¬ (j = (out : Int)) := by omega
    simp [hj, this]
  · rw [if_neg hj, if_neg hj]
    simp only [List.getD_eq_getElem?_getD, List.getElem?_set]
    by_cases he : j = (out : Int)
    · subst he
      simp [hout]
    · have : ¬ (out = j.toNat) := by omega
      simp [he, this]

theorem KillComments_fold (m2 m1 : Char) (orig : List Char) :
    ∀ (k n : Nat) (s : KCState) (K : List Char) (lag : Nat),
      n + k = orig.length → s.buffer = K ++ orig.drop K.length → s.out = K.length →
      K.length + lag = n →
      (((List.range' n k).foldl (KillCommentsStep m2 m1) s).buffer.take
          ((List.range' n k).foldl (KillCommentsStep m2 m1) s).out) =
        K ++ killStream (peekPre m2 m1 s.buffer ((n : Int) - 2))
          (peekPre m2 m1 s.buffer ((n : Int) - 1)) lag s.comment (orig.drop n) := by
  intro k
  induction k with
  | zero =>
    intro n s K lag hn hb ho hl
    have : orig.drop n = [] := List.drop_eq_nil_of_le (by omega)
    simp [this, hb, ho, killStream]
  | succ k ih =>
    intro n s K lag hn hb ho hl
    have hlt : n < orig.length := by omega
    have hK : K.length < orig.length := by omega
    have hslen : s.buffer.length = orig.length := by
      rw [hb]; simp; omega
    rw [List.range'_succ, List.foldl_cons, List.drop_eq_getElem_cons hlt]
    have hc : peek s.buffer (n : Int) = orig[n] := by
      rw [peek_natCast, hb, getD_append_drop K orig n (by omega)]
      simp [List.getD_eq_getElem?_getD, hlt]
    have hnext : peek s.buffer ((n : Int) + 1) = (orig.drop (n + 1)).headD NUL := by
      have : ((n : Int) + 1) = ((n + 1 : Nat) : Int) := by push_cast; ring
      rw [this, peek_natCast, hb, getD_append_drop K orig (n + 1) (by omega)]
      cases h : orig.drop (n + 1) with
      | nil =>
        have : orig.length ≤ n + 1 := List.drop_eq_nil_iff.mp h
        simp [List.getD_eq_getElem?_getD, List.getElem?_eq_none this]
      | cons a t =>
        have h' : (orig.drop (n + 1))[0]? = some a := by rw [h]; simp
        rw [List.getElem?_drop] at h'
        simp [List.getD_eq_getElem?_getD, h']
    have e2 : (((n + 1 : Nat) : Int) - 2) = (n : Int) - 1 := by push_cast; ring
    have e1 : (((n + 1 : Nat) : Int) - 1) = (n : Int) := by push_cast; ring
    have hC : peekPre m2 m1 s.buffer (n : Int) = orig[n] := by
      rw [peekPre_natCast, ← peek_natCast]; exact hc
    have hstep : KillCommentsStep m2 m1 s n =
        if (if peekPre m2 m1 s.buffer ((n : Int) - 2) = '*' ∧
              peekPre m2 m1 s.buffer ((n : Int) - 1) = '/'
            then (if orig[n] = '/' ∧ (orig.drop (n + 1)).headD NUL = '*' then s.comment + 1
              else s.comment) - 1
            else (if orig[n] = '/' ∧ (orig.drop (n + 1)).headD NUL = '*' then s.comment + 1
              else s.comment)) = 0
        then ⟨s.buffer.set s.out orig[n], s.out + 1, 0⟩
        else ⟨s.buffer, s.out,
          (if peekPre m2 m1 s.buffer ((n : Int) - 2) = '*' ∧
              peekPre m2 m1 s.buffer ((n : Int) - 1) = '/'
            then (if orig[n] = '/' ∧ (orig.drop (n + 1)).headD NUL = '*' then s.comment + 1
              else s.comment) - 1
            else (if orig[n] = '/' ∧ (orig.drop (n + 1)).headD NUL = '*' then s.comment + 1
              else s.comment))⟩ := by
      simp only [KillCommentsStep, hc, hnext]
      split_ifs <;> simp_all
    rw [hstep, killStream]
    generalize (if peekPre m2 m1 s.buffer ((n : Int) - 2) = '*' ∧
              peekPre m2 m1 s.buffer ((n : Int) - 1) = '/'
            then (if orig[n] = '/' ∧ (orig.drop (n + 1)).headD NUL = '*' then s.comment + 1
              else s.comment) - 1
            else (if orig[n] = '/' ∧ (orig.drop (n + 1)).headD NUL = '*' then s.comment + 1
              else s.comment)) = c2
    by_cases hcopy : c2 = 0
    · -- the character is copied
      subst hcopy
      simp only [if_true]
      have hset : s.buffer.set s.out orig[n] =
          (K ++ [orig[n]]) ++ orig.drop (K ++ [orig[n]]).length := by
        rw [hb, ho]; exact set_append_drop K orig _ hK
      rw [ih (n + 1) ⟨s.buffer.set s.out orig[n], s.out + 1, 0⟩ (K ++ [orig[n]]) lag (by omega)
        hset (by simp [ho]) (by simp; omega)]
      simp only [e2, e1]
      rw [peekPre_set _ _ _ _ _ _ (by omega), peekPre_set _ _ _ _ _ _ (by omega)]
      have hA : ((n : Int) - 1 = (s.out : Int)) ↔ lag = 1 := by omega
      simp only [hC, ite_self, List.append_assoc, List.singleton_append]
      by_cases h1 : lag = 1
      · simp [h1, hA.2 h1]
      · have : ¬ ((n : Int) - 1 = (s.out : Int)) := fun h => h1 (hA.1 h)
        simp [h1, this]
    · simp only [if_neg hcopy]
      rw [ih (n + 1) ⟨s.buffer, s.out, c2⟩ K (lag + 1) (by omega) hb ho (by omega)]
      simp only [e2, e1]
      rw [hC]

theorem KillComments_eq_killStream (m2 m1 : Char) (buffer : List Char) :
    KillComments m2 m1 buffer = killStream m2 m1 0 0 buffer := by
  unfold KillComments KillCommentsRun
  rw [List.range_eq_range']
  have := KillComments_fold m2 m1 buffer buffer.length 0 ⟨buffer, 0, 0⟩ [] 0 (by simp) (by simp)
    (by simp) (by simp)
  simpa [peekPre] using this

theorem killStream_text (t : List Char) (ht : clean t) :
    ∀ (r2 r1 : Char) (lag : Nat), r1 ≠ '/' → r1 ≠ '*' →
      ∃ r2' r1', r1' ≠ '/' ∧ r1' ≠ '*' ∧
        ∀ rest, killStream r2 r1 lag 0 (t ++ rest) = t ++ killStream r2' r1' lag 0 rest := by
  induction t with
  | nil => intro r2 r1 lag h1 h2; exact ⟨r2, r1, h1, h2, fun rest => rfl⟩
  | cons c t ih =>
    intro r2 r1 lag h1 h2
    have hc := ht c (List.mem_cons_self _ _)
    obtain ⟨r2', r1', h1', h2', hrest⟩ :=
      ih (fun x hx => ht x (List.mem_cons_of_mem _ hx)) (if lag = 1 then c else r1) c lag hc.1 hc.2
    refine ⟨r2', r1', h1', h2', fun rest => ?_⟩
    rw [List.cons_append, killStream]
    simp only [hc.1, false_and, if_false, h1, and_false, if_true]
    rw [hrest]
    rfl

theorem killStream_body (body : List Char) (hb : clean body) :
    ∀ (r2 r1 : Char) (lag : Nat), r1 ≠ '/' →
      ∃ r2' r1' lag', r1' ≠ '/' ∧
        ∀ rest, killStream r2 r1 lag 1 (body ++ rest) = killStream r2' r1' lag' 1 rest := by
  induction body with
  | nil => intro r2 r1 lag h1; exact ⟨r2, r1, lag, h1, fun rest => rfl⟩
  | cons c t ih =>
    intro r2 r1 lag h1
    have hc := hb c (List.mem_cons_self _ _)
    obtain ⟨r2', r1', lag', h1', hrest⟩ :=
      ih (fun x hx => hb x (List.mem_cons_of_mem _ hx)) r1 c (lag + 1) hc.1
    refine ⟨r2', r1', lag', h1', fun rest => ?_⟩
    rw [List.cons_append, killStream]
    simp only [hc.1, false_and, if_false, h1, and_false]
    rw [if_neg (by decide), hrest]

theorem killStream_close (r2 r1 : Char) (lag : Nat) (rest : List Char) (h1 : r1 ≠ '/')
    (hr : rest.headD NUL ≠ '*') :
    killStream r2 r1 lag 1 ('*' :: '/' :: rest) = killStream '*' '/' (lag + 1 + 1) 1 rest := by
  rw [killStream]
  have e1 : ¬ (('*' : Char) = '/') := by decide
  simp only [e1, false_and, if_false, h1, and_false]
  rw [if_neg (by decide), killStream]
  simp only [hr, and_false, if_false, e1]
  rw [if_neg (by decide)]

theorem killStream_open (r2 r1 : Char) (lag : Nat) (rest : List Char) (h1 : r1 ≠ '/')
    (h2 : r1 ≠ '*') :
    killStream r2 r1 lag 0 ('/' :: '*' :: rest) = killStream '/' '*' (lag + 1 + 1) 1 rest := by
  rw [killStream]
  simp only [List.headD_cons, and_self, if_true, h1, and_false, if_false]
  rw [if_neg (by decide), killStream]
  have e1 : ¬ (('*' : Char) = '/') := by decide
  simp only [e1, false_and, if_false, h2, zero_add]
  rw [if_neg (by decide)]

theorem killStream_open_pend (lag : Nat) (rest : List Char) :
    killStream '*' '/' lag 1 ('/' :: '*' :: rest) = killStream '/' '*' (lag + 1 + 1) 1 rest := by
  rw [killStream]
  simp only [List.headD_cons, and_self, if_true]
  rw [if_neg (by decide), killStream]
  have e1 : ¬ (('*' : Char) = '/') := by decide
  have e2 : ¬ (('/' : Char) = '*') := by decide
  simp only [e1, e2, false_and, if_false]
  rw [if_neg (by decide)]
  rfl

theorem killStream_pend_char (lag : Nat) (c : Char) (rest : List Char) (hc : c ≠ '/') :
    killStream '*' '/' lag 1 (c :: rest) =
      c :: killStream (if lag = 1 then c else '/') c lag 0 rest := by
  rw [killStream]
  simp only [hc, false_and, if_false, and_self, if_true]
  rw [if_pos (by decide)]
  simp

theorem TailOK_nil : TailOK [] [] :=
  ⟨fun _ _ _ _ _ => rfl, fun _ => rfl, by decide⟩

theorem TailOK_comment (c W R : List Char) (hc : clean c) (hW : TailOK W R) :
    TailOK ('/' :: '*' :: (c ++ '*' :: '/' :: W)) R := by
  have key : ∀ lag, killStream '/' '*' lag 1 (c ++ '*' :: '/' :: W) = R := by
    intro lag
    obtain ⟨r2', r1', lag', h1', hrest⟩ := killStream_body c hc '/' '*' lag (by decide)
    rw [hrest, killStream_close _ _ _ _ h1' hW.2.2, hW.2.1]
  refine ⟨?_, ?_, by simp⟩
  · intro r2 r1 lag h1 h2
    rw [killStream_open _ _ _ _ h1 h2, key]
  · intro lag
    rw [killStream_open_pend, key]

theorem TailOK_open (copen : List Char) (hc : clean copen) : TailOK ('/' :: '*' :: copen) [] := by
  have key : ∀ lag, killStream '/' '*' lag 1 copen = [] := by
    intro lag
    obtain ⟨r2', r1', lag', h1', hrest⟩ := killStream_body copen hc '/' '*' lag (by decide)
    have := hrest []
    rw [List.append_nil] at this
    rw [this]; rfl
  refine ⟨?_, ?_, by simp⟩
  · intro r2 r1 lag h1 h2
    rw [killStream_open _ _ _ _ h1 h2, key]
  · intro lag
    rw [killStream_open_pend, key]

theorem TailOK_text (t W R : List Char) (ht : clean t) (hW : TailOK W R) :
    TailOK (t ++ W) (t ++ R) := by
  refine ⟨?_, ?_, ?_⟩
  · intro r2 r1 lag h1 h2
    obtain ⟨r2', r1', h1', h2', hrest⟩ := killStream_text t ht r2 r1 lag h1 h2
    rw [hrest, hW.1 _ _ _ h1' h2']
  · intro lag
    cases t with
    | nil => exact hW.2.1 lag
    | cons x t =>
      have hx := ht x (List.mem_cons_self _ _)
      rw [List.cons_append, killStream_pend_char _ _ _ hx.1]
      obtain ⟨r2', r1', h1', h2', hrest⟩ :=
        killStream_text t (fun y hy => ht y (List.mem_cons_of_mem _ hy))
          (if lag = 1 then x else '/') x lag hx.1 hx.2
      rw [hrest, hW.1 _ _ _ h1' h2']
      rfl
  · cases t with
    | nil => exact hW.2.2
    | cons x t => exact (ht x (List.mem_cons_self _ _)).2

theorem TailOK_withComments (segs : List (List Char × List Char)) (tl res : List Char)
    (hsegs : ∀ p ∈ segs, clean p.1 ∧ clean p.2) (htl : TailOK tl res) :
    TailOK (withComments segs tl) (textOnly segs res) := by
  induction segs with
  | nil => exact htl
  | cons p rest ih =>
    obtain ⟨t, c⟩ := p
    have hp := hsegs (t, c) (List.mem_cons_self _ _)
    have hrest := ih (fun q hq => hsegs q (List.mem_cons_of_mem _ hq))
    exact TailOK_text t _ _ hp.1 (TailOK_comment c _ _ hp.2 hrest)

theorem KillComments_of_TailOK (m2 m1 : Char) (buffer res : List Char) (h1 : m1 ≠ '/')
    (h2 : m1 ≠ '*') (h : TailOK buffer res) : KillComments m2 m1 buffer = res := by
  rw [KillComments_eq_killStream]
  exact h.1 m2 m1 0 h1 h2

/-! ## Pass-through of units -/

theorem Ansify_passthrough (funcdef : List (List Char)) (ndef : Nat)
    (h : ∀ l ∈ unitLines funcdef ndef, ';' ∉ l) :
    Ansify funcdef ndef MakeANSI = some (putLines (unitLines funcdef ndef)) := by
  unfold Ansify
  have : (unitLines funcdef ndef).all (fun l => !(l.contains ';')) = true := by
    rw [List.all_eq_true]
    intro l hl
    simpa using h l hl
  rw [if_pos this, if_pos rfl]

theorem DeAnsify_passthrough (funcdef : List (List Char)) (ndef : Nat)
    (h : ∃ l ∈ unitLines funcdef ndef, ';' ∈ l) :
    DeAnsify funcdef ndef = some (putLines (unitLines funcdef ndef)) := by
  unfold DeAnsify
  have : (unitLines funcdef ndef).any (fun l => l.contains ';') = true := by
    rw [List.any_eq_true]
    obtain ⟨l, hl, hc⟩ := h
    exact ⟨l, hl, by simpa using hc⟩
  rw [if_pos this]

/-! ## Copy-through in process_file -/

theorem killStream_sublist : ∀ (l : List Char) (r2 r1 : Char) (lag : Nat) (comment : Int),
    (killStream r2 r1 lag comment l).Sublist l := by
  intro l
  induction l with
  | nil => intro _ _ _ _; simp [killStream]
  | cons c rest ih =>
    intro r2 r1 lag comment
    rw [killStream]
    split_ifs <;>
      first
        | exact List.Sublist.cons₂ _ (ih _ _ _ _)
        | exact List.Sublist.cons _ (ih _ _ _ _)

theorem mem_KillComments (m2 m1 : Char) (buffer : List Char) (c : Char)
    (h : c ∈ KillComments m2 m1 buffer) : c ∈ buffer := by
  rw [KillComments_eq_killStream] at h
  exact (killStream_sublist buffer m2 m1 0 0).subset h

theorem mem_terminate (l : List Char) (c : Char) (h : c ∈ terminate l) : c ∈ l :=
  (List.takeWhile_sublist _).subset h

theorem round_copy (mode : Nat) (st : ClassifierState) (fd : List (List Char))
    (raw : List Char) (rest : List (List Char)) (out : List Char)
    (h : (isInteresting st (terminate raw)).1 = 0 ∨
      '(' ∉ KillComments NUL NUL (terminate raw)) :
    round mode st fd raw rest out =
      .next (isInteresting st (terminate raw)).2 fd rest (out ++ copyLine mode (terminate raw)) := by
  unfold round
  by_cases h1 : (isInteresting st (terminate raw)).1 = 0
  · simp only
    rw [if_neg (by simpa using h1)]
  · have h2 : '(' ∉ KillComments NUL NUL (terminate raw) := by
      cases h with
      | inl h => exact absurd h h1
      | inr h => exact h
    have h3 : (KillComments NUL NUL (terminate raw)).contains '(' = false := by
      simpa using h2
    simp only
    rw [if_pos h1, if_neg (by rw [h3]; decide)]

theorem process_loop_copy (mode fuel : Nat) (st : ClassifierState) (fd : List (List Char))
    (raw : List Char) (rest : List (List Char)) (out : List Char)
    (h : (isInteresting st (terminate raw)).1 = 0 ∨
      '(' ∉ KillComments NUL NUL (terminate raw)) :
    process_loop mode (fuel + 1) st fd (raw :: rest) out =
      process_loop mode fuel (isInteresting st (terminate raw)).2 fd rest
        (out ++ copyLine mode (terminate raw)) := by
  rw [process_loop, round_copy mode st fd raw rest out h]

theorem process_loop_no_paren (mode : Nat) (hmode : mode ≠ MakeProtos) :
    ∀ (lines : List (List Char)) (fuel : Nat) (st : ClassifierState) (fd : List (List Char))
      (out : List Char), (∀ l ∈ lines, '(' ∉ l) → lines.length ≤ fuel →
      process_loop mode fuel st fd lines out =
        .finished (out ++ putLines (lines.map terminate)) := by
  intro lines
  induction lines with
  | nil =>
    intro fuel st fd out _ _
    cases fuel <;> simp [process_loop, putLines]
  | cons raw rest ih =>
    intro fuel st fd out hl hf
    cases fuel with
    | zero => simp at hf
    | succ fuel =>
      have hraw : '(' ∉ KillComments NUL NUL (terminate raw) := fun hc =>
        hl raw (List.mem_cons_self _ _) (mem_terminate _ _ (mem_KillComments _ _ _ _ hc))
      rw [process_loop_copy mode fuel st fd raw rest out (Or.inr hraw),
        ih fuel _ fd _ (fun l hl' => hl l (List.mem_cons_of_mem _ hl')) (by simpa using hf)]
      simp [copyLine, hmode, putLines]

/-! ## The assembling loops -/

theorem row_set (fd : List (List Char)) (i j : Nat) (l : List Char) :
    row (fd.set i l) j = if i = j ∧ i < fd.length then l else row fd j := by
  unfold row
  simp only [List.getD_eq_getElem?_getD, List.getElem?_set]
  by_cases h : i = j
  · subst h
    by_cases h2 : i < fd.length
    · simp [h2]
    · simp [h2, List.getElem?_eq_none (Nat.le_of_not_lt h2)]
  · simp [h]

theorem unitLines_succ (fd : List (List Char)) (n : Nat) :
    unitLines fd (n + 1) = unitLines fd n ++ [row fd (n + 1)] := by
  unfold unitLines
  rw [List.range_succ, List.map_append]
  rfl

theorem unitLines_set (fd : List (List Char)) (n i : Nat) (l : List Char) (h : n < i) :
    unitLines (fd.set i l) n = unitLines fd n := by
  unfold unitLines
  apply List.map_congr_left
  intro j hj
  rw [row_set]
  have : j < n + 1 := List.mem_range.mp hj
  have : ¬ (i = j ∧ i < fd.length) := by omega
  rw [if_neg this]

theorem assemble1_spec : ∀ (rest : List (List Char)) (st : ClassifierState)
    (fd : List (List Char)) (ndef : Nat) (st1 : ClassifierState) (fd1 : List (List Char))
    (ndef1 : Nat) (rest1 : List (List Char)),
    assemble1 st fd ndef rest = .unit st1 fd1 ndef1 rest1 → MAXLINES ≤ fd.length →
    ndef < MAXLINES → ndef1 + rest1.length = ndef + rest.length →
    ndef ≤ ndef1 ∧ ndef1 < MAXLINES ∧ rest1 = rest.drop (ndef1 - ndef) ∧
      unitLines fd1 ndef1 = unitLines fd ndef ++ (rest.take (ndef1 - ndef)).map terminate := by
  intro rest
  induction rest with
  | nil =>
    intro st fd ndef st1 fd1 ndef1 rest1 h hlen hn hcnt
    rw [assemble1] at h
    split_ifs at h
    · cases h
      simp [hn]
    · cases h
      simp at hcnt
  | cons raw rest ih =>
    intro st fd ndef st1 fd1 ndef1 rest1 h hlen hn hcnt
    rw [assemble1] at h
    split_ifs at h with h1 h2
    · cases h
      simp [hn]
    · have hh := ih _ _ _ _ _ _ _ h (by simpa using hlen) (by omega) (by simp at hcnt ⊢; omega)
      obtain ⟨hle, hlt, hrest, hunit⟩ := hh
      have e : ndef1 - ndef = (ndef1 - (ndef + 1)) + 1 := by omega
      refine ⟨by omega, hlt, ?_, ?_⟩
      · rw [e, List.drop_succ_cons]; exact hrest
      · rw [hunit, e, List.take_succ_cons, List.map_cons, unitLines_succ,
          unitLines_set _ _ _ _ (by omega), row_set, if_pos ⟨rfl, by omega⟩]
        simp

theorem assemble1_length : ∀ (rest : List (List Char)) (st : ClassifierState)
    (fd : List (List Char)) (ndef : Nat) (st1 : ClassifierState) (fd1 : List (List Char))
    (ndef1 : Nat) (rest1 : List (List Char)),
    assemble1 st fd ndef rest = .unit st1 fd1 ndef1 rest1 →
    rest1.length ≤ rest.length ∧ fd1.length = fd.length := by
  intro rest
  induction rest with
  | nil =>
    intro st fd ndef st1 fd1 ndef1 rest1 h
    rw [assemble1] at h
    split_ifs at h <;> cases h <;> simp
  | cons raw rest ih =>
    intro st fd ndef st1 fd1 ndef1 rest1 h
    rw [assemble1] at h
    split_ifs at h with h1 h2
    · cases h; simp
    · have := ih _ _ _ _ _ _ _ h
      simp at this ⊢
      omega

theorem assemble2_length : ∀ (rest : List (List Char)) (st : ClassifierState)
    (fd : List (List Char)) (ndef : Nat) (st1 : ClassifierState) (fd1 : List (List Char))
    (ndef1 : Nat) (rest1 : List (List Char)),
    assemble2 st fd ndef rest = .unit st1 fd1 ndef1 rest1 →
    rest1.length ≤ rest.length ∧ fd1.length = fd.length := by
  intro rest
  induction rest with
  | nil =>
    intro st fd ndef st1 fd1 ndef1 rest1 h
    rw [assemble2] at h
    split_ifs at h <;> cases h <;> simp
  | cons raw rest ih =>
    intro st fd ndef st1 fd1 ndef1 rest1 h
    rw [assemble2] at h
    split_ifs at h with h1 h2
    · cases h; simp
    · have := ih _ _ _ _ _ _ _ h
      simp at this ⊢
      omega

theorem handUnit_next (mode : Nat) (out : List Char) (a : Assembled) (st2 : ClassifierState)
    (fd2 rest2 : List (List Char)) (out2 : List Char)
    (h : handUnit mode out a = .next st2 fd2 rest2 out2) :
    ∃ st fd ndef rest text, a = .unit st fd ndef rest ∧ ndef < MAXLINES ∧
      transcode mode fd ndef = some text ∧ st2 = st ∧ fd2 = fd ∧ rest2 = rest ∧
      out2 = out ++ text := by
  cases a with
  | tooMany fd => simp [handUnit] at h
  | unit st fd ndef rest =>
    rw [handUnit] at h
    by_cases h0 : ndef ≥ MAXLINES
    · rw [if_pos h0] at h; cases h
    · rw [if_neg h0] at h
      cases h4 : transcode mode fd ndef with
      | none => rw [h4] at h; cases h
      | some text =>
        rw [h4] at h
        cases h
        exact ⟨_, _, _, _, _, rfl, by omega, h4, rfl, rfl, rfl, rfl⟩

theorem handUnit_ne_outOfFuel (mode : Nat) (out : List Char) (a : Assembled) :
    handUnit mode out a ≠ .stop .outOfFuel := by
  cases a with
  | tooMany fd => simp [handUnit]
  | unit st fd ndef rest =>
    rw [handUnit]
    by_cases h0 : ndef ≥ MAXLINES
    · rw [if_pos h0]; simp
    · rw [if_neg h0]
      cases transcode mode fd ndef <;> simp

theorem afterUnit_cases (mode : Nat) (out : List Char) (st1 : ClassifierState)
    (fd1 : List (List Char)) (ndef1 : Nat) (rest1 : List (List Char)) :
    afterUnit mode out st1 fd1 ndef1 rest1 = .stop .undefined ∨
    (isFunc fd1 ndef1 = some 0 ∧ ndef1 < MAXLINES ∧
      afterUnit mode out st1 fd1 ndef1 rest1 = .next st1 fd1 rest1
        (if mode ≠ MakeProtos then out ++ putLines (unitLines fd1 ndef1) else out)) ∨
    ((∃ v, isFunc fd1 ndef1 = some (v + 1)) ∧ ndef1 < MAXLINES ∧
      afterUnit mode out st1 fd1 ndef1 rest1 = handUnit mode out
        (if (row fd1 ndef1).contains ';' ∧ ¬ (row fd1 ndef1).contains '\x7b'
         then assemble2 st1 fd1 ndef1 rest1 else .unit st1 fd1 ndef1 rest1)) := by
  unfold afterUnit
  by_cases h0 : ndef1 ≥ MAXLINES
  · left; rw [if_pos h0]
  · rw [if_neg h0]
    cases h2 : isFunc fd1 ndef1 with
    | none => left; rfl
    | some v =>
      cases v with
      | zero => right; left; exact ⟨rfl, by omega, rfl⟩
      | succ v => right; right; exact ⟨⟨v, rfl⟩, by omega, rfl⟩

theorem afterUnit_next (mode : Nat) (out : List Char) (st1 : ClassifierState)
    (fd1 : List (List Char)) (ndef1 : Nat) (rest1 : List (List Char)) (st2 : ClassifierState)
    (fd2 rest2 : List (List Char)) (out2 : List Char)
    (h : afterUnit mode out st1 fd1 ndef1 rest1 = .next st2 fd2 rest2 out2) :
    rest2.length ≤ rest1.length ∧ fd2.length = fd1.length := by
  rcases afterUnit_cases mode out st1 fd1 ndef1 rest1 with h1 | ⟨_, _, h1⟩ | ⟨_, _, h1⟩
  · rw [h1] at h; cases h
  · rw [h1] at h; cases h; exact ⟨Nat.le_refl _, rfl⟩
  · rw [h1] at h
    obtain ⟨st, fd, ndef, rest, text, ha, _, _, rfl, rfl, rfl, rfl⟩ := handUnit_next _ _ _ _ _ _ _ h
    by_cases hc : (row fd1 ndef1).contains ';' = true ∧ ¬ (row fd1 ndef1).contains '\x7b' = true
    · rw [if_pos hc] at ha
      exact assemble2_length _ _ _ _ _ _ _ _ ha
    · rw [if_neg hc] at ha
      cases ha
      exact ⟨Nat.le_refl _, rfl⟩

theorem afterUnit_ne_outOfFuel (mode : Nat) (out : List Char) (st1 : ClassifierState)
    (fd1 : List (List Char)) (ndef1 : Nat) (rest1 : List (List Char)) :
    afterUnit mode out st1 fd1 ndef1 rest1 ≠ .stop .outOfFuel := by
  rcases afterUnit_cases mode out st1 fd1 ndef1 rest1 with h1 | ⟨_, _, h1⟩ | ⟨_, _, h1⟩
  · rw [h1]; simp
  · rw [h1]; simp
  · rw [h1]; exact handUnit_ne_outOfFuel _ _ _

theorem round_next (mode : Nat) (st : ClassifierState) (fd : List (List Char)) (raw : List Char)
    (rest : List (List Char)) (out : List Char) (st2 : ClassifierState)
    (fd2 rest2 : List (List Char)) (out2 : List Char)
    (h : round mode st fd raw rest out = .next st2 fd2 rest2 out2) :
    rest2.length ≤ rest.length ∧ fd2.length = fd.length := by
  unfold round at h
  simp only at h
  by_cases h1 : (isInteresting st (terminate raw)).1 ≠ 0
  · rw [if_pos h1] at h
    by_cases h2 : (KillComments NUL NUL (terminate raw)).contains '(' = true
    · rw [if_pos h2] at h
      cases h3 : assemble1 (isInteresting st (terminate raw)).2 (fd.set 0 (terminate raw)) 0 rest with
      | tooMany fd1 => rw [h3] at h; cases h
      | unit st1 fd1 ndef1 rest1 =>
        rw [h3] at h
        have hl := assemble1_length _ _ _ _ _ _ _ _ h3
        have ha := afterUnit_next _ _ _ _ _ _ _ _ _ _ h
        simp at hl
        exact ⟨by omega, by omega⟩
    · rw [if_neg h2] at h; cases h; exact ⟨Nat.le_refl _, rfl⟩
  · rw [if_neg h1] at h; cases h; exact ⟨Nat.le_refl _, rfl⟩

theorem round_ne_outOfFuel (mode : Nat) (st : ClassifierState) (fd : List (List Char))
    (raw : List Char) (rest : List (List Char)) (out : List Char) :
    round mode st fd raw rest out ≠ .stop .outOfFuel := by
  unfold round
  simp only
  by_cases h1 : (isInteresting st (terminate raw)).1 ≠ 0
  · rw [if_pos h1]
    by_cases h2 : (KillComments NUL NUL (terminate raw)).contains '(' = true
    · rw [if_pos h2]
      cases h3 : assemble1 (isInteresting st (terminate raw)).2 (fd.set 0 (terminate raw)) 0 rest with
      | tooMany fd1 => simp
      | unit st1 fd1 ndef1 rest1 => exact afterUnit_ne_outOfFuel _ _ _ _ _ _
    · rw [if_neg h2]; simp
  · rw [if_neg h1]; simp

/-- The fuel that `process_file` gives its main loop always suffices: each
round reads at least one line. -/
theorem process_loop_fuel (mode : Nat) : ∀ (fuel : Nat) (st : ClassifierState)
    (fd lines : List (List Char)) (out : List Char), lines.length ≤ fuel →
    process_loop mode fuel st fd lines out ≠ .outOfFuel := by
  intro fuel
  induction fuel with
  | zero =>
    intro st fd lines out h
    cases lines with
    | nil => simp [process_loop]
    | cons a l => simp at h
  | succ fuel ih =>
    intro st fd lines out h
    cases lines with
    | nil => simp [process_loop]
    | cons raw rest =>
      have hr : rest.length ≤ fuel := by simpa using h
      rw [process_loop]
      cases hrd : round mode st fd raw rest out with
      | stop o =>
        simp only
        intro ho
        subst ho
        exact round_ne_outOfFuel _ _ _ _ _ _ hrd
      | next st1 fd1 rest1 out1 =>
        have := (round_next _ _ _ _ _ _ _ _ _ _ hrd).1
        exact ih _ _ _ _ (by omega)

theorem process_file_fuel (mode : Nat) (lines : List (List Char)) :
    process_file mode lines ≠ .outOfFuel :=
  process_loop_fuel mode _ _ _ _ _ (Nat.le_refl _)

theorem unitLines_zero_set (fd : List (List Char)) (l : List Char) (h : 0 < fd.length) :
    unitLines (fd.set 0 l) 0 = [l] := by
  unfold unitLines
  have : List.range (0 + 1) = [0] := by decide
  rw [this, List.map_singleton, row_set, if_pos ⟨rfl, h⟩]

theorem round_prototype (mode : Nat) (hmode : mode ≠ MakeProtos) (st : ClassifierState)
    (fd : List (List Char)) (raw : List Char) (rest : List (List Char)) (out : List Char)
    (st1 : ClassifierState) (fd1 : List (List Char)) (ndef1 : Nat) (rest1 : List (List Char))
    (hfd : fd.length = MAXLINES)
    (h1 : (isInteresting st (terminate raw)).1 ≠ 0)
    (h2 : '(' ∈ KillComments NUL NUL (terminate raw))
    (h3 : assemble1 (isInteresting st (terminate raw)).2 (fd.set 0 (terminate raw)) 0 rest =
      .unit st1 fd1 ndef1 rest1)
    (h4 : ndef1 + 1 + rest1.length = (raw :: rest).length)
    (h5 : isFunc fd1 ndef1 = some 0) :
    rest1 = (raw :: rest).drop (ndef1 + 1) ∧
    round mode st fd raw rest out =
      .next st1 fd1 rest1 (out ++ putLines (((raw :: rest).take (ndef1 + 1)).map terminate)) := by
  have hM : 0 < MAXLINES := by decide
  have hs := assemble1_spec _ _ _ _ _ _ _ _ h3 (by simp [hfd]) hM (by simp at h4 ⊢; omega)
  obtain ⟨_, hlt, hrest, hunit⟩ := hs
  rw [unitLines_zero_set _ _ (by omega)] at hunit
  simp only [Nat.sub_zero] at hrest hunit
  refine ⟨by simpa using hrest, ?_⟩
  unfold round
  simp only
  rw [if_pos h1, if_pos (by simpa using h2), h3]
  simp only
  unfold afterUnit
  rw [if_neg (by omega), h5]
  simp only
  rw [if_pos hmode, hunit]
  simp

theorem putLines_append (a b : List (List Char)) :
    putLines (a ++ b) = putLines a ++ putLines b := by
  induction a with
  | nil => rfl
  | cons l a ih => simp [putLines, ih]

theorem fgets_line : ∀ (l : List Char) (n : Nat) (rest : List Char), '\n' ∉ l →
    l.length < n → fgets n (l ++ '\n' :: rest) = (l ++ ['\n'], rest)
  | [], n, rest, _, hn => by
      cases n with
      | zero => omega
      | succ n => simp [fgets]
  | c :: l, n, rest, hl, hn => by
      cases n with
      | zero => omega
      | succ n =>
        have hc : c ≠ '\n' := fun e => hl (e ▸ List.mem_cons_self _ _)
        have := fgets_line l n rest (fun hm => hl (List.mem_cons_of_mem _ hm))
          (by simpa using hn)
        show fgets (n + 1) (c :: (l ++ '\n' :: rest)) = _
        rw [fgets, if_neg hc, this]
        rfl

theorem fgetsAll_putLines : ∀ (lines : List (List Char)) (fuel : Nat),
    (∀ l ∈ lines, '\n' ∉ l) → (∀ l ∈ lines, l.length + 2 ≤ MAXBUFF) → lines.length ≤ fuel →
    fgetsAll fuel (putLines lines) = lines.map (fun l => l ++ ['\n'])
  | [], fuel, _, _, _ => by
      cases fuel with
      | zero => rfl
      | succ fuel => simp [fgetsAll, putLines]
  | l :: lines, fuel, h, hlen, hf => by
      cases fuel with
      | zero => simp at hf
      | succ fuel =>
        have hl := h l (List.mem_cons_self _ _)
        have hll := hlen l (List.mem_cons_self _ _)
        have e : putLines (l :: lines) = l ++ '\n' :: putLines lines := by simp [putLines]
        have hne : l ++ '\n' :: putLines lines ≠ [] := by simp
        rw [e, fgetsAll, if_neg hne, fgets_line l (MAXBUFF - 1) _ hl (by omega)]
        simp only [List.map_cons]
        rw [fgetsAll_putLines lines fuel (fun x hx => h x (List.mem_cons_of_mem _ hx))
          (fun x hx => hlen x (List.mem_cons_of_mem _ hx)) (by simpa using hf)]

theorem putLines_length_ge (lines : List (List Char)) : lines.length ≤ (putLines lines).length := by
  induction lines with
  | nil => simp
  | cons l lines ih => simp [putLines]; omega

theorem terminate_append_newline (l : List Char) (h : '\n' ∉ l) : terminate (l ++ ['\n']) = l := by
  unfold terminate
  induction l with
  | nil => simp
  | cons c l ih =>
    have hc : c ≠ '\n' := fun e => h (e ▸ List.mem_cons_self _ _)
    simp only [List.cons_append, List.takeWhile_cons]
    rw [ih (fun hm => h (List.mem_cons_of_mem _ hm))]
    simp [hc]

theorem textLines_putLines (lines : List (List Char)) (h : ∀ l ∈ lines, '\n' ∉ l)
    (hlen : ∀ l ∈ lines, l.length + 2 ≤ MAXBUFF) : textLines (putLines lines) = lines := by
  unfold textLines
  rw [fgetsAll_putLines lines _ h hlen (putLines_length_ge lines), List.map_map]
  conv_rhs => rw [← List.map_id lines]
  apply List.map_congr_left
  intro l hl
  exact terminate_append_newline l (h l hl)

theorem terminate_eq_self (l : List Char) (h : '\n' ∉ l) : terminate l = l := by
  unfold terminate
  rw [List.takeWhile_eq_self_iff]
  intro c hc
  have : c ≠ '\n' := fun e => h (e ▸ hc)
  simpa using this

theorem round_function_ansi (st : ClassifierState) (fd : List (List Char)) (raw : List Char)
    (rest : List (List Char)) (out : List Char)
    (st1 : ClassifierState) (fd1 : List (List Char)) (ndef1 : Nat) (rest1 : List (List Char))
    (v : Nat) (hfd : fd.length = MAXLINES)
    (h1 : (isInteresting st (terminate raw)).1 ≠ 0)
    (h2 : (KillComments NUL NUL (terminate raw)).contains '(' = true)
    (h3 : assemble1 (isInteresting st (terminate raw)).2 (fd.set 0 (terminate raw)) 0 rest =
      .unit st1 fd1 ndef1 rest1)
    (h4 : ndef1 + 1 + rest1.length = (raw :: rest).length)
    (h5 : isFunc fd1 ndef1 = some (v + 1))
    (h6 : (unitLines fd1 ndef1).all (fun l => !(l.contains ';')) = true) :
    rest1 = (raw :: rest).drop (ndef1 + 1) ∧
    round MakeANSI st fd raw rest out =
      .next st1 fd1 rest1 (out ++ putLines (((raw :: rest).take (ndef1 + 1)).map terminate)) := by
  have hM : 0 < MAXLINES := by decide
  have hs := assemble1_spec _ _ _ _ _ _ _ _ h3 (by simp [hfd]) hM (by simp at h4 ⊢; omega)
  obtain ⟨_, hlt, hrest, hunit⟩ := hs
  rw [unitLines_zero_set _ _ (by omega)] at hunit
  simp only [Nat.sub_zero] at hrest hunit
  refine ⟨by simpa using hrest, ?_⟩
  have hall : ∀ l ∈ unitLines fd1 ndef1, ';' ∉ l := by
    intro l hl
    have := (List.all_eq_true.mp h6) l hl
    simpa using this
  have hrow : row fd1 ndef1 ∈ unitLines fd1 ndef1 := by
    unfold unitLines
    exact List.mem_map.mpr ⟨ndef1, List.mem_range.mpr (by omega), rfl⟩
  have hns : ¬ ((row fd1 ndef1).contains ';' = true ∧ ¬ (row fd1 ndef1).contains '\x7b' = true) := by
    intro hc
    exact hall _ hrow (by simpa using hc.1)
  unfold round
  simp only
  rw [if_pos h1, if_pos h2, h3]
  simp only
  unfold afterUnit
  rw [if_neg (by omega), h5]
  simp only
  rw [if_neg hns, handUnit, if_neg (by omega)]
  have ht : transcode MakeANSI fd1 ndef1 = some (putLines (unitLines fd1 ndef1)) := by
    unfold transcode
    rw [if_neg (by decide), if_pos (Or.inl rfl)]
    exact Ansify_passthrough fd1 ndef1 hall
  rw [ht, hunit]
  simp

theorem assemble1_fd_length (st : ClassifierState) (fd : List (List Char)) (ndef : Nat)
    (rest : List (List Char)) (st1 : ClassifierState) (fd1 : List (List Char)) (ndef1 : Nat)
    (rest1 : List (List Char)) (h : assemble1 st fd ndef rest = .unit st1 fd1 ndef1 rest1) :
    fd1.length = fd.length :=
  (assemble1_length _ _ _ _ _ _ _ _ h).2

theorem keepsAll_loop : ∀ (fuel : Nat) (st : ClassifierState) (fd lines : List (List Char))
    (out : List Char), fd.length = MAXLINES → keepsAll fuel st fd lines = true →
    process_loop MakeANSI fuel st fd lines out =
      .finished (out ++ putLines (lines.map terminate)) := by
  intro fuel
  induction fuel using Nat.strong_induction_on with
  | _ fuel ih =>
    intro st fd lines out hfd hk
    cases lines with
    | nil => cases fuel <;> simp [process_loop, putLines]
    | cons raw rest =>
      cases fuel with
      | zero => simp [keepsAll] at hk
      | succ fuel =>
        rw [keepsAll] at hk
        rw [process_loop]
        by_cases hc : (isInteresting st (terminate raw)).1 ≠ 0 ∧
            (KillComments NUL NUL (terminate raw)).contains '(' = true
        · rw [if_pos hc] at hk
          cases h3 : assemble1 (isInteresting st (terminate raw)).2 (fd.set 0 (terminate raw)) 0
              rest with
          | tooMany fd1 => rw [h3] at hk; simp at hk
          | unit st1 fd1 ndef1 rest1 =>
            rw [h3] at hk
            simp only [Bool.and_eq_true, decide_eq_true_eq] at hk
            obtain ⟨⟨h4, h5⟩, h7⟩ := hk
            have hfd1 : fd1.length = MAXLINES := by
              rw [assemble1_fd_length _ _ _ _ _ _ _ _ h3]; simpa using hfd
            have hsplit : (raw :: rest).map terminate =
                ((raw :: rest).take (ndef1 + 1)).map terminate ++
                  ((raw :: rest).drop (ndef1 + 1)).map terminate := by
              rw [← List.map_append, List.take_append_drop]
            have hmem : '(' ∈ KillComments NUL NUL (terminate raw) := by simpa using hc.2
            cases hf : isFunc fd1 ndef1 with
            | none => rw [hf] at h5; simp at h5
            | some v =>
              cases v with
              | zero =>
                obtain ⟨hr, hround⟩ := round_prototype MakeANSI (by decide) st fd raw rest out st1
                  fd1 ndef1 rest1 hfd hc.1 hmem h3 h4 hf
                rw [hround]
                simp only
                rw [ih fuel (Nat.lt_succ_self _) st1 fd1 rest1 _ hfd1 h7, hsplit, putLines_append,
                  ← hr]
                simp
              | succ v =>
                rw [hf] at h5
                simp only at h5
                obtain ⟨hr, hround⟩ := round_function_ansi st fd raw rest out st1 fd1 ndef1 rest1
                  v hfd hc.1 hc.2 h3 h4 hf h5
                rw [hround]
                simp only
                rw [ih fuel (Nat.lt_succ_self _) st1 fd1 rest1 _ hfd1 h7, hsplit, putLines_append,
                  ← hr]
                simp
        · rw [if_neg hc] at hk
          have hcopy : (isInteresting st (terminate raw)).1 = 0 ∨
              '(' ∉ KillComments NUL NUL (terminate raw) := by
            by_cases h1 : (isInteresting st (terminate raw)).1 = 0
            · exact Or.inl h1
            · right
              intro hm
              exact hc ⟨h1, by simpa using hm⟩
          rw [round_copy MakeANSI st fd raw rest out hcopy]
          simp only
          rw [ih fuel (Nat.lt_succ_self _) _ fd rest _ hfd hk]
          simp [copyLine, putLines, MakeANSI, MakeProtos]

theorem WriteANSI_of_word (mem name : List Char) (defs p : Nat) (hn : name ≠ [])
    (hp : defs ≤ p) (hw : wordAt mem name p)
    (hmin : ∀ q, defs ≤ q → q < p → name.isPrefixOf (mem.drop q) = true →
      precOK (peek mem ((q : Int) - 1)) = false ∨
        follOK (mem.getD (q + name.length) NUL) = false) :
    FindVarName mem defs name = some p := by
  rw [FindVarName_eq_some mem name defs hn]
  refine ⟨hp, hw, ?_⟩
  intro q h1 h2 hq
  rcases hmin q h1 h2 hq.1 with h | h
  · rw [hq.2.1] at h; cases h
  · rw [hq.2.2] at h; cases h

/-! ## The scanning loops -/

theorem peek_of_nonneg (s : List Char) (i : Int) (h : 0 ≤ i) : peek s i = s.getD i.toNat NUL := by
  unfold peek
  rw [if_neg (by omega)]

theorem stepBackFuel_eq (c : Char → Bool) (s : List Char) (lo q : Int) :
    ∀ (fuel : Nat) (p : Int), lo ≤ q → q ≤ p → p - q ≤ fuel →
      (∀ i, q < i → i ≤ p → c (peek s i) = true) → (q = lo ∨ c (peek s q) = false) →
      stepBackFuel c s lo fuel p = q := by
  intro fuel
  induction fuel with
  | zero =>
    intro p h1 h2 h3 _ _
    have : p = q := by omega
    simp [stepBackFuel, this]
  | succ fuel ih =>
    intro p h1 h2 h3 hall hq
    rw [stepBackFuel]
    by_cases hpq : p = q
    · subst hpq
      have : ¬ (p > lo ∧ c (peek s p) = true) := by
        rintro ⟨ha, hb⟩
        rcases hq with h | h
        · omega
        · rw [h] at hb; cases hb
      rw [if_neg this]
    · have hp : p > lo ∧ c (peek s p) = true := ⟨by omega, hall p (by omega) (Int.le_refl _)⟩
      rw [if_pos hp]
      exact ih (p - 1) h1 (by omega) (by omega) (fun i hi1 hi2 => hall i hi1 (by omega)) hq

theorem stepBack_eq (c : Char → Bool) (s : List Char) (lo p q : Int) (h1 : lo ≤ q) (h2 : q ≤ p)
    (hall : ∀ i, q < i → i ≤ p → c (peek s i) = true) (hq : q = lo ∨ c (peek s q) = false) :
    stepBack c s lo p = q := by
  unfold stepBack
  exact stepBackFuel_eq c s lo q _ p h1 h2 (by omega) hall hq

theorem stepFwdToFuel_eq (c : Char → Bool) (s : List Char) (hi q : Int) :
    ∀ (fuel : Nat) (p : Int), p ≤ q → q ≤ hi → q - p ≤ fuel →
      (∀ i, p ≤ i → i < q → c (peek s i) = true) → (q = hi ∨ c (peek s q) = false) →
      stepFwdToFuel c s hi fuel p = q := by
  intro fuel
  induction fuel with
  | zero =>
    intro p h1 h2 h3 _ _
    have : p = q := by omega
    simp [stepFwdToFuel, this]
  | succ fuel ih =>
    intro p h1 h2 h3 hall hq
    rw [stepFwdToFuel]
    by_cases hpq : p = q
    · subst hpq
      have : ¬ (p < hi ∧ c (peek s p) = true) := by
        rintro ⟨ha, hb⟩
        rcases hq with h | h
        · omega
        · rw [h] at hb; cases hb
      rw [if_neg this]
    · have hp : p < hi ∧ c (peek s p) = true := ⟨by omega, hall p (Int.le_refl _) (by omega)⟩
      rw [if_pos hp]
      exact ih (p + 1) (by omega) h2 (by omega) (fun i hi1 hi2 => hall i (by omega) hi2) hq

theorem stepFwdTo_eq (c : Char → Bool) (s : List Char) (hi p q : Int) (h1 : p ≤ q) (h2 : q ≤ hi)
    (hall : ∀ i, p ≤ i → i < q → c (peek s i) = true) (hq : q = hi ∨ c (peek s q) = false) :
    stepFwdTo c s hi p = q := by
  unfold stepFwdTo
  exact stepFwdToFuel_eq c s hi q _ p h1 h2 (by omega) hall hq

theorem takeWhile_length_eq (c : Char → Bool) : ∀ (l : List Char) (n : Nat), n ≤ l.length →
    (∀ i, i < n → c (l.getD i NUL) = true) → (n = l.length ∨ c (l.getD n NUL) = false) →
    (l.takeWhile c).length = n := by
  intro l
  induction l with
  | nil => intro n h _ _; simp at h; simp [h]
  | cons a l ih =>
    intro n h hall hn
    cases n with
    | zero =>
      rcases hn with hn | hn
      · simp at hn
      · have : c a = false := by simpa using hn
        simp [List.takeWhile, this]
    | succ n =>
      have ha : c a = true := by simpa using hall 0 (by omega)
      rw [List.takeWhile_cons, if_pos ha, List.length_cons,
        ih n (by simpa using h) (fun i hi => by simpa using hall (i + 1) (by omega))
          (by rcases hn with hn | hn
              · left; simpa using hn
              · right; simpa using hn)]

theorem stepFwd_eq (c : Char → Bool) (s : List Char) (p q : Nat) (h1 : p ≤ q)
    (h2 : q ≤ s.length) (hall : ∀ i, p ≤ i → i < q → c (s.getD i NUL) = true)
    (hq : q = s.length ∨ c (s.getD q NUL) = false) :
    stepFwd c s (p : Int) = (q : Int) := by
  unfold stepFwd
  rw [if_neg (by omega)]
  have : ((s.drop p).takeWhile c).length = q - p := by
    apply takeWhile_length_eq
    · simp; omega
    · intro i hi
      rw [getD_drop]
      exact hall (p + i) (by omega) (by omega)
    · rcases hq with hq | hq
      · left; simp; omega
      · right
        rw [getD_drop]
        have : p + (q - p) = q := by omega
        rw [this]; exact hq
  simp only [Int.toNat_ofNat, this]
  omega

theorem countStarsFuel_eq (s : List Char) : ∀ (k fuel : Nat) (p : Int), k ≤ fuel →
    (∀ j : Nat, j < k → peek s (p - j) = '*') → (peek s (p - k) ≠ '*') →
    countStarsFuel s fuel p = k := by
  intro k
  induction k with
  | zero =>
    intro fuel p _ _ hk
    cases fuel with
    | zero => rfl
    | succ fuel =>
      rw [countStarsFuel, if_neg (by simpa using hk)]
  | succ k ih =>
    intro fuel p hf hall hk
    cases fuel with
    | zero => omega
    | succ fuel =>
      have h0 : peek s p = '*' := by simpa using hall 0 (by omega)
      rw [countStarsFuel, if_pos h0, ih fuel (p - 1) (by omega)
        (fun j hj => by
          have := hall (j + 1) (by omega)
          have e : p - ((j + 1 : Nat) : Int) = p - 1 - (j : Int) := by push_cast; ring
          rw [e] at this; exact this)
        (by
          have e : p - ((k + 1 : Nat) : Int) = p - 1 - (k : Int) := by push_cast; ring
          rw [e] at hk; exact hk)]
      omega

theorem countStars_eq (s : List Char) (k : Nat) (p : Int) (hp : (k : Int) ≤ p + 1)
    (hall : ∀ j : Nat, j < k → peek s (p - j) = '*') (hk : peek s (p - k) ≠ '*') :
    countStars s p = k := by
  unfold countStars
  exact countStarsFuel_eq s k _ p (by omega) hall hk

theorem slice_length (s : List Char) (a b : Int) : (slice s a b).length = (b + 1 - a).toNat := by
  simp [slice]

theorem slice_eq_take_drop (s : List Char) (a n : Nat) (h : a + n ≤ s.length) :
    slice s (a : Int) ((a : Int) + (n : Int) - 1) = (s.drop a).take n := by
  apply List.ext_getElem
  · simp [slice]; omega
  · intro i h1 h2
    simp only [slice, List.getElem_map, List.getElem_range, List.getElem_take, List.getElem_drop]
    have : (a : Int) + ((i : Nat) : Int) = ((a + i : Nat) : Int) := by push_cast; ring
    rw [this, peek_natCast]
    have hi : a + i < s.length := by
      simp at h2; omega
    simp [List.getD_eq_getElem?_getD, hi]

theorem indexOf_eq_of_first (a : Char) : ∀ (l : List Char) (k : Nat), k < l.length →
    l.getD k NUL = a → (∀ j, j < k → l.getD j NUL ≠ a) → l.indexOf a = k := by
  intro l
  induction l with
  | nil => intro k h; simp at h
  | cons x l ih =>
    intro k hk hat hbefore
    cases k with
    | zero =>
      have : x = a := by simpa using hat
      simp [this]
    | succ k =>
      have hx : x ≠ a := by simpa using hbefore 0 (by omega)
      rw [List.indexOf_cons_ne _ hx]
      congr 1
      exact ih k (by simpa using hk) (by simpa using hat)
        (fun j hj => by simpa using hbefore (j + 1) (by omega))

theorem slice_getD (s : List Char) (a b : Int) (k : Nat) (hk : k < (b + 1 - a).toNat) :
    (slice s a b).getD k NUL = peek s (a + k) := by
  simp [slice, List.getD_eq_getElem?_getD, hk]

theorem firstComma_none (s : List Char) (start stop : Int)
    (h : ∀ i, start ≤ i → i ≤ stop → peek s i ≠ ',') : firstComma s start stop = stop := by
  unfold firstComma
  have hn : ',' ∉ slice s start stop := by
    intro hm
    simp only [slice, List.mem_map, List.mem_range] at hm
    obtain ⟨k, hk, he⟩ := hm
    exact h (start + k) (by omega) (by omega) he
  simp only
  rw [List.indexOf_eq_length.mpr hn, if_neg (Nat.lt_irrefl _)]

theorem firstComma_some (s : List Char) (start stop cm : Int) (h1 : start ≤ cm) (h2 : cm ≤ stop)
    (hc : peek s cm = ',') (h : ∀ i, start ≤ i → i < cm → peek s i ≠ ',') :
    firstComma s start stop = cm := by
  unfold firstComma
  have hk : (cm - start).toNat < (stop + 1 - start).toNat := by omega
  have hidx : (slice s start stop).indexOf ',' = (cm - start).toNat := by
    apply indexOf_eq_of_first
    · rw [slice_length]; exact hk
    · rw [slice_getD _ _ _ _ hk]
      have : start + ((cm - start).toNat : Int) = cm := by omega
      rw [this]; exact hc
    · intro j hj
      rw [slice_getD _ _ _ _ (by omega)]
      exact h _ (by omega) (by omega)
  simp only
  rw [hidx, slice_length, if_pos hk]
  omega

/-! ## WriteANSI on a declaration, by positions -/

theorem peek_forall (s : List Char) (P : Char → Prop) (a b : Nat)
    (h : ∀ n : Nat, a ≤ n → n ≤ b → P (s.getD n NUL)) :
    ∀ i : Int, (a : Int) ≤ i → i ≤ (b : Int) → P (peek s i) := by
  intro i h1 h2
  rw [peek_of_nonneg s i (by omega)]
  exact h i.toNat (by omega) (by omega)

theorem ansiType_eq (mem : List Char) (defs found h t0 t1 w0 z stop2 : Nat)
    (hdefs : defs ≤ h) (hh : h = defs ∨ (1 ≤ h ∧ mem.getD (h - 1) NUL = ';'))
    (hfound : h ≤ found)
    (hnosemi : ∀ n, h ≤ n → n ≤ found → mem.getD n NUL ≠ ';')
    (ht0 : h ≤ t0) (hlead : ∀ n, h ≤ n → n < t0 → isWs (mem.getD n NUL) = true)
    (ht0ws : isWs (mem.getD t0 NUL) = false) (ht0len : t0 ≤ mem.length)
    (hstop : stepFwd (fun c => c != ',' && c != ';') mem (firstComma mem t0 found) = (stop2 : Int))
    (hz : z + 1 = stop2) (ht01 : t0 ≤ t1) (ht1w : t1 < w0) (hw0z : w0 < z)
    (hword : ∀ n, w0 < n → n ≤ z → isWs (mem.getD n NUL) = false)
    (hsp : ∀ n, t1 < n → n ≤ w0 → isWs (mem.getD n NUL) = true)
    (ht1 : isWs (mem.getD t1 NUL) = false)
    (hlen : t1 + 1 - t0 ≤ MAXBUFF) (hbound : t1 < mem.length) :
    ansiType mem defs found = (mem.drop t0).take (t1 + 1 - t0) := by
  have hstart2 : (if peek mem (stepBack (fun c => c != ';') mem defs found) = ';'
      then stepBack (fun c => c != ';') mem defs found + 1
      else stepBack (fun c => c != ';') mem defs found) = (h : Int) := by
    by_cases hd : h = defs
    · have e : stepBack (fun c => c != ';') mem (defs : Int) (found : Int) = (h : Int) := by
        apply stepBack_eq
        · omega
        · omega
        · intro i hi1 hi2
          have := peek_forall mem (fun c => c ≠ ';') h found hnosemi i (by omega) hi2
          simpa using this
        · left; omega
      rw [e, peek_natCast, if_neg (hnosemi h (Nat.le_refl _) hfound)]
    · have hh' : 1 ≤ h ∧ mem.getD (h - 1) NUL = ';' := by
        rcases hh with hh | hh
        · exact absurd hh hd
        · exact hh
      have e : stepBack (fun c => c != ';') mem (defs : Int) (found : Int) = ((h - 1 : Nat) : Int) := by
        apply stepBack_eq
        · omega
        · omega
        · intro i hi1 hi2
          have := peek_forall mem (fun c => c ≠ ';') h found hnosemi i (by omega) hi2
          simpa using this
        · right
          rw [peek_natCast, hh'.2]; rfl
      rw [e, peek_natCast, if_pos hh'.2]
      omega
  have hstart3 : stepFwd isWs mem (h : Int) = (t0 : Int) := by
    apply stepFwd_eq _ _ _ _ ht0 ht0len
    · intro i hi1 hi2; exact hlead i hi1 hi2
    · right; exact ht0ws
  have hstop4 : stepBack isWs mem (t0 : Int) (z : Int) = (z : Int) := by
    apply stepBack_eq
    · omega
    · omega
    · intro i hi1 hi2; omega
    · right; rw [peek_natCast]; exact hword z hw0z (Nat.le_refl _)
  have hstop5 : stepBack (fun c => !isWs c) mem (t0 : Int) (z : Int) = (w0 : Int) := by
    apply stepBack_eq
    · omega
    · omega
    · intro i hi1 hi2
      have := peek_forall mem (fun c => isWs c = false) (w0 + 1) z
        (fun n hn1 hn2 => hword n (by omega) hn2) i (by push_cast; omega) hi2
      simp [this]
    · right; rw [peek_natCast, hsp w0 ht1w (Nat.le_refl _)]; rfl
  have hstop6 : stepBack isWs mem (t0 : Int) (w0 : Int) = (t1 : Int) := by
    apply stepBack_eq
    · omega
    · omega
    · intro i hi1 hi2
      exact peek_forall mem (fun c => isWs c = true) (t1 + 1) w0
        (fun n hn1 hn2 => hsp n (by omega) hn2) i (by push_cast; omega) hi2
    · right; rw [peek_natCast]; exact ht1
  unfold ansiType
  simp only
  rw [hstart2, hstart3, hstop]
  have e3 : ((stop2 : Nat) : Int) - 1 = (z : Int) := by omega
  rw [e3, hstop4, hstop5, hstop6]
  have e4 : (t1 : Int) = (t0 : Int) + ((t1 + 1 - t0 : Nat) : Int) - 1 := by omega
  rw [e4, slice_eq_take_drop mem t0 (t1 + 1 - t0) (by omega)]
  apply List.take_of_length_le
  rw [List.length_take]
  omega

theorem ansiStars_eq (mem : List Char) (defs found y k : Nat)
    (hy1 : defs ≤ y) (hy2 : y + 1 ≤ found)
    (hws : ∀ n, y < n → n + 1 ≤ found → isWs (mem.getD n NUL) = true)
    (hy : y = defs ∨ isWs (mem.getD y NUL) = false)
    (hk : k ≤ y + 1) (hstars : ∀ j, j < k → mem.getD (y - j) NUL = '*')
    (hend : k = y + 1 ∨ mem.getD (y - k) NUL ≠ '*') :
    ansiStars mem defs found = k := by
  have h1 : stepBack isWs mem (defs : Int) ((found : Int) - 1) = (y : Int) := by
    apply stepBack_eq
    · omega
    · omega
    · intro i hi1 hi2
      rw [peek_of_nonneg mem i (by omega)]
      exact hws i.toNat (by omega) (by omega)
    · rcases hy with hy | hy
      · left; omega
      · right; rw [peek_natCast]; exact hy
  unfold ansiStars
  simp only
  rw [h1]
  apply countStars_eq
  · omega
  · intro j hj
    have : (y : Int) - (j : Int) = ((y - j : Nat) : Int) := by omega
    rw [this, peek_natCast]
    exact hstars j hj
  · rcases hend with he | he
    · rw [peek_neg mem _ (by omega)]
      decide
    · have hk' : k ≤ y := by
        by_contra hc
        have : k = y + 1 := by omega
        subst this
        simp at he
        have := hstars y (by omega)
        simp at this
        exact he this
      have : (y : Int) - (k : Int) = ((y - k : Nat) : Int) := by omega
      rw [this, peek_natCast]
      exact he

theorem bne_and_bne_true (c a b : Char) (h1 : c ≠ a) (h2 : c ≠ b) :
    (c != a && c != b) = true := by
  simp [h1, h2]

theorem bne_and_bne_false (c a b : Char) (h : c = a ∨ c = b) : (c != a && c != b) = false := by
  rcases h with h | h <;> simp [h]

theorem bne_true (c a : Char) (h : c ≠ a) : (c != a) = true := by
  simp [h]

theorem ansiArray_nil (mem : List Char) (found e : Nat) (hfe : found < e) (he : e < mem.length)
    (hname : ∀ n, found ≤ n → n < e →
      mem.getD n NUL ≠ ',' ∧ mem.getD n NUL ≠ ';' ∧ mem.getD n NUL ≠ '[')
    (hlast : isWs (mem.getD (e - 1) NUL) = false)
    (hd : mem.getD e NUL = ',' ∨ mem.getD e NUL = ';') :
    ansiArray mem found = [] := by
  have h1 : stepFwd (fun c => c != ',' && c != ';') mem (found : Int) = (e : Int) := by
    apply stepFwd_eq _ _ _ _ (by omega) (by omega)
    · intro i hi1 hi2
      have := hname i hi1 hi2
      exact bne_and_bne_true _ _ _ this.1 this.2.1
    · right
      exact bne_and_bne_false _ _ _ hd
  have h2 : stepBack isWs mem (found : Int) ((e : Int) - 1) = ((e - 1 : Nat) : Int) := by
    apply stepBack_eq
    · omega
    · omega
    · intro i hi1 hi2; omega
    · right; rw [peek_natCast]; exact hlast
  have h3 : stepFwdTo (fun c => c != '[') mem ((e - 1 : Nat) : Int) (found : Int)
      = ((e - 1 : Nat) : Int) := by
    apply stepFwdTo_eq
    · omega
    · omega
    · intro i hi1 hi2
      rw [peek_of_nonneg mem i (by omega)]
      have := hname i.toNat (by omega) (by omega)
      exact bne_true _ _ this.2.2
    · left; rfl
  unfold ansiArray
  simp only
  rw [h1, h2, h3, if_neg (Int.lt_irrefl _)]

/-! ## WriteANSI on a declaration, by its text -/

theorem getD_mem_of_lt (l : List Char) (j : Nat) (h : j < l.length) : l.getD j NUL ∈ l := by
  rw [List.getD_eq_getElem?_getD, List.getElem?_eq_getElem h]
  exact List.getElem_mem h

theorem mem_seg (mem A X B : List Char) (hm : mem = A ++ (X ++ B)) (n : Nat)
    (h1 : A.length ≤ n) (h2 : n < A.length + X.length) :
    mem.getD n NUL = X.getD (n - A.length) NUL ∧ mem.getD n NUL ∈ X := by
  have e : mem.getD n NUL = X.getD (n - A.length) NUL := by
    subst hm
    simp only [List.getD_eq_getElem?_getD]
    rw [List.getElem?_append_right h1, List.getElem?_append_left (by omega)]
  exact ⟨e, e ▸ getD_mem_of_lt X _ (by omega)⟩

theorem mem_seg_head (mem A B : List Char) (c : Char) (hm : mem = A ++ (c :: B)) :
    mem.getD A.length NUL = c := by
  subst hm
  simp only [List.getD_eq_getElem?_getD]
  rw [List.getElem?_append_right (Nat.le_refl _)]
  simp

theorem getD_getLast (l : List Char) (h : l ≠ []) : l.getD (l.length - 1) NUL = l.getLast h := by
  rw [List.getD_eq_getElem?_getD, List.getLast_eq_getElem]
  have : l.length - 1 < l.length := by
    have := List.length_pos.mpr h
    omega
  simp [List.getElem?_eq_getElem this]

theorem getD_head (l : List Char) (h : l ≠ []) : l.getD 0 NUL = l.head h := by
  cases l with
  | nil => exact absurd rfl h
  | cons a l => rfl

/-- The type words in front of the first declarator: `ansiType` gives `T` for a
name found at `found` when `stop` is brought to the delimiter `cm` behind the
first declarator `W0`. -/
theorem ansiType_anchor (mem head lead T B0 W0 rest0 : List Char) (defs found : Nat)
    (hmem : mem = head ++ (lead ++ (T ++ (B0 ++ (W0 ++ rest0)))))
    (hdefs : defs ≤ head.length)
    (hhead : head.length = defs ∨ head.getLast? = some ';')
    (hlead : ∀ c ∈ lead, isWs c = true)
    (hT : T ≠ []) (hT0 : isWs (T.head hT) = false) (hT1 : isWs (T.getLast hT) = false)
    (hTlen : T.length ≤ MAXBUFF)
    (hB0 : B0 ≠ []) (hB0ws : ∀ c ∈ B0, isWs c = true)
    (hW0 : W0 ≠ []) (hW0ws : ∀ c ∈ W0, isWs c = false)
    (hfound : head.length ≤ found)
    (hnosemi : ∀ n, head.length ≤ n → n ≤ found → mem.getD n NUL ≠ ';')
    (hstop : stepFwd (fun c => c != ',' && c != ';') mem
        (firstComma mem ((head.length + lead.length : Nat) : Int) found) =
      ((head.length + lead.length + T.length + B0.length + W0.length : Nat) : Int)) :
    ansiType mem defs found = T := by
  have hTl := List.length_pos.mpr hT
  have hBl := List.length_pos.mpr hB0
  have hWl := List.length_pos.mpr hW0
  have hsT : mem = (head ++ lead) ++ (T ++ (B0 ++ (W0 ++ rest0))) := by
    rw [hmem]; simp [List.append_assoc]
  have hsB : mem = (head ++ (lead ++ T)) ++ (B0 ++ (W0 ++ rest0)) := by
    rw [hmem]; simp [List.append_assoc]
  have hsW : mem = (head ++ (lead ++ (T ++ B0))) ++ (W0 ++ rest0) := by
    rw [hmem]; simp [List.append_assoc]
  have hlenmem : mem.length = head.length + lead.length + T.length + B0.length + W0.length
      + rest0.length := by
    rw [hmem]; simp; omega
  have h := ansiType_eq mem defs found head.length (head.length + lead.length)
    (head.length + lead.length + T.length - 1)
    (head.length + lead.length + T.length + B0.length - 1)
    (head.length + lead.length + T.length + B0.length + W0.length - 1)
    (head.length + lead.length + T.length + B0.length + W0.length)
    hdefs ?_ hfound hnosemi (by omega) ?_ ?_ (by omega) hstop (by omega) (by omega) (by omega)
    (by omega) ?_ ?_ ?_ (by omega) (by omega)
  · rw [h]
    have e : head.length + lead.length + T.length - 1 + 1 - (head.length + lead.length)
        = T.length := by omega
    rw [e, hsT]
    simp
  · -- the character in front of the declaration
    rcases hhead with hh | hh
    · left; exact hh
    · right
      have hne : head ≠ [] := by
        intro h0; rw [h0] at hh; cases hh
      have hl := List.length_pos.mpr hne
      refine ⟨by omega, ?_⟩
      have := (mem_seg mem [] head (lead ++ (T ++ (B0 ++ (W0 ++ rest0)))) (by rw [hmem]; simp)
        (head.length - 1) (by simp) (by simp; omega)).1
      rw [this]
      simp only [List.length_nil, Nat.sub_zero]
      rw [getD_getLast head hne]
      rw [List.getLast?_eq_getLast _ hne] at hh
      exact Option.some.inj hh
  · intro n hn1 hn2
    have := (mem_seg mem head lead _ hmem n hn1 hn2).2
    exact hlead _ this
  · have := (mem_seg mem (head ++ lead) T _ hsT (head.length + lead.length) (by simp)
      (by simp; omega)).1
    rw [this]
    simp only [List.length_append, Nat.sub_self]
    rw [getD_head T hT]; exact hT0
  · intro n hn1 hn2
    have := (mem_seg mem (head ++ (lead ++ (T ++ B0))) W0 _ hsW n (by simp; omega)
      (by simp; omega)).2
    exact hW0ws _ this
  · intro n hn1 hn2
    have := (mem_seg mem (head ++ (lead ++ T)) B0 _ hsB n (by simp; omega) (by simp; omega)).2
    exact hB0ws _ this
  · have := (mem_seg mem (head ++ lead) T _ hsT (head.length + lead.length + T.length - 1)
      (by simp; omega) (by simp; omega)).1
    rw [this]
    have e : head.length + lead.length + T.length - 1 - (head ++ lead).length = T.length - 1 := by
      simp; omega
    rw [e, getD_getLast T hT]; exact hT1

theorem isWs_ne_star (c : Char) (h : isWs c = true) : c ≠ '*' := by
  intro e; subst e; revert h; decide

theorem isWs_ne_semi (c : Char) (h : isWs c = true) : c ≠ ';' := by
  intro e; subst e; revert h; decide

theorem isWs_ne_comma (c : Char) (h : isWs c = true) : c ≠ ',' := by
  intro e; subst e; revert h; decide

/-- The name `N` behind `B` blanks and the stars `S`, in front of the delimiter
`dl`; `P` is everything in front, ending in a character that is neither a blank
nor a star. -/
theorem target_parts (mem P N post : List Char) (b k : Nat) (dl : Char) (defs : Nat)
    (hmem : mem = P ++ (List.replicate b ' ' ++ (List.replicate k '*' ++ (N ++ dl :: post))))
    (hP : P ≠ []) (hPlast : isWs (P.getLast hP) = false) (hPstar : P.getLast hP ≠ '*')
    (hdefs : defs + 1 ≤ P.length) (hb : 1 ≤ b)
    (hN : N ≠ []) (hNc : ∀ c ∈ N, isWs c = false ∧ c ≠ ',' ∧ c ≠ ';' ∧ c ≠ '[')
    (hdl : dl = ',' ∨ dl = ';') :
    ansiStars mem defs (P.length + b + k) = k ∧ ansiArray mem (P.length + b + k) = [] ∧
      wordAt mem N (P.length + b + k) := by
  have hPl := List.length_pos.mpr hP
  have hNl := List.length_pos.mpr hN
  have hsP : mem = [] ++ (P ++ (List.replicate b ' ' ++ (List.replicate k '*' ++ (N ++ dl :: post)))) := by
    rw [hmem]; rfl
  have hsB : mem = P ++ (List.replicate b ' ' ++ (List.replicate k '*' ++ (N ++ dl :: post))) := hmem
  have hsS : mem = (P ++ List.replicate b ' ') ++ (List.replicate k '*' ++ (N ++ dl :: post)) := by
    rw [hmem]; simp [List.append_assoc]
  have hsN : mem = (P ++ (List.replicate b ' ' ++ List.replicate k '*')) ++ (N ++ dl :: post) := by
    rw [hmem]; simp [List.append_assoc]
  have hsD : mem = (P ++ (List.replicate b ' ' ++ (List.replicate k '*' ++ N))) ++ (dl :: post) := by
    rw [hmem]; simp [List.append_assoc]
  have hlen : mem.length = P.length + b + k + N.length + 1 + post.length := by
    rw [hmem]; simp; omega
  have hPget : mem.getD (P.length - 1) NUL = P.getLast hP := by
    rw [(mem_seg mem [] P _ hsP (P.length - 1) (by simp) (by simp; omega)).1]
    simp only [List.length_nil, Nat.sub_zero]
    exact getD_getLast P hP
  have hBget : ∀ n, P.length ≤ n → n < P.length + b → mem.getD n NUL = ' ' := by
    intro n h1 h2
    have := (mem_seg mem P (List.replicate b ' ') _ hsB n h1 (by simp; omega)).2
    exact List.eq_of_mem_replicate this
  have hSget : ∀ n, P.length + b ≤ n → n < P.length + b + k → mem.getD n NUL = '*' := by
    intro n h1 h2
    have := (mem_seg mem (P ++ List.replicate b ' ') (List.replicate k '*') _ hsS n
      (by simp; omega) (by simp; omega)).2
    exact List.eq_of_mem_replicate this
  have hNget : ∀ n, P.length + b + k ≤ n → n < P.length + b + k + N.length →
      mem.getD n NUL ∈ N := by
    intro n h1 h2
    exact (mem_seg mem (P ++ (List.replicate b ' ' ++ List.replicate k '*')) N _ hsN n
      (by simp; omega) (by simp; omega)).2
  have hDget : mem.getD (P.length + b + k + N.length) NUL = dl := by
    have := mem_seg_head mem _ post dl hsD
    simp only [List.length_append, List.length_replicate] at this
    rw [← this]
    congr 1
    omega
  refine ⟨?_, ?_, ?_⟩
  · -- the stars
    by_cases hk : k = 0
    · subst hk
      apply ansiStars_eq mem defs (P.length + b + 0) (P.length - 1) 0 (by omega) (by omega)
      · intro n h1 h2
        rw [hBget n (by omega) (by omega)]; rfl
      · right; rw [hPget]; exact hPlast
      · omega
      · intro j hj; omega
      · right
        rw [Nat.sub_zero, hPget]; exact hPstar
    · apply ansiStars_eq mem defs (P.length + b + k) (P.length + b + k - 1) k (by omega) (by omega)
      · intro n h1 h2; omega
      · right
        rw [hSget _ (by omega) (by omega)]; rfl
      · omega
      · intro j hj
        exact hSget _ (by omega) (by omega)
      · right
        have e : P.length + b + k - 1 - k = P.length + b - 1 := by omega
        rw [e, hBget _ (by omega) (by omega)]
        decide
  · -- no array part
    apply ansiArray_nil mem (P.length + b + k) (P.length + b + k + N.length) (by omega) (by omega)
    · intro n h1 h2
      have := hNc _ (hNget n h1 h2)
      exact ⟨this.2.1, this.2.2.1, this.2.2.2⟩
    · exact (hNc _ (hNget _ (by omega) (by omega))).1
    · rw [hDget]; exact hdl
  · -- the name is accepted at its place
    refine ⟨?_, ?_, ?_⟩
    · have : mem.drop (P.length + b + k) = N ++ dl :: post := by
        rw [hsN]
        have : P.length + b + k = (P ++ (List.replicate b ' ' ++ List.replicate k '*')).length := by
          simp; omega
        rw [this, List.drop_left]
      rw [this]
      simp
    · have e : ((P.length + b + k : Nat) : Int) - 1 = ((P.length + b + k - 1 : Nat) : Int) := by
        omega
      rw [e, peek_natCast]
      by_cases hk : k = 0
      · subst hk
        rw [hBget _ (by omega) (by omega)]; rfl
      · rw [hSget _ (by omega) (by omega)]; rfl
    · rw [hDget]
      rcases hdl with h | h <;> rw [h] <;> rfl

theorem declRest_cons (as : List Declarator) :
    ∃ dl r, declRest as = dl :: r ∧ (dl = ',' ∨ dl = ';') := by
  cases as with
  | nil => exact ⟨';', [], rfl, Or.inr rfl⟩
  | cons a as => exact ⟨',', _, rfl, Or.inl rfl⟩

theorem text_chars (d : Declarator) (hd : d.ok) :
    ∀ c ∈ d.text, c ≠ ',' ∧ c ≠ ';' := by
  intro c hc
  unfold Declarator.text at hc
  rcases List.mem_append.mp hc with h | h
  · have := List.eq_of_mem_replicate h
    subst this; exact ⟨by decide, by decide⟩
  · rcases List.mem_append.mp h with h | h
    · have := List.eq_of_mem_replicate h
      subst this; exact ⟨by decide, by decide⟩
    · have := hd.2.2 c h
      exact ⟨this.2.1, this.2.2.1⟩

theorem declPrefix_no_semi (bs : List Declarator) (hbs : ∀ b ∈ bs, b.ok) :
    ∀ c ∈ declPrefix bs, c ≠ ';' := by
  induction bs with
  | nil => intro c hc; simp [declPrefix] at hc
  | cons b bs ih =>
    intro c hc
    rw [declPrefix] at hc
    rcases List.mem_append.mp hc with h | h
    · exact (text_chars b (hbs b (List.mem_cons_self _ _)) c h).2
    · rcases List.mem_cons.mp h with h | h
      · subst h; decide
      · exact ih (fun x hx => hbs x (List.mem_cons_of_mem _ hx)) c h

theorem declPrefix_getLast (b : Declarator) (bs : List Declarator) :
    (declPrefix (b :: bs)).getLast? = some ',' := by
  induction bs generalizing b with
  | nil => simp [declPrefix]
  | cons b' bs ih =>
    rw [declPrefix, List.getLast?_append, List.getLast?_cons, ih b']
    rfl

theorem target_parts_of_getLast (mem P N post : List Char) (b k : Nat) (dl x : Char) (defs : Nat)
    (hmem : mem = P ++ (List.replicate b ' ' ++ (List.replicate k '*' ++ (N ++ dl :: post))))
    (hP : P.getLast? = some x) (hx : isWs x = false) (hxs : x ≠ '*')
    (hdefs : defs + 1 ≤ P.length) (hb : 1 ≤ b)
    (hN : N ≠ []) (hNc : ∀ c ∈ N, isWs c = false ∧ c ≠ ',' ∧ c ≠ ';' ∧ c ≠ '[')
    (hdl : dl = ',' ∨ dl = ';') :
    ansiStars mem defs (P.length + b + k) = k ∧ ansiArray mem (P.length + b + k) = [] ∧
      wordAt mem N (P.length + b + k) := by
  have hne : P ≠ [] := by
    intro h0; rw [h0] at hP; cases hP
  have hl : P.getLast hne = x := (List.getLast_eq_iff_getLast_eq_some hne).mpr hP
  exact target_parts mem P N post b k dl defs hmem hne (by rw [hl]; exact hx)
    (by rw [hl]; exact hxs) hdefs hb hN hNc hdl

/-- No `;` stands in a declaration from its start up to a declarator's name. -/
theorem declaration_no_semi (mem head lead T post : List Char) (before : List Declarator)
    (d : Declarator) (dl : Char)
    (hmem : mem = (head ++ (lead ++ (T ++ declPrefix before))) ++
      (List.replicate d.blanks ' ' ++ (List.replicate d.stars '*' ++ (d.name ++ dl :: post))))
    (hlead : ∀ c ∈ lead, isWs c = true) (hTc : ∀ c ∈ T, c ≠ '*' ∧ c ≠ ',' ∧ c ≠ ';')
    (hbefore : ∀ b ∈ before, b.ok) (hd : d.ok) :
    ∀ n, head.length ≤ n →
      n ≤ head.length + lead.length + T.length + (declPrefix before).length + d.blanks + d.stars →
      mem.getD n NUL ≠ ';' := by
  intro n h1 h2
  have hNl := List.length_pos.mpr hd.2.1
  have hs : mem = head ++ ((lead ++ (T ++ (declPrefix before ++
      (List.replicate d.blanks ' ' ++ (List.replicate d.stars '*' ++ d.name))))) ++
      (dl :: post)) := by
    rw [hmem]; simp [List.append_assoc]
  have := (mem_seg mem head _ _ hs n h1 (by simp; omega)).2
  rcases List.mem_append.mp this with h | h
  · exact isWs_ne_semi _ (hlead _ h)
  rcases List.mem_append.mp h with h | h
  · exact (hTc _ h).2.2
  rcases List.mem_append.mp h with h | h
  · exact declPrefix_no_semi before hbefore _ h
  rcases List.mem_append.mp h with h | h
  · rw [List.eq_of_mem_replicate h]; decide
  rcases List.mem_append.mp h with h | h
  · rw [List.eq_of_mem_replicate h]; decide
  · exact (hd.2.2 _ h).2.2.1

/-- The scan for the end of the first declarator: from the start of the type, the
first `,` or `;` stands right behind the first declarator `b0`, when the search
window for the comma ends inside or behind that declarator. -/
theorem first_declarator_stop (mem head lead T rest : List Char) (b0 : Declarator) (dl : Char)
    (found : Nat)
    (hmem : mem = head ++ (lead ++ (T ++ (List.replicate b0.blanks ' ' ++
      ((List.replicate b0.stars '*' ++ b0.name) ++ (dl :: rest))))))
    (hTc : ∀ c ∈ T, c ≠ '*' ∧ c ≠ ',' ∧ c ≠ ';') (hb0 : b0.ok)
    (hdl : dl = ',' ∨ dl = ';')
    (hlo : head.length + lead.length ≤ found)
    (hfound : dl = ',' ∧ head.length + lead.length + T.length + b0.blanks + b0.stars
        + b0.name.length ≤ found ∨
      found < head.length + lead.length + T.length + b0.blanks + b0.stars + b0.name.length) :
    stepFwd (fun c => c != ',' && c != ';') mem
        (firstComma mem ((head.length + lead.length : Nat) : Int) found) =
      ((head.length + lead.length + T.length + (List.replicate b0.blanks ' ').length
        + (List.replicate b0.stars '*' ++ b0.name).length : Nat) : Int) := by
  have hs1 : mem = (head ++ lead) ++ ((T ++ (List.replicate b0.blanks ' ' ++
      (List.replicate b0.stars '*' ++ b0.name))) ++ (dl :: rest)) := by
    rw [hmem]; simp [List.append_assoc]
  have hnc : ∀ n, head.length + lead.length ≤ n →
      n < head.length + lead.length + T.length + b0.blanks + b0.stars + b0.name.length →
      mem.getD n NUL ≠ ',' ∧ mem.getD n NUL ≠ ';' := by
    intro n h1 h2
    have := (mem_seg mem (head ++ lead) _ _ hs1 n (by simp; omega) (by simp; omega)).2
    rcases List.mem_append.mp this with h | h
    · exact ⟨(hTc _ h).2.1, (hTc _ h).2.2⟩
    rcases List.mem_append.mp h with h | h
    · rw [List.eq_of_mem_replicate h]; exact ⟨by decide, by decide⟩
    rcases List.mem_append.mp h with h | h
    · rw [List.eq_of_mem_replicate h]; exact ⟨by decide, by decide⟩
    · exact ⟨(hb0.2.2 _ h).2.1, (hb0.2.2 _ h).2.2.1⟩
  have hdlat : mem.getD (head.length + lead.length + T.length + b0.blanks + b0.stars
      + b0.name.length) NUL = dl := by
    have hs2 : mem = (head ++ (lead ++ (T ++ (List.replicate b0.blanks ' ' ++
        (List.replicate b0.stars '*' ++ b0.name))))) ++ (dl :: rest) := by
      rw [hmem]; simp [List.append_assoc]
    have := mem_seg_head mem _ _ dl hs2
    simp only [List.length_append, List.length_replicate] at this
    rw [← this]; congr 1; omega
  have hlen : head.length + lead.length + T.length + b0.blanks + b0.stars + b0.name.length
      < mem.length := by
    rw [hmem]; simp; omega
  have e : head.length + lead.length + T.length + (List.replicate b0.blanks ' ').length
      + (List.replicate b0.stars '*' ++ b0.name).length
      = head.length + lead.length + T.length + b0.blanks + b0.stars + b0.name.length := by
    simp; omega
  rw [e]
  rcases hfound with ⟨hc, hge⟩ | hlt
  · rw [firstComma_some mem _ _ ((head.length + lead.length + T.length + b0.blanks + b0.stars
        + b0.name.length : Nat) : Int)]
    · apply stepFwd_eq _ _ _ _ (Nat.le_refl _) (by omega)
      · intro i hi1 hi2; omega
      · right
        rw [hdlat, hc]; rfl
    · push_cast; omega
    · push_cast; omega
    · rw [peek_natCast, hdlat, hc]
    · intro i hi1 hi2
      rw [peek_of_nonneg mem i (by omega)]
      exact (hnc i.toNat (by omega) (by omega)).1
  · rw [firstComma_none]
    · apply stepFwd_eq _ _ _ _ (by omega) (by omega)
      · intro i hi1 hi2
        have := hnc i (by omega) hi2
        exact bne_and_bne_true _ _ _ this.1 this.2
      · right
        rw [hdlat]
        exact bne_and_bne_false _ _ _ hdl
    · intro i hi1 hi2
      rw [peek_of_nonneg mem i (by omega)]
      exact (hnc i.toNat (by omega) (by omega)).1

/-- `WriteANSI` on the declaration `lead T b1, ..., bm, d, a1, ..., an;` stored
behind `head`: when the name of `d` does not stand as a whole word in front of
its declarator, it is resolved to `T`, a blank, the stars of `d` and the name. -/
theorem declaration_parts (head lead T post : List Char) (before after : List Declarator)
    (d : Declarator) (defs : Nat)
    (hdefs : defs ≤ head.length)
    (hhead : head.length = defs ∨ head.getLast? = some ';')
    (hlead : ∀ c ∈ lead, isWs c = true) (hT : typeWords T)
    (hbefore : ∀ b ∈ before, b.ok) (hd : d.ok)
    (hmin : ∀ q, defs ≤ q →
      q < head.length + lead.length + T.length + (declPrefix before).length + d.blanks + d.stars →
      ¬ wordAt (head ++ (lead ++ (T ++ (declPrefix before ++ (d.text ++ (declRest after ++ post))))))
        d.name q) :
    FindVarName (head ++ (lead ++ (T ++ (declPrefix before ++ (d.text ++ (declRest after ++ post))))))
        defs d.name =
      some (head.length + lead.length + T.length + (declPrefix before).length
        + d.blanks + d.stars) ∧
    ansiType (head ++ (lead ++ (T ++ (declPrefix before ++ (d.text ++ (declRest after ++ post))))))
        defs (head.length + lead.length + T.length + (declPrefix before).length
        + d.blanks + d.stars) = T ∧
    ansiStars (head ++ (lead ++ (T ++ (declPrefix before ++ (d.text ++ (declRest after ++ post))))))
        defs (head.length + lead.length + T.length + (declPrefix before).length
        + d.blanks + d.stars) = d.stars ∧
    ansiArray (head ++ (lead ++ (T ++ (declPrefix before ++ (d.text ++ (declRest after ++ post))))))
        (head.length + lead.length + T.length + (declPrefix before).length
        + d.blanks + d.stars) = [] := by
  obtain ⟨⟨hTne, hT0, hT1⟩, hTc, hTlen⟩ := hT
  have hd0 := hd
  obtain ⟨hb, hN, hNc⟩ := hd
  obtain ⟨dl, r, hdr, hdl⟩ := declRest_cons after
  generalize hmemdef :
    head ++ (lead ++ (T ++ (declPrefix before ++ (d.text ++ (declRest after ++ post))))) = mem
    at hmin ⊢
  have hTl := List.length_pos.mpr hTne
  have hNl := List.length_pos.mpr hN
  have hmemP : mem = (head ++ (lead ++ (T ++ declPrefix before))) ++
      (List.replicate d.blanks ' ' ++
        (List.replicate d.stars '*' ++ (d.name ++ dl :: (r ++ post)))) := by
    rw [← hmemdef, hdr]
    simp [Declarator.text, List.append_assoc]
  have hPlen : (head ++ (lead ++ (T ++ declPrefix before))).length =
      head.length + lead.length + T.length + (declPrefix before).length := by
    simp; omega
  have hPlast : ∃ x, (head ++ (lead ++ (T ++ declPrefix before))).getLast? = some x ∧
      isWs x = false ∧ x ≠ '*' := by
    cases before with
    | nil =>
      refine ⟨T.getLast hTne, ?_, hT1, (hTc _ (List.getLast_mem hTne)).1⟩
      simp [declPrefix, List.getLast?_eq_getLast _ hTne]
    | cons b bs =>
      refine ⟨',', ?_, by decide, by decide⟩
      simp [declPrefix_getLast b bs]
  obtain ⟨x, hx1, hx2, hx3⟩ := hPlast
  have hparts := target_parts_of_getLast mem _ d.name (r ++ post) d.blanks d.stars dl x defs hmemP
    hx1 hx2 hx3 (by rw [hPlen]; omega) hb hN hNc hdl
  rw [hPlen] at hparts
  obtain ⟨hstars, harray, hword⟩ := hparts
  have hfind : FindVarName mem defs d.name =
      some (head.length + lead.length + T.length + (declPrefix before).length
        + d.blanks + d.stars) := by
    rw [FindVarName_eq_some mem d.name defs hN]
    exact ⟨by omega, hword, fun q h1 h2 => hmin q h1 h2⟩
  have hnosemi := declaration_no_semi mem head lead T (r ++ post) before d dl hmemP hlead hTc
    hbefore hd0
  have htype : ansiType mem defs
      (head.length + lead.length + T.length + (declPrefix before).length
        + d.blanks + d.stars) = T := by
    cases hbf : before with
    | nil =>
      subst hbf
      have hm : mem = head ++ (lead ++ (T ++ (List.replicate d.blanks ' ' ++
          ((List.replicate d.stars '*' ++ d.name) ++ (dl :: (r ++ post)))))) := by
        rw [hmemP]; simp [declPrefix, List.append_assoc]
      apply ansiType_anchor mem head lead T (List.replicate d.blanks ' ')
        (List.replicate d.stars '*' ++ d.name) (dl :: (r ++ post)) defs _ hm hdefs hhead hlead hTne
        hT0 hT1 (Nat.le_of_lt hTlen)
      · intro h0
        have := congrArg List.length h0
        simp at this; omega
      · intro c hc; rw [List.eq_of_mem_replicate hc]; rfl
      · intro h0
        have := congrArg List.length h0
        rw [List.length_append, List.length_replicate, List.length_nil] at this
        omega
      · intro c hc
        rcases List.mem_append.mp hc with h | h
        · rw [List.eq_of_mem_replicate h]; rfl
        · exact (hNc _ h).1
      · omega
      · exact hnosemi
      · apply first_declarator_stop mem head lead T (r ++ post) d dl _ hm hTc hd0 hdl
        · omega
        · right
          simp [declPrefix]; omega
    | cons b0 bs =>
      subst hbf
      have hb0 := hbefore b0 (List.mem_cons_self _ _)
      have hb0l := List.length_pos.mpr hb0.2.1
      have hm : mem = head ++ (lead ++ (T ++ (List.replicate b0.blanks ' ' ++
          ((List.replicate b0.stars '*' ++ b0.name) ++ (',' :: (declPrefix bs ++
            (d.text ++ (declRest after ++ post)))))))) := by
        rw [← hmemdef]; simp [declPrefix, Declarator.text, List.append_assoc]
      have hcm : (declPrefix (b0 :: bs)).length =
          b0.blanks + b0.stars + b0.name.length + 1 + (declPrefix bs).length := by
        simp [declPrefix, Declarator.text]; omega
      apply ansiType_anchor mem head lead T (List.replicate b0.blanks ' ')
        (List.replicate b0.stars '*' ++ b0.name) _ defs _ hm hdefs hhead hlead hTne
        hT0 hT1 (Nat.le_of_lt hTlen)
      · intro h0
        have := congrArg List.length h0
        have := hb0.1
        simp at *; omega
      · intro c hc; rw [List.eq_of_mem_replicate hc]; rfl
      · intro h0
        have := congrArg List.length h0
        rw [List.length_append, List.length_replicate, List.length_nil] at this
        omega
      · intro c hc
        rcases List.mem_append.mp hc with h | h
        · rw [List.eq_of_mem_replicate h]; rfl
        · exact (hb0.2.2 _ h).1
      · omega
      · exact hnosemi
      · apply first_declarator_stop mem head lead T _ b0 ',' _ hm hTc hb0 (Or.inl rfl)
        · omega
        · left
          exact ⟨rfl, by rw [hcm]; omega⟩
  exact ⟨hfind, htype, hstars, harray⟩

theorem WriteANSI_declaration (head lead T post : List Char) (before after : List Declarator)
    (d : Declarator) (defs : Nat)
    (hdefs : defs ≤ head.length)
    (hhead : head.length = defs ∨ head.getLast? = some ';')
    (hlead : ∀ c ∈ lead, isWs c = true) (hT : typeWords T)
    (hbefore : ∀ b ∈ before, b.ok) (hd : d.ok)
    (hmin : ∀ q, defs ≤ q →
      q < head.length + lead.length + T.length + (declPrefix before).length + d.blanks + d.stars →
      ¬ wordAt (head ++ (lead ++ (T ++ (declPrefix before ++ (d.text ++ (declRest after ++ post))))))
        d.name q) :
    WriteANSI (head ++ (lead ++ (T ++ (declPrefix before ++ (d.text ++ (declRest after ++ post))))))
        defs d.name =
      (0, T ++ ' ' :: (List.replicate d.stars '*' ++ d.name)) := by
  obtain ⟨hfind, htype, hstars, harray⟩ := declaration_parts head lead T post before after d defs
    hdefs hhead hlead hT hbefore hd hmin
  unfold WriteANSI
  rw [hfind]
  simp only
  rw [htype, hstars, harray]
  simp

/-! ## Lines without a terminating character -/

theorem contains_false_of_not_mem (l : List Char) (c : Char) (h : c ∉ l) :
    l.contains c = false := by
  simpa using h

theorem no_terminator (l : List Char) (h1 : ';' ∉ l) (h2 : '{' ∉ l) :
    ¬ (l.contains ';' = true ∨ l.contains '{' = true) := by
  rw [contains_false_of_not_mem l ';' h1, contains_false_of_not_mem l '{' h2]
  simp

/-! ## The comment stripper behind an unmatched close -/

theorem killStream_nonzero (u : List Char) (hu : clean u) :
    ∀ (r2 r1 : Char) (lag : Nat) (k : Int), k ≠ 0 → r1 ≠ '/' →
      killStream r2 r1 lag k u = [] := by
  induction u with
  | nil => intro r2 r1 lag k _ _; rfl
  | cons c u ih =>
    intro r2 r1 lag k hk h1
    have hc := hu c (List.mem_cons_self _ _)
    rw [killStream]
    simp only [hc.1, false_and, if_false, h1, and_false]
    rw [if_neg hk]
    exact ih (fun x hx => hu x (List.mem_cons_of_mem _ hx)) r1 c (lag + 1) k hk hc.1

theorem clean_headD (u : List Char) (hu : clean u) : u.headD NUL ≠ '*' := by
  cases u with
  | nil => decide
  | cons c u => exact (hu c (List.mem_cons_self _ _)).2

theorem killStream_close_tail (u : List Char) (hu : clean u) (r2 r1 : Char) (h1 : r1 ≠ '/') :
    killStream r2 r1 0 0 ('*' :: '/' :: u) = ['*', '/'] := by
  have e1 : ¬ (('*' : Char) = '/') := by decide
  have hh := clean_headD u hu
  rw [killStream]
  simp only [e1, false_and, if_false, h1, and_false, if_true]
  rw [killStream]
  simp only [List.headD_cons, hh, and_false, if_false, e1, false_and, if_true]
  cases u with
  | nil => rfl
  | cons c u =>
    have hc := hu c (List.mem_cons_self _ _)
    rw [killStream]
    simp only [hc.1, false_and, if_false]
    have e2 : (if (0 : Nat) = 1 then '/' else '*') = '*' := by decide
    simp only [e2, and_self, if_true]
    rw [if_neg (by decide)]
    rw [killStream_nonzero u (fun x hx => hu x (List.mem_cons_of_mem _ hx)) _ _ _ _ (by decide)
      hc.1]

theorem KillComments_close_tail (t u : List Char) (ht : clean t) (hu : clean u) :
    KillComments NUL NUL (t ++ '*' :: '/' :: u) = t ++ ['*', '/'] := by
  rw [KillComments_eq_killStream]
  obtain ⟨r2', r1', h1', _, hrest⟩ := killStream_text t ht NUL NUL 0 (by decide) (by decide)
  rw [hrest, killStream_close_tail u hu r2' r1' h1']

theorem KillCommentsStep_delete (m2 m1 : Char) (s : KCState) (i : Nat)
    (h : (KillCommentsStep m2 m1 s i).comment ≠ 0) :
    (KillCommentsStep m2 m1 s i).out = s.out ∧ (KillCommentsStep m2 m1 s i).buffer = s.buffer := by
  unfold KillCommentsStep at h ⊢
  simp only at h ⊢
  split_ifs at h ⊢ <;> simp_all

theorem KillCommentsStep_copy (m2 m1 : Char) (s : KCState) (i : Nat)
    (h : (KillCommentsStep m2 m1 s i).comment = 0) :
    (KillCommentsStep m2 m1 s i).out = s.out + 1 ∧
      (KillCommentsStep m2 m1 s i).buffer = s.buffer.set s.out (peek s.buffer i) := by
  unfold KillCommentsStep at h ⊢
  simp only at h ⊢
  split_ifs at h ⊢ <;> simp_all

/-! ## isFunc -/

theorem strchr_append (a : List Char) (c : Char) (b : List Char) (h : c ∉ a) :
    strchr (a ++ c :: b) c = some a.length := by
  unfold strchr
  have e : (a ++ c :: b).indexOf c = a.length := by
    rw [List.indexOf_append_of_not_mem h]
    simp
  rw [e, if_pos (by simp)]

theorem strchr_none (l : List Char) (c : Char) (h : c ∉ l) : strchr l c = none := by
  unfold strchr
  rw [if_neg]
  have := List.indexOf_eq_length.mpr h
  omega

theorem isWs_all_ne (ws : List Char) (hws : ∀ x ∈ ws, isWs x = true) (c : Char)
    (hc : isWs c = false) : c ∉ ws := by
  intro h
  rw [hws c h] at hc
  cases hc

theorem isFuncLine_char (t ws rest : List Char) (c : Char) (ht : ';' ∉ t) (hc : c ≠ ';')
    (hcw : isWs c = false) (hws : ∀ x ∈ ws, isWs x = true) :
    isFuncLine (t ++ c :: (ws ++ ';' :: rest)) = some (some (if c = ')' then 0 else 1)) := by
  have hs : strchr (t ++ c :: (ws ++ ';' :: rest)) ';' = some (t.length + 1 + ws.length) := by
    have e : t ++ c :: (ws ++ ';' :: rest) = (t ++ c :: ws) ++ ';' :: rest := by simp
    rw [e, strchr_append]
    · simp; omega
    · intro h
      rcases List.mem_append.mp h with h | h
      · exact ht h
      · rcases List.mem_cons.mp h with h | h
        · exact hc h.symm
        · exact isWs_all_ne ws hws ';' (by decide) h
  have hc0 : (t ++ c :: (ws ++ ';' :: rest)).getD t.length NUL = c :=
    mem_seg_head _ t _ c rfl
  have hb : stepBack isWs (t ++ c :: (ws ++ ';' :: rest)) (-1)
      (((t.length + 1 + ws.length : Nat) : Int) - 1) = (t.length : Int) := by
    apply stepBack_eq
    · omega
    · push_cast; omega
    · intro i hi1 hi2
      rw [peek_of_nonneg _ i (by omega)]
      have e : t ++ c :: (ws ++ ';' :: rest) = (t ++ [c]) ++ (ws ++ ';' :: rest) := by simp
      have := (mem_seg _ (t ++ [c]) ws (';' :: rest) e i.toNat (by simp; omega)
        (by simp; omega)).2
      exact hws _ this
    · right
      rw [peek_natCast, hc0]
      exact hcw
  unfold isFuncLine
  rw [hs]
  simp only
  rw [hb, if_neg (by omega), peek_natCast, hc0]

theorem isFuncLine_blank (ws rest : List Char) (hws : ∀ x ∈ ws, isWs x = true) :
    isFuncLine (ws ++ ';' :: rest) = some none := by
  have hs : strchr (ws ++ ';' :: rest) ';' = some ws.length :=
    strchr_append ws ';' rest (isWs_all_ne ws hws ';' (by decide))
  have hb : stepBack isWs (ws ++ ';' :: rest) (-1) ((ws.length : Int) - 1) = -1 := by
    apply stepBack_eq
    · omega
    · omega
    · intro i hi1 hi2
      rw [peek_of_nonneg _ i (by omega)]
      have e : ws ++ ';' :: rest = [] ++ (ws ++ ';' :: rest) := by simp
      have := (mem_seg _ [] ws (';' :: rest) e i.toNat (by simp) (by simp; omega)).2
      exact hws _ this
    · left; rfl
  unfold isFuncLine
  rw [hs]
  simp only
  rw [hb, if_pos (by omega)]

theorem isFuncLine_none (l : List Char) (h : ';' ∉ l) : isFuncLine l = none := by
  unfold isFuncLine
  rw [strchr_none l ';' h]

theorem isFuncLoop_of_line (fd : List (List Char)) (n r : Nat)
    (h : isFuncLine (row fd n) = some (some r)) : isFuncLoop fd n = some r := by
  cases n with
  | zero => rw [isFuncLoop, h]
  | succ n => rw [isFuncLoop, h]

theorem isFuncLoop_none (fd : List (List Char)) (n : Nat) (h : isFuncLine (row fd n) = none) :
    isFuncLoop fd n = none := by
  cases n with
  | zero => rw [isFuncLoop, h]
  | succ n => rw [isFuncLoop, h]

theorem isFunc_brace (fd : List (List Char)) (ndef : Nat) (h : '{' ∈ row fd ndef) :
    isFunc fd ndef = some 1 := by
  unfold isFunc
  rw [if_pos h]

theorem isFunc_last_char (fd : List (List Char)) (ndef : Nat) (t ws rest : List Char) (c : Char)
    (hrow : row fd ndef = t ++ c :: (ws ++ ';' :: rest)) (hb : '{' ∉ row fd ndef)
    (ht : ';' ∉ t) (hc : c ≠ ';') (hcw : isWs c = false) (hws : ∀ x ∈ ws, isWs x = true) :
    isFunc fd ndef = some (if c = ')' then 0 else 1) := by
  unfold isFunc
  rw [if_neg hb]
  apply isFuncLoop_of_line
  rw [hrow]
  exact isFuncLine_char t ws rest c ht hc hcw hws

theorem isFunc_blank_line (fd : List (List Char)) (n : Nat) (ws rest : List Char)
    (hrow : row fd (n + 1) = ws ++ ';' :: rest) (hb : '{' ∉ row fd (n + 1))
    (hws : ∀ x ∈ ws, isWs x = true) (hprev : ';' ∉ row fd n) :
    isFunc fd (n + 1) = none := by
  unfold isFunc
  rw [if_neg hb, isFuncLoop, hrow, isFuncLine_blank ws rest hws]
  exact isFuncLoop_none fd n (isFuncLine_none _ hprev)

/-! ## isInteresting -/

theorem leadingComment_iff (buffer : List Char) :
    leadingComment buffer ↔
      ((buffer.dropWhile isWs).headD NUL = '/' ∧ (buffer.dropWhile isWs).getD 1 NUL = '*') := by
  unfold leadingComment
  generalize buffer.dropWhile isWs = tail
  cases tail with
  | nil => simp [NUL]
  | cons a tail =>
    cases tail with
    | nil =>
      simp only [List.take, List.headD_cons, List.getD_cons_succ, List.getD_nil]
      constructor
      · intro h; cases h
      · intro h; exact absurd h.2 (by decide)
    | cons b tail => simp

theorem leadingComment_append (ws rest : List Char) (hws : ∀ c ∈ ws, isWs c = true) :
    leadingComment (ws ++ '/' :: '*' :: rest) := by
  unfold leadingComment
  rw [List.dropWhile_append_of_pos hws]
  rfl

theorem headD_eq_getD (l : List Char) : l.headD NUL = l.getD 0 NUL := by
  cases l <;> rfl

theorem not_slashSlash_cons (c : Char) (rest : List Char) (h : ¬ slashSlash (c :: rest)) :
    ¬ (c = '/' ∧ rest.headD NUL = '/') ∧ ¬ slashSlash rest := by
  constructor
  · intro hc
    apply h
    refine ⟨0, by simp, by simpa using hc.1, ?_⟩
    rw [headD_eq_getD] at hc
    simpa using hc.2
  · intro ⟨i, hi, h1, h2⟩
    exact h ⟨i + 1, by simpa using hi, by simpa using h1, by simpa using h2⟩

theorem scanLine_flags : ∀ (l : List Char) (st : ClassifierState) (blank : Bool),
    ¬ slashSlash l →
    (scanLine st blank l).2.1 = (blank && l.all isWs) ∧ (scanLine st blank l).2.2 = false := by
  intro l
  induction l with
  | nil => intro st blank _; simp [scanLine]
  | cons c rest ih =>
    intro st blank h
    obtain ⟨h0, hrest⟩ := not_slashSlash_cons c rest h
    rw [scanLine, if_neg h0]
    have := ih (scanChar st c (rest.headD NUL)) (blank && isWs c) hrest
    rw [this.1, this.2]
    simp [Bool.and_assoc]

theorem isInteresting_leading (st : ClassifierState) (buffer : List Char)
    (h : leadingComment buffer) : (isInteresting st buffer).1 = 0 := by
  have h' := (leadingComment_iff buffer).mp h
  unfold isInteresting
  simp only
  rw [if_pos h']
  split_ifs <;> rfl

theorem isInteresting_one (st : ClassifierState) (buffer : List Char)
    (hin : st.bra_count = 0 ∧ st.inDIC = 0 ∧ st.inSIC = 0 ∧ st.comment_count = 0)
    (hblank : ∃ c ∈ buffer, isWs c = false) (hhash : buffer.headD NUL ≠ '#')
    (hlead : ¬ leadingComment buffer) (hcpp : ¬ slashSlash buffer) :
    (isInteresting st buffer).1 = 1 := by
  have h' : ¬ ((buffer.dropWhile isWs).headD NUL = '/' ∧
      (buffer.dropWhile isWs).getD 1 NUL = '*') := fun hc =>
    hlead ((leadingComment_iff buffer).mpr hc)
  have hf := scanLine_flags buffer st true hcpp
  have hb : (scanLine st true buffer).2.1 = false := by
    rw [hf.1]
    obtain ⟨c, hc, hw⟩ := hblank
    simp only [Bool.true_and]
    rw [Bool.eq_false_iff]
    intro hall
    rw [List.all_eq_true] at hall
    rw [hall c hc] at hw
    cases hw
  unfold isInteresting
  rw [if_neg hhash]
  simp only
  rw [if_neg h', if_pos hin, hf.2, hb]
  rfl

theorem isInteresting_state (st : ClassifierState) (buffer : List Char)
    (hhash : buffer.headD NUL ≠ '#') :
    (isInteresting st buffer).2 = (scanLine st true buffer).1 := by
  unfold isInteresting
  rw [if_neg hhash]
  simp only
  split_ifs <;> rfl

theorem scanLine_braces : ∀ (l : List Char) (st : ClassifierState) (blank : Bool),
    st.comment_count = 0 → st.inSIC = 0 → st.inDIC = 0 →
    '/' ∉ l → DIC ∉ l → SIC ∉ l →
    (scanLine st blank l).1 =
      ⟨0, st.bra_count + (l.count '{' : Nat) - (l.count '}' : Nat), 0, 0⟩ := by
  intro l
  induction l with
  | nil =>
    intro st blank hc hs hd _ _ _
    cases st
    simp only at hc hs hd
    simp [scanLine, hc, hs, hd]
  | cons c rest ih =>
    intro st blank hc hs hd h1 h2 h3
    have c1 : c ≠ '/' := fun e => h1 (by simp [e])
    have c2 : c ≠ DIC := fun e => h2 (by simp [e])
    have c3 : c ≠ SIC := fun e => h3 (by simp [e])
    have r1 : '/' ∉ rest := fun e => h1 (List.mem_cons_of_mem _ e)
    have r2 : DIC ∉ rest := fun e => h2 (List.mem_cons_of_mem _ e)
    have r3 : SIC ∉ rest := fun e => h3 (List.mem_cons_of_mem _ e)
    have hn : rest.headD NUL ≠ '/' := by
      cases rest with
      | nil => decide
      | cons x rest => exact fun e => r1 (by simp at e; simp [e])
    rw [scanLine, if_neg (fun hh => c1 hh.1)]
    have hsc : scanChar st c (rest.headD NUL) =
        ⟨0, (if c = '}' then (if c = '{' then st.bra_count + 1 else st.bra_count) - 1
          else (if c = '{' then st.bra_count + 1 else st.bra_count)), 0, 0⟩ := by
      unfold scanChar
      simp only [c1, c2, c3, hn, hc, hs, hd, false_and, and_false, if_false, and_self, if_true]
    rw [hsc, ih _ _ rfl rfl rfl r1 r2 r3]
    simp only [List.count_cons]
    congr 1
    by_cases e1 : c = '{'
    · subst e1
      simp
      omega
    · by_cases e2 : c = '}'
      · subst e2
        simp
        omega
      · simp [e1, e2]

theorem joinLines_cons (l : List Char) (rest : List (List Char)) :
    joinLines (l :: rest) = l ++ joinLines rest := rfl

theorem feed_braces : ∀ (lines : List (List Char)) (st : ClassifierState),
    st.comment_count = 0 → st.inSIC = 0 → st.inDIC = 0 →
    (∀ l ∈ lines, l.headD NUL ≠ '#' ∧ '/' ∉ l ∧ DIC ∉ l ∧ SIC ∉ l) →
    feed st lines =
      ⟨0, st.bra_count + ((joinLines lines).count '{' : Nat)
        - ((joinLines lines).count '}' : Nat), 0, 0⟩ := by
  intro lines
  induction lines with
  | nil =>
    intro st hc hs hd _
    cases st
    simp only at hc hs hd
    simp [feed, joinLines, hc, hs, hd]
  | cons l rest ih =>
    intro st hc hs hd hl
    have h0 := hl l (List.mem_cons_self _ _)
    have e : feed st (l :: rest) = feed (isInteresting st l).2 rest := rfl
    rw [e, isInteresting_state st l h0.1, scanLine_braces l st true hc hs hd h0.2.1 h0.2.2.1
      h0.2.2.2, ih _ rfl rfl rfl (fun x hx => hl x (List.mem_cons_of_mem _ hx))]
    simp only [joinLines_cons, List.count_append]
    congr 1
    push_cast
    omega

/-! ## The parameter loop of Ansify -/

theorem WriteANSI_fst (mem : List Char) (defs : Nat) (name : List Char) :
    ((WriteANSI mem defs name).1 = 1 ↔ FindVarName mem defs name = none) ∧
    (FindVarName mem defs name = none → (WriteANSI mem defs name).2 = []) ∧
    (FindVarName mem defs name ≠ none → (WriteANSI mem defs name).1 = 0) := by
  unfold WriteANSI
  cases h : FindVarName mem defs name with
  | none => simp
  | some found => simp

theorem takeWhile_stop (f : Char → Bool) (a : List Char) (d : Char) (r : List Char)
    (ha : ∀ x ∈ a, f x = true) (hd : f d = false) : (a ++ d :: r).takeWhile f = a := by
  induction a with
  | nil => simp [List.takeWhile_cons, hd]
  | cons x a ih =>
    rw [List.cons_append, List.takeWhile_cons, ha x (List.mem_cons_self _ _)]
    simp only [if_true]
    rw [ih (fun y hy => ha y (List.mem_cons_of_mem _ hy))]

theorem dropWhile_stop (f : Char → Bool) (a : List Char) (d : Char) (r : List Char)
    (hd : f d = false) : (a ++ d :: r).dropWhile f = a.dropWhile f ++ d :: r := by
  induction a with
  | nil => simp [List.dropWhile_cons, hd]
  | cons x a ih =>
    rw [List.cons_append, List.dropWhile_cons, List.dropWhile_cons]
    by_cases hx : f x = true
    · rw [if_pos hx, if_pos hx, ih]
    · rw [if_neg hx, if_neg hx]; rfl

theorem mem_dropWhile (f : Char → Bool) (a : List Char) (x : Char) (h : x ∈ a.dropWhile f) :
    x ∈ a :=
  (List.dropWhile_suffix f).subset h

theorem GetVarName_entry (p : List Char) (d : Char) (r : List Char)
    (hp : ',' ∉ p ∧ ')' ∉ p) (hd : d = ',' ∨ d = ')') :
    GetVarName (p ++ d :: r) = (p.length, stripTrailing p) := by
  unfold GetVarName
  have : (p ++ d :: r).takeWhile (fun c => !(c == ',' || c == ')')) = p := by
    apply takeWhile_stop
    · intro x hx
      have h1 : x ≠ ',' := fun e => hp.1 (e ▸ hx)
      have h2 : x ≠ ')' := fun e => hp.2 (e ▸ hx)
      simp [h1, h2]
    · rcases hd with h | h <;> subst h <;> rfl
  simp only [this]

theorem ansifyParams_round (mem : List Char) (defs width fuel : Nat) (p r : List Char)
    (d : Char) (first : Bool) (templen : Nat) (hp : ',' ∉ p ∧ ')' ∉ p) (hd : d = ',' ∨ d = ')')
    (hne : p ≠ [] ∨ d = ',') (hvar : (p.dropWhile isWs).length < 80)
    (hfit : ansiFits mem defs (paramName p) = true)
    (hfail : (WriteANSI mem defs (paramName p)).1 ≠ 0 → templen ≠ 0) :
    ansifyParams mem defs width (fuel + 1) (p ++ d :: r) first templen =
      (ansifyParams mem defs width fuel r false
        (if (WriteANSI mem defs (paramName p)).1 ≠ 0 then templen - 1 else templen)).map
        (fun t => (if first then [] else [',', '\n'] ++ List.replicate width ' ')
          ++ (WriteANSI mem defs (paramName p)).2 ++ t) := by
  have hws : isWs d = false := by rcases hd with h | h <;> subst h <;> rfl
  have h0 : ¬ (p ++ d :: r = [] ∨ (p ++ d :: r).headD NUL = ')') := by
    intro h
    rcases h with h | h
    · simp at h
    · cases p with
      | nil =>
        rcases hne with h1 | h1
        · exact h1 rfl
        · subst h1; simp at h
      | cons x p =>
        simp only [List.cons_append, List.headD_cons] at h
        exact hp.2 (by simp [h])
  have hp' : ',' ∉ p.dropWhile isWs ∧ ')' ∉ p.dropWhile isWs :=
    ⟨fun h => hp.1 (mem_dropWhile _ _ _ h), fun h => hp.2 (mem_dropWhile _ _ _ h)⟩
  have hlt : (p.dropWhile isWs).length < (p.dropWhile isWs ++ d :: r).length ∧
      (p.dropWhile isWs).length < 80 := ⟨by simp, hvar⟩
  have hdrop : (p.dropWhile isWs ++ d :: r).drop ((p.dropWhile isWs).length + 1) = r := by
    rw [show p.dropWhile isWs ++ d :: r = (p.dropWhile isWs ++ [d]) ++ r by simp]
    exact List.drop_left' (by simp)
  have hname : stripTrailing (p.dropWhile isWs) = paramName p := rfl
  rw [ansifyParams, if_neg h0]
  simp only
  rw [dropWhile_stop isWs p d r hws, GetVarName_entry _ d r hp' hd]
  simp only
  rw [if_pos hlt, hdrop, hname]
  by_cases hw : (WriteANSI mem defs (paramName p)).1 ≠ 0
  · rw [if_pos hw, if_neg (hfail hw), if_pos hw]
  · rw [if_neg hw, if_pos hfit, if_neg hw]

theorem paramList_length_pos (ps : List (List Char)) : 0 < (paramList ps).length := by
  match ps with
  | [] => simp [paramList]
  | [p] => simp [paramList]
  | p :: q :: ps => simp [paramList]

theorem ansifyParams_nil (mem : List Char) (defs width fuel : Nat) (first : Bool)
    (templen : Nat) : ansifyParams mem defs width fuel [] first templen = some [] := by
  cases fuel with
  | zero => rfl
  | succ fuel => rw [ansifyParams, if_pos (Or.inl rfl)]

theorem notFound_cons (mem : List Char) (defs : Nat) (p : List Char) (ps : List (List Char)) :
    notFound mem defs (p :: ps) =
      notFound mem defs ps + (if (WriteANSI mem defs (paramName p)).1 ≠ 0 then 1 else 0) := by
  unfold notFound
  rw [List.countP_cons]
  simp

theorem ansifyParams_list (mem : List Char) (defs width : Nat) :
    ∀ (ps : List (List Char)) (fuel : Nat) (first : Bool) (templen : Nat), ps ≠ [] →
      (∀ p ∈ ps, ',' ∉ p ∧ ')' ∉ p) → ps.getLast? ≠ some [] →
      (paramList ps).length ≤ fuel → (∀ p ∈ ps, (p.dropWhile isWs).length < 80) →
      (∀ p ∈ ps, ansiFits mem defs (paramName p) = true) → notFound mem defs ps ≤ templen →
      ansifyParams mem defs width fuel (paramList ps) first templen =
        some (paramsOut (fun name => (WriteANSI mem defs name).2) width ps first) := by
  intro ps
  induction ps with
  | nil => intro fuel first templen h; exact absurd rfl h
  | cons p ps ih =>
    intro fuel first templen _ hps hlast hfuel hvar hfit hfail
    have hp := hps p (List.mem_cons_self _ _)
    have hpv := hvar p (List.mem_cons_self _ _)
    have hpf := hfit p (List.mem_cons_self _ _)
    rw [notFound_cons] at hfail
    have hpt : (WriteANSI mem defs (paramName p)).1 ≠ 0 → templen ≠ 0 := by
      intro hw
      rw [if_pos hw] at hfail
      omega
    cases ps with
    | nil =>
      have hpne : p ≠ [] := fun e => hlast (by simp [e])
      cases fuel with
      | zero => simp [paramList] at hfuel
      | succ fuel =>
        rw [paramList, ansifyParams_round mem defs width fuel p [] ')' first templen hp
          (Or.inr rfl) (Or.inl hpne) hpv hpf hpt, ansifyParams_nil]
        simp [paramsOut]
    | cons q ps =>
      cases fuel with
      | zero => simp [paramList] at hfuel
      | succ fuel =>
        rw [paramList, ansifyParams_round mem defs width fuel p _ ',' first templen hp
          (Or.inl rfl) (Or.inr rfl) hpv hpf hpt, ih fuel false _ (by simp)
          (fun x hx => hps x (List.mem_cons_of_mem _ hx)) (by simpa using hlast)
          (by simp [paramList] at hfuel ⊢; omega)
          (fun x hx => hvar x (List.mem_cons_of_mem _ hx))
          (fun x hx => hfit x (List.mem_cons_of_mem _ hx))
          (by split_ifs at hfail ⊢ <;> omega)]
        simp [paramsOut]

theorem paramList_body : ∀ (ps : List (List Char)), (∀ p ∈ ps, ')' ∉ p) →
    ∃ body, paramList ps = body ++ [')'] ∧ ')' ∉ body := by
  intro ps
  induction ps with
  | nil => intro _; exact ⟨[], rfl, by simp⟩
  | cons p ps ih =>
    intro h
    have hp := h p (List.mem_cons_self _ _)
    cases ps with
    | nil => exact ⟨p, rfl, hp⟩
    | cons q ps =>
      obtain ⟨body, hb, hn⟩ := ih (fun x hx => h x (List.mem_cons_of_mem _ hx))
      refine ⟨p ++ ',' :: body, ?_, ?_⟩
      · rw [paramList, hb]; simp
      · intro hc
        rcases List.mem_append.mp hc with h1 | h1
        · exact hp h1
        · rcases List.mem_cons.mp h1 with h2 | h2
          · cases h2
          · exact hn h2

theorem Ansify_params (funcdef : List (List Char)) (ndef mode : Nat) (H D : List Char)
    (ps : List (List Char)) (hsemi : ∃ l ∈ unitLines funcdef ndef, ';' ∈ l)
    (hbuf : KillComments NUL NUL (joinLines (unitLines funcdef ndef)) =
      H ++ '(' :: (paramList ps ++ D))
    (hH1 : '(' ∉ H) (hH2 : ')' ∉ H) (hne : ps ≠ []) (hps : ∀ p ∈ ps, ',' ∉ p ∧ ')' ∉ p)
    (hlast : ps.getLast? ≠ some [])
    (hfunc : H.length + (paramList ps).length + 2 ≤ MAXBUFF)
    (hvar : ∀ p ∈ ps, (p.dropWhile isWs).length < 80)
    (hfit : ∀ p ∈ ps, ansiFits (H ++ '(' :: (paramList ps ++ D))
      (H.length + 1 + (paramList ps).length) (paramName p) = true)
    (hfail : notFound (H ++ '(' :: (paramList ps ++ D)) (H.length + 1 + (paramList ps).length)
      ps ≤ H.length + 1) :
    Ansify funcdef ndef mode =
      some (H ++ '(' :: (paramsOut (fun name =>
        (WriteANSI (H ++ '(' :: (paramList ps ++ D)) (H.length + 1 + (paramList ps).length)
          name).2) (H.length + 1) ps true ++ closer mode)) := by
  obtain ⟨body, hb, hbody⟩ := paramList_body ps (fun p hp => (hps p hp).2)
  have hall : ¬ ((unitLines funcdef ndef).all (fun l => !(l.contains ';')) = true) := by
    rw [List.all_eq_true]
    intro h
    obtain ⟨l, hl, hc⟩ := hsemi
    have := h l hl
    simp at this
    exact this hc
  have hlen : (paramList ps).length = body.length + 1 := by rw [hb]; simp
  have e1 : H ++ '(' :: (paramList ps ++ D) = (H ++ '(' :: body) ++ ')' :: D := by
    rw [hb]; simp
  have hs1 : strchr (H ++ '(' :: (paramList ps ++ D)) ')' = some (H.length + 1 + body.length) := by
    rw [e1, strchr_append]
    · simp; omega
    · intro hc
      rcases List.mem_append.mp hc with h1 | h1
      · exact hH2 h1
      · rcases List.mem_cons.mp h1 with h2 | h2
        · cases h2
        · exact hbody h2
  have hfunc' : (H ++ '(' :: (paramList ps ++ D)).take (H.length + 1 + body.length) ++ [')'] =
      H ++ '(' :: paramList ps := by
    rw [e1, List.take_left' (by simp; omega), hb]
    simp
  have hs2 : strchr (H ++ '(' :: paramList ps) '(' = some H.length := strchr_append H '(' _ hH1
  unfold Ansify
  simp only
  rw [if_neg hall, hbuf, hs1]
  simp only
  rw [if_neg (by omega), hfunc', hs2]
  simp only
  have htake : List.take H.length (H ++ '(' :: paramList ps) = H := List.take_left' rfl
  have hdropp : List.drop (H.length + 1) (H ++ '(' :: paramList ps) = paramList ps := by
    rw [show H ++ '(' :: paramList ps = (H ++ ['(']) ++ paramList ps by simp]
    exact List.drop_left' (by simp)
  have hdefs : H.length + 1 + body.length + 1 = H.length + 1 + (paramList ps).length := by
    rw [hlen, ← Nat.add_assoc]
  rw [htake, hdropp, hdefs, ansifyParams_list _ _ _ ps _ true _ hne hps hlast (Nat.le_refl _)
    hvar hfit (by simpa using hfail)]
  simp only [List.length_append, List.length_singleton]
  unfold closer
  split_ifs <;> simp

/-! ## The capacity of a definition unit -/

theorem assemble1_tooMany_iff : ∀ (lines : List (List Char)) (st : ClassifierState)
    (fd : List (List Char)) (ndef : Nat), MAXLINES ≤ fd.length → ndef < MAXLINES →
    ((∃ fd1, assemble1 st fd ndef lines = .tooMany fd1) ↔
      (';' ∉ row fd ndef ∧ '{' ∉ row fd ndef) ∧ MAXLINES - ndef ≤ lines.length ∧
        ∀ l ∈ lines.take (MAXLINES - ndef - 1), ';' ∉ terminate l ∧ '{' ∉ terminate l) := by
  intro lines
  induction lines with
  | nil =>
    intro st fd ndef _ hn
    rw [assemble1]
    constructor
    · intro ⟨fd1, h⟩
      split_ifs at h
    · intro ⟨_, h, _⟩
      simp at h
      omega
  | cons raw rest ih =>
    intro st fd ndef hfd hn
    rw [assemble1]
    by_cases h0 : (row fd ndef).contains ';' = true ∨ (row fd ndef).contains '{' = true
    · rw [if_pos h0]
      constructor
      · intro ⟨fd1, h⟩; cases h
      · intro ⟨h, _⟩
        exact absurd h0 (no_terminator _ h.1 h.2)
    · rw [if_neg h0]
      have h0' : ';' ∉ row fd ndef ∧ '{' ∉ row fd ndef := by
        constructor <;> intro hc <;> apply h0 <;> simp [hc]
      simp only
      by_cases h1 : ndef + 1 ≥ MAXLINES
      · rw [if_pos h1]
        have e : MAXLINES - ndef - 1 = 0 := by omega
        rw [e]
        constructor
        · intro _
          exact ⟨h0', by simp; omega, by simp⟩
        · intro _
          exact ⟨_, rfl⟩
      · rw [if_neg h1]
        have hrow : row (fd.set (ndef + 1) (terminate raw)) (ndef + 1) = terminate raw := by
          rw [row_set, if_pos ⟨rfl, by omega⟩]
        rw [ih _ _ (ndef + 1) (by simpa using hfd) (by omega), hrow]
        have e : MAXLINES - ndef - 1 = (MAXLINES - (ndef + 1) - 1) + 1 := by omega
        rw [e, List.take_succ_cons]
        simp only [List.length_cons, List.mem_cons, forall_eq_or_imp]
        constructor
        · intro ⟨h2, h3, h4⟩
          exact ⟨h0', by omega, h2, h4⟩
        · intro ⟨_, h3, h2, h4⟩
          exact ⟨h2, by omega, h4⟩

theorem report_eq_unitLines (fd : List (List Char)) :
    report fd = unitLines fd (MAXLINES - 1) := rfl

theorem assemble1_tooMany_report : ∀ (lines : List (List Char)) (st : ClassifierState)
    (fd : List (List Char)) (ndef : Nat) (fd1 : List (List Char)),
    MAXLINES ≤ fd.length → ndef < MAXLINES → assemble1 st fd ndef lines = .tooMany fd1 →
    report fd1 = unitLines fd ndef ++ (lines.take (MAXLINES - ndef - 1)).map terminate := by
  intro lines
  induction lines with
  | nil =>
    intro st fd ndef fd1 _ _ h
    rw [assemble1] at h
    split_ifs at h
  | cons raw rest ih =>
    intro st fd ndef fd1 hfd hn h
    rw [assemble1] at h
    split_ifs at h with h0 h1
    · cases h
      have e : MAXLINES - ndef - 1 = 0 := by omega
      have e2 : ndef = MAXLINES - 1 := by omega
      rw [e, report_eq_unitLines, unitLines_set _ _ _ _ (by omega), e2]
      simp
    · have hrow : row (fd.set (ndef + 1) (terminate raw)) (ndef + 1) = terminate raw := by
        rw [row_set, if_pos ⟨rfl, by omega⟩]
      have e : MAXLINES - ndef - 1 = (MAXLINES - (ndef + 1) - 1) + 1 := by omega
      rw [ih _ _ (ndef + 1) fd1 (by simpa using hfd) (by omega) h, e, List.take_succ_cons,
        unitLines_succ, unitLines_set _ _ _ _ (by omega), hrow]
      simp

theorem assemble2_tooMany_iff : ∀ (lines : List (List Char)) (st : ClassifierState)
    (fd : List (List Char)) (ndef : Nat), MAXLINES ≤ fd.length → ndef < MAXLINES →
    ((∃ fd1, assemble2 st fd ndef lines = .tooMany fd1) ↔
      '{' ∉ row fd ndef ∧ MAXLINES - ndef ≤ lines.length ∧
        ∀ l ∈ lines.take (MAXLINES - ndef - 1), '{' ∉ terminate l) := by
  intro lines
  induction lines with
  | nil =>
    intro st fd ndef _ hn
    rw [assemble2]
    constructor
    · intro ⟨fd1, h⟩
      split_ifs at h
    · intro ⟨_, h, _⟩
      simp at h
      omega
  | cons raw rest ih =>
    intro st fd ndef hfd hn
    rw [assemble2]
    by_cases h0 : (row fd ndef).contains '{' = true
    · rw [if_pos h0]
      constructor
      · intro ⟨fd1, h⟩; cases h
      · intro ⟨h, _⟩
        rw [contains_false_of_not_mem _ _ h] at h0
        cases h0
    · rw [if_neg h0]
      have h0' : '{' ∉ row fd ndef := by
        intro hc; apply h0; simp [hc]
      simp only
      by_cases h1 : ndef + 1 ≥ MAXLINES
      · rw [if_pos h1]
        have e : MAXLINES - ndef - 1 = 0 := by omega
        rw [e]
        constructor
        · intro _
          exact ⟨h0', by simp; omega, by simp⟩
        · intro _
          exact ⟨_, rfl⟩
      · rw [if_neg h1]
        have hrow : row (fd.set (ndef + 1) (terminate raw)) (ndef + 1) = terminate raw := by
          rw [row_set, if_pos ⟨rfl, by omega⟩]
        rw [ih _ _ (ndef + 1) (by simpa using hfd) (by omega), hrow]
        have e : MAXLINES - ndef - 1 = (MAXLINES - (ndef + 1) - 1) + 1 := by omega
        rw [e, List.take_succ_cons]
        simp only [List.length_cons, List.mem_cons, forall_eq_or_imp]
        constructor
        · intro ⟨h2, h3, h4⟩
          exact ⟨h0', by omega, h2, h4⟩
        · intro ⟨_, h3, h2, h4⟩
          exact ⟨h2, by omega, h4⟩

theorem assemble2_tooMany_report : ∀ (lines : List (List Char)) (st : ClassifierState)
    (fd : List (List Char)) (ndef : Nat) (fd1 : List (List Char)),
    MAXLINES ≤ fd.length → ndef < MAXLINES → assemble2 st fd ndef lines = .tooMany fd1 →
    report fd1 = unitLines fd ndef ++ (lines.take (MAXLINES - ndef - 1)).map terminate := by
  intro lines
  induction lines with
  | nil =>
    intro st fd ndef fd1 _ _ h
    rw [assemble2] at h
    split_ifs at h
  | cons raw rest ih =>
    intro st fd ndef fd1 hfd hn h
    rw [assemble2] at h
    split_ifs at h with h0 h1
    · cases h
      have e : MAXLINES - ndef - 1 = 0 := by omega
      have e2 : ndef = MAXLINES - 1 := by omega
      rw [e, report_eq_unitLines, unitLines_set _ _ _ _ (by omega), e2]
      simp
    · have hrow : row (fd.set (ndef + 1) (terminate raw)) (ndef + 1) = terminate raw := by
        rw [row_set, if_pos ⟨rfl, by omega⟩]
      have e : MAXLINES - ndef - 1 = (MAXLINES - (ndef + 1) - 1) + 1 := by omega
      rw [ih _ _ (ndef + 1) fd1 (by simpa using hfd) (by omega) h, e, List.take_succ_cons,
        unitLines_succ, unitLines_set _ _ _ _ (by omega), hrow]
      simp

theorem handUnit_fatal_iff (mode : Nat) (out : List Char) (a : Assembled) (o : List Char)
    (rep : List (List Char)) :
    handUnit mode out a = .stop (.fatal o rep) ↔
      ∃ fd1, a = .tooMany fd1 ∧ o = out ∧ rep = report fd1 := by
  cases a with
  | tooMany fd =>
    rw [handUnit]
    constructor
    · intro h
      cases h
      exact ⟨fd, rfl, rfl, rfl⟩
    · intro ⟨fd1, h1, h2, h3⟩
      cases h1
      rw [h2, h3]
  | unit st fd ndef rest =>
    rw [handUnit]
    constructor
    · intro h
      by_cases h0 : ndef ≥ MAXLINES
      · rw [if_pos h0] at h; cases h
      · rw [if_neg h0] at h
        cases h4 : transcode mode fd ndef with
        | none => rw [h4] at h; cases h
        | some text => rw [h4] at h; cases h
    · intro ⟨fd1, h1, _, _⟩
      cases h1

theorem afterUnit_fatal_iff (mode : Nat) (out : List Char) (st1 : ClassifierState)
    (fd1 : List (List Char)) (ndef1 : Nat) (rest1 : List (List Char)) (o : List Char)
    (rep : List (List Char)) :
    afterUnit mode out st1 fd1 ndef1 rest1 = .stop (.fatal o rep) ↔
      ndef1 < MAXLINES ∧ (∃ v, isFunc fd1 ndef1 = some (v + 1)) ∧
      (';' ∈ row fd1 ndef1 ∧ '{' ∉ row fd1 ndef1) ∧
      ∃ fd2, assemble2 st1 fd1 ndef1 rest1 = .tooMany fd2 ∧ o = out ∧ rep = report fd2 := by
  have hc : ((row fd1 ndef1).contains ';' = true ∧ ¬ (row fd1 ndef1).contains '{' = true) ↔
      (';' ∈ row fd1 ndef1 ∧ '{' ∉ row fd1 ndef1) := by simp
  rcases afterUnit_cases mode out st1 fd1 ndef1 rest1 with h1 | ⟨hf, _, h1⟩ | ⟨hf, hn, h1⟩
  · rw [h1]
    constructor
    · intro h; cases h
    · intro ⟨hn, ⟨v, hv⟩, h4, fd2, h5, _, _⟩
      unfold afterUnit at h1
      rw [if_neg (by omega), hv] at h1
      simp only at h1
      rw [if_pos (hc.mpr h4), h5, handUnit] at h1
      cases h1
  · rw [h1]
    constructor
    · intro h; cases h
    · intro ⟨_, ⟨v, hv⟩, _, _⟩
      rw [hf] at hv
      cases hv
  · rw [h1, handUnit_fatal_iff]
    constructor
    · intro ⟨fd2, h2, h3, h4⟩
      by_cases h5 : (row fd1 ndef1).contains ';' = true ∧ ¬ (row fd1 ndef1).contains '{' = true
      · rw [if_pos h5] at h2
        exact ⟨hn, hf, hc.mp h5, fd2, h2, h3, h4⟩
      · rw [if_neg h5] at h2
        cases h2
    · intro ⟨_, _, h5, fd2, h2, h3, h4⟩
      refine ⟨fd2, ?_, h3, h4⟩
      rw [if_pos (hc.mpr h5), h2]

theorem round_fatal_iff (mode : Nat) (st : ClassifierState) (fd : List (List Char))
    (raw : List Char) (rest : List (List Char)) (out o : List Char) (rep : List (List Char)) :
    round mode st fd raw rest out = .stop (.fatal o rep) ↔
      (isInteresting st (terminate raw)).1 ≠ 0 ∧ '(' ∈ KillComments NUL NUL (terminate raw) ∧
      o = out ∧ ∃ fd2, rep = report fd2 ∧
        (assemble1 (isInteresting st (terminate raw)).2 (fd.set 0 (terminate raw)) 0 rest =
            .tooMany fd2 ∨
          ∃ st1 fd1 ndef1 rest1,
            assemble1 (isInteresting st (terminate raw)).2 (fd.set 0 (terminate raw)) 0 rest =
              .unit st1 fd1 ndef1 rest1 ∧
            ndef1 < MAXLINES ∧ (∃ v, isFunc fd1 ndef1 = some (v + 1)) ∧
            (';' ∈ row fd1 ndef1 ∧ '{' ∉ row fd1 ndef1) ∧
            assemble2 st1 fd1 ndef1 rest1 = .tooMany fd2) := by
  unfold round
  simp only
  by_cases h1 : (isInteresting st (terminate raw)).1 ≠ 0
  · rw [if_pos h1]
    by_cases h2 : (KillComments NUL NUL (terminate raw)).contains '(' = true
    · rw [if_pos h2]
      have h2' : '(' ∈ KillComments NUL NUL (terminate raw) := by simpa using h2
      cases h3 : assemble1 (isInteresting st (terminate raw)).2 (fd.set 0 (terminate raw)) 0 rest with
      | tooMany fd1 =>
        simp only
        constructor
        · intro h
          cases h
          exact ⟨h1, h2', rfl, fd1, rfl, Or.inl rfl⟩
        · intro ⟨_, _, ho, fd2, hr, h4⟩
          rcases h4 with h4 | ⟨_, _, _, _, h4, _⟩
          · cases h4
            rw [ho, hr]
          · cases h4
      | unit st1 fd1 ndef1 rest1 =>
        simp only
        rw [afterUnit_fatal_iff]
        constructor
        · intro ⟨hn, hv, hrow, fd2, h4, ho, hr⟩
          exact ⟨h1, h2', ho, fd2, hr, Or.inr ⟨st1, fd1, ndef1, rest1, rfl, hn, hv, hrow, h4⟩⟩
        · intro ⟨_, _, ho, fd2, hr, h4⟩
          rcases h4 with h4 | ⟨_, _, _, _, h4, hn, hv, hrow, h5⟩
          · cases h4
          · cases h4
            exact ⟨hn, hv, hrow, fd2, h5, ho, hr⟩
    · rw [if_neg h2]
      constructor
      · intro h; cases h
      · intro ⟨_, h3, _⟩
        exact absurd (by simpa using h3) h2
  · rw [if_neg h1]
    constructor
    · intro h; cases h
    · intro ⟨h3, _⟩
      exact absurd h3 h1

/-! ## The first assembling loop at the end of the input -/

theorem assemble1_eof : ∀ (lines : List (List Char)) (st : ClassifierState)
    (fd : List (List Char)) (ndef : Nat),
    MAXLINES ≤ fd.length → ndef + lines.length + 1 < MAXLINES →
    ';' ∉ row fd ndef → '{' ∉ row fd ndef →
    (∀ l ∈ lines, ';' ∉ terminate l ∧ '{' ∉ terminate l) →
    ∃ st1 fd1, assemble1 st fd ndef lines = .unit st1 fd1 (ndef + lines.length + 1) [] ∧
      unitLines fd1 (ndef + lines.length + 1) =
        unitLines fd ndef ++ lines.map terminate ++ [row fd (ndef + lines.length + 1)] := by
  intro lines
  induction lines with
  | nil =>
    intro st fd ndef _ _ h1 h2 _
    refine ⟨st, fd, ?_, ?_⟩
    · rw [assemble1, if_neg (no_terminator _ h1 h2)]
      rfl
    · simp [unitLines_succ]
  | cons raw rest ih =>
    intro st fd ndef hfd hlen h1 h2 hl
    simp only [List.length_cons] at hlen
    have hraw := hl raw (List.mem_cons_self _ _)
    have hrow : row (fd.set (ndef + 1) (terminate raw)) (ndef + 1) = terminate raw := by
      rw [row_set, if_pos ⟨rfl, by omega⟩]
    obtain ⟨st1, fd1, he, hu⟩ := ih (isInteresting st (terminate raw)).2
      (fd.set (ndef + 1) (terminate raw)) (ndef + 1) (by simpa using hfd) (by omega)
      (by rw [hrow]; exact hraw.1) (by rw [hrow]; exact hraw.2)
      (fun l hl' => hl l (List.mem_cons_of_mem _ hl'))
    have e : ndef + (raw :: rest).length + 1 = ndef + 1 + rest.length + 1 := by
      simp only [List.length_cons]; omega
    refine ⟨st1, fd1, ?_, ?_⟩
    · rw [assemble1, if_neg (no_terminator _ h1 h2)]
      simp only
      rw [if_neg (by omega), he, e]
    · rw [e, hu, unitLines_succ, unitLines_set _ _ _ _ (by omega), hrow, row_set,
        if_neg (by omega)]
      simp

/-! ## Prototypes from ANSI definitions -/

theorem takeWhile_ne_append (a b : List Char) (c : Char) (h : c ∉ a) :
    (a ++ c :: b).takeWhile (fun x => x != c) = a := by
  induction a with
  | nil => simp
  | cons x a ih =>
    have hx : x ≠ c := fun e => h (by simp [e])
    have ha : c ∉ a := fun e => h (List.mem_cons_of_mem _ e)
    rw [List.cons_append, List.takeWhile_cons, if_pos (by simpa using hx), ih ha]

theorem protoLines_brace (pre : List (List Char)) (a b : List Char) (post : List (List Char))
    (hpre : ∀ l ∈ pre, '{' ∉ l) (ha : '{' ∉ a) :
    protoLines (pre ++ (a ++ '{' :: b) :: post) = putLines pre ++ (a ++ [';', '\n']) := by
  induction pre with
  | nil =>
    rw [List.nil_append, protoLines, if_pos (by simp), takeWhile_ne_append a b '{' ha]
    simp [putLines]
  | cons l pre ih =>
    rw [List.cons_append, protoLines, if_neg (hpre l (List.mem_cons_self _ _)),
      ih (fun x hx => hpre x (List.mem_cons_of_mem _ hx))]
    simp [putLines]

theorem protoLines_no_brace (lines : List (List Char)) (h : ∀ l ∈ lines, '{' ∉ l) :
    protoLines lines = putLines lines := by
  induction lines with
  | nil => rfl
  | cons l rest ih =>
    rw [protoLines, if_neg (h l (List.mem_cons_self _ _)),
      ih (fun x hx => h x (List.mem_cons_of_mem _ hx))]
    rfl

theorem Ansify_protos (funcdef : List (List Char)) (ndef : Nat)
    (h : ∀ l ∈ unitLines funcdef ndef, ';' ∉ l) :
    Ansify funcdef ndef MakeProtos = some (protoLines (unitLines funcdef ndef)) := by
  unfold Ansify
  have : (unitLines funcdef ndef).all (fun l => !(l.contains ';')) = true := by
    rw [List.all_eq_true]
    intro l hl
    simpa using h l hl
  rw [if_pos this, if_neg (by decide)]

/-! ## The comment stripper on comments read as in C -/

theorem wfC_afterClose_head (l : List Char) (h : wfC .afterClose l = true) :
    l.headD NUL ≠ '*' := by
  cases l with
  | nil => decide
  | cons c rest =>
    rw [wfC] at h
    by_cases h0 : c = '/' ∧ rest.headD NUL = '*'
    · rw [h0.1]
      intro hh
      simp at hh
    · rw [if_neg h0] at h
      simp only [Bool.and_eq_true, bne_iff_ne, ne_eq] at h
      exact h.1

theorem killStream_stripC : ∀ (l : List Char) (r2 r1 : Char) (lag : Nat),
    (wfC .text l = true → ¬ (r2 = '*' ∧ r1 = '/') → (r1 = '*' → l.headD NUL ≠ '/') →
      killStream r2 r1 lag 0 l = stripC .text l) ∧
    (wfC .afterClose l = true → killStream '*' '/' lag 1 l = stripC .afterClose l) ∧
    (wfC .openStar l = true → l.headD NUL = '*' → r2 ≠ '*' →
      killStream r2 '/' lag 1 l = stripC .openStar l) ∧
    (wfC .bodyStart l = true → killStream '/' '*' lag 1 l = stripC .bodyStart l) ∧
    (wfC .body l = true → ¬ (r2 = '*' ∧ r1 = '/') → (r1 = '*' → l.headD NUL ≠ '/') →
      killStream r2 r1 lag 1 l = stripC .body l) ∧
    (wfC .closeSlash l = true → l.headD NUL = '/' →
      killStream r2 '*' lag 1 l = stripC .closeSlash l) := by
  intro l
  induction l with
  | nil =>
    intro r2 r1 lag
    refine ⟨fun _ _ _ => rfl, fun _ => rfl, fun _ _ _ => rfl, fun _ => rfl, fun _ _ _ => rfl,
      fun _ _ => rfl⟩
  | cons c rest ih =>
    intro r2 r1 lag
    have e1 : ¬ (('*' : Char) = '/') := by decide
    have e2 : ¬ (('/' : Char) = '*') := by decide
    refine ⟨?_, ?_, ?_, ?_, ?_, ?_⟩
    · -- text
      intro hw hI1 hI2
      rw [wfC] at hw
      rw [killStream, stripC]
      by_cases h0 : c = '/' ∧ rest.headD NUL = '*'
      · rw [if_pos h0] at hw
        have hr1 : r1 ≠ '*' := fun e => hI2 e (by simpa using h0.1)
        simp only [h0, and_self, if_true, hI1, if_false]
        rw [if_neg (by decide)]
        exact (ih r1 r1 (lag + 1)).2.2.1 hw h0.2 hr1
      · rw [if_neg h0] at hw
        simp only [Bool.and_eq_true, Bool.not_eq_true', Bool.and_eq_false_iff, beq_eq_false_iff_ne,
          ne_eq] at hw
        simp only [h0, if_false, hI1, if_true]
        congr 1
        apply (ih (if lag = 1 then c else r1) c lag).1 hw.2
        · intro hh
          by_cases hl : lag = 1
          · rw [if_pos hl] at hh
            rw [hh.1] at hh
            exact e1 hh.2
          · rw [if_neg hl] at hh
            exact hI2 hh.1 (by simpa using hh.2)
        · intro hc
          rcases hw.1 with h | h
          · exact absurd hc h
          · exact h
    · -- afterClose
      intro hw
      rw [wfC] at hw
      rw [killStream, stripC]
      by_cases h0 : c = '/' ∧ rest.headD NUL = '*'
      · rw [if_pos h0] at hw
        simp only [h0, and_self, if_true]
        rw [if_neg (by decide)]
        exact (ih '/' '/' (lag + 1)).2.2.1 hw h0.2 e2
      · rw [if_neg h0] at hw
        simp only [Bool.and_eq_true, bne_iff_ne, ne_eq] at hw
        simp only [h0, if_false, and_self, if_true]
        rw [if_pos (by decide)]
        congr 1
        apply (ih (if lag = 1 then c else '/') c lag).1 hw.2
        · intro hh
          by_cases hl : lag = 1
          · rw [if_pos hl] at hh
            rw [hh.1] at hh
            exact e1 hh.2
          · rw [if_neg hl] at hh
            exact e2 hh.1
        · intro hc
          exact absurd hc hw.1
    · -- openStar
      intro hw hh hr2
      rw [wfC] at hw
      have hc : c = '*' := by simpa using hh
      subst hc
      rw [killStream, stripC]
      simp only [e1, false_and, if_false, hr2]
      rw [if_neg (by decide)]
      exact (ih '/' '/' (lag + 1)).2.2.2.1 hw
    · -- bodyStart
      intro hw
      rw [wfC] at hw
      simp only [Bool.and_eq_true, bne_iff_ne, ne_eq] at hw
      rw [killStream, stripC]
      simp only [hw.1, false_and, if_false, e2, and_false]
      rw [if_neg (by decide)]
      by_cases h0 : c = '*' ∧ rest.headD NUL = '/'
      · rw [if_pos h0] at hw ⊢
        rw [h0.1]
        exact (ih '*' '*' (lag + 1)).2.2.2.2.2 hw.2 h0.2
      · rw [if_neg h0] at hw ⊢
        apply (ih '*' c (lag + 1)).2.2.2.2.1 hw.2
        · intro hh
          exact hw.1 hh.2
        · intro hc
          by_contra hn
          exact h0 ⟨hc, hn⟩
    · -- body
      intro hw hI1 hI2
      rw [wfC] at hw
      rw [killStream, stripC]
      by_cases h0 : c = '*' ∧ rest.headD NUL = '/'
      · rw [if_pos h0] at hw ⊢
        rw [h0.1]
        simp only [e1, false_and, if_false, hI1]
        rw [if_neg (by decide)]
        exact (ih r1 r1 (lag + 1)).2.2.2.2.2 hw h0.2
      · rw [if_neg h0] at hw ⊢
        simp only [Bool.and_eq_true, Bool.not_eq_true', Bool.and_eq_false_iff, beq_eq_false_iff_ne,
          ne_eq] at hw
        have hno : ¬ (c = '/' ∧ rest.headD NUL = '*') := by
          intro hh
          rcases hw.1 with h | h
          · exact h hh.1
          · exact h hh.2
        simp only [hno, if_false, hI1]
        rw [if_neg (by decide)]
        apply (ih r1 c (lag + 1)).2.2.2.2.1 hw.2
        · intro hh
          exact hI2 hh.1 (by simpa using hh.2)
        · intro hc
          by_contra hn
          exact h0 ⟨hc, hn⟩
    · -- closeSlash
      intro hw hh
      rw [wfC] at hw
      have hc : c = '/' := by simpa using hh
      subst hc
      have hn := wfC_afterClose_head rest hw
      rw [killStream, stripC]
      simp only [hn, and_false, if_false, e1]
      rw [if_neg (by decide)]
      exact (ih '*' '*' (lag + 1)).2.1 hw

theorem KillComments_eq_stripC (l : List Char) (h : wfC .text l = true) :
    KillComments NUL NUL l = stripC .text l := by
  rw [KillComments_eq_killStream]
  exact (killStream_stripC l NUL NUL 0).1 h (by decide) (fun e => absurd e (by decide))

theorem round_stripC (mode : Nat) (st : ClassifierState) (fd : List (List Char))
    (raw : List Char) (rest : List (List Char)) (out : List Char)
    (hwf : wfC .text (terminate raw) = true) (hp : '(' ∉ stripC .text (terminate raw)) :
    round mode st fd raw rest out =
      .next (isInteresting st (terminate raw)).2 fd rest (out ++ copyLine mode (terminate raw)) := by
  apply round_copy
  right
  rw [KillComments_eq_stripC _ hwf]
  exact hp

/-! ## FindString -/

theorem FindStringFrom_cons (string : List Char) (hs : string ≠ []) (c : Char)
    (rest : List Char) (ptr : Nat) :
    FindStringFrom string (c :: rest) ptr =
      if string.isPrefixOf (c :: rest) = true then some ptr
      else FindStringFrom string rest (ptr + 1) := by
  obtain ⟨a, t, rfl⟩ := List.exists_cons_of_ne_nil hs
  rw [FindStringFrom]
  by_cases h1 : c = a
  · subst h1
    simp
  · have : ¬ a = c := fun h => h1 h.symm
    simp [h1, this, List.isPrefixOf]

theorem FindStringFrom_some (string : List Char) (hs : string ≠ []) :
    ∀ (l : List Char) (ptr q : Nat),
      FindStringFrom string l ptr = some q ↔
        ∃ k, q = ptr + k ∧ occursAt l string k ∧ ∀ j, j < k → ¬ occursAt l string j := by
  intro l
  induction l with
  | nil =>
    intro ptr q
    obtain ⟨a, t, rfl⟩ := List.exists_cons_of_ne_nil hs
    simp [FindStringFrom, occursAt, List.isPrefixOf]
  | cons c rest ih =>
    intro ptr q
    rw [FindStringFrom_cons string hs]
    by_cases h0 : string.isPrefixOf (c :: rest) = true
    · rw [if_pos h0]
      constructor
      · intro h
        refine ⟨0, ?_, h0, ?_⟩
        · simpa using (Option.some.inj h).symm
        · intro j hj; omega
      · rintro ⟨k, hk, _, hmin⟩
        cases k with
        | zero => simp [hk]
        | succ k => exact absurd h0 (hmin 0 (by omega))
    · rw [if_neg h0, ih]
      constructor
      · rintro ⟨k, hk, hacc, hmin⟩
        refine ⟨k + 1, by omega, hacc, ?_⟩
        intro j hj
        cases j with
        | zero => exact h0
        | succ j => exact hmin j (by omega)
      · rintro ⟨k, hk, hacc, hmin⟩
        cases k with
        | zero => exact absurd hacc h0
        | succ k =>
          refine ⟨k, by omega, hacc, ?_⟩
          intro j hj
          exact hmin (j + 1) (by omega)

theorem FindStringFrom_none (string : List Char) (hs : string ≠ []) :
    ∀ (l : List Char) (ptr : Nat),
      FindStringFrom string l ptr = none ↔ ∀ k, ¬ occursAt l string k := by
  intro l
  induction l with
  | nil =>
    intro ptr
    obtain ⟨a, t, rfl⟩ := List.exists_cons_of_ne_nil hs
    simp [FindStringFrom, occursAt, List.isPrefixOf]
  | cons c rest ih =>
    intro ptr
    rw [FindStringFrom_cons string hs]
    by_cases h0 : string.isPrefixOf (c :: rest) = true
    · rw [if_pos h0]
      constructor
      · intro h; cases h
      · intro h; exact absurd h0 (h 0)
    · rw [if_neg h0, ih]
      constructor
      · intro h k
        cases k with
        | zero => exact h0
        | succ k => exact h k
      · intro h k
        exact h (k + 1)

theorem FindStringTrace_fst (string : List Char) : ∀ (l : List Char) (ptr : Nat),
    (FindStringTrace string l ptr).1 = FindStringFrom string l ptr := by
  intro l
  induction l with
  | nil => intro ptr; rfl
  | cons c rest ih =>
    intro ptr
    rw [FindStringTrace, FindStringFrom]
    split_ifs
    · exact ih (ptr + 1)
    · rfl
    · exact ih (ptr + 1)

theorem compareReads_bound : ∀ (s l : List Char) (pos : Nat),
    ∀ p ∈ compareReads s l pos, pos ≤ p ∧ p ≤ pos + l.length := by
  intro s
  induction s with
  | nil => intro l pos p hp; simp [compareReads] at hp
  | cons a s ih =>
    intro l pos p hp
    cases l with
    | nil =>
      simp [compareReads] at hp
      subst hp
      simp
    | cons c l =>
      rw [compareReads] at hp
      split_ifs at hp
      · rcases List.mem_cons.mp hp with h | h
        · subst h; simp
        · have := ih l (pos + 1) p h
          simp only [List.length_cons]
          omega
      · simp at hp
        subst hp
        simp

theorem FindStringTrace_bound (string : List Char) : ∀ (l : List Char) (ptr : Nat),
    ∀ p ∈ (FindStringTrace string l ptr).2, ptr ≤ p ∧ p ≤ ptr + l.length := by
  intro l
  induction l with
  | nil =>
    intro ptr p hp
    simp [FindStringTrace] at hp
    subst hp
    simp
  | cons c rest ih =>
    intro ptr p hp
    rw [FindStringTrace] at hp
    simp only [List.length_cons]
    split_ifs at hp
    · rcases List.mem_cons.mp hp with h | h
      · subst h; omega
      · have := ih (ptr + 1) p h
        omega
    · rcases List.mem_cons.mp hp with h | h
      · subst h; omega
      · have := compareReads_bound string (c :: rest) ptr p h
        simp only [List.length_cons] at this
        omega
    · rcases List.mem_cons.mp hp with h | h
      · subst h; omega
      · rcases List.mem_append.mp h with h | h
        · have := compareReads_bound string (c :: rest) ptr p h
          simp only [List.length_cons] at this
          omega
        · have := ih (ptr + 1) p h
          omega

/-! ## The parameter count of DeAnsify -/

theorem FindString_isSome (buffer needle : List Char) (hn : needle ≠ []) :
    (FindString buffer needle).isSome = true ↔ ∃ i, occursAt buffer needle i := by
  have h := FindStringFrom_none needle hn buffer 0
  unfold FindString
  cases hf : FindStringFrom needle buffer 0 with
  | none =>
    simp only [Option.isSome_none, Bool.false_eq_true, false_iff]
    rw [hf] at h
    intro ⟨i, hi⟩
    exact (h.mp rfl) i hi
  | some q =>
    simp only [Option.isSome_some, true_iff]
    rw [hf] at h
    by_contra hc
    have : ∀ k, ¬ occursAt buffer needle k := fun k hk => hc ⟨k, hk⟩
    have := h.mpr this
    cases this

theorem countParams_no_comma (bufptr : List Char)
    (hc : ',' ∉ bufptr.takeWhile (fun c => c != ')')) :
    (countParams bufptr = 0 ↔
      ((∃ i, occursAt bufptr ['v', 'o', 'i', 'd'] i) ∨ (∃ i, occursAt bufptr ['V', 'O', 'I', 'D'] i) ∨
        ∀ c ∈ bufptr.takeWhile (fun c => c != ')'), isWs c = true)) ∧
    (countParams bufptr ≠ 0 → countParams bufptr = 1) := by
  have h0 : (bufptr.takeWhile (fun c => c != ')')).count ',' = 0 := List.count_eq_zero.mpr hc
  have hv := FindString_isSome bufptr ['v', 'o', 'i', 'd'] (by decide)
  have hV := FindString_isSome bufptr ['V', 'O', 'I', 'D'] (by decide)
  unfold countParams
  simp only [h0, ne_eq, not_true_eq_false, if_false]
  by_cases h1 : (FindString bufptr ['v', 'o', 'i', 'd']).isSome = true ∨
      (FindString bufptr ['V', 'O', 'I', 'D']).isSome = true
  · rw [if_pos h1]
    have hd : (∃ i, occursAt bufptr ['v', 'o', 'i', 'd'] i) ∨
        (∃ i, occursAt bufptr ['V', 'O', 'I', 'D'] i) ∨
        ∀ c ∈ bufptr.takeWhile (fun c => c != ')'), isWs c = true := by
      rcases h1 with h | h
      · exact Or.inl (hv.mp h)
      · exact Or.inr (Or.inl (hV.mp h))
    exact ⟨Iff.intro (fun _ => hd) (fun _ => rfl), fun h => absurd rfl h⟩
  · rw [if_neg h1]
    have n1 : ¬ ∃ i, occursAt bufptr ['v', 'o', 'i', 'd'] i := fun h => h1 (Or.inl (hv.mpr h))
    have n2 : ¬ ∃ i, occursAt bufptr ['V', 'O', 'I', 'D'] i := fun h => h1 (Or.inr (hV.mpr h))
    by_cases h2 : (bufptr.takeWhile (fun c => c != ')')).any (fun c => !isWs c) = true
    · rw [if_pos h2]
      refine ⟨Iff.intro (fun h => by cases h) (fun h => ?_), fun _ => rfl⟩
      rcases h with h | h | h
      · exact absurd h n1
      · exact absurd h n2
      · rw [List.any_eq_true] at h2
        obtain ⟨c, hc1, hc2⟩ := h2
        rw [h c hc1] at hc2
        cases hc2
    · rw [if_neg h2]
      refine ⟨Iff.intro (fun _ => Or.inr (Or.inr ?_)) (fun _ => rfl), fun h => absurd rfl h⟩
      intro c hc1
      by_contra hw
      apply h2
      rw [List.any_eq_true]
      exact ⟨c, hc1, by simpa using hw⟩

/-! ## The parameters that Ansify writes, one after the other -/

theorem paramsOut_false (W : List Char → List Char) (width : Nat) : ∀ qs : List (List Char),
    paramsOut W width qs false =
      (qs.map (fun q => [',', '\n'] ++ List.replicate width ' ' ++ W (paramName q))).flatten
  | [] => rfl
  | q :: qs => by
      rw [paramsOut, paramsOut_false W width qs]
      simp

theorem paramsOut_true (W : List Char → List Char) (width : Nat) (p : List Char)
    (qs : List (List Char)) :
    paramsOut W width (p :: qs) true = W (paramName p) ++
      (qs.map (fun q => [',', '\n'] ++ List.replicate width ' ' ++ W (paramName q))).flatten := by
  rw [paramsOut, paramsOut_false]
  simp

/-! ## A declaration of one name -/

theorem WriteANSI_single (head lead T post : List Char) (d : Declarator) (defs : Nat)
    (hdefs : defs ≤ head.length)
    (hhead : head.length = defs ∨ head.getLast? = some ';')
    (hlead : ∀ c ∈ lead, isWs c = true) (hT : typeWords T) (hd : d.ok)
    (hmin : ∀ q, defs ≤ q → q < head.length + lead.length + T.length + d.blanks + d.stars →
      ¬ wordAt (head ++ (lead ++ (T ++ (d.text ++ ';' :: post)))) d.name q) :
    WriteANSI (head ++ (lead ++ (T ++ (d.text ++ ';' :: post)))) defs d.name =
      (0, T ++ ' ' :: (List.replicate d.stars '*' ++ d.name)) := by
  have h := WriteANSI_declaration head lead T post [] [] d defs hdefs hhead hlead hT
    (fun b hb => absurd hb (List.not_mem_nil _)) hd
  simp only [declPrefix, declRest, List.nil_append, List.length_nil, Nat.add_zero,
    List.singleton_append] at h
  exact h hmin

theorem count_star_param (T name : List Char) (k : Nat) (hT : ∀ c ∈ T, c ≠ '*')
    (hn : '*' ∉ name) : (T ++ ' ' :: (List.replicate k '*' ++ name)).count '*' = k := by
  have h1 : T.count '*' = 0 := List.count_eq_zero.2 (fun h => hT _ h rfl)
  have h2 : name.count '*' = 0 := List.count_eq_zero.2 hn
  rw [List.count_append, List.count_cons, List.count_append, List.count_replicate_self, h1, h2]
  simp

/-! ## A declaration with an array suffix -/

theorem target_stars (mem P rest : List Char) (b k : Nat) (x : Char) (defs : Nat)
    (hmem : mem = P ++ (List.replicate b ' ' ++ (List.replicate k '*' ++ rest)))
    (hP : P.getLast? = some x) (hx : isWs x = false) (hxs : x ≠ '*')
    (hdefs : defs + 1 ≤ P.length) (hb : 1 ≤ b) :
    ansiStars mem defs (P.length + b + k) = k := by
  have hne : P ≠ [] := by
    intro h0; rw [h0] at hP; cases hP
  have hl : P.getLast hne = x := (List.getLast_eq_iff_getLast_eq_some hne).mpr hP
  have hPl := List.length_pos.mpr hne
  have hsP : mem = [] ++ (P ++ (List.replicate b ' ' ++ (List.replicate k '*' ++ rest))) := by
    rw [hmem]; rfl
  have hsS : mem = (P ++ List.replicate b ' ') ++ (List.replicate k '*' ++ rest) := by
    rw [hmem]; simp [List.append_assoc]
  have hPget : mem.getD (P.length - 1) NUL = x := by
    rw [(mem_seg mem [] P _ hsP (P.length - 1) (by simp) (by simp; omega)).1]
    simp only [List.length_nil, Nat.sub_zero]
    rw [getD_getLast P hne, hl]
  have hBget : ∀ n, P.length ≤ n → n < P.length + b → mem.getD n NUL = ' ' := by
    intro n h1 h2
    have := (mem_seg mem P (List.replicate b ' ') _ hmem n h1 (by simp; omega)).2
    exact List.eq_of_mem_replicate this
  have hSget : ∀ n, P.length + b ≤ n → n < P.length + b + k → mem.getD n NUL = '*' := by
    intro n h1 h2
    have := (mem_seg mem (P ++ List.replicate b ' ') (List.replicate k '*') _ hsS n
      (by simp; omega) (by simp; omega)).2
    exact List.eq_of_mem_replicate this
  by_cases hk : k = 0
  · subst hk
    apply ansiStars_eq mem defs (P.length + b + 0) (P.length - 1) 0 (by omega) (by omega)
    · intro n h1 h2
      rw [hBget n (by omega) (by omega)]; rfl
    · right; rw [hPget]; exact hx
    · omega
    · intro j hj; omega
    · right
      rw [Nat.sub_zero, hPget]; exact hxs
  · apply ansiStars_eq mem defs (P.length + b + k) (P.length + b + k - 1) k (by omega) (by omega)
    · intro n h1 h2; omega
    · right
      rw [hSget _ (by omega) (by omega)]; rfl
    · omega
    · intro j hj
      exact hSget _ (by omega) (by omega)
    · right
      have e : P.length + b + k - 1 - k = P.length + b - 1 := by omega
      rw [e, hBget _ (by omega) (by omega)]
      decide

theorem ansiArray_suffix (mem A N S post : List Char) (dl : Char)
    (hmem : mem = A ++ (N ++ (S ++ dl :: post)))
    (hN : ∀ c ∈ N, c ≠ ',' ∧ c ≠ ';' ∧ c ≠ '[')
    (hS : ∀ c ∈ S, isWs c = false ∧ c ≠ ',' ∧ c ≠ ';') (hS0 : S.headD NUL = '[')
    (hS2 : 2 ≤ S.length) (hSlen : S.length ≤ MAXBUFF) (hdl : dl = ',' ∨ dl = ';') :
    ansiArray mem A.length = S := by
  have hSne : S ≠ [] := by
    intro h0; rw [h0] at hS2; simp at hS2
  have hsN : mem = A ++ (N ++ (S ++ dl :: post)) := hmem
  have hsS : mem = (A ++ N) ++ (S ++ dl :: post) := by rw [hmem]; simp [List.append_assoc]
  have hsD : mem = (A ++ (N ++ S)) ++ (dl :: post) := by rw [hmem]; simp [List.append_assoc]
  have hlen : mem.length = A.length + N.length + S.length + 1 + post.length := by
    rw [hmem]; simp; omega
  have hNget : ∀ n, A.length ≤ n → n < A.length + N.length → mem.getD n NUL ∈ N := by
    intro n h1 h2
    exact (mem_seg mem A N _ hsN n h1 h2).2
  have hSget : ∀ n, A.length + N.length ≤ n → n < A.length + N.length + S.length →
      mem.getD n NUL ∈ S := by
    intro n h1 h2
    exact (mem_seg mem (A ++ N) S _ hsS n (by simp; omega) (by simp; omega)).2
  have hS0get : mem.getD (A.length + N.length) NUL = '[' := by
    have := (mem_seg mem (A ++ N) S _ hsS (A.length + N.length) (by simp) (by simp; omega)).1
    rw [this]
    simp only [List.length_append, Nat.sub_self]
    rw [← headD_eq_getD]
    exact hS0
  have hDget : mem.getD (A.length + N.length + S.length) NUL = dl := by
    have := mem_seg_head mem _ post dl hsD
    simp only [List.length_append] at this
    rw [← this]
    congr 1
    omega
  have h1 : stepFwd (fun c => c != ',' && c != ';') mem ((A.length : Nat) : Int) =
      ((A.length + N.length + S.length : Nat) : Int) := by
    apply stepFwd_eq _ _ _ _ (by omega) (by omega)
    · intro i hi1 hi2
      by_cases hi : i < A.length + N.length
      · have := hN _ (hNget i hi1 hi)
        exact bne_and_bne_true _ _ _ this.1 this.2.1
      · have := hS _ (hSget i (by omega) hi2)
        exact bne_and_bne_true _ _ _ this.2.1 this.2.2
    · right
      rw [hDget]
      exact bne_and_bne_false _ _ _ hdl
  have h2 : stepBack isWs mem ((A.length : Nat) : Int)
      (((A.length + N.length + S.length : Nat) : Int) - 1) =
        ((A.length + N.length + S.length - 1 : Nat) : Int) := by
    apply stepBack_eq
    · omega
    · omega
    · intro i hi1 hi2; omega
    · right
      rw [peek_natCast]
      exact (hS _ (hSget _ (by omega) (by omega))).1
  have h3 : stepFwdTo (fun c => c != '[') mem ((A.length + N.length + S.length - 1 : Nat) : Int)
      ((A.length : Nat) : Int) = ((A.length + N.length : Nat) : Int) := by
    apply stepFwdTo_eq
    · omega
    · omega
    · intro i hi1 hi2
      rw [peek_of_nonneg mem i (by omega)]
      have := hN _ (hNget i.toNat (by omega) (by omega))
      exact bne_true _ _ this.2.2
    · right
      rw [peek_natCast, hS0get]
      rfl
  have e : ((A.length + N.length + S.length - 1 : Nat) : Int) =
      ((A.length + N.length : Nat) : Int) + (S.length : Int) - 1 := by omega
  unfold ansiArray
  simp only
  rw [h1, h2, h3, if_pos (by omega), e, slice_eq_take_drop mem _ _ (by omega), hsS]
  have : (A ++ N).length = A.length + N.length := by simp
  rw [← this, List.drop_left, List.take_left' rfl]
  exact List.take_of_length_le hSlen

theorem WriteANSI_array (head lead T post name suffix : List Char) (b k defs : Nat)
    (hdefs : defs ≤ head.length)
    (hhead : head.length = defs ∨ head.getLast? = some ';')
    (hlead : ∀ c ∈ lead, isWs c = true) (hT : typeWords T) (hb : 1 ≤ b) (hN : name ≠ [])
    (hNc : ∀ c ∈ name, isWs c = false ∧ c ≠ ',' ∧ c ≠ ';' ∧ c ≠ '[')
    (hS : ∀ c ∈ suffix, isWs c = false ∧ c ≠ ',' ∧ c ≠ ';') (hS0 : suffix.headD NUL = '[')
    (hS2 : 2 ≤ suffix.length) (hSlen : suffix.length ≤ MAXBUFF)
    (hmin : ∀ q, defs ≤ q → q < head.length + lead.length + T.length + b + k →
      ¬ wordAt (head ++ (lead ++ (T ++ (List.replicate b ' ' ++ (List.replicate k '*' ++
        (name ++ (suffix ++ ';' :: post))))))) name q) :
    WriteANSI (head ++ (lead ++ (T ++ (List.replicate b ' ' ++ (List.replicate k '*' ++
        (name ++ (suffix ++ ';' :: post))))))) defs name =
      (0, T ++ ' ' :: (List.replicate k '*' ++ (name ++ suffix))) := by
  obtain ⟨⟨hTne, hT0, hT1⟩, hTc, hTlen⟩ := hT
  generalize hmemdef : head ++ (lead ++ (T ++ (List.replicate b ' ' ++ (List.replicate k '*' ++
    (name ++ (suffix ++ ';' :: post)))))) = mem at hmin ⊢
  have hTl := List.length_pos.mpr hTne
  have hNl := List.length_pos.mpr hN
  have hmemP : mem = (head ++ (lead ++ T)) ++
      (List.replicate b ' ' ++ (List.replicate k '*' ++ (name ++ (suffix ++ ';' :: post)))) := by
    rw [← hmemdef]; simp [List.append_assoc]
  have hmemA : mem = (head ++ (lead ++ (T ++ (List.replicate b ' ' ++ List.replicate k '*')))) ++
      (name ++ (suffix ++ ';' :: post)) := by
    rw [← hmemdef]; simp [List.append_assoc]
  have hmemW : mem = head ++ (lead ++ (T ++ (List.replicate b ' ' ++
      ((List.replicate k '*' ++ (name ++ suffix)) ++ (';' :: post))))) := by
    rw [← hmemdef]; simp [List.append_assoc]
  have hmemL : mem = (head ++ lead) ++ ((T ++ (List.replicate b ' ' ++
      (List.replicate k '*' ++ (name ++ suffix)))) ++ (';' :: post)) := by
    rw [← hmemdef]; simp [List.append_assoc]
  have hmemD : mem = (head ++ (lead ++ (T ++ (List.replicate b ' ' ++
      (List.replicate k '*' ++ (name ++ suffix)))))) ++ (';' :: post) := by
    rw [← hmemdef]; simp [List.append_assoc]
  have hPlen : (head ++ (lead ++ T)).length = head.length + lead.length + T.length := by
    simp; omega
  have hAlen : (head ++ (lead ++ (T ++ (List.replicate b ' ' ++ List.replicate k '*')))).length =
      head.length + lead.length + T.length + b + k := by
    simp; omega
  have hlen : mem.length = head.length + lead.length + T.length + b + k + name.length
      + suffix.length + 1 + post.length := by
    rw [← hmemdef]; simp; omega
  have hSne : suffix ≠ [] := by
    intro h0; rw [h0] at hS2; simp at hS2
  -- the stars
  have hstars : ansiStars mem defs (head.length + lead.length + T.length + b + k) = k := by
    have := target_stars mem (head ++ (lead ++ T)) _ b k (T.getLast hTne) defs hmemP
      (by simp [List.getLast?_eq_getLast _ hTne]) hT1 (hTc _ (List.getLast_mem hTne)).1
      (by rw [hPlen]; omega) hb
    rw [hPlen] at this
    exact this
  -- the array part
  have harray : ansiArray mem (head.length + lead.length + T.length + b + k) = suffix := by
    have := ansiArray_suffix mem _ name suffix post ';' hmemA
      (fun c hc => ⟨(hNc c hc).2.1, (hNc c hc).2.2.1, (hNc c hc).2.2.2⟩) hS hS0 hS2 hSlen
      (Or.inr rfl)
    rw [hAlen] at this
    exact this
  -- the name is accepted at its place
  have hprev : precOK (mem.getD (head.length + lead.length + T.length + b + k - 1) NUL) = true := by
    by_cases hk : k = 0
    · subst hk
      have := (mem_seg mem (head ++ (lead ++ T)) (List.replicate b ' ') _ hmemP
        (head.length + lead.length + T.length + b + 0 - 1) (by rw [hPlen]; omega)
        (by rw [hPlen]; simp; omega)).2
      rw [List.eq_of_mem_replicate this]; rfl
    · have hm : mem = (head ++ (lead ++ (T ++ List.replicate b ' '))) ++ (List.replicate k '*' ++
          (name ++ (suffix ++ ';' :: post))) := by
        rw [← hmemdef]; simp [List.append_assoc]
      have := (mem_seg mem _ (List.replicate k '*') _ hm
        (head.length + lead.length + T.length + b + k - 1) (by simp; omega)
        (by simp; omega)).2
      rw [List.eq_of_mem_replicate this]; rfl
  have hfoll : mem.getD (head.length + lead.length + T.length + b + k + name.length) NUL = '[' := by
    have hm : mem = (head ++ (lead ++ (T ++ (List.replicate b ' ' ++ (List.replicate k '*' ++
        name))))) ++ (suffix ++ ';' :: post) := by
      rw [← hmemdef]; simp [List.append_assoc]
    have := (mem_seg mem _ suffix _ hm
      (head.length + lead.length + T.length + b + k + name.length) (by simp; omega)
      (by simp; omega)).1
    rw [this]
    have e : head.length + lead.length + T.length + b + k + name.length -
        (head ++ (lead ++ (T ++ (List.replicate b ' ' ++ (List.replicate k '*' ++
        name))))).length = 0 := by simp; omega
    rw [e, ← headD_eq_getD]
    exact hS0
  have hword : wordAt mem name (head.length + lead.length + T.length + b + k) := by
    refine ⟨?_, ?_, ?_⟩
    · have : mem.drop (head.length + lead.length + T.length + b + k) =
          name ++ (suffix ++ ';' :: post) := by
        rw [hmemA, ← hAlen, List.drop_left]
      rw [this]
      simp
    · have e : ((head.length + lead.length + T.length + b + k : Nat) : Int) - 1 =
          ((head.length + lead.length + T.length + b + k - 1 : Nat) : Int) := by omega
      rw [e, peek_natCast]
      exact hprev
    · rw [hfoll]; rfl
  have hfind : FindVarName mem defs name =
      some (head.length + lead.length + T.length + b + k) := by
    rw [FindVarName_eq_some mem name defs hN]
    exact ⟨by omega, hword, fun q h1 h2 => hmin q h1 h2⟩
  -- characters of the declaration
  have hnc : ∀ n, head.length + lead.length ≤ n →
      n < head.length + lead.length + T.length + b + k + name.length + suffix.length →
      mem.getD n NUL ≠ ',' ∧ mem.getD n NUL ≠ ';' := by
    intro n h1 h2
    have := (mem_seg mem (head ++ lead) _ _ hmemL n (by simp; omega) (by simp; omega)).2
    rcases List.mem_append.mp this with h | h
    · exact ⟨(hTc _ h).2.1, (hTc _ h).2.2⟩
    rcases List.mem_append.mp h with h | h
    · rw [List.eq_of_mem_replicate h]; exact ⟨by decide, by decide⟩
    rcases List.mem_append.mp h with h | h
    · rw [List.eq_of_mem_replicate h]; exact ⟨by decide, by decide⟩
    rcases List.mem_append.mp h with h | h
    · exact ⟨(hNc _ h).2.1, (hNc _ h).2.2.1⟩
    · exact ⟨(hS _ h).2.1, (hS _ h).2.2⟩
  have hnosemi : ∀ n, head.length ≤ n → n ≤ head.length + lead.length + T.length + b + k →
      mem.getD n NUL ≠ ';' := by
    intro n h1 h2
    by_cases hn : n < head.length + lead.length
    · have hm : mem = head ++ (lead ++ (T ++ (List.replicate b ' ' ++ (List.replicate k '*' ++
          (name ++ (suffix ++ ';' :: post)))))) := hmemdef.symm
      have := (mem_seg mem head lead _ hm n h1 hn).2
      intro hc
      rw [hc] at this
      have := hlead _ this
      simp [isWs] at this
    · exact (hnc n (by omega) (by omega)).2
  have hDget : mem.getD (head.length + lead.length + T.length + b + k + name.length
      + suffix.length) NUL = ';' := by
    have := mem_seg_head mem _ post ';' hmemD
    simp only [List.length_append, List.length_replicate] at this
    rw [← this]; congr 1; omega
  have htype : ansiType mem defs (head.length + lead.length + T.length + b + k) = T := by
    apply ansiType_anchor mem head lead T (List.replicate b ' ')
      (List.replicate k '*' ++ (name ++ suffix)) (';' :: post) defs _ hmemW hdefs hhead hlead hTne
      hT0 hT1 (Nat.le_of_lt hTlen)
    · intro h0
      have := congrArg List.length h0
      simp at this; omega
    · intro c hc; rw [List.eq_of_mem_replicate hc]; rfl
    · intro h0
      have := congrArg List.length h0
      rw [List.length_append, List.length_replicate, List.length_append, List.length_nil] at this
      omega
    · intro c hc
      rcases List.mem_append.mp hc with h | h
      · rw [List.eq_of_mem_replicate h]; rfl
      rcases List.mem_append.mp h with h | h
      · exact (hNc _ h).1
      · exact (hS _ h).1
    · omega
    · exact hnosemi
    · have e : head.length + lead.length + T.length + (List.replicate b ' ').length
          + (List.replicate k '*' ++ (name ++ suffix)).length
          = head.length + lead.length + T.length + b + k + name.length + suffix.length := by
        simp; omega
      rw [e, firstComma_none]
      · apply stepFwd_eq _ _ _ _ (by omega) (by omega)
        · intro i hi1 hi2
          have := hnc i (by omega) hi2
          exact bne_and_bne_true _ _ _ this.1 this.2
        · right
          rw [hDget]
          rfl
      · intro i hi1 hi2
        rw [peek_of_nonneg mem i (by omega)]
        exact (hnc i.toNat (by omega) (by omega)).1
  unfold WriteANSI
  rw [hfind]
  simp only
  rw [htype, hstars, harray]
  simp

/-! ## The header that Ansify writes -/

theorem strchr_some : ∀ (s : List Char) (c : Char) (j : Nat), strchr s c = some j →
    ∃ a b, s = a ++ c :: b ∧ c ∉ a ∧ a.length = j := by
  intro s c
  induction s with
  | nil => intro j h; simp [strchr] at h
  | cons x s ih =>
    intro j h
    by_cases hx : x = c
    · subst hx
      refine ⟨[], s, rfl, by simp, ?_⟩
      simp [strchr] at h
      exact h
    · have hstep : strchr (x :: s) c = (strchr s c).map (· + 1) := by
        unfold strchr
        have e : List.indexOf c (x :: s) = List.indexOf c s + 1 := by
          rw [List.indexOf_cons_ne _ (fun e => hx e)]
        rw [e]
        simp only [List.length_cons, Nat.add_lt_add_iff_right]
        split_ifs <;> rfl
      rw [hstep] at h
      cases hs : strchr s c with
      | none => rw [hs] at h; cases h
      | some k =>
        rw [hs] at h
        obtain ⟨a, b, e, hn, hl⟩ := ih k hs
        refine ⟨x :: a, b, by rw [e]; rfl, ?_, ?_⟩
        · intro hc
          rcases List.mem_cons.1 hc with h1 | h1
          · exact hx h1.symm
          · exact hn h1
        · simp at h
          simp [hl, h]

theorem killStream_no_slash : ∀ (H : List Char) (r2 r1 : Char) (lag : Nat), r1 ≠ '/' →
    '/' ∉ H → ∃ r2' r1', r1' ≠ '/' ∧
      ∀ rest, killStream r2 r1 lag 0 (H ++ rest) = H ++ killStream r2' r1' lag 0 rest := by
  intro H
  induction H with
  | nil => intro r2 r1 lag h1 _; exact ⟨r2, r1, h1, fun rest => rfl⟩
  | cons c t ih =>
    intro r2 r1 lag h1 hH
    have hc : c ≠ '/' := fun e => hH (by simp [e])
    obtain ⟨r2', r1', h1', hrest⟩ :=
      ih (if lag = 1 then c else r1) c lag hc (fun h => hH (List.mem_cons_of_mem _ h))
    refine ⟨r2', r1', h1', fun rest => ?_⟩
    rw [List.cons_append, killStream]
    simp only [hc, false_and, if_false, h1, and_false, if_true]
    rw [hrest]
    rfl

theorem KillComments_no_slash (H rest : List Char) (hH : '/' ∉ H) :
    ∃ t, KillComments NUL NUL (H ++ rest) = H ++ t := by
  obtain ⟨r2, r1, _, h⟩ := killStream_no_slash H NUL NUL 0 (by decide) hH
  exact ⟨_, by rw [KillComments_eq_killStream, h rest]⟩

theorem Ansify_header (funcdef : List (List Char)) (ndef mode : Nat) (out : List Char)
    (hsemi : ∃ l ∈ unitLines funcdef ndef, ';' ∈ l) (h : Ansify funcdef ndef mode = some out) :
    ∃ j, strchr (KillComments NUL NUL (joinLines (unitLines funcdef ndef))) '(' = some j ∧
      (KillComments NUL NUL (joinLines (unitLines funcdef ndef))).take (j + 1) <+: out := by
  have hall : ¬ ((unitLines funcdef ndef).all (fun l => !(l.contains ';')) = true) := by
    rw [List.all_eq_true]
    intro h
    obtain ⟨l, hl, hc⟩ := hsemi
    have := h l hl
    simp at this
    exact this hc
  unfold Ansify at h
  simp only at h
  rw [if_neg hall] at h
  generalize KillComments NUL NUL (joinLines (unitLines funcdef ndef)) = buffer at h ⊢
  cases hs1 : strchr buffer ')' with
  | none => rw [hs1] at h; cases h
  | some i =>
    rw [hs1] at h
    simp only at h
    by_cases hcap : MAXBUFF < i + 2
    · rw [if_pos hcap] at h; cases h
    rw [if_neg hcap] at h
    obtain ⟨a, b, e1, hn1, hl1⟩ := strchr_some buffer ')' i hs1
    have hfunc : buffer.take i ++ [')'] = a ++ [')'] := by
      rw [e1, ← hl1, List.take_left' rfl]
    rw [hfunc] at h
    cases hs2 : strchr (a ++ [')']) '(' with
    | none => rw [hs2] at h; cases h
    | some j =>
      rw [hs2] at h
      simp only at h
      obtain ⟨H, r, e2, hn2, hl2⟩ := strchr_some (a ++ [')']) '(' j hs2
      have eb : buffer = H ++ '(' :: (r ++ b) := by
        rw [e1, show a ++ ')' :: b = (a ++ [')']) ++ b by simp, e2]
        simp
      have htemp : (a ++ [')']).take j = H := by rw [e2, ← hl2, List.take_left' rfl]
      rw [htemp] at h
      refine ⟨j, ?_, ?_⟩
      · rw [eb, ← hl2]
        exact strchr_append H '(' _ hn2
      · have et : buffer.take (j + 1) = H ++ ['('] := by
          rw [eb, show H ++ '(' :: (r ++ b) = (H ++ ['(']) ++ (r ++ b) by simp]
          exact List.take_left' (by simp [hl2])
        rw [et]
        cases hp : ansifyParams buffer (i + 1) (H ++ ['(']).length
            ((a ++ [')']).drop (j + 1)).length ((a ++ [')']).drop (j + 1)) true
            (H ++ ['(']).length with
        | none => rw [hp] at h; cases h
        | some params =>
          rw [hp] at h
          simp only at h
          split_ifs at h
          · cases h
            exact ⟨params ++ [')', '\n', '\x7b', '\n'], by simp⟩
          · cases h
            exact ⟨params ++ [')', ';', '\n'], by simp⟩

theorem Ansify_header_verbatim (funcdef : List (List Char)) (ndef mode : Nat)
    (out H rest : List Char) (hsemi : ∃ l ∈ unitLines funcdef ndef, ';' ∈ l)
    (hjoin : joinLines (unitLines funcdef ndef) = H ++ '(' :: rest) (h1 : '(' ∉ H)
    (h2 : '/' ∉ H) (h : Ansify funcdef ndef mode = some out) : H ++ ['('] <+: out := by
  obtain ⟨j, hj, hpre⟩ := Ansify_header funcdef ndef mode out hsemi h
  obtain ⟨t, ht⟩ := KillComments_no_slash (H ++ ['(']) rest (by
    intro hc
    rcases List.mem_append.1 hc with h3 | h3
    · exact h2 h3
    · simp at h3)
  rw [hjoin, show H ++ '(' :: rest = (H ++ ['(']) ++ rest by simp, ht] at hj hpre
  have e : strchr (H ++ ['('] ++ t) '(' = some H.length := by
    rw [show H ++ ['('] ++ t = H ++ '(' :: t by simp]
    exact strchr_append H '(' t h1
  rw [e] at hj
  cases hj
  rw [List.take_left' (by simp)] at hpre
  exact hpre

/-! ## Masking in the classifier -/

theorem DIC_ne_SIC : DIC ≠ SIC := by decide

theorem scanChar_brace_masked (st : ClassifierState) (c next : Char)
    (hc : c = '{' ∨ c = '}')
    (hm : st.inDIC ≠ 0 ∨ st.inSIC ≠ 0 ∨ st.comment_count ≠ 0) :
    scanChar st c next = st := by
  have c1 : c ≠ DIC := by rcases hc with h | h <;> subst h <;> decide
  have c2 : c ≠ SIC := by rcases hc with h | h <;> subst h <;> decide
  have c3 : c ≠ '/' := by rcases hc with h | h <;> subst h <;> decide
  have c4 : c ≠ '*' := by rcases hc with h | h <;> subst h <;> decide
  unfold scanChar
  simp only [c1, c2, c3, c4, false_and, if_false]
  by_cases h1 : st.inDIC = 0 ∧ st.inSIC = 0
  · rw [if_pos h1]
    have h2 : st.comment_count ≠ 0 := by
      rcases hm with h | h | h
      · exact absurd h1.1 h
      · exact absurd h1.2 h
      · exact h
    rw [if_neg h2]
  · rw [if_neg h1]

theorem scanChar_quote_in_comment (st : ClassifierState) (c next : Char)
    (hc : c = DIC ∨ c = SIC) (hm : st.comment_count ≠ 0) :
    scanChar st c next = st := by
  have c3 : c ≠ '/' := by rcases hc with h | h <;> subst h <;> decide
  have c4 : c ≠ '*' := by rcases hc with h | h <;> subst h <;> decide
  unfold scanChar
  simp only [hm, c3, c4, false_and, and_false, if_false]
  by_cases h1 : st.inDIC = 0 ∧ st.inSIC = 0
  · rw [if_pos h1]
  · rw [if_neg h1]

theorem scanChar_quote_in_other (st : ClassifierState) (c next : Char)
    (hc : (c = DIC ∧ st.inSIC ≠ 0) ∨ (c = SIC ∧ st.inDIC ≠ 0)) :
    scanChar st c next = st := by
  unfold scanChar
  rcases hc with ⟨h, hm⟩ | ⟨h, hm⟩
  · subst h
    simp only [hm, DIC_ne_SIC, and_false, false_and, if_false]
  · subst h
    have : ¬ (SIC = DIC) := fun e => DIC_ne_SIC e.symm
    simp only [this, hm, and_false, false_and, if_false]

theorem scanChar_comment_in_quote (st : ClassifierState) (c next : Char)
    (hc : c = '/' ∨ c = '*') (hm : st.inDIC ≠ 0 ∨ st.inSIC ≠ 0) :
    scanChar st c next = st := by
  have c1 : c ≠ DIC := by rcases hc with h | h <;> subst h <;> decide
  have c2 : c ≠ SIC := by rcases hc with h | h <;> subst h <;> decide
  unfold scanChar
  simp only [c1, c2, false_and, if_false]
  have h1 : ¬ (st.inDIC = 0 ∧ st.inSIC = 0) := by
    intro h
    rcases hm with h2 | h2
    · exact h2 h.1
    · exact h2 h.2
  rw [if_neg h1]

theorem scanChar_in_string (b : Int) (c next : Char) (hc : c ≠ DIC) :
    scanChar ⟨0, b, 0, 1⟩ c next = ⟨0, b, 0, 1⟩ := by
  unfold scanChar
  simp [hc]

theorem scanChar_open_string (b : Int) (next : Char) :
    scanChar ⟨0, b, 0, 0⟩ DIC next = ⟨0, b, 0, 1⟩ := by
  unfold scanChar
  simp [toggle, DIC_ne_SIC]

theorem scanChar_close_string (b : Int) (next : Char) :
    scanChar ⟨0, b, 0, 1⟩ DIC next = ⟨0, b, 0, 0⟩ := by
  have e1 : DIC ≠ '/' := by decide
  have e2 : DIC ≠ '*' := by decide
  have e3 : DIC ≠ '{' := by decide
  have e4 : DIC ≠ '}' := by decide
  unfold scanChar
  simp [toggle, DIC_ne_SIC, e1, e2, e3, e4]

theorem not_slashSlash_append_cons (s : List Char) (d : Char) (rest : List Char)
    (hd : d ≠ '/') (hs : ¬ slashSlash s) (c : Char) (s' : List Char) (e : s = c :: s') :
    ¬ (c = '/' ∧ (s' ++ d :: rest).headD NUL = '/') ∧ ¬ slashSlash s' := by
  subst e
  have := not_slashSlash_cons c s' hs
  refine ⟨?_, this.2⟩
  intro h
  cases s' with
  | nil => exact hd (by simpa using h.2)
  | cons x s'' => exact this.1 ⟨h.1, by simpa using h.2⟩

theorem scanLine_string_body : ∀ (s rest : List Char) (b : Int), DIC ∉ s → ¬ slashSlash s →
    scanLine ⟨0, b, 0, 1⟩ false (s ++ DIC :: rest) = scanLine ⟨0, b, 0, 0⟩ false rest := by
  intro s
  induction s with
  | nil =>
    intro rest b _ _
    have e1 : DIC ≠ '/' := by decide
    rw [List.nil_append, scanLine, if_neg (fun h => e1 h.1), scanChar_close_string]
    rfl
  | cons c s ih =>
    intro rest b hq hs
    have hc : c ≠ DIC := fun e => hq (by simp [e])
    have hq' : DIC ∉ s := fun e => hq (List.mem_cons_of_mem _ e)
    have h := not_slashSlash_append_cons (c :: s) DIC rest (by decide) hs c s rfl
    rw [List.cons_append, scanLine, if_neg h.1, scanChar_in_string b c _ hc]
    exact ih rest b hq' h.2

theorem scanLine_string (s rest : List Char) (b : Int) (blank : Bool) (hq : DIC ∉ s)
    (hs : ¬ slashSlash s) :
    scanLine ⟨0, b, 0, 0⟩ blank (DIC :: (s ++ DIC :: rest)) = scanLine ⟨0, b, 0, 0⟩ false rest := by
  have e1 : DIC ≠ '/' := by decide
  rw [scanLine, if_neg (fun h => e1 h.1), scanChar_open_string]
  have : (blank && isWs DIC) = false := by
    cases blank <;> rfl
  rw [this]
  exact scanLine_string_body s rest b hq hs

theorem scanLine_fullScan : ∀ (l : List Char) (st : ClassifierState) (blank : Bool),
    ¬ slashSlash l → (scanLine st blank l).1 = fullScan st l := by
  intro l
  induction l with
  | nil => intro st blank _; rfl
  | cons c rest ih =>
    intro st blank h
    obtain ⟨h0, hrest⟩ := not_slashSlash_cons c rest h
    rw [scanLine, if_neg h0, fullScan]
    exact ih _ _ hrest

theorem isInteresting_fullScan (st : ClassifierState) (l : List Char)
    (hhash : l.headD NUL ≠ '#') (h : ¬ slashSlash l) :
    (isInteresting st l).2 = fullScan st l := by
  rw [isInteresting_state st l hhash, scanLine_fullScan l st true h]

theorem scanChar_close_unclamped (st : ClassifierState) (hd : st.inDIC = 0) (hs : st.inSIC = 0) :
    (scanChar st '*' '/').comment_count = st.comment_count - 1 := by
  have e1 : ('*' : Char) ≠ DIC := by decide
  have e2 : ('*' : Char) ≠ SIC := by decide
  have e3 : ('*' : Char) ≠ '/' := by decide
  unfold scanChar
  simp only [e1, e2, e3, false_and, if_false, hd, hs, and_self, if_true]
  split_ifs <;> rfl

theorem masked_line_state (b : Int) :
    (isInteresting ⟨0, b, 0, 0⟩ "char *s = \"\x7b /* \";".toList).2 = ⟨0, b, 0, 0⟩ := by
  have e : "char *s = \"\x7b /* \";".toList =
      "char *s = ".toList ++ DIC :: ("\x7b /* ".toList ++ DIC :: [';']) := by decide
  rw [isInteresting_state _ _ (by decide), e]
  have h1 : ∀ blank, scanLine ⟨0, b, 0, 0⟩ blank
      ("char *s = ".toList ++ DIC :: ("\x7b /* ".toList ++ DIC :: [';'])) =
      scanLine ⟨0, b, 0, 0⟩ false (DIC :: ("\x7b /* ".toList ++ DIC :: [';'])) := by
    intro blank
    simp [scanLine, scanChar, DIC, SIC, NUL, isWs]
  rw [h1, scanLine_string _ _ _ _ (by decide) (by decide)]
  simp [scanLine, scanChar, DIC, SIC, NUL]

/-! ## The reads of the comment stripper -/

theorem KillCommentsTrace_fold_fst (m2 m1 : Char) : ∀ (l : List Nat) (st : KCState × List Int),
    (l.foldl (KillCommentsStepTrace m2 m1) st).1 = l.foldl (KillCommentsStep m2 m1) st.1
  | [], _ => rfl
  | i :: l, st => by
      rw [List.foldl_cons, List.foldl_cons, KillCommentsTrace_fold_fst m2 m1 l]
      rfl

theorem KillCommentsTrace_fold_mono (m2 m1 : Char) : ∀ (l : List Nat) (st : KCState × List Int)
    (p : Int), p ∈ st.2 → p ∈ (l.foldl (KillCommentsStepTrace m2 m1) st).2
  | [], _, _, h => h
  | i :: l, st, p, h => by
      rw [List.foldl_cons]
      apply KillCommentsTrace_fold_mono m2 m1 l
      exact List.mem_append_left _ h

theorem KillCommentsReads_bound (m2 m1 : Char) (s : KCState) (i n : Nat) (hi : i < n) :
    ∀ p ∈ KillCommentsReads m2 m1 s i, -2 ≤ p ∧ p ≤ (n : Int) := by
  intro p hp
  unfold KillCommentsReads at hp
  simp only [List.mem_append, List.mem_singleton] at hp
  rcases hp with (((h | h) | h) | h) | h
  · omega
  · split_ifs at h
    · simp at h; omega
    · simp at h
  · omega
  · split_ifs at h
    · simp at h; omega
    · simp at h
  · split_ifs at h
    · simp at h; omega
    · simp at h

theorem KillCommentsTrace_fold_bound (m2 m1 : Char) (n : Nat) : ∀ (l : List Nat)
    (st : KCState × List Int), (∀ i ∈ l, i < n) → (∀ p ∈ st.2, -2 ≤ p ∧ p ≤ (n : Int)) →
    ∀ p ∈ (l.foldl (KillCommentsStepTrace m2 m1) st).2, -2 ≤ p ∧ p ≤ (n : Int)
  | [], _, _, h => h
  | i :: l, st, hl, h => by
      rw [List.foldl_cons]
      apply KillCommentsTrace_fold_bound m2 m1 n l
      · intro j hj
        exact hl j (List.mem_cons_of_mem _ hj)
      · intro p hp
        rcases List.mem_append.1 hp with h1 | h1
        · exact h p h1
        · exact KillCommentsReads_bound m2 m1 st.1 i n (hl i (List.mem_cons_self _ _)) p h1

theorem KillCommentsTrace_fst (m2 m1 : Char) (buffer : List Char) :
    (KillCommentsTrace m2 m1 buffer).1 = KillCommentsRun m2 m1 buffer :=
  KillCommentsTrace_fold_fst m2 m1 _ _

theorem KillCommentsTrace_bound (m2 m1 : Char) (buffer : List Char) :
    ∀ p ∈ (KillCommentsTrace m2 m1 buffer).2, -2 ≤ p ∧ p ≤ (buffer.length : Int) :=
  KillCommentsTrace_fold_bound m2 m1 buffer.length _ _
    (fun _ hi => List.mem_range.1 hi) (fun _ hp => absurd hp (List.not_mem_nil _))

theorem KillCommentsTrace_before (m2 m1 : Char) (buffer : List Char) (h : buffer ≠ []) :
    (-2 : Int) ∈ (KillCommentsTrace m2 m1 buffer).2 := by
  obtain ⟨c, rest, rfl⟩ := List.exists_cons_of_ne_nil h
  unfold KillCommentsTrace
  rw [List.length_cons, List.range_succ_eq_map, List.foldl_cons]
  apply KillCommentsTrace_fold_mono
  simp [KillCommentsStepTrace, KillCommentsReads]

theorem KillCommentsTrace_before_one (m2 m1 : Char) (buffer : List Char)
    (h : 2 ≤ buffer.length) : (-1 : Int) ∈ (KillCommentsTrace m2 m1 buffer).2 := by
  obtain _ | ⟨c, _ | ⟨d, rest⟩⟩ := buffer
  · simp at h
  · simp at h
  unfold KillCommentsTrace
  rw [List.length_cons, List.length_cons, List.range_succ_eq_map, List.foldl_cons,
    List.range_succ_eq_map, List.map_cons, List.foldl_cons]
  apply KillCommentsTrace_fold_mono
  simp [KillCommentsStepTrace, KillCommentsReads]

/-! ## The value of the classifier -/

theorem slashSlash_cons (c : Char) (rest : List Char) (h : slashSlash (c :: rest)) :
    (c = '/' ∧ rest.headD NUL = '/') ∨ slashSlash rest := by
  obtain ⟨i, hi, h1, h2⟩ := h
  cases i with
  | zero =>
    left
    rw [headD_eq_getD]
    exact ⟨by simpa using h1, by simpa using h2⟩
  | succ i =>
    right
    exact ⟨i, by simpa using hi, by simpa using h1, by simpa using h2⟩

theorem scanLine_slashSlash : ∀ (l : List Char) (st : ClassifierState) (blank : Bool),
    slashSlash l → (scanLine st blank l).2.2 = true := by
  intro l
  induction l with
  | nil =>
    intro st blank h
    obtain ⟨i, hi, _⟩ := h
    simp at hi
  | cons c rest ih =>
    intro st blank h
    rw [scanLine]
    by_cases h0 : c = '/' ∧ rest.headD NUL = '/'
    · rw [if_pos h0]
    · rw [if_neg h0]
      rcases slashSlash_cons c rest h with h1 | h1
      · exact absurd h1 h0
      · exact ih _ _ h1

theorem isInteresting_hash (st : ClassifierState) (buffer : List Char)
    (h : buffer.headD NUL = '#') : isInteresting st buffer = (0, st) := by
  unfold isInteresting
  rw [if_pos h]

theorem isInteresting_zero_or_one (st : ClassifierState) (buffer : List Char) :
    (isInteresting st buffer).1 = 0 ∨ (isInteresting st buffer).1 = 1 := by
  unfold isInteresting
  simp only
  split_ifs <;> simp

theorem isInteresting_eq_one (st : ClassifierState) (buffer : List Char)
    (h : (isInteresting st buffer).1 = 1) :
    (st.bra_count = 0 ∧ st.inDIC = 0 ∧ st.inSIC = 0 ∧ st.comment_count = 0) ∧
      buffer.headD NUL ≠ '#' ∧ ¬ leadingComment buffer ∧ ¬ slashSlash buffer ∧
      ∃ c ∈ buffer, isWs c = false := by
  have hhash : buffer.headD NUL ≠ '#' := by
    intro hc
    rw [isInteresting_hash st buffer hc] at h
    cases h
  have hlead : ¬ leadingComment buffer := by
    intro hc
    rw [isInteresting_leading st buffer hc] at h
    cases h
  have hcpp : ¬ slashSlash buffer := by
    intro hc
    have := scanLine_slashSlash buffer st true hc
    unfold isInteresting at h
    rw [if_neg hhash] at h
    simp only at h
    rw [this] at h
    simp at h
  have hf := scanLine_flags buffer st true hcpp
  unfold isInteresting at h
  rw [if_neg hhash] at h
  simp only at h
  rw [hf.2, hf.1] at h
  simp only [Bool.true_and, Bool.false_eq_true, if_false] at h
  refine ⟨?_, hhash, hlead, hcpp, ?_⟩
  · by_contra hin
    split_ifs at h
  · by_contra hb
    have hall : buffer.all isWs = true := by
      rw [List.all_eq_true]
      intro c hc
      by_contra hw
      exact hb ⟨c, hc, by simpa using hw⟩
    rw [hall] at h
    simp at h

/-! ## Identifier characters and the whole-word locator -/

theorem precOK_identChar (c : Char) (h : isIdentChar c = true) : precOK c = false := by
  cases hp : precOK c with
  | false => rfl
  | true =>
    exfalso
    simp only [precOK, Bool.or_eq_true, beq_iff_eq] at hp
    rcases hp with (h1 | h1) | h1 <;> subst h1 <;> revert h <;> decide

theorem follOK_identChar (c : Char) (h : isIdentChar c = true) : follOK c = false := by
  cases hp : follOK c with
  | false => rfl
  | true =>
    exfalso
    simp only [follOK, Bool.or_eq_true, beq_iff_eq] at hp
    rcases hp with (((h1 | h1) | h1) | h1) | h1 <;> subst h1 <;> revert h <;> decide

theorem FindVarName_skips_inside (mem name : List Char) (defs p : Nat) (hn : name ≠ [])
    (hp : defs ≤ p) (hw : wordAt mem name p)
    (hmin : ∀ q, defs ≤ q → q < p → name.isPrefixOf (mem.drop q) = true →
      insideIdent mem name q) :
    FindVarName mem defs name = some p := by
  apply WriteANSI_of_word mem name defs p hn hp hw
  intro q h1 h2 h3
  rcases (hmin q h1 h2 h3).2 with h | h
  · exact Or.inl (precOK_identChar _ h)
  · exact Or.inr (follOK_identChar _ h)

theorem insideIdent_not_wordAt (mem name : List Char) (q : Nat) (h : insideIdent mem name q) :
    ¬ wordAt mem name q := by
  intro hw
  rcases h.2 with h1 | h1
  · have := precOK_identChar _ h1
    rw [hw.2.1] at this
    cases this
  · have := follOK_identChar _ h1
    rw [hw.2.2] at this
    cases this

theorem FindVarName_found_word (mem name : List Char) (defs found : Nat) (hn : name ≠ [])
    (h : FindVarName mem defs name = some found) :
    defs ≤ found ∧ wordAt mem name found ∧ ¬ insideIdent mem name found := by
  have := (FindVarName_eq_some mem name defs hn found).1 h
  exact ⟨this.1, this.2.1, fun hi => insideIdent_not_wordAt mem name found hi this.2.1⟩

theorem FindVarName_of_word (mem name : List Char) (defs p : Nat) (hn : name ≠ [])
    (hp : defs ≤ p) (hw : wordAt mem name p) :
    ∃ found, FindVarName mem defs name = some found ∧ found ≤ p := by
  cases h : FindVarName mem defs name with
  | none =>
    exact absurd hw ((FindVarName_eq_none mem name defs hn).1 h p hp)
  | some found =>
    refine ⟨found, rfl, ?_⟩
    have := (FindVarName_eq_some mem name defs hn found).1 h
    by_contra hlt
    exact this.2.2 p hp (by omega) hw

/-! ## Parameters that are declared -/

theorem stripTrailing_name (name trail : List Char) (hn : name ≠ [])
    (hname : ∀ c ∈ name, isWs c = false) (htrail : ∀ c ∈ trail, isWs c = true) :
    stripTrailing (name ++ trail) = name := by
  unfold stripTrailing
  rw [List.reverse_append]
  have hr : name.reverse ≠ [] := by simpa using hn
  obtain ⟨d, r, e⟩ := List.exists_cons_of_ne_nil hr
  have hd : isWs d = false := hname d (by
    have : d ∈ name.reverse := by rw [e]; exact List.mem_cons_self _ _
    simpa using this)
  have ht : trail.reverse.dropWhile isWs = [] := by
    rw [List.dropWhile_eq_nil_iff]
    intro c hc
    exact htrail c (by simpa using hc)
  rw [e, dropWhile_stop isWs _ d r hd, ht, List.nil_append, ← e, List.reverse_reverse]

theorem dropWhile_lead (lead name trail : List Char) (hn : name ≠ [])
    (hname : ∀ c ∈ name, isWs c = false) (hlead : ∀ c ∈ lead, isWs c = true) :
    (lead ++ (name ++ trail)).dropWhile isWs = name ++ trail := by
  obtain ⟨c, n, e⟩ := List.exists_cons_of_ne_nil hn
  have hc : isWs c = false := hname c (by rw [e]; exact List.mem_cons_self _ _)
  have hl : lead.dropWhile isWs = [] := by
    rw [List.dropWhile_eq_nil_iff]
    exact hlead
  rw [e, List.cons_append, dropWhile_stop isWs lead c _ hc, hl]
  rfl

theorem Param.entry_facts (x : Param) (h : x.entryOK) :
    paramName x.entry = x.name ∧ (x.entry.dropWhile isWs).length < 80 ∧
      (',' ∉ x.entry ∧ ')' ∉ x.entry) ∧ x.entry ≠ [] := by
  obtain ⟨lead, trail, he, hlead, htrail, hn, hname, hlen⟩ := h
  have hws : ∀ c ∈ x.name, isWs c = false := fun c hc => (hname c hc).1
  have hd := dropWhile_lead lead x.name trail hn hws hlead
  refine ⟨?_, ?_, ?_, ?_⟩
  · unfold paramName
    rw [he, hd]
    exact stripTrailing_name x.name trail hn hws htrail
  · rw [he, hd]
    simpa using hlen
  · have hno : ∀ c, c = ',' ∨ c = ')' → c ∉ x.entry := by
      intro c hc hm
      rw [he] at hm
      have hcw : isWs c = false := by rcases hc with h | h <;> subst h <;> rfl
      rcases List.mem_append.1 hm with h1 | h1
      · rw [hlead c h1] at hcw; cases hcw
      rcases List.mem_append.1 h1 with h2 | h2
      · rcases hc with h | h
        · exact (hname c h2).2.1 h
        · exact (hname c h2).2.2 h
      · rw [htrail c h2] at hcw; cases hcw
    exact ⟨hno ',' (Or.inl rfl), hno ')' (Or.inr rfl)⟩
  · intro h0
    rw [he] at h0
    have h1 := (List.append_eq_nil.1 h0).2
    exact hn (List.append_eq_nil.1 h1).1

theorem declaredAs_parts (mem : List Char) (defs : Nat) (name T : List Char) (stars : Nat)
    (h : declaredAs mem defs name T stars) :
    WriteANSI mem defs name = (0, T ++ ' ' :: (List.replicate stars '*' ++ name)) ∧
      ansiFits mem defs name = true := by
  obtain ⟨head, lead, post, before, after, d, hmem, hname, hstars, hdefs, hhead, hlead, hT, hbefore,
    hd, hmin⟩ := h
  subst hname hstars
  rw [hmem] at hmin ⊢
  obtain ⟨hfind, htype, _, harray⟩ := declaration_parts head lead T post before after d defs
    hdefs hhead hlead hT hbefore hd hmin
  refine ⟨WriteANSI_declaration head lead T post before after d defs hdefs hhead hlead hT
    hbefore hd hmin, ?_⟩
  unfold ansiFits
  rw [hfind]
  simp only
  rw [htype, harray, decide_eq_true hT.2.2]
  rfl

theorem paramsOut_params (W : List Char → List Char) (width : Nat) :
    ∀ xs : List Param, (∀ x ∈ xs, W (paramName x.entry) = x.text) →
      paramsOut W width (xs.map Param.entry) false =
        (xs.map (fun q => [',', '\n'] ++ List.replicate width ' ' ++ q.text)).flatten
  | [], _ => rfl
  | x :: xs, h => by
      rw [List.map_cons, paramsOut, paramsOut_params W width xs
        (fun y hy => h y (List.mem_cons_of_mem _ hy)), h x (List.mem_cons_self _ _)]
      simp

theorem notFound_zero (mem : List Char) (defs : Nat) (ps : List (List Char))
    (h : ∀ p ∈ ps, (WriteANSI mem defs (paramName p)).1 = 0) : notFound mem defs ps = 0 := by
  unfold notFound
  rw [List.countP_eq_zero]
  intro p hp
  simp [h p hp]

theorem Ansify_declared (funcdef : List (List Char)) (ndef mode : Nat) (H D : List Char)
    (p : Param) (qs : List Param) (hsemi : ∃ l ∈ unitLines funcdef ndef, ';' ∈ l)
    (hbuf : KillComments NUL NUL (joinLines (unitLines funcdef ndef)) =
      H ++ '(' :: (paramList ((p :: qs).map Param.entry) ++ D))
    (hH1 : '(' ∉ H) (hH2 : ')' ∉ H)
    (hfunc : H.length + (paramList ((p :: qs).map Param.entry)).length + 2 ≤ MAXBUFF)
    (hentry : ∀ x ∈ p :: qs, x.entryOK)
    (hdecl : ∀ x ∈ p :: qs, declaredAs (H ++ '(' :: (paramList ((p :: qs).map Param.entry) ++ D))
      (H.length + 1 + (paramList ((p :: qs).map Param.entry)).length) x.name x.type x.stars) :
    Ansify funcdef ndef mode =
      some ((H ++ ['(']) ++ p.text ++
        (qs.map (fun q => [',', '\n'] ++ List.replicate (H ++ ['(']).length ' ' ++ q.text)).flatten
        ++ closer mode) := by
  have hW : ∀ x ∈ p :: qs, WriteANSI (H ++ '(' :: (paramList ((p :: qs).map Param.entry) ++ D))
      (H.length + 1 + (paramList ((p :: qs).map Param.entry)).length) (paramName x.entry) =
        (0, x.text) ∧
      ansiFits (H ++ '(' :: (paramList ((p :: qs).map Param.entry) ++ D))
        (H.length + 1 + (paramList ((p :: qs).map Param.entry)).length) (paramName x.entry)
          = true := by
    intro x hx
    rw [(Param.entry_facts x (hentry x hx)).1]
    exact declaredAs_parts _ _ _ _ _ (hdecl x hx)
  have hmem : ∀ e ∈ (p :: qs).map Param.entry, ∃ x ∈ p :: qs, x.entry = e := by
    intro e he
    obtain ⟨x, hx, rfl⟩ := List.mem_map.1 he
    exact ⟨x, hx, rfl⟩
  rw [Ansify_params funcdef ndef mode H D ((p :: qs).map Param.entry) hsemi hbuf hH1 hH2
    (by simp) ?_ ?_ hfunc ?_ ?_ ?_]
  · generalize hWdef : (fun name => (WriteANSI
      (H ++ '(' :: (paramList ((p :: qs).map Param.entry) ++ D))
      (H.length + 1 + (paramList ((p :: qs).map Param.entry)).length) name).2) = W
    have hWx : ∀ x ∈ p :: qs, W (paramName x.entry) = x.text := by
      intro x hx
      rw [← hWdef]
      simp only
      rw [(hW x hx).1]
    rw [List.map_cons, paramsOut, paramsOut_params W _ qs
      (fun x hx => hWx x (List.mem_cons_of_mem _ hx)), hWx p (List.mem_cons_self _ _)]
    simp
  · intro e he
    obtain ⟨x, hx, rfl⟩ := hmem e he
    exact (Param.entry_facts x (hentry x hx)).2.2.1
  · intro hl
    have hm : ([] : List Char) ∈ (p :: qs).map Param.entry := List.mem_of_getLast?_eq_some hl
    obtain ⟨x, hx, he⟩ := hmem [] hm
    exact (Param.entry_facts x (hentry x hx)).2.2.2 he
  · intro e he
    obtain ⟨x, hx, rfl⟩ := hmem e he
    exact (Param.entry_facts x (hentry x hx)).2.1
  · intro e he
    obtain ⟨x, hx, rfl⟩ := hmem e he
    exact (hW x hx).2
  · rw [notFound_zero]
    · exact Nat.zero_le _
    · intro e he
      obtain ⟨x, hx, rfl⟩ := hmem e he
      rw [(hW x hx).1]

/-! ## A header that does not fit -/

theorem KillComments_no_slash_eq (H : List Char) (hH : '/' ∉ H) : KillComments NUL NUL H = H := by
  obtain ⟨r2, r1, _, h⟩ := killStream_no_slash H NUL NUL 0 (by decide) hH
  have := h []
  rw [List.append_nil] at this
  rw [KillComments_eq_killStream, this]
  simp [killStream]

theorem Ansify_overrun (funcdef : List (List Char)) (ndef mode : Nat) (a b : List Char)
    (hsemi : ∃ l ∈ unitLines funcdef ndef, ';' ∈ l)
    (hbuf : KillComments NUL NUL (joinLines (unitLines funcdef ndef)) = a ++ ')' :: b)
    (ha : ')' ∉ a) (hlen : MAXBUFF < a.length + 2) : Ansify funcdef ndef mode = none := by
  have hall : ¬ ((unitLines funcdef ndef).all (fun l => !(l.contains ';')) = true) := by
    rw [List.all_eq_true]
    intro h
    obtain ⟨l, hl, hc⟩ := hsemi
    have := h l hl
    simp at this
    exact this hc
  unfold Ansify
  simp only
  rw [if_neg hall, hbuf, strchr_append a ')' b ha]
  simp only
  rw [if_pos hlen]

/-! ## The classifier in the arithmetic of int -/

theorem asInt_some (x y : Int) (h : asInt x = some y) : y = x := by
  unfold asInt at h
  split_ifs at h
  cases h
  rfl

theorem asInt_of_range (x : Int) (h1 : INT_MIN ≤ x) (h2 : x ≤ INT_MAX) : asInt x = some x := by
  unfold asInt
  rw [if_pos ⟨h1, h2⟩]

theorem toggleInt_some (x y : Int) (h : toggleInt x = some y) : y = toggle x := by
  unfold toggleInt at h
  cases h1 : asInt (x - 1) with
  | none => rw [h1] at h; cases h
  | some v =>
    rw [h1] at h
    exact asInt_some _ _ h

theorem scanCharInt_some (st r : ClassifierState) (c next : Char)
    (h : scanCharInt st c next = some r) : r = scanChar st c next := by
  unfold scanCharInt at h
  simp only [bind, Option.bind_eq_some] at h
  obtain ⟨inDIC, h1, inSIC, h2, h3⟩ := h
  have e1 : inDIC = (if c = DIC ∧ st.comment_count = 0 ∧ st.inSIC = 0 then toggle st.inDIC
      else st.inDIC) := by
    split_ifs at h1 ⊢
    · exact toggleInt_some _ _ h1
    · cases h1; rfl
  have e2 : inSIC = (if c = SIC ∧ st.comment_count = 0 ∧ inDIC = 0 then toggle st.inSIC
      else st.inSIC) := by
    split_ifs at h2 ⊢
    · exact toggleInt_some _ _ h2
    · cases h2; rfl
  unfold scanChar
  simp only
  rw [← e1, ← e2]
  by_cases hq : inDIC = 0 ∧ inSIC = 0
  · rw [if_pos hq] at h3 ⊢
    simp only [Option.bind_eq_some] at h3
    obtain ⟨cc1, h4, cc2, h5, h6⟩ := h3
    have e3 : cc1 = (if c = '/' ∧ next = '*' then st.comment_count + 1 else st.comment_count) := by
      split_ifs at h4 ⊢
      · exact asInt_some _ _ h4
      · cases h4; rfl
    have e4 : cc2 = (if c = '*' ∧ next = '/' then cc1 - 1 else cc1) := by
      split_ifs at h5 ⊢
      · exact asInt_some _ _ h5
      · cases h5; rfl
    rw [← e3, ← e4]
    by_cases hz : cc2 = 0
    · rw [if_pos hz] at h6 ⊢
      simp only [Option.bind_eq_some] at h6
      obtain ⟨b1, h7, b2, h8, h9⟩ := h6
      have e5 : b1 = (if c = '\x7b' then st.bra_count + 1 else st.bra_count) := by
        split_ifs at h7 ⊢
        · exact asInt_some _ _ h7
        · cases h7; rfl
      have e6 : b2 = (if c = '\x7d' then b1 - 1 else b1) := by
        split_ifs at h8 ⊢
        · exact asInt_some _ _ h8
        · cases h8; rfl
      rw [← e5, ← e6]
      cases h9
      rfl
    · rw [if_neg hz] at h6 ⊢
      cases h6
      rfl
  · rw [if_neg hq] at h3 ⊢
    cases h3
    rfl

theorem scanLineInt_some : ∀ (l : List Char) (st : ClassifierState) (blank : Bool)
    (r : ClassifierState × Bool × Bool), scanLineInt st blank l = some r →
    r = scanLine st blank l
  | [], st, blank, r, h => by
      rw [scanLineInt] at h
      cases h
      rfl
  | c :: rest, st, blank, r, h => by
      rw [scanLineInt] at h
      rw [scanLine]
      by_cases h0 : c = '/' ∧ rest.headD NUL = '/'
      · rw [if_pos h0] at h ⊢
        cases h
        rfl
      · rw [if_neg h0] at h ⊢
        cases h1 : scanCharInt st c (rest.headD NUL) with
        | none => rw [h1] at h; cases h
        | some st1 =>
          rw [h1] at h
          rw [← scanCharInt_some st st1 c _ h1]
          exact scanLineInt_some rest st1 _ r h

theorem isInterestingInt_of_scan (st : ClassifierState) (buffer : List Char)
    (h : buffer.headD NUL ≠ '#' → scanLineInt st true buffer = some (scanLine st true buffer)) :
    isInterestingInt st buffer = some (isInteresting st buffer) := by
  unfold isInterestingInt isInteresting
  by_cases h0 : buffer.headD NUL = '#'
  · rw [if_pos h0, if_pos h0]
  · rw [if_neg h0, if_neg h0, h h0]
    simp only
    split_ifs <;> rfl

theorem isInterestingInt_some (st : ClassifierState) (buffer : List Char)
    (r : Nat × ClassifierState) (h : isInterestingInt st buffer = some r) :
    r = isInteresting st buffer := by
  by_cases h0 : buffer.headD NUL = '#'
  · rw [isInterestingInt_of_scan st buffer (fun hh => absurd h0 hh)] at h
    cases h
    rfl
  · cases h1 : scanLineInt st true buffer with
    | none =>
      unfold isInterestingInt at h
      rw [if_neg h0, h1] at h
      cases h
    | some x =>
      have := scanLineInt_some buffer st true x h1
      subst this
      rw [isInterestingInt_of_scan st buffer (fun _ => h1)] at h
      cases h
      rfl

theorem feedInt_some : ∀ (lines : List (List Char)) (st r : ClassifierState),
    feedInt st lines = some r → r = feed st lines
  | [], st, r, h => by
      rw [feedInt] at h
      cases h
      rfl
  | l :: ls, st, r, h => by
      rw [feedInt] at h
      cases h1 : isInterestingInt st l with
      | none => rw [h1] at h; cases h
      | some x =>
        rw [h1] at h
        have := isInterestingInt_some st l x h1
        subst this
        exact feedInt_some ls _ r h

theorem scanChar_plain (st : ClassifierState) (c next : Char) (hc : st.comment_count = 0)
    (hs : st.inSIC = 0) (hd : st.inDIC = 0) (c1 : c ≠ '/') (c2 : c ≠ DIC) (c3 : c ≠ SIC)
    (hn : next ≠ '/') :
    scanChar st c next =
      ⟨0, (if c = '\x7d' then (if c = '\x7b' then st.bra_count + 1 else st.bra_count) - 1
        else (if c = '\x7b' then st.bra_count + 1 else st.bra_count)), 0, 0⟩ := by
  unfold scanChar
  simp only [c1, c2, c3, hn, hc, hs, hd, false_and, and_false, if_false, and_self, if_true]

theorem scanCharInt_plain (st : ClassifierState) (c next : Char) (hc : st.comment_count = 0)
    (hs : st.inSIC = 0) (hd : st.inDIC = 0) (c1 : c ≠ '/') (c2 : c ≠ DIC) (c3 : c ≠ SIC)
    (hn : next ≠ '/') (hlo : INT_MIN ≤ st.bra_count) (hhi : st.bra_count ≤ INT_MAX)
    (hopen : c = '\x7b' → st.bra_count + 1 ≤ INT_MAX)
    (hclose : c = '\x7d' → INT_MIN ≤ st.bra_count - 1) :
    scanCharInt st c next = some (scanChar st c next) := by
  rw [scanChar_plain st c next hc hs hd c1 c2 c3 hn]
  unfold scanCharInt
  simp only [c1, c2, c3, hn, hc, hs, hd, false_and, and_false, if_false, and_self, if_true,
    bind, Option.bind]
  by_cases e1 : c = '\x7b'
  · have e2 : c ≠ '\x7d' := by rw [e1]; decide
    rw [if_pos e1, asInt_of_range _ (by omega) (hopen e1)]
    simp only [e1, e2, if_true, if_false]
    rfl
  · by_cases e2 : c = '\x7d'
    · rw [if_neg e1]
      simp only [e2, if_true]
      rw [asInt_of_range _ (hclose e2) (by omega)]
      simp
    · rw [if_neg e1]
      simp only [e2, if_false]
      simp [e1]

theorem count_cons_int (x c : Char) (rest : List Char) :
    ((List.count x (c :: rest) : Nat) : Int) =
      (List.count x rest : Nat) + (if c = x then 1 else 0) := by
  rw [List.count_cons]
  by_cases h : c = x
  · simp [h]
  · simp [h]

theorem scanLineInt_braces : ∀ (l : List Char) (st : ClassifierState) (blank : Bool),
    st.comment_count = 0 → st.inSIC = 0 → st.inDIC = 0 →
    '/' ∉ l → DIC ∉ l → SIC ∉ l →
    INT_MIN ≤ st.bra_count - (l.count '\x7d' : Nat) →
    st.bra_count + (l.count '\x7b' : Nat) ≤ INT_MAX →
    scanLineInt st blank l = some (scanLine st blank l) := by
  intro l
  induction l with
  | nil => intro st blank _ _ _ _ _ _ _ _; rfl
  | cons c rest ih =>
    intro st blank hc hs hd h1 h2 h3 hlo hhi
    have c1 : c ≠ '/' := fun e => h1 (by simp [e])
    have c2 : c ≠ DIC := fun e => h2 (by simp [e])
    have c3 : c ≠ SIC := fun e => h3 (by simp [e])
    have r1 : '/' ∉ rest := fun e => h1 (List.mem_cons_of_mem _ e)
    have r2 : DIC ∉ rest := fun e => h2 (List.mem_cons_of_mem _ e)
    have r3 : SIC ∉ rest := fun e => h3 (List.mem_cons_of_mem _ e)
    have hn : rest.headD NUL ≠ '/' := by
      cases rest with
      | nil => decide
      | cons x rest => exact fun e => r1 (by simp at e; simp [e])
    rw [count_cons_int] at hlo hhi
    have hp := scanChar_plain st c (rest.headD NUL) hc hs hd c1 c2 c3 hn
    have hne : ('\x7b' : Char) ≠ '\x7d' := by decide
    have hfit : scanCharInt st c (rest.headD NUL) = some (scanChar st c (rest.headD NUL)) := by
      apply scanCharInt_plain st c _ hc hs hd c1 c2 c3 hn
      · split_ifs at hlo <;> omega
      · split_ifs at hhi <;> omega
      · intro e
        rw [if_pos e] at hhi
        omega
      · intro e
        rw [if_pos e] at hlo
        omega
    rw [scanLineInt, scanLine, if_neg (fun hh => c1 hh.1), if_neg (fun hh => c1 hh.1), hfit]
    simp only
    apply ih
    · rw [hp]
    · rw [hp]
    · rw [hp]
    · exact r1
    · exact r2
    · exact r3
    · rw [hp]
      simp only
      by_cases e1 : c = '\x7b'
      · have e2 : c ≠ '\x7d' := by rw [e1]; exact hne
        rw [if_neg e2] at hlo ⊢
        rw [if_pos e1]
        omega
      · by_cases e2 : c = '\x7d'
        · rw [if_pos e2] at hlo ⊢
          rw [if_neg e1]
          omega
        · rw [if_neg e2] at hlo ⊢
          rw [if_neg e1]
          omega
    · rw [hp]
      simp only
      by_cases e1 : c = '\x7b'
      · have e2 : c ≠ '\x7d' := by rw [e1]; exact hne
        rw [if_pos e1] at hhi
        rw [if_neg e2, if_pos e1]
        omega
      · by_cases e2 : c = '\x7d'
        · rw [if_neg e1] at hhi
          rw [if_pos e2, if_neg e1]
          omega
        · rw [if_neg e1] at hhi
          rw [if_neg e2, if_neg e1]
          omega

theorem feedInt_braces : ∀ (lines : List (List Char)) (st : ClassifierState),
    st.comment_count = 0 → st.inSIC = 0 → st.inDIC = 0 →
    (∀ l ∈ lines, l.headD NUL ≠ '#' ∧ '/' ∉ l ∧ DIC ∉ l ∧ SIC ∉ l) →
    INT_MIN ≤ st.bra_count - ((joinLines lines).count '\x7d' : Nat) →
    st.bra_count + ((joinLines lines).count '\x7b' : Nat) ≤ INT_MAX →
    feedInt st lines = some (feed st lines) := by
  intro lines
  induction lines with
  | nil => intro st _ _ _ _ _ _; rfl
  | cons l rest ih =>
    intro st hc hs hd hl hlo hhi
    have h0 := hl l (List.mem_cons_self _ _)
    rw [joinLines_cons, List.count_append] at hlo hhi
    have e : feed st (l :: rest) = feed (isInteresting st l).2 rest := rfl
    have hsc := scanLine_braces l st true hc hs hd h0.2.1 h0.2.2.1 h0.2.2.2
    rw [feedInt, isInterestingInt_of_scan st l (fun _ => scanLineInt_braces l st true hc hs hd
      h0.2.1 h0.2.2.1 h0.2.2.2 (by push_cast at hlo ⊢; omega) (by push_cast at hhi ⊢; omega)), e]
    simp only
    have hst := isInteresting_state st l h0.1
    apply ih
    · rw [hst, hsc]
    · rw [hst, hsc]
    · rw [hst, hsc]
    · exact fun x hx => hl x (List.mem_cons_of_mem _ hx)
    · rw [hst, hsc]
      simp only
      push_cast at hlo ⊢
      omega
    · rw [hst, hsc]
      simp only
      push_cast at hhi ⊢
      omega

/-! ## The scan of the pieces of a line -/

theorem headD_append (t rest : List Char) (d : Char) :
    (t ++ rest).headD d = t.headD (rest.headD d) := by
  cases t <;> rfl

theorem toggleInt_zero : toggleInt 0 = some 1 := by decide

theorem toggleInt_one : toggleInt 1 = some 0 := by decide

theorem scanCharInt_open_string (b : Int) (next : Char) :
    scanCharInt ⟨0, b, 0, 0⟩ DIC next = some ⟨0, b, 0, 1⟩ := by
  unfold scanCharInt
  simp [toggleInt_zero, DIC_ne_SIC]

theorem scanCharInt_in_string (b : Int) (c next : Char) (hc : c ≠ DIC) :
    scanCharInt ⟨0, b, 0, 1⟩ c next = some ⟨0, b, 0, 1⟩ := by
  unfold scanCharInt
  simp [hc]

theorem scanCharInt_close_string (b : Int) (next : Char) :
    scanCharInt ⟨0, b, 0, 1⟩ DIC next = some ⟨0, b, 0, 0⟩ := by
  have e1 : DIC ≠ '/' := by decide
  have e2 : DIC ≠ '*' := by decide
  have e3 : DIC ≠ '\x7b' := by decide
  have e4 : DIC ≠ '\x7d' := by decide
  unfold scanCharInt
  simp [toggleInt_one, DIC_ne_SIC, e1, e2, e3, e4]

theorem scanCharInt_open_constant (b : Int) (next : Char) :
    scanCharInt ⟨0, b, 0, 0⟩ SIC next = some ⟨0, b, 1, 0⟩ := by
  have e0 : ¬ (SIC = DIC) := fun e => DIC_ne_SIC e.symm
  unfold scanCharInt
  simp [toggleInt_zero, e0]

theorem scanCharInt_in_constant (b : Int) (c next : Char) (hc : c ≠ SIC) :
    scanCharInt ⟨0, b, 1, 0⟩ c next = some ⟨0, b, 1, 0⟩ := by
  unfold scanCharInt
  simp [hc]

theorem scanCharInt_close_constant (b : Int) (next : Char) :
    scanCharInt ⟨0, b, 1, 0⟩ SIC next = some ⟨0, b, 0, 0⟩ := by
  have e0 : ¬ (SIC = DIC) := fun e => DIC_ne_SIC e.symm
  have e1 : SIC ≠ '/' := by decide
  have e2 : SIC ≠ '*' := by decide
  have e3 : SIC ≠ '\x7b' := by decide
  have e4 : SIC ≠ '\x7d' := by decide
  unfold scanCharInt
  simp [toggleInt_one, e0, e1, e2, e3, e4]

theorem scanCharInt_open_comment (b : Int) :
    scanCharInt ⟨0, b, 0, 0⟩ '/' '*' = some ⟨1, b, 0, 0⟩ := by
  have e1 : ('/' : Char) ≠ DIC := by decide
  have e2 : ('/' : Char) ≠ SIC := by decide
  have e3 : asInt 1 = some 1 := by decide
  unfold scanCharInt
  simp [e1, e2, e3]

theorem scanCharInt_in_comment (b : Int) (c next : Char) (h1 : c = '/' → next ≠ '*')
    (h2 : c = '*' → next ≠ '/') :
    scanCharInt ⟨1, b, 0, 0⟩ c next = some ⟨1, b, 0, 0⟩ := by
  unfold scanCharInt
  have e1 : ¬ (c = '/' ∧ next = '*') := fun h => h1 h.1 h.2
  have e2 : ¬ (c = '*' ∧ next = '/') := fun h => h2 h.1 h.2
  simp [e1, e2]

theorem scanCharInt_close_comment (b : Int) :
    scanCharInt ⟨1, b, 0, 0⟩ '*' '/' = some ⟨0, b, 0, 0⟩ := by
  have e1 : ('*' : Char) ≠ DIC := by decide
  have e2 : ('*' : Char) ≠ SIC := by decide
  have e3 : asInt 0 = some 0 := by decide
  unfold scanCharInt
  simp [e1, e2, e3]

theorem scanChar_slash_int (b : Int) (next : Char) (h : next ≠ '*') :
    scanCharInt ⟨0, b, 0, 0⟩ '/' next = some ⟨0, b, 0, 0⟩ := by
  have e1 : ('/' : Char) ≠ DIC := by decide
  have e2 : ('/' : Char) ≠ SIC := by decide
  unfold scanCharInt
  simp [e1, e2, h]

theorem scanCharInt_code (b : Int) (c next : Char) (c1 : c ≠ DIC) (c2 : c ≠ SIC)
    (h1 : c = '/' → next ≠ '*') (h2 : c = '*' → next ≠ '/')
    (hopen : c = '\x7b' → b + 1 ≤ INT_MAX) (hclose : c = '\x7d' → INT_MIN ≤ b - 1)
    (hlo : INT_MIN ≤ b) (hhi : b ≤ INT_MAX) :
    scanCharInt ⟨0, b, 0, 0⟩ c next =
      some ⟨0, b + (if c = '\x7b' then 1 else 0) - (if c = '\x7d' then 1 else 0), 0, 0⟩ := by
  have e1 : ¬ (c = '/' ∧ next = '*') := fun h => h1 h.1 h.2
  have e2 : ¬ (c = '*' ∧ next = '/') := fun h => h2 h.1 h.2
  unfold scanCharInt
  simp only [c1, c2, e1, e2, false_and, if_false, and_self, if_true, bind, Option.bind]
  by_cases o : c = '\x7b'
  · subst o
    have o2 : ('\x7b' : Char) ≠ '\x7d' := by decide
    rw [if_pos rfl, asInt_of_range _ (by omega) (hopen rfl)]
    simp [o2]
  · by_cases o2 : c = '\x7d'
    · subst o2
      rw [if_neg o]
      simp only [if_true]
      rw [asInt_of_range _ (hclose rfl) (by omega)]
      simp [o]
    · rw [if_neg o]
      simp [o, o2]

theorem scanLineInt_string_body : ∀ (s rest : List Char) (b : Int), DIC ∉ s → ¬ slashSlash s →
    scanLineInt ⟨0, b, 0, 1⟩ false (s ++ DIC :: rest) = scanLineInt ⟨0, b, 0, 0⟩ false rest := by
  intro s
  induction s with
  | nil =>
    intro rest b _ _
    have e1 : DIC ≠ '/' := by decide
    rw [List.nil_append, scanLineInt, if_neg (fun h => e1 h.1), scanCharInt_close_string]
    rfl
  | cons c s ih =>
    intro rest b hq hs
    have hc : c ≠ DIC := fun e => hq (by simp [e])
    have hq' : DIC ∉ s := fun e => hq (List.mem_cons_of_mem _ e)
    have h := not_slashSlash_append_cons (c :: s) DIC rest (by decide) hs c s rfl
    rw [List.cons_append, scanLineInt, if_neg h.1, scanCharInt_in_string b c _ hc]
    exact ih rest b hq' h.2

theorem scanLineInt_string (s rest : List Char) (b : Int) (blank : Bool) (hq : DIC ∉ s)
    (hs : ¬ slashSlash s) :
    scanLineInt ⟨0, b, 0, 0⟩ blank (DIC :: (s ++ DIC :: rest)) =
      scanLineInt ⟨0, b, 0, 0⟩ false rest := by
  have e1 : DIC ≠ '/' := by decide
  rw [scanLineInt, if_neg (fun h => e1 h.1), scanCharInt_open_string]
  have : (blank && isWs DIC) = false := by
    cases blank <;> rfl
  simp only [this]
  exact scanLineInt_string_body s rest b hq hs

theorem scanLineInt_constant_body : ∀ (s rest : List Char) (b : Int), SIC ∉ s →
    ¬ slashSlash s →
    scanLineInt ⟨0, b, 1, 0⟩ false (s ++ SIC :: rest) = scanLineInt ⟨0, b, 0, 0⟩ false rest := by
  intro s
  induction s with
  | nil =>
    intro rest b _ _
    have e1 : SIC ≠ '/' := by decide
    rw [List.nil_append, scanLineInt, if_neg (fun h => e1 h.1), scanCharInt_close_constant]
    rfl
  | cons c s ih =>
    intro rest b hq hs
    have hc : c ≠ SIC := fun e => hq (by simp [e])
    have hq' : SIC ∉ s := fun e => hq (List.mem_cons_of_mem _ e)
    have h := not_slashSlash_append_cons (c :: s) SIC rest (by decide) hs c s rfl
    rw [List.cons_append, scanLineInt, if_neg h.1, scanCharInt_in_constant b c _ hc]
    exact ih rest b hq' h.2

theorem scanLineInt_constant (s rest : List Char) (b : Int) (blank : Bool) (hq : SIC ∉ s)
    (hs : ¬ slashSlash s) :
    scanLineInt ⟨0, b, 0, 0⟩ blank (SIC :: (s ++ SIC :: rest)) =
      scanLineInt ⟨0, b, 0, 0⟩ false rest := by
  have e1 : SIC ≠ '/' := by decide
  rw [scanLineInt, if_neg (fun h => e1 h.1), scanCharInt_open_constant]
  have : (blank && isWs SIC) = false := by
    cases blank <;> rfl
  simp only [this]
  exact scanLineInt_constant_body s rest b hq hs

theorem pairOK_cons (c : Char) (t : List Char) (after : Char) (h : pairOK (c :: t) after = true) :
    (c = '/' → t.headD after ≠ '/' ∧ t.headD after ≠ '*') ∧ (c = '*' → t.headD after ≠ '/') ∧
      pairOK t after = true := by
  rw [pairOK, Bool.and_eq_true, decide_eq_true_eq] at h
  exact ⟨h.1.1, h.1.2, h.2⟩

theorem scanLineInt_comment_body : ∀ (body rest : List Char) (b : Int) (blank : Bool),
    pairOK body '*' = true → rest.headD NUL ≠ '/' → rest.headD NUL ≠ '*' →
    ∃ blank1, scanLineInt ⟨1, b, 0, 0⟩ blank (body ++ '*' :: '/' :: rest) =
      scanLineInt ⟨0, b, 0, 0⟩ blank1 rest := by
  intro body
  induction body with
  | nil =>
    intro rest b blank _ h1 h2
    have e1 : ('*' : Char) ≠ '/' := by decide
    have e2 : ('/' : Char) ≠ '\x7b' := by decide
    have e3 : ('/' : Char) ≠ '\x7d' := by decide
    refine ⟨(blank && isWs '*') && isWs '/', ?_⟩
    rw [List.nil_append, scanLineInt, if_neg (fun h => e1 h.1)]
    simp only [List.headD_cons]
    rw [scanCharInt_close_comment]
    simp only
    rw [scanLineInt, if_neg (fun h => h1 h.2)]
    have := scanChar_slash_int b (rest.headD NUL) h2
    rw [this]
  | cons c body ih =>
    intro rest b blank hb h1 h2
    obtain ⟨p1, p2, p3⟩ := pairOK_cons c body '*' hb
    have hn : (body ++ '*' :: '/' :: rest).headD NUL = body.headD '*' := by
      cases body <;> rfl
    obtain ⟨blank1, ih⟩ := ih rest b (blank && isWs c) p3 h1 h2
    refine ⟨blank1, ?_⟩
    rw [List.cons_append, scanLineInt, if_neg (fun h => (p1 h.1).1 (hn ▸ h.2)), hn,
      scanCharInt_in_comment b c _ (fun e => (p1 e).2) p2]
    exact ih

theorem scanLineInt_comment (body rest : List Char) (b : Int) (blank : Bool)
    (h0 : body.headD NUL ≠ '/') (hb : pairOK body '*' = true)
    (h1 : rest.headD NUL ≠ '/') (h2 : rest.headD NUL ≠ '*') :
    ∃ blank1, scanLineInt ⟨0, b, 0, 0⟩ blank ('/' :: '*' :: (body ++ '*' :: '/' :: rest)) =
      scanLineInt ⟨0, b, 0, 0⟩ blank1 rest := by
  have e1 : ('*' : Char) ≠ '/' := by decide
  have hn : (body ++ '*' :: '/' :: rest).headD NUL ≠ '/' := by
    cases body with
    | nil => exact e1
    | cons c body => exact h0
  obtain ⟨blank1, hb1⟩ :=
    scanLineInt_comment_body body rest b ((blank && isWs '/') && isWs '*') hb h1 h2
  refine ⟨blank1, ?_⟩
  rw [scanLineInt, if_neg (fun h => e1 h.2)]
  simp only [List.headD_cons]
  rw [scanCharInt_open_comment]
  simp only
  rw [scanLineInt, if_neg (fun h => e1 h.1),
    scanCharInt_in_comment b '*' _ (fun e => absurd e (by decide)) (fun _ => hn)]
  exact hb1

theorem scanLineInt_code : ∀ (t rest : List Char) (b : Int) (blank : Bool), DIC ∉ t → SIC ∉ t →
    pairOK t (rest.headD NUL) = true → INT_MIN ≤ b - (t.count '\x7d' : Nat) →
    b + (t.count '\x7b' : Nat) ≤ INT_MAX →
    ∃ blank1, scanLineInt ⟨0, b, 0, 0⟩ blank (t ++ rest) =
      scanLineInt ⟨0, b + (t.count '\x7b' : Nat) - (t.count '\x7d' : Nat), 0, 0⟩ blank1 rest := by
  intro t
  induction t with
  | nil =>
    intro rest b blank _ _ _ _ _
    exact ⟨blank, by simp⟩
  | cons c t ih =>
    intro rest b blank hd hs hp hlo hhi
    obtain ⟨p1, p2, p3⟩ := pairOK_cons c t _ hp
    have c1 : c ≠ DIC := fun e => hd (by simp [e])
    have c2 : c ≠ SIC := fun e => hs (by simp [e])
    have hd' : DIC ∉ t := fun e => hd (List.mem_cons_of_mem _ e)
    have hs' : SIC ∉ t := fun e => hs (List.mem_cons_of_mem _ e)
    have hne : ¬ (c = '\x7b' ∧ c = '\x7d') := by
      intro h
      have : ('\x7b' : Char) = '\x7d' := h.1.symm.trans h.2
      exact absurd this (by decide)
    rw [count_cons_int] at hlo hhi
    have hn : (t ++ rest).headD NUL = t.headD (rest.headD NUL) := headD_append t rest NUL
    have f1 : (0 : Int) ≤ (if c = '\x7b' then 1 else 0) ∧
        (if c = '\x7b' then (1 : Int) else 0) ≤ 1 := by split_ifs <;> omega
    have f2 : (0 : Int) ≤ (if c = '\x7d' then 1 else 0) ∧
        (if c = '\x7d' then (1 : Int) else 0) ≤ 1 := by split_ifs <;> omega
    have f3 : (if c = '\x7b' then (1 : Int) else 0) + (if c = '\x7d' then (1 : Int) else 0) ≤ 1 := by
      split_ifs with a1 a2
      · exact absurd ⟨a1, a2⟩ hne
      · omega
      · omega
      · omega
    have g1 : c = '\x7b' → (if c = '\x7b' then (1 : Int) else 0) = 1 := fun e => if_pos e
    have g2 : c = '\x7d' → (if c = '\x7d' then (1 : Int) else 0) = 1 := fun e => if_pos e
    have hstep := scanCharInt_code b c (t.headD (rest.headD NUL)) c1 c2 (fun e => (p1 e).2) p2
      (fun e => by have := g1 e; omega) (fun e => by have := g2 e; omega) (by omega) (by omega)
    obtain ⟨blank1, ih⟩ := ih rest
      (b + (if c = '\x7b' then 1 else 0) - (if c = '\x7d' then 1 else 0)) (blank && isWs c)
      hd' hs' p3 (by omega) (by omega)
    refine ⟨blank1, ?_⟩
    rw [List.cons_append, scanLineInt, if_neg (fun h => (p1 h.1).1 (hn ▸ h.2)), hn, hstep]
    simp only
    rw [ih, count_cons_int, count_cons_int]
    have : b + (if c = '\x7b' then 1 else 0) - (if c = '\x7d' then 1 else 0) +
        ((List.count '\x7b' t : Nat) : Int) - ((List.count '\x7d' t : Nat) : Int) =
        b + (((List.count '\x7b' t : Nat) : Int) + (if c = '\x7b' then 1 else 0)) -
          (((List.count '\x7d' t : Nat) : Int) + (if c = '\x7d' then 1 else 0)) := by omega
    rw [this]

theorem scanLineInt_pieces : ∀ (ps : List Piece) (b : Int) (blank : Bool), piecesOK ps = true →
    INT_MIN ≤ b - (codeCount '\x7d' ps : Nat) → b + (codeCount '\x7b' ps : Nat) ≤ INT_MAX →
    ∃ blank1, scanLineInt ⟨0, b, 0, 0⟩ blank (pieceLine ps) =
      some (⟨0, b + (codeCount '\x7b' ps : Nat) - (codeCount '\x7d' ps : Nat), 0, 0⟩,
        blank1, false) := by
  intro ps
  induction ps with
  | nil =>
    intro b blank _ _ _
    exact ⟨blank, by simp [pieceLine, codeCount, scanLineInt]⟩
  | cons p ps ih =>
    intro b blank hok hlo hhi
    cases p with
    | code t =>
      rw [piecesOK, Bool.and_eq_true, Bool.and_eq_true, decide_eq_true_eq] at hok
      obtain ⟨⟨⟨hd, hs⟩, hp⟩, hrest⟩ := hok
      simp only [codeCount, Nat.cast_add] at hlo hhi ⊢
      obtain ⟨bl1, h1⟩ := scanLineInt_code t (pieceLine ps) b blank hd hs hp (by omega) (by omega)
      obtain ⟨bl2, h2⟩ := ih (b + (t.count '\x7b' : Nat) - (t.count '\x7d' : Nat)) bl1 hrest
        (by omega) (by omega)
      refine ⟨bl2, ?_⟩
      rw [pieceLine, Piece.text, h1, h2]
      have : b + ((List.count '\x7b' t : Nat) : Int) - ((List.count '\x7d' t : Nat) : Int) +
          ((codeCount '\x7b' ps : Nat) : Int) - ((codeCount '\x7d' ps : Nat) : Int) =
          b + (((List.count '\x7b' t : Nat) : Int) + ((codeCount '\x7b' ps : Nat) : Int)) -
            (((List.count '\x7d' t : Nat) : Int) + ((codeCount '\x7d' ps : Nat) : Int)) := by
        omega
      rw [this]
    | str s =>
      rw [piecesOK, Bool.and_eq_true, decide_eq_true_eq] at hok
      obtain ⟨⟨hq, hs⟩, hrest⟩ := hok
      simp only [codeCount] at hlo hhi ⊢
      have e : DIC :: (s ++ [DIC]) ++ pieceLine ps = DIC :: (s ++ DIC :: pieceLine ps) := by simp
      rw [pieceLine, Piece.text, e, scanLineInt_string s _ b blank hq hs]
      exact ih b false hrest hlo hhi
    | chr s =>
      rw [piecesOK, Bool.and_eq_true, decide_eq_true_eq] at hok
      obtain ⟨⟨hq, hs⟩, hrest⟩ := hok
      simp only [codeCount] at hlo hhi ⊢
      have e : SIC :: (s ++ [SIC]) ++ pieceLine ps = SIC :: (s ++ SIC :: pieceLine ps) := by simp
      rw [pieceLine, Piece.text, e, scanLineInt_constant s _ b blank hq hs]
      exact ih b false hrest hlo hhi
    | comment body =>
      rw [piecesOK, Bool.and_eq_true, Bool.and_eq_true, decide_eq_true_eq] at hok
      obtain ⟨⟨⟨h0, h1, h2⟩, hp⟩, hrest⟩ := hok
      simp only [codeCount] at hlo hhi ⊢
      have e : '/' :: '*' :: (body ++ ['*', '/']) ++ pieceLine ps =
          '/' :: '*' :: (body ++ '*' :: '/' :: pieceLine ps) := by simp
      obtain ⟨bl1, hc⟩ := scanLineInt_comment body (pieceLine ps) b blank h0 hp h1 h2
      rw [pieceLine, Piece.text, e, hc]
      exact ih b bl1 hrest hlo hhi

theorem isInterestingInt_pieces (ps : List Piece) (b : Int) (hok : piecesOK ps = true)
    (hhash : (pieceLine ps).headD NUL ≠ '#')
    (hlo : INT_MIN ≤ b - (codeCount '\x7d' ps : Nat))
    (hhi : b + (codeCount '\x7b' ps : Nat) ≤ INT_MAX) :
    ∃ v, isInterestingInt ⟨0, b, 0, 0⟩ (pieceLine ps) =
      some (v, ⟨0, b + (codeCount '\x7b' ps : Nat) - (codeCount '\x7d' ps : Nat), 0, 0⟩) := by
  obtain ⟨bl, h⟩ := scanLineInt_pieces ps b true hok hlo hhi
  unfold isInterestingInt
  rw [if_neg hhash, h]
  simp only
  split_ifs <;> exact ⟨_, rfl⟩

theorem scanCharInt_brace_masked (st : ClassifierState) (c next : Char)
    (hc : c = '\x7b' ∨ c = '\x7d')
    (hm : st.inDIC ≠ 0 ∨ st.inSIC ≠ 0 ∨ st.comment_count ≠ 0) :
    scanCharInt st c next = some st := by
  have c1 : c ≠ DIC := by rcases hc with h | h <;> subst h <;> decide
  have c2 : c ≠ SIC := by rcases hc with h | h <;> subst h <;> decide
  have c3 : c ≠ '/' := by rcases hc with h | h <;> subst h <;> decide
  have c4 : c ≠ '*' := by rcases hc with h | h <;> subst h <;> decide
  unfold scanCharInt
  simp only [c1, c2, c3, c4, false_and, if_false, bind, Option.bind]
  by_cases h1 : st.inDIC = 0 ∧ st.inSIC = 0
  · rw [if_pos h1]
    have h2 : st.comment_count ≠ 0 := by
      rcases hm with h | h | h
      · exact absurd h1.1 h
      · exact absurd h1.2 h
      · exact h
    rw [if_neg h2]
  · rw [if_neg h1]

theorem scanCharInt_quote_in_comment (st : ClassifierState) (c next : Char)
    (hc : c = DIC ∨ c = SIC) (hm : st.comment_count ≠ 0) :
    scanCharInt st c next = some st := by
  have c3 : c ≠ '/' := by rcases hc with h | h <;> subst h <;> decide
  have c4 : c ≠ '*' := by rcases hc with h | h <;> subst h <;> decide
  unfold scanCharInt
  simp only [hm, c3, c4, false_and, and_false, if_false, bind, Option.bind]
  by_cases h1 : st.inDIC = 0 ∧ st.inSIC = 0
  · rw [if_pos h1]
  · rw [if_neg h1]

theorem scanCharInt_quote_in_other (st : ClassifierState) (c next : Char)
    (hc : (c = DIC ∧ st.inSIC ≠ 0) ∨ (c = SIC ∧ st.inDIC ≠ 0)) :
    scanCharInt st c next = some st := by
  unfold scanCharInt
  rcases hc with ⟨h, hm⟩ | ⟨h, hm⟩
  · subst h
    simp only [hm, DIC_ne_SIC, and_false, false_and, if_false, bind, Option.bind]
  · subst h
    have : ¬ (SIC = DIC) := fun e => DIC_ne_SIC e.symm
    simp only [this, hm, and_false, false_and, if_false, bind, Option.bind]

theorem scanCharInt_comment_in_quote (st : ClassifierState) (c next : Char)
    (hc : c = '/' ∨ c = '*') (hm : st.inDIC ≠ 0 ∨ st.inSIC ≠ 0) :
    scanCharInt st c next = some st := by
  have c1 : c ≠ DIC := by rcases hc with h | h <;> subst h <;> decide
  have c2 : c ≠ SIC := by rcases hc with h | h <;> subst h <;> decide
  unfold scanCharInt
  simp only [c1, c2, false_and, if_false, bind, Option.bind]
  have h1 : ¬ (st.inDIC = 0 ∧ st.inSIC = 0) := by
    intro h
    rcases hm with h2 | h2
    · exact h2 h.1
    · exact h2 h.2
  rw [if_neg h1]

/-! ## Prototypes given by their lines -/

theorem assemble1_done (st : ClassifierState) (fd : List (List Char)) (ndef : Nat)
    (rest : List (List Char)) (h : ';' ∈ row fd ndef ∨ '\x7b' ∈ row fd ndef) :
    assemble1 st fd ndef rest = .unit st fd ndef rest := by
  cases rest with
  | nil => rw [assemble1, if_pos (by simpa using h)]
  | cons raw rest => rw [assemble1, if_pos (by simpa using h)]

theorem assemble1_lines : ∀ (mids : List (List Char)) (st : ClassifierState)
    (fd : List (List Char)) (ndef : Nat) (last : List Char) (rest : List (List Char)),
    ';' ∉ row fd ndef → '\x7b' ∉ row fd ndef →
    (∀ l ∈ mids, ';' ∉ terminate l ∧ '\x7b' ∉ terminate l) →
    (';' ∈ terminate last ∨ '\x7b' ∈ terminate last) →
    ndef + mids.length + 1 < MAXLINES → MAXLINES ≤ fd.length →
    ∃ st1 fd1, assemble1 st fd ndef (mids ++ last :: rest) =
        .unit st1 fd1 (ndef + mids.length + 1) rest ∧
      row fd1 (ndef + mids.length + 1) = terminate last := by
  intro mids
  induction mids with
  | nil =>
    intro st fd ndef last rest h1 h2 _ hl hn hfd
    have hrow : row (fd.set (ndef + 1) (terminate last)) (ndef + 1) = terminate last := by
      rw [row_set, if_pos ⟨rfl, by simp at hn; omega⟩]
    refine ⟨(isInteresting st (terminate last)).2, fd.set (ndef + 1) (terminate last), ?_, hrow⟩
    have hc : ¬ ((row fd ndef).contains ';' = true ∨ (row fd ndef).contains '\x7b' = true) := by
      simpa using ⟨h1, h2⟩
    rw [List.nil_append, assemble1, if_neg hc]
    simp only
    rw [if_neg (by simp at hn ⊢; omega)]
    exact assemble1_done _ _ _ _ (by rw [hrow]; exact hl)
  | cons m ms ih =>
    intro st fd ndef last rest h1 h2 hm hl hn hfd
    have hrow : row (fd.set (ndef + 1) (terminate m)) (ndef + 1) = terminate m := by
      rw [row_set, if_pos ⟨rfl, by simp at hn; omega⟩]
    have hm1 := hm m (List.mem_cons_self _ _)
    have e : ndef + (m :: ms).length + 1 = ndef + 1 + ms.length + 1 := by
      simp only [List.length_cons]; omega
    obtain ⟨st1, fd1, h, hr⟩ := ih (isInteresting st (terminate m)).2
      (fd.set (ndef + 1) (terminate m)) (ndef + 1) last rest (by rw [hrow]; exact hm1.1)
      (by rw [hrow]; exact hm1.2) (fun l hl' => hm l (List.mem_cons_of_mem _ hl')) hl
      (by rw [← e]; exact hn) (by simpa using hfd)
    have hc : ¬ ((row fd ndef).contains ';' = true ∨ (row fd ndef).contains '\x7b' = true) := by
      simpa using ⟨h1, h2⟩
    refine ⟨st1, fd1, ?_, ?_⟩
    · rw [List.cons_append, assemble1, if_neg hc]
      simp only
      rw [if_neg (by simp at hn ⊢; omega), e]
      exact h
    · rw [e]
      exact hr

theorem process_loop_prototype (mode : Nat) (hmode : mode ≠ MakeProtos) (st : ClassifierState)
    (fd pre : List (List Char)) (last : List Char) (after : List (List Char)) (out : List Char)
    (fuel : Nat) (t ws tail : List Char) (hfd : fd.length = MAXLINES)
    (hn : pre.length < MAXLINES)
    (hpre : ∀ l ∈ pre, ';' ∉ terminate l ∧ '\x7b' ∉ terminate l)
    (hlast : terminate last = t ++ ')' :: (ws ++ ';' :: tail)) (ht : ';' ∉ t)
    (hws : ∀ x ∈ ws, isWs x = true) (hb : '\x7b' ∉ terminate last)
    (hint : (isInteresting st (terminate ((pre ++ [last]).headD []))).1 ≠ 0)
    (hwf : wfC .text (terminate ((pre ++ [last]).headD [])) = true)
    (hp : '(' ∈ stripC .text (terminate ((pre ++ [last]).headD []))) :
    ∃ st1 fd1, process_loop mode (fuel + 1) st fd (pre ++ last :: after) out =
      process_loop mode fuel st1 fd1 after (out ++ putLines ((pre ++ [last]).map terminate)) := by
  have hsemi : ';' ∈ terminate last := by rw [hlast]; simp
  cases pre with
  | nil =>
    simp only [List.nil_append, List.headD_cons] at hint hwf hp ⊢
    have hrow : row (fd.set 0 (terminate last)) 0 = terminate last := by
      rw [row_set, if_pos ⟨rfl, by rw [hfd]; decide⟩]
    have h3 := assemble1_done (isInteresting st (terminate last)).2 (fd.set 0 (terminate last)) 0
      after (Or.inl (by rw [hrow]; exact hsemi))
    have h5 : isFunc (fd.set 0 (terminate last)) 0 = some 0 := by
      have := isFunc_last_char (fd.set 0 (terminate last)) 0 t ws tail ')' (hrow.trans hlast)
        (by rw [hrow]; exact hb) ht (by decide) (by decide) hws
      simpa using this
    have hr := round_prototype mode hmode st fd last after out _ _ 0 after hfd hint
      (by rw [KillComments_eq_stripC _ hwf]; exact hp) h3 (by simp; omega) h5
    refine ⟨(isInteresting st (terminate last)).2, fd.set 0 (terminate last), ?_⟩
    rw [process_loop, hr.2]
    simp
  | cons first mids =>
    simp only [List.cons_append, List.headD_cons] at hint hwf hp ⊢
    have hf := hpre first (List.mem_cons_self _ _)
    have hrow : row (fd.set 0 (terminate first)) 0 = terminate first := by
      rw [row_set, if_pos ⟨rfl, by rw [hfd]; decide⟩]
    obtain ⟨st1, fd1, h3, hr1⟩ := assemble1_lines mids (isInteresting st (terminate first)).2
      (fd.set 0 (terminate first)) 0 last after (by rw [hrow]; exact hf.1)
      (by rw [hrow]; exact hf.2) (fun l hl => hpre l (List.mem_cons_of_mem _ hl))
      (Or.inl hsemi) (by simp at hn ⊢; omega) (by simp [hfd])
    have h5 : isFunc fd1 (0 + mids.length + 1) = some 0 := by
      have := isFunc_last_char fd1 (0 + mids.length + 1) t ws tail ')' (hr1.trans hlast)
        (by rw [hr1]; exact hb) ht (by decide) (by decide) hws
      simpa using this
    have hr := round_prototype mode hmode st fd first (mids ++ last :: after) out _ _ _ after hfd
      hint (by rw [KillComments_eq_stripC _ hwf]; exact hp) h3 (by simp; omega) h5
    refine ⟨st1, fd1, ?_⟩
    rw [process_loop, hr.2]
    simp only
    have e : (first :: (mids ++ last :: after)).take (0 + mids.length + 1 + 1) =
        first :: (mids ++ [last]) := by
      have : first :: (mids ++ last :: after) = (first :: (mids ++ [last])) ++ after := by simp
      rw [this]
      exact List.take_left' (by simp)
    rw [e]

theorem process_file_text_no_paren (mode : Nat) (hmode : mode ≠ MakeProtos)
    (lines : List (List Char)) (hnl : ∀ l ∈ lines, '\n' ∉ l)
    (hlen : ∀ l ∈ lines, l.length + 2 ≤ MAXBUFF) (hp : ∀ l ∈ lines, '(' ∉ l) :
    process_file mode (textLines (putLines lines)) = .finished (putLines lines) := by
  rw [textLines_putLines lines hnl hlen]
  unfold process_file
  rw [process_loop_no_paren mode hmode lines _ _ _ _ hp (Nat.le_refl _), List.nil_append]
  have : lines.map terminate = lines := by
    conv_rhs => rw [← List.map_id lines]
    apply List.map_congr_left
    intro l hl
    exact terminate_eq_self l (hnl l hl)
  rw [this]

/-! ## No overflow on inputs of at most INT_MAX characters -/

theorem toggleInt_flag (x : Int) (h : x = 0 ∨ x = 1) :
    ∃ y, toggleInt x = some y ∧ (y = 0 ∨ y = 1) := by
  rcases h with h | h <;> subst h
  · exact ⟨1, by decide, Or.inr rfl⟩
  · exact ⟨0, by decide, Or.inl rfl⟩

theorem scanCharInt_inRange (n : Nat) (st : ClassifierState) (c next : Char)
    (h : inRange n st) (hn : (n : Int) < INT_MAX) :
    ∃ r, scanCharInt st c next = some r ∧ inRange (n + 1) r := by
  obtain ⟨cc, b, s, d⟩ := st
  obtain ⟨h1, h2, h3, h4, hs, hd⟩ := h
  simp only at h1 h2 h3 h4 hs hd
  have eM : INT_MAX = 2147483647 := rfl
  have em : INT_MIN = -2147483648 := rfl
  rw [eM] at hn
  have a1 : ∀ x : Int, -(n : Int) - 1 ≤ x → x ≤ n + 1 → asInt x = some x := by
    intro x hx1 hx2
    apply asInt_of_range
    · rw [em]; omega
    · rw [eM]; omega
  obtain ⟨d1, hd1, hdr⟩ : ∃ d1, (if c = DIC ∧ cc = 0 ∧ s = 0 then toggleInt d else some d) =
      some d1 ∧ (d1 = 0 ∨ d1 = 1) := by
    split_ifs
    · exact toggleInt_flag d hd
    · exact ⟨d, rfl, hd⟩
  obtain ⟨s1, hs1, hsr⟩ : ∃ s1, (if c = SIC ∧ cc = 0 ∧ d1 = 0 then toggleInt s else some s) =
      some s1 ∧ (s1 = 0 ∨ s1 = 1) := by
    split_ifs
    · exact toggleInt_flag s hs
    · exact ⟨s, rfl, hs⟩
  obtain ⟨cc1, hcc1, hc1a, hc1b⟩ : ∃ cc1, (if c = '/' ∧ next = '*' then asInt (cc + 1)
      else some cc) = some cc1 ∧ -(n : Int) ≤ cc1 ∧ cc1 ≤ n + 1 := by
    split_ifs
    · exact ⟨cc + 1, a1 _ (by omega) (by omega), by omega, by omega⟩
    · exact ⟨cc, rfl, by omega, by omega⟩
  obtain ⟨cc2, hcc2, hc2a, hc2b⟩ : ∃ cc2, (if c = '*' ∧ next = '/' then asInt (cc1 - 1)
      else some cc1) = some cc2 ∧ -(n : Int) - 1 ≤ cc2 ∧ cc2 ≤ n + 1 := by
    split_ifs
    · exact ⟨cc1 - 1, a1 _ (by omega) (by omega), by omega, by omega⟩
    · exact ⟨cc1, rfl, by omega, by omega⟩
  obtain ⟨b1, hb1, hb1a, hb1b⟩ : ∃ b1, (if c = '\x7b' then asInt (b + 1) else some b) = some b1 ∧
      -(n : Int) ≤ b1 ∧ b1 ≤ n + 1 := by
    split_ifs
    · exact ⟨b + 1, a1 _ (by omega) (by omega), by omega, by omega⟩
    · exact ⟨b, rfl, by omega, by omega⟩
  obtain ⟨b2, hb2, hb2a, hb2b⟩ : ∃ b2, (if c = '\x7d' then asInt (b1 - 1) else some b1) =
      some b2 ∧ -(n : Int) - 1 ≤ b2 ∧ b2 ≤ n + 1 := by
    split_ifs
    · exact ⟨b1 - 1, a1 _ (by omega) (by omega), by omega, by omega⟩
    · exact ⟨b1, rfl, by omega, by omega⟩
  unfold scanCharInt
  simp only [bind, Option.bind, hd1, hs1]
  by_cases q : d1 = 0 ∧ s1 = 0
  · rw [if_pos q]
    simp only [hcc1, hcc2]
    by_cases z : cc2 = 0
    · rw [if_pos z]
      simp only [hb1, hb2]
      refine ⟨_, rfl, ?_⟩
      unfold inRange
      simp only [Nat.cast_add, Nat.cast_one]
      exact ⟨by omega, by omega, by omega, by omega, hsr, hdr⟩
    · rw [if_neg z]
      refine ⟨_, rfl, ?_⟩
      unfold inRange
      simp only [Nat.cast_add, Nat.cast_one]
      exact ⟨by omega, by omega, by omega, by omega, hsr, hdr⟩
  · rw [if_neg q]
    refine ⟨_, rfl, ?_⟩
    unfold inRange
    simp only [Nat.cast_add, Nat.cast_one]
    exact ⟨by omega, by omega, by omega, by omega, hsr, hdr⟩

theorem inRange_mono (n m : Nat) (st : ClassifierState) (h : inRange n st) (hnm : n ≤ m) :
    inRange m st := by
  unfold inRange at h ⊢
  obtain ⟨h1, h2, h3, h4, hs, hd⟩ := h
  exact ⟨by omega, by omega, by omega, by omega, hs, hd⟩

theorem scanLineInt_inRange : ∀ (l : List Char) (n : Nat) (st : ClassifierState) (blank : Bool),
    inRange n st → (n : Int) + l.length ≤ INT_MAX →
    ∃ r, scanLineInt st blank l = some r ∧ inRange (n + l.length) r.1 := by
  intro l
  induction l with
  | nil =>
    intro n st blank h _
    exact ⟨_, rfl, by simpa using h⟩
  | cons c rest ih =>
    intro n st blank h hn
    simp only [List.length_cons, Nat.cast_add, Nat.cast_one] at hn
    rw [scanLineInt]
    by_cases h0 : c = '/' ∧ rest.headD NUL = '/'
    · rw [if_pos h0]
      exact ⟨_, rfl, inRange_mono n _ st h (by omega)⟩
    · obtain ⟨r1, hr1, hr1b⟩ := scanCharInt_inRange n st c (rest.headD NUL) h (by omega)
      rw [if_neg h0, hr1]
      simp only
      obtain ⟨r, hr, hrb⟩ := ih (n + 1) r1 (blank && isWs c) hr1b
        (by simp only [Nat.cast_add, Nat.cast_one]; omega)
      refine ⟨r, hr, ?_⟩
      have e : n + (c :: rest).length = n + 1 + rest.length := by
        simp only [List.length_cons]; omega
      rw [e]
      exact hrb

theorem isInterestingInt_inRange (n : Nat) (st : ClassifierState) (buffer : List Char)
    (h : inRange n st) (hn : (n : Int) + buffer.length ≤ INT_MAX) :
    isInterestingInt st buffer = some (isInteresting st buffer) ∧
      inRange (n + buffer.length) (isInteresting st buffer).2 := by
  have key : ∃ r, isInterestingInt st buffer = some r ∧ inRange (n + buffer.length) r.2 := by
    unfold isInterestingInt
    by_cases h0 : buffer.headD NUL = '#'
    · rw [if_pos h0]
      exact ⟨_, rfl, inRange_mono n _ st h (by omega)⟩
    · obtain ⟨r, hr, hrb⟩ := scanLineInt_inRange buffer n st true h hn
      rw [if_neg h0, hr]
      simp only
      split_ifs <;> exact ⟨_, rfl, hrb⟩
  obtain ⟨r, hr, hrb⟩ := key
  have := isInterestingInt_some st buffer r hr
  subst this
  exact ⟨hr, hrb⟩

theorem feedInt_inRange : ∀ (lines : List (List Char)) (n : Nat) (st : ClassifierState),
    inRange n st → (n : Int) + ((lines.map List.length).sum : Nat) ≤ INT_MAX →
    feedInt st lines = some (feed st lines) := by
  intro lines
  induction lines with
  | nil =>
    intro n st _ _
    rfl
  | cons l ls ih =>
    intro n st h hn
    simp only [List.map_cons, List.sum_cons, Nat.cast_add] at hn
    obtain ⟨h1, h2⟩ := isInterestingInt_inRange n st l h (by omega)
    rw [feedInt, h1]
    simp only
    rw [ih (n + l.length) _ h2 (by simp only [Nat.cast_add]; omega)]
    rfl

theorem sum_length_le_putLines (lines : List (List Char)) :
    (lines.map List.length).sum ≤ (putLines lines).length := by
  induction lines with
  | nil => simp [putLines]
  | cons l ls ih =>
    simp only [List.map_cons, List.sum_cons, putLines, List.length_append, List.length_cons,
      List.length_nil]
    omega

theorem feedInt_total (lines : List (List Char))
    (h : ((putLines lines).length : Int) ≤ INT_MAX) :
    feedInt ClassifierState.init lines = some (feed ClassifierState.init lines) := by
  apply feedInt_inRange lines 0
  · unfold inRange ClassifierState.init
    simp
  · have := sum_length_le_putLines lines
    simp only [Nat.cast_zero, zero_add]
    omega

theorem isInteresting_rejects (st : ClassifierState) (buffer : List Char)
    (h : st.bra_count ≠ 0 ∨ st.inDIC ≠ 0 ∨ st.inSIC ≠ 0 ∨ st.comment_count ≠ 0 ∨
      buffer.headD NUL = '#' ∨ leadingComment buffer ∨ slashSlash buffer ∨
      ∀ c ∈ buffer, isWs c = true) :
    (isInteresting st buffer).1 = 0 := by
  rcases isInteresting_zero_or_one st buffer with h0 | h1
  · exact h0
  · obtain ⟨⟨s1, s2, s3, s4⟩, hh, hl, hs, c, hc, hw⟩ := isInteresting_eq_one st buffer h1
    rcases h with h | h | h | h | h | h | h | h
    · exact absurd s1 h
    · exact absurd s2 h
    · exact absurd s3 h
    · exact absurd s4 h
    · exact absurd h hh
    · exact absurd h hl
    · exact absurd h hs
    · rw [h c hc] at hw
      cases hw

/-! ## The claims -/

set_option maxRecDepth 100000 in
/-- C2, as the claim states it, fails: in `MakeProtos` mode the six lines of
`foo` are not turned into `int foo(int a,` followed by nine blanks and
`char *b);`. -/
theorem process_file_protos_foo_not_nine :
    process_file MakeProtos fooKR ≠
      .finished "int foo(int a,\n         char *b);\n".toList := by
  decide

set_option maxRecDepth 100000 in
/-- C2, amended: in `MakeProtos` mode the six lines of `foo` give exactly the two
output lines `int foo(int a,` and eight blanks (the width of `int foo(`) followed
by `char *b);`; nothing is written for the body or any other line. -/
theorem process_file_protos_foo :
    process_file MakeProtos fooKR =
      .finished "int foo(int a,\n        char *b);\n".toList := by
  decide

set_option maxRecDepth 100000 in
/-- C3, as the claim states it, fails: in `MakeKR` mode the declaration lines of
`add` are not written with a blank in front of the semicolon. -/
theorem process_file_kr_add_no_blank :
    process_file MakeKR addANSI ≠
      .finished "int add(a, b)\nint a ;\nint b ;\n\x7b\n".toList := by
  decide

set_option maxRecDepth 100000 in
/-- C3, amended: in `MakeKR` mode the two lines of `add` give exactly the four
lines `int add(a, b)`, `int a;`, `int b;` and the opening brace: each declaration
line is the type and name of the parameter directly followed by the semicolon. -/
theorem process_file_kr_add :
    process_file MakeKR addANSI =
      .finished "int add(a, b)\nint a;\nint b;\n\x7b\n".toList := by
  decide

/-- C6: a unit none of whose lines holds `;` is written by `Ansify` in
`MakeANSI` mode as its lines, each followed by a newline, in order; a unit one
of whose lines holds `;` is written by `DeAnsify` in the same way. -/
theorem unit_passthrough (funcdef : List (List Char)) (ndef : Nat) :
    ((∀ l ∈ unitLines funcdef ndef, ';' ∉ l) →
      Ansify funcdef ndef MakeANSI = some (putLines (unitLines funcdef ndef))) ∧
    ((∃ l ∈ unitLines funcdef ndef, ';' ∈ l) →
      DeAnsify funcdef ndef = some (putLines (unitLines funcdef ndef))) :=
  ⟨Ansify_passthrough funcdef ndef, DeAnsify_passthrough funcdef ndef⟩

/-- Witness of C6: the ANSI unit `int add(int a, int b)` / opening brace passes
through `Ansify`, the K&R unit `int foo(a, b)` ... opening brace through
`DeAnsify`. -/
theorem unit_passthrough_witness :
    Ansify addANSI 1 MakeANSI = some "int add(int a, int b)\n\x7b\n".toList ∧
    DeAnsify fooKR 3 = some "int foo(a, b)\nint a;\nchar *b;\n\x7b\n".toList :=
  ⟨(unit_passthrough addANSI 1).1 (by decide), (unit_passthrough fooKR 3).2 (by decide)⟩

/-- C8, as the claim states it, fails: in `f(a)` followed by an opening brace,
the buffer that starts behind the `(` has the needle `a` at index 0, followed by
`)`, which the specification accepts (`i == 0`); `FindVarName` reads the `(` in
front of the buffer and returns NULL. -/
theorem FindVarName_index0_rejected :
    specWordAt ("f(a)\x7b".toList.drop 2) "a".toList 0 ∧
      FindVarName "f(a)\x7b".toList 2 "a".toList = none := by
  decide

/-- C8, amended: for a non-empty needle `FindVarName` returns the least index
`p` of the buffer at which the needle stands, the character in front of `p` is a
blank, `*` or `,` (for the first index of the buffer this is the character stored
in front of the buffer) and the character behind the occurrence is one of `;`,
`[`, blank, `)`, `,`; it returns NULL iff there is no such index. -/
theorem FindVarName_least_word (mem string : List Char) (buffer : Nat) (hs : string ≠ []) :
    (∀ p, FindVarName mem buffer string = some p ↔
      buffer ≤ p ∧ wordAt mem string p ∧ ∀ q, buffer ≤ q → q < p → ¬ wordAt mem string q) ∧
    (FindVarName mem buffer string = none ↔ ∀ q, buffer ≤ q → ¬ wordAt mem string q) :=
  ⟨fun p => FindVarName_eq_some mem string buffer hs p, FindVarName_eq_none mem string buffer hs⟩

/-- Witness of C8: in `f(p)char *p;` the name `p` is found at index 10, behind
the `*`, and not at index 2, behind the `(`. -/
theorem FindVarName_least_word_witness :
    "p".toList ≠ [] ∧ FindVarName "f(p)char *p;".toList 2 "p".toList = some 10 :=
  ⟨by decide,
   ((FindVarName_least_word "f(p)char *p;".toList "p".toList 2 (by decide)).1 10).2
     ⟨by decide, by decide, by
       intro q h1 h2
       interval_cases q <;> decide⟩⟩

/-- C10: let the buffer consist of text segments and comment bodies that hold
neither `/` nor `*`, each body enclosed in `/*` and `*/`, and let the byte in
front of the buffer be neither `/` nor `*`.  Then `KillComments` returns the
text segments alone, in order; a buffer without comments is returned unchanged;
and when a last comment is still open at the end of the buffer, everything from
its `/*` on is removed too. -/
theorem KillComments_strips (m2 m1 : Char) (segs : List (List Char × List Char))
    (tn copen : List Char) (h1 : m1 ≠ '/') (h2 : m1 ≠ '*')
    (hsegs : ∀ p ∈ segs, clean p.1 ∧ clean p.2) (htn : clean tn) (hopen : clean copen) :
    KillComments m2 m1 (withComments segs tn) = textOnly segs tn ∧
    KillComments m2 m1 tn = tn ∧
    KillComments m2 m1 (withComments segs (tn ++ '/' :: '*' :: copen)) = textOnly segs tn := by
  refine ⟨?_, ?_, ?_⟩
  · apply KillComments_of_TailOK m2 m1 _ _ h1 h2
    have := TailOK_withComments segs _ _ hsegs (TailOK_text tn [] [] htn TailOK_nil)
    simpa using this
  · apply KillComments_of_TailOK m2 m1 _ _ h1 h2
    simpa using TailOK_text tn [] [] htn TailOK_nil
  · apply KillComments_of_TailOK m2 m1 _ _ h1 h2
    have := TailOK_withComments segs _ _ hsegs (TailOK_text tn _ _ htn (TailOK_open copen hopen))
    simpa using this

/-- Witness of C10: `a/*b*/c/*d*/e` is stripped to `ace`, also when a comment
`/*x` is left open behind it. -/
theorem KillComments_strips_witness :
    KillComments NUL NUL "a/*b*/c/*d*/e".toList = "ace".toList ∧
    KillComments NUL NUL "e".toList = "e".toList ∧
    KillComments NUL NUL "a/*b*/c/*d*/e/*x".toList = "ace".toList :=
  KillComments_strips NUL NUL [("a".toList, "b".toList), ("c".toList, "d".toList)] "e".toList
    "x".toList (by decide) (by decide) (by decide) (by decide) (by decide)

set_option maxRecDepth 100000 in
/-- C7, where the code departs from the claim.  What holds in `MakeANSI` and
`MakeKR` mode: (1) a line that `isInteresting` rejects (a line read while the
brace depth, a quote flag or the comment depth is not zero, a line that starts
with `#`, a line whose first text is `/*`, a line that holds `//`, a blank
line) is written unchanged behind the text written so far, and no further line
is read for it; (2) so is a
line with no `(` outside its comments, when `KillComments` reads the comments as
a C compiler does (`wfC`); (3) the lines of a prototype are written unchanged
and in order and the run goes on behind them, where a prototype is a unit of at
most `MAXLINES` lines, all of them read, whose first line is interesting and
has a `(` outside its comments, whose lines before the last hold neither `;`
nor an opening brace, and whose last line holds no opening brace and has `)` as
the last character that is not white space in front of its first `;`; (4) when no
string that `fgets` returns holds a `(`, each is written back with a newline
behind it, and the counters of `isInteresting`, which is called once for each
of them, stay in the range of `int` when the text is at most `INT_MAX`
characters long; (5) so a text whose lines hold no `(` and at most
`MAXBUFF - 2` characters each is written back as it is.  Where the code
departs: (6) `KillComments` takes the `/` that directly follows an opening `/*`
for the end of the comment, so the line `long n; /*/ (n) */`, which has no `(`
outside its comment, starts a unit, and the line is not written unchanged: it
comes out as `long n;  ()` and the three lines behind it are lost; (7) the
prototype `int foo(int a) /* c */;` has the comment in front of its `;`, `isFunc`
returns 1 for it, and it is written as `int foo()` while the two lines behind it
are lost; (8) of a line of 250 letters `fgets` returns the first 199 and then
the other 51, and each piece is written with a newline of its own. -/
theorem copy_through (mode : Nat) (hmode : mode = MakeANSI ∨ mode = MakeKR) :
    (∀ (st : ClassifierState) (fd : List (List Char)) (raw : List Char)
        (rest : List (List Char)) (out : List Char),
      ((isInteresting st (terminate raw)).1 = 0 ∨ st.bra_count ≠ 0 ∨ st.inDIC ≠ 0 ∨
          st.inSIC ≠ 0 ∨ st.comment_count ≠ 0 ∨ (terminate raw).headD NUL = '#' ∨
          leadingComment (terminate raw) ∨ slashSlash (terminate raw) ∨
          ∀ c ∈ terminate raw, isWs c = true) →
        round mode st fd raw rest out =
          .next (isInteresting st (terminate raw)).2 fd rest
            (out ++ (terminate raw ++ ['\n']))) ∧
    (∀ (st : ClassifierState) (fd : List (List Char)) (raw : List Char)
        (rest : List (List Char)) (out : List Char),
      wfC .text (terminate raw) = true → '(' ∉ stripC .text (terminate raw) →
        round mode st fd raw rest out =
          .next (isInteresting st (terminate raw)).2 fd rest
            (out ++ (terminate raw ++ ['\n']))) ∧
    (∀ (st : ClassifierState) (fd pre : List (List Char)) (last : List Char)
        (after : List (List Char)) (out : List Char) (fuel : Nat) (t ws tail : List Char),
      fd.length = MAXLINES → pre.length < MAXLINES →
      (∀ l ∈ pre, ';' ∉ terminate l ∧ '{' ∉ terminate l) →
      terminate last = t ++ ')' :: (ws ++ ';' :: tail) → ';' ∉ t →
      (∀ x ∈ ws, isWs x = true) → '{' ∉ terminate last →
      (isInteresting st (terminate ((pre ++ [last]).headD []))).1 ≠ 0 →
      wfC .text (terminate ((pre ++ [last]).headD [])) = true →
      '(' ∈ stripC .text (terminate ((pre ++ [last]).headD [])) →
      ∃ st1 fd1, process_loop mode (fuel + 1) st fd (pre ++ last :: after) out =
        process_loop mode fuel st1 fd1 after
          (out ++ putLines ((pre ++ [last]).map terminate))) ∧
    (∀ lines : List (List Char), (∀ l ∈ lines, '(' ∉ l) →
      process_file mode lines = .finished (putLines (lines.map terminate)) ∧
      (((putLines (lines.map terminate)).length : Int) ≤ INT_MAX →
        feedInt ClassifierState.init (lines.map terminate) =
          some (feed ClassifierState.init (lines.map terminate)))) ∧
    (∀ lines : List (List Char), (∀ l ∈ lines, '\n' ∉ l) →
      (∀ l ∈ lines, l.length + 2 ≤ MAXBUFF) → (∀ l ∈ lines, '(' ∉ l) →
      process_file mode (textLines (putLines lines)) = .finished (putLines lines)) ∧
    ('(' ∉ stripC .text "long n; /*/ (n) */".toList ∧
      process_file MakeANSI ["long n; /*/ (n) */".toList, "int y;".toList, "int g(a)".toList,
          "int a;".toList, "\x7b".toList, "\x7d".toList] =
        .finished "long n;  ()\n\x7b\n\x7d\n".toList) ∧
    (isFunc ["int foo(int a) /* c */;".toList] 0 = some 1 ∧
      process_file MakeANSI ["int foo(int a) /* c */;".toList, "int y;".toList,
          "void g(void)".toList, "\x7b".toList, "\x7d".toList] =
        .finished "int foo()\n\x7b\n\x7d\n".toList) ∧
    (process_file MakeANSI (textLines (List.replicate 250 'x' ++ ['\n'])) =
        .finished (putLines [List.replicate 199 'x', List.replicate 51 'x']) ∧
      putLines [List.replicate 199 'x', List.replicate 51 'x'] ≠
        List.replicate 250 'x' ++ ['\n']) := by
  have hm : mode ≠ MakeProtos := by
    rcases hmode with h | h <;> rw [h] <;> decide
  refine ⟨?_, ?_, ?_, ?_, ?_, by decide, by decide, ?_⟩
  · intro st fd raw rest out h
    have h0 : (isInteresting st (terminate raw)).1 = 0 := by
      rcases h with h | h
      · exact h
      · exact isInteresting_rejects st (terminate raw) h
    rw [round_copy mode st fd raw rest out (Or.inl h0)]
    simp [copyLine, hm]
  · intro st fd raw rest out hwf hp
    rw [round_stripC mode st fd raw rest out hwf hp]
    simp [copyLine, hm]
  · intro st fd pre last after out fuel t ws tail hfd hn hpre hlast ht hws hb hint hwf hp
    exact process_loop_prototype mode hm st fd pre last after out fuel t ws tail hfd hn hpre
      hlast ht hws hb hint hwf hp
  · intro lines hl
    refine ⟨?_, fun hsize => feedInt_total _ hsize⟩
    unfold process_file
    rw [process_loop_no_paren mode hm lines _ _ _ _ hl (Nat.le_refl _)]
    simp
  · intro lines hnl hlen hp
    exact process_file_text_no_paren mode hm lines hnl hlen hp
  · have e1 : textLines (List.replicate 250 'x' ++ ['\n']) =
        [List.replicate 199 'x', List.replicate 51 'x'] := by decide
    have hx : ∀ n : Nat, '(' ∉ List.replicate n 'x' := by
      intro n h
      have := List.eq_of_mem_replicate h
      cases this
    have hx2 : ∀ n : Nat, '\n' ∉ List.replicate n 'x' := by
      intro n h
      have := List.eq_of_mem_replicate h
      cases this
    refine ⟨?_, by decide⟩
    rw [e1]
    unfold process_file
    rw [process_loop_no_paren MakeANSI (by decide) _ _ _ _ _ (by
      intro l hl
      simp only [List.mem_cons, List.mem_singleton, List.not_mem_nil, or_false] at hl
      rcases hl with h | h <;> rw [h] <;> exact hx _) (Nat.le_refl _)]
    rw [List.nil_append, List.map_cons, List.map_cons, List.map_nil,
      terminate_eq_self _ (hx2 199), terminate_eq_self _ (hx2 51)]

set_option maxRecDepth 100000 in
/-- Witness of C7: in `MakeANSI` mode the round for a blank line copies it;
the round for `int x;  /* (count) */` copies it; in `MakeKR` mode the two lines
of the prototype `int f(int a,` / `  int b) ;` are written unchanged and the run
goes on with the line behind them; three lines without `(` are written back,
as fgets strings and as a text. -/
theorem copy_through_witness :
    round MakeANSI ClassifierState.init (List.replicate MAXLINES []) "  \n".toList
        ["int y;\n".toList] [] =
      .next ClassifierState.init (List.replicate MAXLINES []) ["int y;\n".toList] "  \n".toList ∧
    round MakeANSI ClassifierState.init (List.replicate MAXLINES [])
        "int x;  /* (count) */\n".toList ["int y;\n".toList] [] =
      .next ClassifierState.init (List.replicate MAXLINES []) ["int y;\n".toList]
        "int x;  /* (count) */\n".toList ∧
    (∃ st1 fd1, process_loop MakeKR 3 ClassifierState.init (List.replicate MAXLINES [])
        ["int f(int a,\n".toList, "  int b) ;\n".toList, "int y;\n".toList] [] =
      process_loop MakeKR 2 st1 fd1 ["int y;\n".toList] "int f(int a,\n  int b) ;\n".toList) ∧
    process_file MakeANSI ["#include <stdio.h>\n".toList, "int x;  /* count */\n".toList,
        "extern char *name;\n".toList] =
      .finished "#include <stdio.h>\nint x;  /* count */\nextern char *name;\n".toList ∧
    feedInt ClassifierState.init (["#include <stdio.h>\n".toList,
        "int x;  /* count */\n".toList, "extern char *name;\n".toList].map terminate) =
      some (feed ClassifierState.init (["#include <stdio.h>\n".toList,
        "int x;  /* count */\n".toList, "extern char *name;\n".toList].map terminate)) ∧
    process_file MakeKR
        (textLines "#include <stdio.h>\nint x;  /* count */\nextern char *name;\n".toList) =
      .finished "#include <stdio.h>\nint x;  /* count */\nextern char *name;\n".toList :=
  ⟨((copy_through MakeANSI (Or.inl rfl)).1 ClassifierState.init (List.replicate MAXLINES [])
      "  \n".toList ["int y;\n".toList] []
      (Or.inr (Or.inr (Or.inr (Or.inr (Or.inr (Or.inr (Or.inr (Or.inr (by decide)))))))))).trans
      (by decide),
   ((copy_through MakeANSI (Or.inl rfl)).2.1 ClassifierState.init (List.replicate MAXLINES [])
      "int x;  /* (count) */\n".toList ["int y;\n".toList] [] (by decide) (by decide)).trans
      (by decide),
   (copy_through MakeKR (Or.inr rfl)).2.2.1 ClassifierState.init (List.replicate MAXLINES [])
      ["int f(int a,\n".toList] "  int b) ;\n".toList ["int y;\n".toList] [] 2
      "  int b".toList " ".toList [] (by decide) (by decide) (by decide) (by decide) (by decide)
      (by decide) (by decide) (by decide) (by decide) (by decide),
   ((copy_through MakeANSI (Or.inl rfl)).2.2.2.1 _ (by decide)).1,
   ((copy_through MakeANSI (Or.inl rfl)).2.2.2.1 _ (by decide)).2 (by decide),
   (copy_through MakeKR (Or.inr rfl)).2.2.2.2.1
     ["#include <stdio.h>".toList, "int x;  /* count */".toList, "extern char *name;".toList]
     (by decide) (by decide) (by decide)⟩

set_option maxRecDepth 100000 in
/-- C4, the code at the failing input: `Ansify` turns the K&R unit `f(p)` /
`void *p;` / opening brace into `f(void *p)` and the brace; `DeAnsify`, given
these two lines, finds the letters `void` behind the `(`, counts no parameter and
writes `f()` and the brace: the parameter `p` and its type are lost. -/
theorem roundtrip_void_pointer_lost :
    Ansify ["f(p)".toList, "void *p;".toList, "\x7b".toList] 2 MakeANSI =
      some "f(void *p)\n\x7b\n".toList ∧
    DeAnsify (textLines "f(void *p)\n\x7b\n".toList) 1 = some "f()\n\x7b\n".toList := by
  decide

set_option maxRecDepth 100000 in
/-- C5, as the claim states it, fails: the one-line ANSI definition
`int n; int f(void) { void *p = 0; return 0; }` is converted by a `MakeANSI` run
into the two lines `int n; int f({ void *p = void)` and the brace; a second run
on these lines converts again and writes three lines, a different text.  It
also fails for a long line: of a line of 250 letters `fgets` returns the first
199 and then the other 51, and the run writes each piece with a newline; in the
second run `fgets` returns the 199 letters without their newline and then the
newline alone, so an empty line is written that the first output does not
have. -/
theorem ansi_mode_twice_differs :
    process_file MakeANSI ["int n; int f(void) \x7b void *p = 0; return 0; \x7d".toList] =
      .finished "int n; int f(\x7b void *p = void)\n\x7b\n".toList ∧
    process_file MakeANSI (textLines "int n; int f(\x7b void *p = void)\n\x7b\n".toList) =
      .finished "int n; int f()\n\x7b\n\x7b\n".toList ∧
    "int n; int f()\n\x7b\n\x7b\n".toList ≠ "int n; int f(\x7b void *p = void)\n\x7b\n".toList ∧
    process_file MakeANSI (textLines (List.replicate 250 'x' ++ ['\n'])) =
      .finished (putLines [List.replicate 199 'x', List.replicate 51 'x']) ∧
    process_file MakeANSI (textLines (putLines [List.replicate 199 'x', List.replicate 51 'x'])) =
      .finished (putLines [List.replicate 199 'x', [], List.replicate 51 'x']) ∧
    putLines [List.replicate 199 'x', [], List.replicate 51 'x'] ≠
      putLines [List.replicate 199 'x', List.replicate 51 'x'] := by
  have e1 : textLines (List.replicate 250 'x' ++ ['\n']) =
      [List.replicate 199 'x', List.replicate 51 'x'] := by decide
  have e2 : textLines (putLines [List.replicate 199 'x', List.replicate 51 'x']) =
      [List.replicate 199 'x', [], List.replicate 51 'x'] := by decide
  have hx : ∀ n : Nat, '(' ∉ List.replicate n 'x' := by
    intro n h
    have := List.eq_of_mem_replicate h
    cases this
  have hx2 : ∀ n : Nat, '\n' ∉ List.replicate n 'x' := by
    intro n h
    have := List.eq_of_mem_replicate h
    cases this
  refine ⟨by decide, by decide, by decide, ?_, ?_, by decide⟩
  · rw [e1]
    unfold process_file
    rw [process_loop_no_paren MakeANSI (by decide) _ _ _ _ _ (by
      intro l hl
      simp only [List.mem_cons, List.mem_singleton, List.not_mem_nil, or_false] at hl
      rcases hl with h | h <;> rw [h] <;> exact hx _) (Nat.le_refl _)]
    rw [List.nil_append, List.map_cons, List.map_cons, List.map_nil,
      terminate_eq_self _ (hx2 199), terminate_eq_self _ (hx2 51)]
  · rw [e2]
    unfold process_file
    rw [process_loop_no_paren MakeANSI (by decide) _ _ _ _ _ (by
      intro l hl
      simp only [List.mem_cons, List.mem_singleton, List.not_mem_nil, or_false] at hl
      rcases hl with h | h | h
      · rw [h]; exact hx _
      · rw [h]; exact List.not_mem_nil _
      · rw [h]; exact hx _) (Nat.le_refl _)]
    rw [List.nil_append, List.map_cons, List.map_cons, List.map_cons, List.map_nil,
      terminate_eq_self _ (hx2 199), terminate_eq_self _ (hx2 51),
      terminate_eq_self [] (List.not_mem_nil _)]

set_option maxRecDepth 100000 in
/-- C5, amended: let every line of the file hold at most `MAXBUFF - 2`
characters, so that `fgets` reads each line whole, let the file hold at most
`INT_MAX` characters, so that no counter of `isInteresting` leaves the range of
`int`, and let no unit of the file be converted by a `MakeANSI` run, that is,
let every candidate unit be read completely before the input ends and be a
prototype or hold no `;` in any of its lines (`keepsAll`).  Then the run writes
the file back line for line; the lines that `fgets` reads from that output are
the lines of the file again, and a second run on them writes the same text;
the counters of `isInteresting`, which is called once for each line of the
file in turn, stay in the range of `int` (`feedInt`).
The one-line definition `int f(int a) \x7b return a; \x7d` of the claim is
converted by the first run, into `int f()` and the brace; a second run leaves
these two lines as they are. -/
theorem ansi_mode_idempotent (lines : List (List Char)) (hnl : ∀ l ∈ lines, '\n' ∉ l)
    (hlen : ∀ l ∈ lines, l.length + 2 ≤ MAXBUFF)
    (hsize : ((putLines lines).length : Int) ≤ INT_MAX)
    (hk : keepsAll lines.length ClassifierState.init (List.replicate MAXLINES []) lines = true) :
    process_file MakeANSI lines = .finished (putLines lines) ∧
    textLines (putLines lines) = lines ∧
    process_file MakeANSI (textLines (putLines lines)) = .finished (putLines lines) ∧
    feedInt ClassifierState.init lines = some (feed ClassifierState.init lines) ∧
    process_file MakeANSI ["int f(int a) \x7b return a; \x7d".toList] =
      .finished "int f()\n\x7b\n".toList ∧
    process_file MakeANSI (textLines "int f()\n\x7b\n".toList) =
      .finished "int f()\n\x7b\n".toList := by
  have hmap : lines.map terminate = lines := by
    conv_rhs => rw [← List.map_id lines]
    apply List.map_congr_left
    intro l hl
    exact terminate_eq_self l (hnl l hl)
  have h1 : process_file MakeANSI lines = .finished (putLines lines) := by
    unfold process_file
    rw [keepsAll_loop _ _ _ _ _ (by simp) hk, hmap]
    simp
  have h2 := textLines_putLines lines hnl hlen
  exact ⟨h1, h2, by rw [h2]; exact h1, feedInt_total lines hsize, by decide, by decide⟩

set_option maxRecDepth 100000 in
/-- Witness of C5: a file with a directive, a prototype and an ANSI definition
whose header and opening brace stand on lines of their own. -/
theorem ansi_mode_idempotent_witness :
    process_file MakeANSI (textLines
      "#include <stdio.h>\nint add(int a, int b);\nint add(int a, int b)\n\x7b\n  return a + b;\n\x7d\n".toList) =
      .finished
      "#include <stdio.h>\nint add(int a, int b);\nint add(int a, int b)\n\x7b\n  return a + b;\n\x7d\n".toList :=
  (ansi_mode_idempotent
    ["#include <stdio.h>".toList, "int add(int a, int b);".toList, "int add(int a, int b)".toList,
     "\x7b".toList, "  return a + b;".toList, "\x7d".toList] (by decide) (by decide) (by decide)
     (by decide)).2.2.1

set_option maxRecDepth 100000 in
/-- C1, as the claim states it, fails: in `struct point *point;` the type
`struct point` is star-free type words and the name `point` is directly preceded
by its own `*`, yet `WriteANSI` resolves `point` to `struct point point`: the
locator finds the name as a whole word inside the type, where no star precedes
it, so the star of the declarator is lost, also in the output of `Ansify`. -/
theorem WriteANSI_name_inside_type :
    typeWords "struct point".toList ∧ Declarator.ok ⟨1, 1, "point".toList⟩ ∧
    "void f(point)struct point *point;\x7b".toList =
      "void f(point)".toList ++ ([] ++ ("struct point".toList ++ (declPrefix [] ++
        ((Declarator.mk 1 1 "point".toList).text ++ (declRest [] ++ "\x7b".toList))))) ∧
    WriteANSI "void f(point)struct point *point;\x7b".toList 13 "point".toList =
      (0, "struct point point".toList) ∧
    WriteANSI "void f(point)struct point *point;\x7b".toList 13 "point".toList ≠
      (0, "struct point *point".toList) ∧
    Ansify ["void f(point)".toList, "struct point *point;".toList, "\x7b".toList] 2 MakeANSI =
      some "void f(struct point point)\n\x7b\n".toList := by
  decide

set_option maxRecDepth 100000 in
/-- C1, amended: for the unit `void setpt(p, x, y)`, `struct point *p;`,
`int x, y;` and the opening brace, `Ansify` in `MakeANSI` mode writes the
parameters in the order p, x, y as `struct point *p`, `int x`, `int y`.  In
general, take a declaration `T n1, ..., nk;` that stands at the start of the
declarations or behind a `;` (after optional white space `lead`), where `T` is
star-free type words of fewer than `MAXBUFF` characters and every declarator is
one or more blanks, its own run of stars and its name, directly followed by `,`
or `;`.  When the name of the declarator `d` does not stand as a whole word
anywhere between the start of the declarations and `d` itself, `WriteANSI`
resolves it to `T`, one blank, exactly the stars of `d`, and the name; it returns
0 and writes no array part. -/
theorem WriteANSI_shared_declaration (head lead T post : List Char)
    (before after : List Declarator) (d : Declarator) (defs : Nat)
    (hdefs : defs ≤ head.length)
    (hhead : head.length = defs ∨ head.getLast? = some ';')
    (hlead : ∀ c ∈ lead, isWs c = true) (hT : typeWords T)
    (hbefore : ∀ b ∈ before, b.ok) (hd : d.ok)
    (hfirst : ∀ q, defs ≤ q →
      q < head.length + lead.length + T.length + (declPrefix before).length + d.blanks + d.stars →
      ¬ wordAt (head ++ (lead ++ (T ++ (declPrefix before ++ (d.text ++ (declRest after ++ post))))))
        d.name q) :
    Ansify ["void setpt(p, x, y)".toList, "struct point *p;".toList, "int x, y;".toList,
        "\x7b".toList] 3 MakeANSI =
      some "void setpt(struct point *p,\n           int x,\n           int y)\n\x7b\n".toList ∧
    WriteANSI (head ++ (lead ++ (T ++ (declPrefix before ++ (d.text ++ (declRest after ++ post))))))
        defs d.name =
      (0, T ++ ' ' :: (List.replicate d.stars '*' ++ d.name)) :=
  ⟨by decide,
   WriteANSI_declaration head lead T post before after d defs hdefs hhead hlead hT hbefore hd
     hfirst⟩

set_option maxRecDepth 100000 in
/-- Witness of C1: in `f(x, y) int *x, y;` the name `y` of the shared declaration
is resolved to `int y`, without the star of `x`, and `x` to `int *x`. -/
theorem WriteANSI_shared_declaration_witness :
    WriteANSI "f(x, y) int *x, y;\x7b".toList 7 "y".toList = (0, "int y".toList) ∧
    WriteANSI "f(x, y) int *x, y;\x7b".toList 7 "x".toList = (0, "int *x".toList) :=
  ⟨(WriteANSI_shared_declaration "f(x, y)".toList " ".toList "int".toList "\x7b".toList
      [⟨1, 1, "x".toList⟩] [] ⟨1, 0, "y".toList⟩ 7
      (by decide) (Or.inl (by decide)) (by decide) (by decide) (by decide) (by decide)
      (by intro q h1 h2
          have h3 : q < 16 := h2
          interval_cases q <;> decide)).2,
   (WriteANSI_shared_declaration "f(x, y)".toList " ".toList "int".toList "\x7b".toList
      [] [⟨1, 0, "y".toList⟩] ⟨1, 1, "x".toList⟩ 7
      (by decide) (Or.inl (by decide)) (by decide) (by decide) (by decide) (by decide)
      (by intro q h1 h2
          have h3 : q < 13 := h2
          interval_cases q <;> decide)).2⟩

/-! ## Claims C11 to C20 -/

/-- C11, where the code departs from the claim: `KillComments` copies a
character exactly when its counter `comment` is zero at that character, so it
deletes also while the counter is negative.  In every round of its loop a
counter other than zero leaves `out` and the buffer as they were, and a counter
of zero copies the character.  A closing `*/` without an opening one drives
the counter to -1 two characters later, and all text behind it is deleted:
`a*/b` is turned into `a*/`, the trailing `b` is lost; in general `t*/u` is
turned into `t*/` for texts `t`, `u` without `/` and `*`. -/
theorem KillComments_unmatched_close :
    KillComments NUL NUL "a*/b".toList = "a*/".toList ∧
    (∀ (m2 m1 : Char) (s : KCState) (i : Nat),
      ((KillCommentsStep m2 m1 s i).comment ≠ 0 →
        (KillCommentsStep m2 m1 s i).out = s.out ∧
          (KillCommentsStep m2 m1 s i).buffer = s.buffer) ∧
      ((KillCommentsStep m2 m1 s i).comment = 0 →
        (KillCommentsStep m2 m1 s i).out = s.out + 1 ∧
          (KillCommentsStep m2 m1 s i).buffer = s.buffer.set s.out (peek s.buffer i))) ∧
    (∀ t u : List Char, clean t → clean u →
      KillComments NUL NUL (t ++ '*' :: '/' :: u) = t ++ ['*', '/']) :=
  ⟨by decide,
   fun m2 m1 s i => ⟨KillCommentsStep_delete m2 m1 s i, KillCommentsStep_copy m2 m1 s i⟩,
   KillComments_close_tail⟩

/-- Witness of C11: in `int x; */ int y;` everything behind the unmatched `*/`
is deleted. -/
theorem KillComments_unmatched_close_witness :
    KillComments NUL NUL ("int x; ".toList ++ '*' :: '/' :: " int y;".toList) =
      "int x; ".toList ++ ['*', '/'] :=
  KillComments_unmatched_close.2.2 "int x; ".toList " int y;".toList (by decide) (by decide)

/-- C12, where the code departs from the claim: `isFunc` returns 1 when the
last line of the unit holds an opening brace; otherwise, when a character other
than blank and tab stands before the first `;` of the last line, it returns 0 if
the last such character is `)` and 1 if not, so a last line `int a;` gives 1.
But when only blanks and tabs stand before that `;`, the loop goes to the
previous line and there searches for a `;` again instead of starting at the end
of that line: if the previous line holds no `;`, `strchr` gives NULL and the
result is undefined.  For the unit `int foo(int a)` / `  ;` the code does not
return 0: its behaviour is undefined. -/
theorem isFunc_previous_line :
    isFunc ["int foo(int a)".toList, "  ;".toList] 1 = none ∧
    isFunc ["int a;".toList] 0 = some 1 ∧
    (∀ (fd : List (List Char)) (ndef : Nat), '{' ∈ row fd ndef → isFunc fd ndef = some 1) ∧
    (∀ (fd : List (List Char)) (ndef : Nat) (t ws rest : List Char) (c : Char),
      row fd ndef = t ++ c :: (ws ++ ';' :: rest) → '{' ∉ row fd ndef → ';' ∉ t → c ≠ ';' →
      isWs c = false → (∀ x ∈ ws, isWs x = true) →
      isFunc fd ndef = some (if c = ')' then 0 else 1)) ∧
    (∀ (fd : List (List Char)) (n : Nat) (ws rest : List Char),
      row fd (n + 1) = ws ++ ';' :: rest → '{' ∉ row fd (n + 1) → (∀ x ∈ ws, isWs x = true) →
      ';' ∉ row fd n → isFunc fd (n + 1) = none) :=
  ⟨by decide, by decide, isFunc_brace, isFunc_last_char, isFunc_blank_line⟩

/-- Witness of C12: the one-line prototype `int foo(int a) ;` gives 0, the unit
`int foo(a)` / `int a;` gives 1, a last line with an opening brace gives 1, and
a blank line in front of `;` behind the line `int foo(int a)` is undefined. -/
theorem isFunc_previous_line_witness :
    isFunc ["int foo(a)".toList, "int a \x7b".toList] 1 = some 1 ∧
    isFunc ["int foo(int a) ;".toList] 0 = some 0 ∧
    isFunc ["int foo(int a)".toList, "\t ; ".toList] 1 = none :=
  ⟨isFunc_previous_line.2.2.1 ["int foo(a)".toList, "int a \x7b".toList] 1 (by decide),
   isFunc_previous_line.2.2.2.1 ["int foo(int a) ;".toList] 0 "int foo(int a".toList
     " ".toList [] ')' (by decide) (by decide) (by decide) (by decide) (by decide) (by decide),
   isFunc_previous_line.2.2.2.2 ["int foo(int a)".toList, "\t ; ".toList] 0
     "\t ".toList " ".toList (by decide) (by decide) (by decide) (by decide)⟩

/-- C13: for every state of the counters and every line that consists of blanks
and tabs followed by `/*` and any rest, `isInteresting` returns 0. -/
theorem isInteresting_leading_comment (st : ClassifierState) (ws rest : List Char)
    (hws : ∀ c ∈ ws, isWs c = true) :
    (isInteresting st (ws ++ '/' :: '*' :: rest)).1 = 0 :=
  isInteresting_leading st _ (leadingComment_append ws rest hws)

/-- Witness of C13: the line `  /* note */ int f(a)` is not interesting, though
all counters are zero. -/
theorem isInteresting_leading_comment_witness :
    (isInteresting ClassifierState.init "  /* note */ int f(a)".toList).1 = 0 :=
  isInteresting_leading_comment ClassifierState.init "  ".toList " note */ int f(a)".toList
    (by decide)

set_option maxRecDepth 100000 in
/-- C14, as the claim states it, fails: for `/* c */ int x;` and for
`int x; // note` all four counters are zero before and after the call, the line
is not blank, does not start with `#`, and its comment-stripped form holds no
`(`; yet `isInteresting` returns 0, for the first line because it begins with a
comment and for the second because it holds `//`. -/
theorem isInteresting_not_sufficient :
    isInteresting ClassifierState.init "/* c */ int x;".toList = (0, ClassifierState.init) ∧
    (∃ c ∈ "/* c */ int x;".toList, isWs c = false) ∧
    "/* c */ int x;".toList.headD NUL ≠ '#' ∧
    '(' ∉ KillComments NUL NUL "/* c */ int x;".toList ∧
    isInteresting ClassifierState.init "int x; // note".toList = (0, ClassifierState.init) ∧
    (∃ c ∈ "int x; // note".toList, isWs c = false) ∧
    "int x; // note".toList.headD NUL ≠ '#' ∧
    '(' ∉ KillComments NUL NUL "int x; // note".toList := by
  decide

/-- C14, amended: when brace depth, both quote flags and comment depth are all
zero before and after the call, the line is not blank, does not start with `#`,
its comment-stripped form holds no `(`, and moreover the line does not begin
(after blanks and tabs) with `/*` and holds no `//`, then `isInteresting`
returns 1.  The conditions on the state after the call and on `(` are not
needed for this. -/
theorem isInteresting_sufficient (st : ClassifierState) (buffer : List Char)
    (hin : st.bra_count = 0 ∧ st.inDIC = 0 ∧ st.inSIC = 0 ∧ st.comment_count = 0)
    (_hout : (isInteresting st buffer).2.bra_count = 0 ∧ (isInteresting st buffer).2.inDIC = 0 ∧
      (isInteresting st buffer).2.inSIC = 0 ∧ (isInteresting st buffer).2.comment_count = 0)
    (hblank : ∃ c ∈ buffer, isWs c = false) (hhash : buffer.headD NUL ≠ '#')
    (_hparen : '(' ∉ KillComments NUL NUL buffer)
    (hlead : ¬ leadingComment buffer) (hcpp : ¬ slashSlash buffer) :
    (isInteresting st buffer).1 = 1 :=
  isInteresting_one st buffer hin hblank hhash hlead hcpp

set_option maxRecDepth 100000 in
/-- Witness of C14: `int x; /* (see above) */` is interesting. -/
theorem isInteresting_sufficient_witness :
    (isInteresting ClassifierState.init "int x; /* (see above) */".toList).1 = 1 :=
  isInteresting_sufficient ClassifierState.init "int x; /* (see above) */".toList
    (by decide) (by decide) (by decide) (by decide) (by decide) (by decide) (by decide)

set_option maxRecDepth 100000 in
/-- C15, as the claim states it, fails at the end of the range of `int`: from
the state with brace depth `INT_MAX` (comment depth 0, quote flags clear) the
line `\x7b` makes `bra_count++` overflow, which is undefined; so the balanced
pair of lines `\x7b`, `\x7d` does not lead back to the depth before it, and
neither does the pair `\x7d`, `\x7b` from the depth `INT_MIN`. -/
theorem brace_depth_overflow :
    isInterestingInt ⟨0, INT_MAX, 0, 0⟩ "\x7b".toList = none ∧
    feedInt ⟨0, INT_MAX, 0, 0⟩ ["\x7b".toList, "\x7d".toList] = none ∧
    feedInt ⟨0, INT_MIN, 0, 0⟩ ["\x7d".toList, "\x7b".toList] = none ∧
    feedInt ⟨0, INT_MAX - 1, 0, 0⟩ ["\x7b".toList, "\x7d".toList] =
      some ⟨0, INT_MAX - 1, 0, 0⟩ := by
  decide

/-- C15, amended: let lines that do not start with `#` and hold no quote
character and no `/` be passed to `isInteresting` one by one, from a state with
comment depth 0 and both quote flags clear.  Whenever no counter overflows on
the way (the scan in `int` arithmetic is defined), the brace depth afterwards
is the depth before plus the number of opening braces minus the number of
closing braces in the lines, and comment depth and quote flags are still zero.
No counter overflows when the brace depth before the lines plus the number of
their opening braces is at most `INT_MAX` and minus the number of their closing
braces at least `INT_MIN`; so then, with as many closing as opening braces, the
brace depth is back at its value before the lines. -/
theorem brace_balance (st : ClassifierState) (lines : List (List Char))
    (hc : st.comment_count = 0) (hs : st.inSIC = 0) (hd : st.inDIC = 0)
    (hl : ∀ l ∈ lines, l.headD NUL ≠ '#' ∧ '/' ∉ l ∧ DIC ∉ l ∧ SIC ∉ l) :
    (∀ r, feedInt st lines = some r →
      r = ⟨0, st.bra_count + ((joinLines lines).count '\x7b' : Nat)
        - ((joinLines lines).count '\x7d' : Nat), 0, 0⟩) ∧
    (INT_MIN ≤ st.bra_count - ((joinLines lines).count '\x7d' : Nat) →
      st.bra_count + ((joinLines lines).count '\x7b' : Nat) ≤ INT_MAX →
      feedInt st lines =
        some ⟨0, st.bra_count + ((joinLines lines).count '\x7b' : Nat)
          - ((joinLines lines).count '\x7d' : Nat), 0, 0⟩ ∧
      ((joinLines lines).count '\x7b' = (joinLines lines).count '\x7d' →
        feedInt st lines = some ⟨0, st.bra_count, 0, 0⟩)) := by
  refine ⟨?_, ?_⟩
  · intro r hr
    rw [feedInt_some lines st r hr, feed_braces lines st hc hs hd hl]
  · intro hlo hhi
    have h := feedInt_braces lines st hc hs hd hl hlo hhi
    rw [feed_braces lines st hc hs hd hl] at h
    refine ⟨h, ?_⟩
    intro he
    rw [h, he]
    congr 2
    omega

set_option maxRecDepth 100000 in
/-- Witness of C15: from brace depth 2, the three lines `if (a) \x7b`, `\x7d else \x7b`
and `\x7d` lead back to brace depth 2. -/
theorem brace_balance_witness :
    feedInt ⟨0, 2, 0, 0⟩ ["if (a) \x7b".toList, "\x7d else \x7b".toList, "\x7d".toList] =
      some ⟨0, 2, 0, 0⟩ :=
  ((brace_balance ⟨0, 2, 0, 0⟩ ["if (a) \x7b".toList, "\x7d else \x7b".toList, "\x7d".toList]
    rfl rfl rfl (by decide)).2 (by decide) (by decide)).2 (by decide)

set_option maxRecDepth 1000000 in
/-- C17: with `MAXLINES` = 50 rows, a round of `process_file` ends in the fatal
exit (the output so far, the report of the rows 0 to 49, `exit(1)`) exactly when
its line is a candidate and one of the two assembling loops reaches the test
`ndef >= MAXLINES`.  The first loop, entered with `ndef` below `MAXLINES`, does
so exactly when row `ndef` and the next `MAXLINES - ndef - 1` lines of the input
hold neither `;` nor an opening brace and one more line can be read, which would
be line 51 of the unit; the second loop likewise with the opening brace alone.
The report then shows the 50 lines of the unit read before that line.  A unit
of 51 lines without `;` and brace ends fatally; with the opening brace in its
line 50 it is converted. -/
theorem capacity_fatal_exactly :
    (∀ (mode : Nat) (st : ClassifierState) (fd : List (List Char)) (raw : List Char)
        (rest : List (List Char)) (out o : List Char) (rep : List (List Char)),
      round mode st fd raw rest out = .stop (.fatal o rep) ↔
        (isInteresting st (terminate raw)).1 ≠ 0 ∧ '(' ∈ KillComments NUL NUL (terminate raw) ∧
        o = out ∧ ∃ fd2, rep = report fd2 ∧
          (assemble1 (isInteresting st (terminate raw)).2 (fd.set 0 (terminate raw)) 0 rest =
              .tooMany fd2 ∨
            ∃ st1 fd1 ndef1 rest1,
              assemble1 (isInteresting st (terminate raw)).2 (fd.set 0 (terminate raw)) 0 rest =
                .unit st1 fd1 ndef1 rest1 ∧
              ndef1 < MAXLINES ∧ (∃ v, isFunc fd1 ndef1 = some (v + 1)) ∧
              (';' ∈ row fd1 ndef1 ∧ '{' ∉ row fd1 ndef1) ∧
              assemble2 st1 fd1 ndef1 rest1 = .tooMany fd2)) ∧
    (∀ (lines : List (List Char)) (st : ClassifierState) (fd : List (List Char)) (ndef : Nat),
      MAXLINES ≤ fd.length → ndef < MAXLINES →
      ((∃ fd1, assemble1 st fd ndef lines = .tooMany fd1) ↔
        (';' ∉ row fd ndef ∧ '{' ∉ row fd ndef) ∧ MAXLINES - ndef ≤ lines.length ∧
          ∀ l ∈ lines.take (MAXLINES - ndef - 1), ';' ∉ terminate l ∧ '{' ∉ terminate l)) ∧
    (∀ (lines : List (List Char)) (st : ClassifierState) (fd : List (List Char)) (ndef : Nat),
      MAXLINES ≤ fd.length → ndef < MAXLINES →
      ((∃ fd1, assemble2 st fd ndef lines = .tooMany fd1) ↔
        '{' ∉ row fd ndef ∧ MAXLINES - ndef ≤ lines.length ∧
          ∀ l ∈ lines.take (MAXLINES - ndef - 1), '{' ∉ terminate l)) ∧
    (∀ (lines : List (List Char)) (st : ClassifierState) (fd : List (List Char)) (ndef : Nat)
        (fd1 : List (List Char)), MAXLINES ≤ fd.length → ndef < MAXLINES →
      (assemble1 st fd ndef lines = .tooMany fd1 ∨ assemble2 st fd ndef lines = .tooMany fd1) →
      report fd1 = unitLines fd ndef ++ (lines.take (MAXLINES - ndef - 1)).map terminate) ∧
    process_file MakeANSI ("int f(a)".toList :: List.replicate 50 "x".toList) =
      .fatal [] ("int f(a)".toList :: List.replicate 49 "x".toList) ∧
    process_file MakeANSI ("int f(a)".toList :: (List.replicate 48 "x".toList ++ ["\x7b".toList])) =
      .finished (putLines ("int f(a)".toList :: (List.replicate 48 "x".toList ++ ["\x7b".toList]))) ∧
    process_file MakeANSI ("int f(a)".toList :: "int a;".toList :: List.replicate 49 "x".toList) =
      .fatal [] ("int f(a)".toList :: "int a;".toList :: List.replicate 48 "x".toList) ∧
    process_file MakeANSI
        ("int f(a)".toList :: "int a;".toList :: (List.replicate 47 "x".toList ++ ["\x7b".toList])) =
      .finished "int f(int a)\n\x7b\n".toList := by
  refine ⟨round_fatal_iff, assemble1_tooMany_iff, assemble2_tooMany_iff, ?_, by decide, by decide,
    by decide, by decide⟩
  intro lines st fd ndef fd1 hfd hn h
  rcases h with h | h
  · exact assemble1_tooMany_report lines st fd ndef fd1 hfd hn h
  · exact assemble2_tooMany_report lines st fd ndef fd1 hfd hn h

set_option maxRecDepth 1000000 in
/-- Witness of C17: behind the candidate line in row 0, fifty lines without `;`
and brace make the first loop reach the fatal exit. -/
theorem capacity_fatal_exactly_witness :
    ∃ fd1, assemble1 ClassifierState.init ("int f(a)".toList :: List.replicate 49 []) 0
      (List.replicate 50 "x".toList) = .tooMany fd1 :=
  (capacity_fatal_exactly.2.1 (List.replicate 50 "x".toList) ClassifierState.init
    ("int f(a)".toList :: List.replicate 49 []) 0 (by decide) (by decide)).mpr
    ⟨by decide, by decide, by decide⟩

set_option maxRecDepth 100000 in
/-- C18, where the code departs from the claim: when the input ends before a
line with `;` or an opening brace was read, the first assembling loop leaves by
`break` after `++ndef`, so the unit has one line more than was read: behind the
candidate line and the lines read, it holds the line that an earlier unit left
in the next row of `funcdef`.  For an input that is the single line
`int foo(a)` the unit is that line and the empty second row, on which `isFunc`
is undefined.  Behind the function `f`, whose second and third lines are still
stored in `funcdef`, the final line `int foo(a)` is converted with them as
`int foo(int a)` and an opening brace. -/
theorem eof_unit_one_line_more :
    (∀ (lines : List (List Char)) (st : ClassifierState) (fd : List (List Char)) (ndef : Nat),
      MAXLINES ≤ fd.length → ndef + lines.length + 1 < MAXLINES →
      ';' ∉ row fd ndef → '{' ∉ row fd ndef →
      (∀ l ∈ lines, ';' ∉ terminate l ∧ '{' ∉ terminate l) →
      ∃ st1 fd1, assemble1 st fd ndef lines = .unit st1 fd1 (ndef + lines.length + 1) [] ∧
        unitLines fd1 (ndef + lines.length + 1) =
          unitLines fd ndef ++ lines.map terminate ++ [row fd (ndef + lines.length + 1)]) ∧
    process_file MakeANSI ["int foo(a)".toList] = .undefined ∧
    process_file MakeANSI ["int f(a)".toList, "int a;".toList, "\x7b".toList, "\x7d".toList,
        "int foo(a)".toList] =
      .finished "int f(int a)\n\x7b\n\x7d\nint foo(int a)\n\x7b\n".toList :=
  ⟨assemble1_eof, by decide, by decide⟩

set_option maxRecDepth 100000 in
/-- Witness of C18: the candidate `int foo(a,` and the last input line `b)` are
assembled with the row that follows them, here the stale line `old;`. -/
theorem eof_unit_one_line_more_witness :
    ∃ st1 fd1,
      assemble1 ClassifierState.init
          ("int foo(a,".toList :: "0".toList :: "old;".toList :: List.replicate 47 [])
          0 ["b)\n".toList] = .unit st1 fd1 2 [] ∧
        unitLines fd1 2 = ["int foo(a,".toList, "b)".toList, "old;".toList] :=
  eof_unit_one_line_more.1 ["b)\n".toList] ClassifierState.init
    ("int foo(a,".toList :: "0".toList :: "old;".toList :: List.replicate 47 []) 0
    (by decide) (by decide) (by decide) (by decide) (by decide)

/-- C20: for a unit no line of which holds `;`, and whose first opening brace
stands in the line `a ++ '\x7b' :: b` behind the lines `pre`, `Ansify` in
`MakeProtos` mode writes the lines `pre`, each followed by a newline, then `a`,
then `;` and a newline; nothing of `b` and of the later lines `post` is
written. -/
theorem Ansify_prototype_of_ansi (funcdef : List (List Char)) (ndef : Nat)
    (pre post : List (List Char)) (a b : List Char)
    (hunit : unitLines funcdef ndef = pre ++ (a ++ '{' :: b) :: post)
    (hsemi : ∀ l ∈ unitLines funcdef ndef, ';' ∉ l)
    (hpre : ∀ l ∈ pre, '{' ∉ l) (ha : '{' ∉ a) :
    Ansify funcdef ndef MakeProtos = some (putLines pre ++ (a ++ [';', '\n'])) := by
  rw [Ansify_protos funcdef ndef hsemi, hunit, protoLines_brace pre a b post hpre ha]

set_option maxRecDepth 100000 in
/-- Witness of C20: the unit `int f(int a,` / `      int b) \x7b return a \x7d` / `\x7d`
gives the prototype `int f(int a,` / `      int b) ;`. -/
theorem Ansify_prototype_of_ansi_witness :
    Ansify ["int f(int a,".toList, "      int b) \x7b return a \x7d".toList, "\x7d".toList] 2 MakeProtos =
      some "int f(int a,\n      int b) ;\n".toList :=
  Ansify_prototype_of_ansi
    ["int f(int a,".toList, "      int b) \x7b return a \x7d".toList, "\x7d".toList] 2
    ["int f(int a,".toList] ["\x7d".toList] "      int b) ".toList " return a \x7d".toList
    (by decide) (by decide) (by decide) (by decide)

/-! ## Claim C19 -/

set_option maxRecDepth 100000 in
/-- C19, where the code departs from the claim: let every `(` of the line lie
inside a comment, as a C compiler reads comments (`stripC` leaves no `(`).  When
the comments of the line are such that `KillComments` reads them in the same
way (`wfC`), a round of `process_file` reads no further line for it and writes
it unchanged in `MakeANSI` and `MakeKR` mode and not at all in `MakeProtos`
mode; so it is for `int x; /* (see above) */`.  But `KillComments` takes the `/`
that directly follows an opening `/*` for the end of the comment: in
`int x; /*/ (see above) */` the `(` lies inside the comment, yet the stripped
form of the line still holds it; the line is interesting, and `process_file`
treats it as the start of a function, takes the following lines up to the next
opening brace into the unit and converts it. -/
theorem comment_paren_no_match :
    (∀ (mode : Nat) (st : ClassifierState) (fd : List (List Char)) (raw : List Char)
        (rest : List (List Char)) (out : List Char),
      wfC .text (terminate raw) = true → '(' ∉ stripC .text (terminate raw) →
      round mode st fd raw rest out =
        .next (isInteresting st (terminate raw)).2 fd rest
          (out ++ (if mode ≠ MakeProtos then terminate raw ++ ['\n'] else []))) ∧
    process_file MakeANSI ["int x; /* (see above) */".toList, "int y;".toList] =
      .finished "int x; /* (see above) */\nint y;\n".toList ∧
    process_file MakeKR ["int x; /* (see above) */".toList, "int y;".toList] =
      .finished "int x; /* (see above) */\nint y;\n".toList ∧
    process_file MakeProtos ["int x; /* (see above) */".toList, "int y;".toList] =
      .finished [] ∧
    '(' ∉ stripC .text "int x; /*/ (see above) */".toList ∧
    (isInteresting ClassifierState.init "int x; /*/ (see above) */".toList).1 = 1 ∧
    KillComments NUL NUL "int x; /*/ (see above) */".toList = "int x;  (see above) */".toList ∧
    process_file MakeANSI ["int x; /*/ (see above) */".toList, "int y;".toList,
        "int g(int a)".toList, "\x7b".toList, "\x7d".toList] =
      .finished "int x;  ()\n\x7b\n\x7d\n".toList := by
  refine ⟨?_, by decide, by decide, by decide, by decide, by decide, by decide, by decide⟩
  intro mode st fd raw rest out hwf hp
  exact round_stripC mode st fd raw rest out hwf hp

set_option maxRecDepth 100000 in
/-- Witness of C19: the round for the line `char *p; /* see a/b (x) **/` in
`MakeANSI` mode copies the line and leaves the following lines unread. -/
theorem comment_paren_no_match_witness :
    round MakeANSI ClassifierState.init (List.replicate MAXLINES [])
        "char *p; /* see a/b (x) **/\n".toList ["int y;\n".toList] [] =
      .next ClassifierState.init (List.replicate MAXLINES []) ["int y;\n".toList]
        "char *p; /* see a/b (x) **/\n".toList :=
  (comment_paren_no_match.1 MakeANSI ClassifierState.init (List.replicate MAXLINES [])
    "char *p; /* see a/b (x) **/\n".toList ["int y;\n".toList] [] (by decide)
    (by decide)).trans (by decide)

/-! ## Claims C21 to C30 -/

set_option maxRecDepth 100000 in
/-- C21, where the code departs from the claim: for a parameter list without a
comma `DeAnsify` sets the count to 0 not only when the list is blank or is the
keyword `void`, but whenever `FindString` finds the letters `void` (or `VOID`)
anywhere from the opening parenthesis to the end of the unit; otherwise the
count is 0 for a blank list and 1 if not.  So `int f(void *p)` is converted with
no parameter, as `int f()`: the header `int f(p)` and the declaration of
`void *p` are not written.  The same happens for `int f(int avoid)` and when
the letters stand behind the closing parenthesis. -/
theorem DeAnsify_void_substring :
    DeAnsify ["int f(void *p)".toList, "\x7b".toList] 1 = some "int f()\n\x7b\n".toList ∧
    countParams "void *p)\x7b".toList = 0 ∧
    DeAnsify ["int f(int avoid)".toList, "\x7b".toList] 1 = some "int f()\n\x7b\n".toList ∧
    DeAnsify ["int f(int a)".toList, "\x7b /* avoid */".toList] 1 = some "int f()\n\x7b\n".toList ∧
    DeAnsify ["int f(void)".toList, "\x7b".toList] 1 = some "int f()\n\x7b\n".toList ∧
    DeAnsify ["int f( )".toList, "\x7b".toList] 1 = some "int f()\n\x7b\n".toList ∧
    DeAnsify ["int f(int a)".toList, "\x7b".toList] 1 = some "int f(a)\nint a;\n\x7b\n".toList ∧
    (∀ bufptr : List Char, ',' ∉ bufptr.takeWhile (fun c => c != ')') →
      (countParams bufptr = 0 ↔
        ((∃ i, occursAt bufptr ['v', 'o', 'i', 'd'] i) ∨
          (∃ i, occursAt bufptr ['V', 'O', 'I', 'D'] i) ∨
          ∀ c ∈ bufptr.takeWhile (fun c => c != ')'), isWs c = true)) ∧
      (countParams bufptr ≠ 0 → countParams bufptr = 1)) :=
  ⟨by decide, by decide, by decide, by decide, by decide, by decide, by decide,
    countParams_no_comma⟩

/-- Witness of C21: the list `char *s` holds neither comma nor `void`, and its
count is 1. -/
theorem DeAnsify_void_substring_witness :
    countParams "char *s)\x7b".toList ≠ 0 → countParams "char *s)\x7b".toList = 1 :=
  (DeAnsify_void_substring.2.2.2.2.2.2.2 "char *s)\x7b".toList (by decide)).2

/-- C22, as the claim states it, fails for the empty needle: it occurs at index
0 of `abc`, as of every buffer, but `FindString` returns NULL for it, because
its first loop runs to the end of the buffer looking for the character
`*string`, which then is the terminating NUL. -/
theorem FindString_empty_needle :
    FindString "abc".toList [] = none ∧ occursAt "abc".toList [] 0 := by
  decide

/-- C22, amended: for every buffer and every non-empty needle, `FindString`
returns index `i` exactly when the needle occurs at `i` as a contiguous
substring and at no smaller index, and returns NULL exactly when the needle
occurs nowhere.  The function is total (its loop ends on every input), and every
position at which it reads the buffer is one of `0 .. len`, where `len` is the
position of the terminating NUL. -/
theorem FindString_least_occurrence (buffer needle : List Char) (hn : needle ≠ []) :
    (∀ i, FindString buffer needle = some i ↔
      occursAt buffer needle i ∧ ∀ j, j < i → ¬ occursAt buffer needle j) ∧
    (FindString buffer needle = none ↔ ∀ i, ¬ occursAt buffer needle i) ∧
    (FindStringTrace needle buffer 0).1 = FindString buffer needle ∧
    ∀ p ∈ (FindStringTrace needle buffer 0).2, p ≤ buffer.length := by
  refine ⟨?_, ?_, FindStringTrace_fst needle buffer 0, ?_⟩
  · intro i
    unfold FindString
    rw [FindStringFrom_some needle hn]
    constructor
    · rintro ⟨k, hk, h1, h2⟩
      have : i = k := by omega
      subst this
      exact ⟨h1, h2⟩
    · rintro ⟨h1, h2⟩
      exact ⟨i, by omega, h1, h2⟩
  · unfold FindString
    exact FindStringFrom_none needle hn buffer 0
  · intro p hp
    have := FindStringTrace_bound needle buffer 0 p hp
    omega

/-- Witness of C22: in `int avoid, voids` the needle `void` is found at index 5,
inside `avoid`; the needle `vow` is not found, and the last position read is
that of the terminating NUL. -/
theorem FindString_least_occurrence_witness :
    FindString "int avoid, voids".toList "void".toList = some 5 ∧
    FindString "int avoid, voids".toList "vow".toList = none ∧
    (FindStringTrace "void".toList "a vo".toList 0).2 = [0, 1, 2, 2, 3, 4, 3, 4] :=
  ⟨((FindString_least_occurrence "int avoid, voids".toList "void".toList (by decide)).1 5).mpr
      ⟨by decide, by intro j hj; interval_cases j <;> decide⟩,
   (FindString_least_occurrence "int avoid, voids".toList "vow".toList (by decide)).2.1.mpr
      (by
        intro i
        by_cases h : i < 17
        · interval_cases i <;> decide
        · intro hc
          unfold occursAt at hc
          rw [List.drop_eq_nil_of_le (by simp; omega)] at hc
          cases hc),
   by decide⟩

set_option maxRecDepth 100000 in
/-- C24, where the code departs from the claim: a `*` that stands at the type,
not at the name, is written twice.  For `char* p;` the text `WriteANSI` writes
is `char* *p`, of two stars, for `char * p;` it is `char * *p`, and for
`char*p;`, without any blank, it is `c *p`; `Ansify` turns `f(p)`, `char* p;`
into `f(char* *p)`.  When one or more blanks stand in front of the stars, and
the stars stand directly in front of the name (`char *p;`, `char **p;`,
`char p;`), the text is the type words, one blank, the `k` stars and the name,
for every declaration `T`, blanks, stars, name, `;` that stands at the start of
the declarations or behind a `;` and whose name is no whole word of `T`; it
holds exactly `k` stars when the name holds none. -/
theorem WriteANSI_star_at_type :
    WriteANSI "f(p)char* p;\x7b".toList 4 "p".toList = (0, "char* *p".toList) ∧
    "char* *p".toList.count '*' = 2 ∧
    WriteANSI "f(p)char * p;\x7b".toList 4 "p".toList = (0, "char * *p".toList) ∧
    WriteANSI "f(p)char*p;\x7b".toList 4 "p".toList = (0, "c *p".toList) ∧
    Ansify ["f(p)".toList, "char* p;".toList, "\x7b".toList] 2 MakeANSI =
      some "f(char* *p)\n\x7b\n".toList ∧
    WriteANSI "f(p)char *p;\x7b".toList 4 "p".toList = (0, "char *p".toList) ∧
    WriteANSI "f(p)char **p;\x7b".toList 4 "p".toList = (0, "char **p".toList) ∧
    (∀ (head lead T post : List Char) (d : Declarator) (defs : Nat), defs ≤ head.length →
      (head.length = defs ∨ head.getLast? = some ';') → (∀ c ∈ lead, isWs c = true) →
      typeWords T → d.ok →
      (∀ q, defs ≤ q → q < head.length + lead.length + T.length + d.blanks + d.stars →
        ¬ wordAt (head ++ (lead ++ (T ++ (d.text ++ ';' :: post)))) d.name q) →
      WriteANSI (head ++ (lead ++ (T ++ (d.text ++ ';' :: post)))) defs d.name =
        (0, T ++ ' ' :: (List.replicate d.stars '*' ++ d.name)) ∧
      ('*' ∉ d.name →
        (WriteANSI (head ++ (lead ++ (T ++ (d.text ++ ';' :: post)))) defs d.name).2.count '*' =
          d.stars)) := by
  refine ⟨by decide, by decide, by decide, by decide, by decide, by decide, by decide, ?_⟩
  intro head lead T post d defs hdefs hhead hlead hT hd hmin
  have h := WriteANSI_single head lead T post d defs hdefs hhead hlead hT hd hmin
  refine ⟨h, fun hn => ?_⟩
  rw [h]
  exact count_star_param T d.name d.stars (fun c hc => (hT.2.1 c hc).1) hn

set_option maxRecDepth 100000 in
/-- Witness of C24: `unsigned char  ***q;`, with two blanks in front of its
three stars, is resolved to `unsigned char ***q`. -/
theorem WriteANSI_star_at_type_witness :
    WriteANSI "g(q)unsigned char  ***q;\x7b".toList 4 "q".toList =
      (0, "unsigned char ***q".toList) ∧
    (WriteANSI "g(q)unsigned char  ***q;\x7b".toList 4 "q".toList).2.count '*' = 3 :=
  ⟨(WriteANSI_star_at_type.2.2.2.2.2.2.2 "g(q)".toList [] "unsigned char".toList "\x7b".toList
      ⟨2, 3, "q".toList⟩ 4 (by decide) (Or.inl (by decide)) (by decide) (by decide) (by decide)
      (by intro q h1 h2
          have h3 : q < 22 := h2
          interval_cases q <;> decide)).1,
   (WriteANSI_star_at_type.2.2.2.2.2.2.2 "g(q)".toList [] "unsigned char".toList "\x7b".toList
      ⟨2, 3, "q".toList⟩ 4 (by decide) (Or.inl (by decide)) (by decide) (by decide) (by decide)
      (by intro q h1 h2
          have h3 : q < 22 := h2
          interval_cases q <;> decide)).2 (by decide)⟩

set_option maxRecDepth 100000 in
/-- C25, where the code departs from the claim: `DeAnsify` takes as the name of
a parameter the text behind the last blank, tab or `*` in front of the `,` or
`)`, cut at its first `[`.  For `int sum(int v[10], int n)` it writes the header
`int sum(v, n)` and the declarations `int v[10];` and `int n;`, but for
`int sum(int v[2*N], int n)` the header is `int sum(N], n)`, and for
`int sum(int v[N + 1], int n)` it is `int sum(1], n)`.  Part (a) holds: for a
declaration that stands at the start of the declarations or behind a `;`, made
of star-free type words `T`, one or more blanks, `k` stars, the name, a suffix
that begins with `[`, has two or more characters, at most `MAXBUFF`, and holds
no blank, tab, `,` or `;`, and the closing `;`, `WriteANSI` writes `T`, one
blank, the stars, the name and the suffix, when the name is not a whole word of
what stands in front of it. -/
theorem array_suffix_transcoding :
    (∀ (head lead T post name suffix : List Char) (b k defs : Nat), defs ≤ head.length →
      (head.length = defs ∨ head.getLast? = some ';') → (∀ c ∈ lead, isWs c = true) →
      typeWords T → 1 ≤ b → name ≠ [] →
      (∀ c ∈ name, isWs c = false ∧ c ≠ ',' ∧ c ≠ ';' ∧ c ≠ '[') →
      (∀ c ∈ suffix, isWs c = false ∧ c ≠ ',' ∧ c ≠ ';') → suffix.headD NUL = '[' →
      2 ≤ suffix.length → suffix.length ≤ MAXBUFF →
      (∀ q, defs ≤ q → q < head.length + lead.length + T.length + b + k →
        ¬ wordAt (head ++ (lead ++ (T ++ (List.replicate b ' ' ++ (List.replicate k '*' ++
          (name ++ (suffix ++ ';' :: post))))))) name q) →
      WriteANSI (head ++ (lead ++ (T ++ (List.replicate b ' ' ++ (List.replicate k '*' ++
          (name ++ (suffix ++ ';' :: post))))))) defs name =
        (0, T ++ ' ' :: (List.replicate k '*' ++ (name ++ suffix)))) ∧
    WriteANSI "f(v)int v[10];\x7b".toList 4 "v".toList = (0, "int v[10]".toList) ∧
    Ansify ["int sum(v, n)".toList, "int v[10];".toList, "int n;".toList, "\x7b".toList] 3
      MakeANSI = some "int sum(int v[10],\n        int n)\n\x7b\n".toList ∧
    DeAnsify ["int sum(int v[10], int n)".toList, "\x7b".toList] 1 =
      some "int sum(v, n)\nint v[10];\nint n;\n\x7b\n".toList ∧
    DeAnsify ["int sum(int v[3][4], int n)".toList, "\x7b".toList] 1 =
      some "int sum(v, n)\nint v[3][4];\nint n;\n\x7b\n".toList ∧
    DeAnsify ["int sum(int v[2*N], int n)".toList, "\x7b".toList] 1 =
      some "int sum(N], n)\nint v[2*N];\nint n;\n\x7b\n".toList ∧
    DeAnsify ["int sum(int v[N + 1], int n)".toList, "\x7b".toList] 1 =
      some "int sum(1], n)\nint v[N + 1];\nint n;\n\x7b\n".toList :=
  ⟨WriteANSI_array, by decide, by decide, by decide, by decide, by decide, by decide⟩

set_option maxRecDepth 100000 in
/-- Witness of C25: the declaration `double  *m[3][4];` behind `int n;` is
resolved to `double *m[3][4]`. -/
theorem array_suffix_transcoding_witness :
    WriteANSI "g(n, m)int n; double  *m[3][4];\x7b".toList 7 "m".toList =
      (0, "double *m[3][4]".toList) :=
  array_suffix_transcoding.1 "g(n, m)int n;".toList " ".toList "double".toList "\x7b".toList
    "m".toList "[3][4]".toList 2 1 7 (by decide) (Or.inr (by decide)) (by decide) (by decide)
    (by decide) (by decide) (by decide) (by decide) (by decide) (by decide) (by decide)
    (by intro q h1 h2
        have h3 : q < 23 := h2
        interval_cases q <;> decide)

set_option maxRecDepth 100000 in
/-- C26, as the claim states it, fails: for the unit `int /* status */ foo(a)`,
`int a;` and the opening brace, `Ansify` writes `int  foo(int a)`: the header is
taken from the buffer that `KillComments` has stripped, and the comment in
front of the `(` is lost, also in a run of `process_file`.  And for a unit
whose header of 193 letters, with `(count)` and the terminating NUL, does not
fit `func`, the copy into `func` overruns the array before anything is
written: there is no defined output. -/
theorem Ansify_header_comment_lost :
    Ansify ["int /* status */ foo(a)".toList, "int a;".toList, "\x7b".toList] 2 MakeANSI =
      some "int  foo(int a)\n\x7b\n".toList ∧
    ¬ ("int /* status */ foo(".toList <+: "int  foo(int a)\n\x7b\n".toList) ∧
    process_file MakeANSI ["int /* status */ foo(a)".toList, "int a;".toList, "\x7b".toList] =
      .finished "int  foo(int a)\n\x7b\n".toList ∧
    Ansify [List.replicate 193 'g' ++ "(count)".toList, "int count;".toList, "\x7b".toList] 2
      MakeANSI = none := by
  have e : joinLines (unitLines [List.replicate 193 'g' ++ "(count)".toList,
      "int count;".toList, "\x7b".toList] 2) =
      (List.replicate 193 'g' ++ "(count".toList) ++ ')' :: "int count;\x7b".toList := by
    decide
  refine ⟨by decide, by decide, by decide, ?_⟩
  apply Ansify_overrun _ 2 MakeANSI (List.replicate 193 'g' ++ "(count".toList)
    "int count;\x7b".toList ⟨"int count;".toList, by decide, by decide⟩
  · rw [e]
    exact KillComments_no_slash_eq _ (by decide)
  · decide
  · decide

/-- C26, amended: for every K&R unit (one of its lines holds a `;`) that
`Ansify` converts, the output begins with the text of the unit as
`KillComments` leaves it, up to and including its first `(`.  When the text of
the unit in front of its first `(` holds no `/`, so no comment, the output
begins with that text and the `(`, exactly as they stand in the input.  A unit
whose stripped text is a header `H` without parenthesis, `(`, a list of entries
closed by `)` and the declarations is converted, and its output begins with `H`
and the `(`, when the unit fits the buffers of `Ansify`: the text up to the `)`
fits `func` (`MAXBUFF` bytes with the terminating NUL), every entry without its
leading blanks fits `varname` (80 bytes), the copies of `WriteANSI` fit its
buffer, and no more names fail than the header with its `(` has characters. -/
theorem Ansify_header_of_stripped (funcdef : List (List Char)) (ndef mode : Nat)
    (hsemi : ∃ l ∈ unitLines funcdef ndef, ';' ∈ l) :
    (∀ out, Ansify funcdef ndef mode = some out →
      ∃ j, strchr (KillComments NUL NUL (joinLines (unitLines funcdef ndef))) '(' = some j ∧
        (KillComments NUL NUL (joinLines (unitLines funcdef ndef))).take (j + 1) <+: out) ∧
    (∀ out H rest, joinLines (unitLines funcdef ndef) = H ++ '(' :: rest → '(' ∉ H → '/' ∉ H →
      Ansify funcdef ndef mode = some out → H ++ ['('] <+: out) ∧
    (∀ (H D : List Char) (ps : List (List Char)),
      KillComments NUL NUL (joinLines (unitLines funcdef ndef)) = H ++ '(' :: (paramList ps ++ D) →
      '(' ∉ H → ')' ∉ H → ps ≠ [] → (∀ p ∈ ps, ',' ∉ p ∧ ')' ∉ p) → ps.getLast? ≠ some [] →
      H.length + (paramList ps).length + 2 ≤ MAXBUFF →
      (∀ p ∈ ps, (p.dropWhile isWs).length < 80) →
      (∀ p ∈ ps, ansiFits (H ++ '(' :: (paramList ps ++ D))
        (H.length + 1 + (paramList ps).length) (paramName p) = true) →
      notFound (H ++ '(' :: (paramList ps ++ D)) (H.length + 1 + (paramList ps).length) ps ≤
        H.length + 1 →
      ∃ out, Ansify funcdef ndef mode = some out ∧ H ++ ['('] <+: out) := by
  refine ⟨fun out h => Ansify_header funcdef ndef mode out hsemi h,
    fun out H rest hj h1 h2 h => Ansify_header_verbatim funcdef ndef mode out H rest hsemi hj h1 h2 h,
    fun H D ps hbuf h1 h2 hne hps hlast hfunc hvar hfit hfail => ?_⟩
  refine ⟨_, Ansify_params funcdef ndef mode H D ps hsemi hbuf h1 h2 hne hps hlast hfunc hvar
    hfit hfail, ?_⟩
  exact ⟨paramsOut (fun name => (WriteANSI (H ++ '(' :: (paramList ps ++ D))
    (H.length + 1 + (paramList ps).length) name).2) (H.length + 1) ps true ++ closer mode,
    by simp⟩

set_option maxRecDepth 100000 in
/-- Witness of C26: the output for `static int /* rc */ bar(x)`, `long x;` begins
with the stripped header `static int  bar(`, and the output for the unit
`int foo(a, b)`, `int a;`, `char *b;` with `int foo(`. -/
theorem Ansify_header_of_stripped_witness :
    (∃ j, strchr (KillComments NUL NUL (joinLines (unitLines
        ["static int /* rc */ bar(x)".toList, "long x;".toList, "\x7b".toList] 2))) '(' = some j ∧
      (KillComments NUL NUL (joinLines (unitLines
        ["static int /* rc */ bar(x)".toList, "long x;".toList, "\x7b".toList] 2))).take (j + 1)
        <+: "static int  bar(long x)\n\x7b\n".toList) ∧
    "int foo".toList ++ ['('] <+: "int foo(int a,\n        char *b)\n\x7b\n".toList ∧
    (∃ out, Ansify fooKR 3 MakeANSI = some out ∧ "int foo".toList ++ ['('] <+: out) :=
  ⟨(Ansify_header_of_stripped ["static int /* rc */ bar(x)".toList, "long x;".toList,
      "\x7b".toList] 2 MakeANSI ⟨"long x;".toList, by decide, by decide⟩).1
      "static int  bar(long x)\n\x7b\n".toList (by decide),
   (Ansify_header_of_stripped fooKR 3 MakeANSI ⟨"int a;".toList, by decide, by decide⟩).2.1
      "int foo(int a,\n        char *b)\n\x7b\n".toList "int foo".toList
      "a, b)int a;char *b;\x7b".toList (by decide) (by decide) (by decide) (by decide),
   (Ansify_header_of_stripped fooKR 3 MakeANSI ⟨"int a;".toList, by decide, by decide⟩).2.2
      "int foo".toList "int a;char *b;\x7b".toList ["a".toList, " b".toList]
      (by decide) (by decide) (by decide) (by decide) (by decide) (by decide) (by decide)
      (by decide) (by decide) (by decide)⟩

set_option maxRecDepth 100000 in
/-- C27, where the code departs from the claim.  What holds: (1-3) in the scan
of `isInteresting`, done in `int` arithmetic as well as in the integers, a brace
met while a quote flag is set or the comment depth is not zero leaves all four
counters as they are; so does a quote character met while the comment depth is
not zero or the flag of the other quote is set; and so does a `/` or `*` met
while a quote flag is set.  (4) For a line that a C compiler reads as the pieces
`ps` (program text, double-quoted strings, single-quoted constants, block
comments) and that `piecesOK` admits, scanned from a state outside quotes and
comments: the call changes the brace depth by the braces of the program text
alone, so no brace, quote, `/*` or `*/` inside a string, a constant or a comment
counts, and it leaves comment depth and both quote flags at zero.  (5) The line
`char *s = "\x7b /* ";` leaves all four counters as they were.  Where the code
departs: the scan takes the `/` that directly follows an opening `/*` for the
end of the comment, and it takes an escaped double quote inside a string for
the end of the string.  So (6) in `int x; /*/ \x7b */` the brace inside the
comment raises the brace depth to 1 and the comment depth ends at -1; (7) in
`char *s = "a\"\x7b";` the brace inside the string raises the brace depth to 1
and the flag of the double quote stays set; (8) in `int y; /*/ " */` the quote
inside the comment sets the flag of the double quote; (9) in
`char *t = "a\" /* ";` the `/*` inside the string raises the comment depth
to 1. -/
theorem classifier_masking :
    (∀ (st : ClassifierState) (c next : Char), (c = '{' ∨ c = '}') →
      (st.inDIC ≠ 0 ∨ st.inSIC ≠ 0 ∨ st.comment_count ≠ 0) →
      scanCharInt st c next = some st ∧ scanChar st c next = st) ∧
    (∀ (st : ClassifierState) (c next : Char), (c = DIC ∨ c = SIC) →
      (st.comment_count ≠ 0 ∨ (c = DIC ∧ st.inSIC ≠ 0) ∨ (c = SIC ∧ st.inDIC ≠ 0)) →
      scanCharInt st c next = some st ∧ scanChar st c next = st) ∧
    (∀ (st : ClassifierState) (c next : Char), (c = '/' ∨ c = '*') →
      (st.inDIC ≠ 0 ∨ st.inSIC ≠ 0) →
      scanCharInt st c next = some st ∧ scanChar st c next = st) ∧
    (∀ (ps : List Piece) (b : Int), piecesOK ps = true → (pieceLine ps).headD NUL ≠ '#' →
      INT_MIN ≤ b - (codeCount '}' ps : Nat) → b + (codeCount '{' ps : Nat) ≤ INT_MAX →
      ∃ v, isInterestingInt ⟨0, b, 0, 0⟩ (pieceLine ps) =
          some (v, ⟨0, b + (codeCount '{' ps : Nat) - (codeCount '}' ps : Nat), 0, 0⟩) ∧
        isInteresting ⟨0, b, 0, 0⟩ (pieceLine ps) =
          (v, ⟨0, b + (codeCount '{' ps : Nat) - (codeCount '}' ps : Nat), 0, 0⟩)) ∧
    (∀ b : Int, (isInteresting ⟨0, b, 0, 0⟩ "char *s = \"\x7b /* \";".toList).2 = ⟨0, b, 0, 0⟩) ∧
    isInterestingInt ClassifierState.init "int x; /*/ \x7b */".toList =
      some (1, ⟨-1, 1, 0, 0⟩) ∧
    isInterestingInt ClassifierState.init "char *s = \"a\\\"\x7b\";".toList =
      some (1, ⟨0, 1, 0, 1⟩) ∧
    isInterestingInt ClassifierState.init "int y; /*/ \" */".toList =
      some (1, ⟨0, 0, 0, 1⟩) ∧
    isInterestingInt ClassifierState.init "char *t = \"a\\\" /* \";".toList =
      some (1, ⟨1, 0, 0, 0⟩) := by
  refine ⟨?_, ?_, ?_, ?_, masked_line_state, by decide, by decide, by decide, by decide⟩
  · intro st c next hc hm
    exact ⟨scanCharInt_brace_masked st c next hc hm, scanChar_brace_masked st c next hc hm⟩
  · intro st c next hc hm
    rcases hm with h | h
    · exact ⟨scanCharInt_quote_in_comment st c next hc h,
        scanChar_quote_in_comment st c next hc h⟩
    · exact ⟨scanCharInt_quote_in_other st c next h, scanChar_quote_in_other st c next h⟩
  · intro st c next hc hm
    exact ⟨scanCharInt_comment_in_quote st c next hc hm,
      scanChar_comment_in_quote st c next hc hm⟩
  · intro ps b hok hhash hlo hhi
    obtain ⟨v, hv⟩ := isInterestingInt_pieces ps b hok hhash hlo hhi
    exact ⟨v, hv, (isInterestingInt_some _ _ _ hv).symm⟩

set_option maxRecDepth 100000 in
/-- Witness of C27: an opening brace inside a comment, a double quote inside a
single-quoted constant and a `/` inside a string change nothing; and a line
with an opening brace in a single-quoted constant, a closing brace and a double
quote in a comment, a single quote and a closing brace in a string and one
closing brace in the program text, entered at brace depth 3, is left at brace
depth 2 with comment depth and quote flags zero: only its last brace counts. -/
theorem classifier_masking_witness :
    scanChar ⟨1, 0, 0, 0⟩ '\x7b' ' ' = ⟨1, 0, 0, 0⟩ ∧
    scanChar ⟨0, 0, 1, 0⟩ DIC SIC = ⟨0, 0, 1, 0⟩ ∧
    scanChar ⟨0, 0, 0, 1⟩ '/' '*' = ⟨0, 0, 0, 1⟩ ∧
    ∃ v, isInterestingInt ⟨0, 3, 0, 0⟩ "x = \x27\x7b\x27; /* \x7d \" */ y = \"\x27\x7d\"; \x7d".toList =
        some (v, ⟨0, 2, 0, 0⟩) ∧
      isInteresting ⟨0, 3, 0, 0⟩ "x = \x27\x7b\x27; /* \x7d \" */ y = \"\x27\x7d\"; \x7d".toList =
        (v, ⟨0, 2, 0, 0⟩) :=
  ⟨(classifier_masking.1 ⟨1, 0, 0, 0⟩ '\x7b' ' ' (Or.inl rfl) (Or.inr (Or.inr (by decide)))).2,
   (classifier_masking.2.1 ⟨0, 0, 1, 0⟩ DIC SIC (Or.inl rfl)
     (Or.inr (Or.inl ⟨rfl, by decide⟩))).2,
   (classifier_masking.2.2.1 ⟨0, 0, 0, 1⟩ '/' '*' (Or.inl rfl) (Or.inl (by decide))).2,
   classifier_masking.2.2.2.1
     [.code "x = ".toList, .chr "\x7b".toList, .code "; ".toList, .comment " \x7d \" ".toList,
       .code " y = ".toList, .str "\x27\x7d".toList, .code "; \x7d".toList] 3
     (by decide) (by decide) (by decide) (by decide)⟩

set_option maxRecDepth 100000 in
/-- C28, where the code departs from the claim: `isInteresting` leaves the scan
at the first `//` of the line by `return(0)`, whatever the counters are, and
never scans a line that starts with `#`.  For a line without `//` that does not
start with `#` the counters after the call are those of a scan of every
character (`fullScan`).  But for `char *u = "http://x";` the call ends inside
the string, with the flag of the double quote set where a full scan clears it
again, so that the following line `int f(a)` is not interesting and the
function is not converted; the line `foo // bar */`, met at comment depth 1,
leaves the depth at 1 where a full scan gives 0; and `#define B \x7b` leaves the
brace depth as it is.  For the line `x = 1;` with a `//` comment that holds one single quote the rest of
the line is not scanned either, where a full scan sets the flag of the single
quote. -/
theorem counters_not_updated :
    (∀ (st : ClassifierState) (l : List Char), l.headD NUL ≠ '#' → ¬ slashSlash l →
      (isInteresting st l).2 = fullScan st l) ∧
    (isInteresting ClassifierState.init "char *u = \"http://x\";".toList).2 = ⟨0, 0, 0, 1⟩ ∧
    fullScan ClassifierState.init "char *u = \"http://x\";".toList = ClassifierState.init ∧
    (isInteresting ⟨0, 0, 0, 1⟩ "int f(a)".toList).1 = 0 ∧
    process_file MakeANSI ["char *u = \"http://x\";".toList, "int f(a)".toList, "int a;".toList,
        "\x7b".toList] =
      .finished "char *u = \"http://x\";\nint f(a)\nint a;\n\x7b\n".toList ∧
    (isInteresting ⟨1, 0, 0, 0⟩ "foo // bar */".toList).2 = ⟨1, 0, 0, 0⟩ ∧
    fullScan ⟨1, 0, 0, 0⟩ "foo // bar */".toList = ⟨0, 0, 0, 0⟩ ∧
    (isInteresting ClassifierState.init "#define B \x7b".toList).2 = ClassifierState.init ∧
    fullScan ClassifierState.init "#define B \x7b".toList = ⟨0, 1, 0, 0⟩ ∧
    (isInteresting ClassifierState.init "x = 1; // don\x27t".toList).2 = ClassifierState.init ∧
    fullScan ClassifierState.init "x = 1; // don\x27t".toList = ⟨0, 0, 1, 0⟩ :=
  ⟨isInteresting_fullScan, by decide, by decide, by decide, by decide, by decide, by decide,
    by decide, by decide, by decide, by decide⟩

set_option maxRecDepth 100000 in
/-- Witness of C28: for `if (a) \x7b /* c */`, a line without `//`, the counters
after the call are those of the full scan. -/
theorem counters_not_updated_witness :
    (isInteresting ClassifierState.init "if (a) \x7b /* c */".toList).2 =
      fullScan ClassifierState.init "if (a) \x7b /* c */".toList :=
  counters_not_updated.1 ClassifierState.init "if (a) \x7b /* c */".toList (by decide) (by decide)

set_option maxRecDepth 100000 in
/-- C29, where the code departs from the claim: `isInteresting` does not clamp
its comment depth.  Outside quotes every `*` followed by `/` lowers the depth
by one, also at depth 0.  From the initial state the line `x */` leaves the
depth at -1; the following line `int f(a)` is then not interesting, and the
function is copied instead of being converted, as it is without the line
`x */`.  The comment `/*/ note */` has the same effect: its first three
characters open and close the depth, and its end lowers it to -1. -/
theorem comment_depth_not_clamped :
    (∀ st : ClassifierState, st.inDIC = 0 → st.inSIC = 0 →
      (scanChar st '*' '/').comment_count = st.comment_count - 1) ∧
    (isInteresting ClassifierState.init "x */".toList).2 = ⟨-1, 0, 0, 0⟩ ∧
    (feed ClassifierState.init ["x */".toList]).comment_count < 0 ∧
    (isInteresting ⟨-1, 0, 0, 0⟩ "int f(a)".toList).1 = 0 ∧
    (isInteresting ClassifierState.init "int f(a)".toList).1 = 1 ∧
    process_file MakeANSI ["x */".toList, "int f(a)".toList, "int a;".toList, "\x7b".toList] =
      .finished "x */\nint f(a)\nint a;\n\x7b\n".toList ∧
    process_file MakeANSI ["int f(a)".toList, "int a;".toList, "\x7b".toList] =
      .finished "int f(int a)\n\x7b\n".toList ∧
    (isInteresting ClassifierState.init "/*/ note */".toList).2 = ⟨-1, 0, 0, 0⟩ ∧
    process_file MakeANSI ["/*/ note */".toList, "int f(a)".toList, "int a;".toList,
        "\x7b".toList] =
      .finished "/*/ note */\nint f(a)\nint a;\n\x7b\n".toList :=
  ⟨scanChar_close_unclamped, by decide, by decide, by decide, by decide, by decide, by decide,
    by decide, by decide⟩

/-- Witness of C29: at depth 0 a closing `*/` gives depth -1. -/
theorem comment_depth_not_clamped_witness :
    (scanChar ClassifierState.init '*' '/').comment_count = ClassifierState.init.comment_count - 1 :=
  comment_depth_not_clamped.1 ClassifierState.init rfl rfl

set_option maxRecDepth 100000 in
/-- C30, where the code departs from the claim: `KillComments` reads in front of
its buffer.  Every position it reads lies between -2 and the length, and the
trace of the reads belongs to the run that gives the result; but for every
buffer that is not empty the position -2 is read (at cursor 0, as
`buffer[in-2]`), and for every buffer of two or more characters also the
position -1.  The result depends on the two bytes stored there: with `*` and `/`
in front of it the buffer `ab` is emptied, and so is the buffer `a`, where with
two NUL bytes both are left as they are. -/
theorem KillComments_reads_before_buffer :
    (∀ (m2 m1 : Char) (buffer : List Char),
      (KillCommentsTrace m2 m1 buffer).1 = KillCommentsRun m2 m1 buffer ∧
      ∀ p ∈ (KillCommentsTrace m2 m1 buffer).2, -2 ≤ p ∧ p ≤ (buffer.length : Int)) ∧
    (∀ (m2 m1 : Char) (buffer : List Char), buffer ≠ [] →
      (-2 : Int) ∈ (KillCommentsTrace m2 m1 buffer).2) ∧
    (∀ (m2 m1 : Char) (buffer : List Char), 2 ≤ buffer.length →
      (-1 : Int) ∈ (KillCommentsTrace m2 m1 buffer).2) ∧
    (KillCommentsTrace NUL NUL "ab".toList).2 = [0, -2, 0, 1, -1, 1] ∧
    KillComments '*' '/' "ab".toList = [] ∧ KillComments NUL NUL "ab".toList = "ab".toList ∧
    KillComments '*' '/' "a".toList = [] ∧ KillComments NUL NUL "a".toList = "a".toList :=
  ⟨fun m2 m1 buffer => ⟨KillCommentsTrace_fst m2 m1 buffer, KillCommentsTrace_bound m2 m1 buffer⟩,
   KillCommentsTrace_before, KillCommentsTrace_before_one,
   by decide, by decide, by decide, by decide, by decide⟩

/-- Witness of C30: for the buffer `a`, of length 1, the position -2 is read. -/
theorem KillComments_reads_before_buffer_witness :
    (-2 : Int) ∈ (KillCommentsTrace NUL NUL "a".toList).2 ∧
    (-1 : Int) ∈ (KillCommentsTrace NUL NUL "ab".toList).2 :=
  ⟨KillComments_reads_before_buffer.2.1 NUL NUL "a".toList (by decide),
   KillComments_reads_before_buffer.2.2.1 NUL NUL "ab".toList (by decide)⟩

/-! ## Claim C31 -/

/-- C31: for every line and every entry state, `isInteresting` returns 1 exactly
when brace depth, both quote flags and comment depth are zero on entry, the
first character of the line is not `#`, the first characters after the leading
blanks and tabs are not `/*`, no position of the line holds `/` directly
followed by `/`, and the line holds a character other than blank and tab; in
every other case it returns 0.  A line that starts with `#` leaves the four
counters as they were. -/
theorem isInteresting_exact (st : ClassifierState) (buffer : List Char) :
    ((isInteresting st buffer).1 = 1 ↔
      (st.bra_count = 0 ∧ st.inDIC = 0 ∧ st.inSIC = 0 ∧ st.comment_count = 0) ∧
        buffer.headD NUL ≠ '#' ∧ ¬ leadingComment buffer ∧ ¬ slashSlash buffer ∧
        ∃ c ∈ buffer, isWs c = false) ∧
    ((isInteresting st buffer).1 = 0 ∨ (isInteresting st buffer).1 = 1) ∧
    (buffer.headD NUL = '#' → isInteresting st buffer = (0, st)) :=
  ⟨⟨isInteresting_eq_one st buffer,
     fun h => isInteresting_one st buffer h.1 h.2.2.2.2 h.2.1 h.2.2.1 h.2.2.2.1⟩,
   isInteresting_zero_or_one st buffer, isInteresting_hash st buffer⟩

set_option maxRecDepth 100000 in
/-- Witness of C31: `#define B \x7b` at brace depth 2 returns 0 and leaves the
counters, and `int f(a)` is interesting in the initial state. -/
theorem isInteresting_exact_witness :
    isInteresting ⟨0, 2, 0, 0⟩ "#define B \x7b".toList = (0, ⟨0, 2, 0, 0⟩) ∧
    (isInteresting ClassifierState.init "int f(a)".toList).1 = 1 :=
  ⟨(isInteresting_exact ⟨0, 2, 0, 0⟩ "#define B \x7b".toList).2.2 (by decide),
   (isInteresting_exact ClassifierState.init "int f(a)".toList).1.mpr
     ⟨by decide, by decide, by decide, by decide, by decide⟩⟩

end Ansi
